import Mathlib

/-!
# Advent of Code 2020, day 19: the recursive grammar matcher

A shallow embedding of `src/aoc/2020/Advent of Code 2020, day 19.cpp`.

* A `std::string_view` is the list of the characters it still views: the cursor is the
  unconsumed suffix of the line.  `remove_prefix` is `List.drop`, `substr` is `List.take`.
* A function that takes the view by reference returns the view it leaves next to its result.
* `iMap<T>` (`std::unordered_map<int, T>`) is an association list in which a key occurs once:
  `emplace` keeps the entry that is already there, `at` throws `std::out_of_range`.
* The recursion of `Rule::matches` and the loop of `Rule::matches_n` need not terminate; both
  take a fuel argument and report `Outcome.timeout` when it runs out.
* Counters (`int res`, `int times`) are natural numbers: they are bounded by the length of the
  text.  The `int res` of `fetch_int` holds 32 bits: a numeral above `2^31 - 1` overflows it,
  which is undefined behaviour by the standard; the model follows the compiled program, which
  keeps the sum modulo `2^32` (`int_wrap`).
-/

namespace Day19

/-- What a call of the program can do: return a value, throw `std::out_of_range` (raised by
`unordered_map::at`), break a precondition of `std::string_view` (`front`, `operator[]` or
`remove_prefix` outside the view), or still be running when the fuel is spent. -/
inductive Outcome (α : Type) where
  | ret (a : α)
  | out_of_range
  | undefined
  | timeout
deriving DecidableEq, Repr

/-- Sequencing of calls: the first outcome that is not a return ends the computation. -/
def Outcome.bind {α β : Type} (x : Outcome α) (f : α → Outcome β) : Outcome β :=
  match x with
  | .ret a => f a
  | .out_of_range => .out_of_range
  | .undefined => .undefined
  | .timeout => .timeout

/-- The view of a string literal. -/
def view (s : String) : List Char := s.data

/-- Source `is_digit`: `'0' <= c && c <= '9'`. -/
def is_digit (c : Char) : Bool :=
  decide (48 ≤ c.toNat) && decide (c.toNat ≤ 57)

/-- The value of an `int` sum or product as the compiled program keeps it: modulo `2^32`,
between `-2^31` and `2^31 - 1`. -/
def int_wrap (x : Int) : Int :=
  (x + 2147483648) % 4294967296 - 2147483648

/-- Source `fetch_int`: skip to the first digit (`find_if`), read the run of digits that starts
there into the `int res`, drop everything read. Returns the number and the view left in
`s`. -/
def fetch_int (s : List Char) : Int × List Char :=
  let s1 := s.dropWhile (fun c => !is_digit c)
  let res := (s1.takeWhile is_digit).foldl
    (fun (res : Int) c => int_wrap (res * 10 + ((c.toNat : Int) - 48))) 0
  (res, s1.dropWhile is_digit)

/-- Source `fetch_line`: the text up to the first newline; the text is left after that newline, or
empty when there is none. Returns the line and the view left in `text`. -/
def fetch_line (text : List Char) : List Char × List Char :=
  (text.takeWhile (fun c => c != '\n'), (text.dropWhile (fun c => c != '\n')).drop 1)

/-- Source `iMap<T>`: `std::unordered_map<int, T>`. -/
abbrev iMap (T : Type) : Type := List (Int × T)

/-- Source `unordered_map::at`: the value stored under `i`, or `std::out_of_range`. -/
def iMap.at {T : Type} : iMap T → Int → Outcome T
  | [], _ => .out_of_range
  | (k, t) :: m, i => if k = i then .ret t else iMap.at m i

/-- Source `unordered_map::emplace`: nothing is inserted when the key is already present. -/
def iMap.emplace {T : Type} : iMap T → Int → T → iMap T
  | [], i, t => [(i, t)]
  | (k, u) :: m, i, t => if k = i then (k, u) :: m else (k, u) :: iMap.emplace m i t

/-- The loop of `parse_rules`: one line per round, until an empty line is fetched. -/
def parse_rules_loop : Nat → List Char → iMap (List Char) → Outcome (iMap (List Char) × List Char)
  | 0, _, _ => .timeout
  | k + 1, s, res =>
    let line := fetch_line s
    if line.1.isEmpty then .ret (res, line.2)
    else
      let i := fetch_int line.1
      if i.2.length < 2 then .undefined
      else parse_rules_loop k line.2 (res.emplace i.1 (i.2.drop 2))

/-- Source `parse_rules`: the table of rule bodies, and the text left after the blank line. Every
round but the last consumes a character, so `s.length + 1` rounds are enough. -/
def parse_rules (s : List Char) : Outcome (iMap (List Char) × List Char) :=
  parse_rules_loop (s.length + 1) s []

/-- Source `class Rule`. -/
structure Rule where
  v_ : List Int
  alt_ : List Int
  c_ : Char
  i_ : Int
deriving DecidableEq, Repr

/-- Source `Rule::missing`. -/
def Rule.missing : Char := '#'

/-- Source `Rule::Rule(int i, char c)`. -/
def Rule.ctor (i : Int) (c : Char) : Rule := { v_ := [], alt_ := [], c_ := c, i_ := i }

/-- Source `Rule::add_main`. -/
def Rule.add_main (r : Rule) (i : Int) : Rule := { r with v_ := r.v_ ++ [i] }

/-- Source `Rule::add_alt`. -/
def Rule.add_alt (r : Rule) (i : Int) : Rule := { r with alt_ := r.alt_ ++ [i] }

/-- The lambda `matcher` of `Rule::matches`: `std::all_of` over the ids of `v`, each looked up
with `rules.at` and matched by `call` on the view `str`, which every call advances. It stops at
the first member that fails, with the view as that member left it. -/
def matcher (call : Rule → List Char → Outcome (Bool × List Char)) (rules : iMap Rule) :
    List Int → List Char → Outcome (Bool × List Char)
  | [], str => .ret (true, str)
  | i :: v, str =>
    (rules.at i).bind fun rule =>
    (call rule str).bind fun m =>
    if m.1 then matcher call rules v m.2 else .ret (false, m.2)

/-- Source `Rule::matches`: the result and the view left in `s`. The fuel bounds the depth of the
recursion. -/
def Rule.matches (rules : iMap Rule) : Nat → Rule → List Char → Outcome (Bool × List Char)
  | 0, _, _ => .timeout
  | fuel + 1, r, s =>
    if r.c_ ≠ Rule.missing then
      match s with
      | [] => .ret (false, [])
      | f :: rest => .ret (r.c_ == f, rest)
    else if !r.alt_.isEmpty then
      (matcher (Rule.matches rules fuel) rules r.alt_ s).bind fun matches_alt =>
      if matches_alt.1 then .ret (true, matches_alt.2)
      else matcher (Rule.matches rules fuel) rules r.v_ s
    else matcher (Rule.matches rules fuel) rules r.v_ s

/-- Source `Rule::matches_exactly`: the view is passed by value, only the verdict comes back. -/
def Rule.matches_exactly (rules : iMap Rule) (fuel : Nat) (r : Rule) (s : List Char) :
    Outcome Bool :=
  (r.matches rules fuel s).bind fun m => .ret (m.1 && m.2.isEmpty)

/-- The loop of `Rule::matches_n`: every round matches a copy of the view, and commits the copy
and counts only when the match succeeded. -/
def Rule.matches_n_loop (rules : iMap Rule) (fuel : Nat) (r : Rule) :
    Nat → Nat → List Char → Outcome (Nat × List Char)
  | 0, _, _ => .timeout
  | k + 1, times, s =>
    (r.matches rules fuel s).bind fun m =>
    if !m.1 then .ret (times, s)
    else Rule.matches_n_loop rules fuel r k (times + 1) m.2

/-- Source `Rule::matches_n`: the count and the view left in `s`. The fuel bounds the depth of the
recursion of `matches` and the number of rounds of the loop. -/
def Rule.matches_n (rules : iMap Rule) (fuel : Nat) (r : Rule) (s : List Char) :
    Outcome (Nat × List Char) :=
  Rule.matches_n_loop rules fuel r fuel 0 s

/-- The loops `while (!f.empty()) rule.add_main(fetch_int(f))` and
`while (!alt.empty()) rule.add_alt(fetch_int(alt))` of `solve_rules`: the ids read from `f`,
appended to `acc`. -/
def fetch_ints : Nat → List Char → List Int → Outcome (List Int)
  | 0, _, _ => .timeout
  | k + 1, f, acc =>
    if f.isEmpty then .ret acc
    else fetch_ints k (fetch_int f).2 (acc ++ [(fetch_int f).1])

/-- Source `std::string_view::find`: the position of the first `c`, or `npos`. -/
def find (s : List Char) (c : Char) : Option Nat :=
  if s.indexOf c < s.length then some (s.indexOf c) else none

/-- The body of the loop of `solve_rules`: the rule built from the body `s` of rule `i`. The
count `pipe-1` of `substr` is taken in `std::size_t`: it is huge for `pipe == 0` and for
`npos`, and `substr` then keeps the whole body. A fetching round consumes a character, so
`length + 1` rounds are enough. -/
def solve_rule (i : Int) (s : List Char) : Outcome Rule :=
  match s with
  | [] => .undefined
  | c0 :: cs =>
    if c0 = Char.ofNat 34 then
      match cs with
      | [] => .undefined
      | c1 :: _ => .ret (Rule.ctor i c1)
    else
      let pipe := find s '|'
      let f := match pipe with
        | none => s
        | some 0 => s
        | some (p + 1) => s.take p
      (fetch_ints (f.length + 1) f []).bind fun v =>
      match pipe with
      | none => .ret { v_ := v, alt_ := [], c_ := Rule.missing, i_ := i }
      | some p =>
        (fetch_ints ((s.drop p).length + 1) (s.drop p) []).bind fun alt =>
        .ret { v_ := v, alt_ := alt, c_ := Rule.missing, i_ := i }

/-- The loop of `solve_rules`: every entry of the table of bodies becomes a `Rule` under the
same id. -/
def solve_rules_loop : iMap (List Char) → iMap Rule → Outcome (iMap Rule)
  | [], res => .ret res
  | (i, s) :: rules, res =>
    (solve_rule i s).bind fun rule => solve_rules_loop rules (res.emplace i rule)

/-- Source `solve_rules`. -/
def solve_rules (rules : iMap (List Char)) : Outcome (iMap Rule) :=
  solve_rules_loop rules []

/-- The loop of `parse_solve`: one test line per round, until the text is empty. -/
def parse_solve_loop (rules : iMap Rule) (fuel : Nat) (zero : Rule) :
    Nat → List Char → Nat → Outcome Nat
  | 0, _, _ => .timeout
  | k + 1, text, res =>
    if text.isEmpty then .ret res
    else
      (zero.matches_exactly rules fuel (fetch_line text).1).bind fun m =>
      parse_solve_loop rules fuel zero k (fetch_line text).2 (res + (if m then 1 else 0))

/-- Source `parse_solve`. A round of the loop consumes a character, so `length + 1` rounds are
enough; `fuel` is the fuel of every `matches_exactly`. -/
def parse_solve (fuel : Nat) (text : List Char) : Outcome Nat :=
  (parse_rules text).bind fun p =>
  (solve_rules p.1).bind fun rules =>
  (rules.at 0).bind fun zero =>
  parse_solve_loop rules fuel zero (p.2.length + 1) p.2 0

/-- The loop of `hack_solve`: one test line per round, until the text is empty. -/
def hack_solve_loop (rules : iMap Rule) (fuel : Nat) (r42 r31 : Rule) :
    Nat → List Char → Nat → Outcome Nat
  | 0, _, _ => .timeout
  | k + 1, text, res =>
    if text.isEmpty then .ret res
    else
      (r42.matches_n rules fuel (fetch_line text).1).bind fun f =>
      (r31.matches_n rules fuel f.2).bind fun t =>
      let matches_ := decide (f.1 > 1) && decide (t.1 > 0) && decide (t.1 < f.1) && t.2.isEmpty
      hack_solve_loop rules fuel r42 r31 k (fetch_line text).2 (if matches_ then res + 1 else res)

/-- Source `hack_solve`. A round of the loop consumes a character, so `length + 1` rounds are
enough; `fuel` is the fuel of every `matches_n`. -/
def hack_solve (fuel : Nat) (text : List Char) : Outcome Nat :=
  (parse_rules text).bind fun p =>
  (solve_rules p.1).bind fun rules =>
  (rules.at 42).bind fun r42 =>
  (rules.at 31).bind fun r31 =>
  hack_solve_loop rules fuel r42 r31 (p.2.length + 1) p.2 0

/-- The raw string `test` of `main`. -/
def test : List Char := view (
  "0: 4 1 5\n" ++
  "1: 2 3 | 3 2\n" ++
  "2: 4 4 | 5 5\n" ++
  "3: 4 5 | 5 4\n" ++
  "4: \"a\"\n" ++
  "5: \"b\"\n" ++
  "\n" ++
  "ababbb\n" ++
  "bababa\n" ++
  "abbbab\n" ++
  "aaabbb\n" ++
  "aaaabbb\n")

/-- The raw string `test2` of `main`. -/
def test2 : List Char := view (
  "42: 9 14 | 10 1\n" ++
  "9: 14 27 | 1 26\n" ++
  "10: 23 14 | 28 1\n" ++
  "1: \"a\"\n" ++
  "11: 42 31\n" ++
  "5: 1 14 | 15 1\n" ++
  "19: 14 1 | 14 14\n" ++
  "12: 24 14 | 19 1\n" ++
  "16: 15 1 | 14 14\n" ++
  "31: 14 17 | 1 13\n" ++
  "6: 14 14 | 1 14\n" ++
  "2: 1 24 | 14 4\n" ++
  "0: 8 11\n" ++
  "13: 14 3 | 1 12\n" ++
  "15: 1 | 14\n" ++
  "17: 14 2 | 1 7\n" ++
  "23: 25 1 | 22 14\n" ++
  "28: 16 1\n" ++
  "4: 1 1\n" ++
  "20: 14 14 | 1 15\n" ++
  "3: 5 14 | 16 1\n" ++
  "27: 1 6 | 14 18\n" ++
  "14: \"b\"\n" ++
  "21: 14 1 | 1 14\n" ++
  "25: 1 1 | 1 14\n" ++
  "22: 14 14\n" ++
  "8: 42\n" ++
  "26: 14 22 | 1 20\n" ++
  "18: 15 15\n" ++
  "7: 14 5 | 1 21\n" ++
  "24: 14 1\n" ++
  "\n" ++
  "abbbbbabbbaaaababbaabbbbabababbbabbbbbbabaaaa\n" ++
  "bbabbbbaabaabba\n" ++
  "babbbbaabbbbbabbbbbbaabaaabaaa\n" ++
  "aaabbbbbbaaaabaababaabababbabaaabbababababaaa\n" ++
  "bbbbbbbaaaabbbbaaabbabaaa\n" ++
  "bbbababbbbaaaaaaaabbababaaababaabab\n" ++
  "ababaaaaaabaaab\n" ++
  "ababaaaaabbbaba\n" ++
  "baabbaaaabbaaaababbaababb\n" ++
  "abbbbabbbbaaaababbbbbbaaaababb\n" ++
  "aaaaabbaabaaaaababaa\n" ++
  "aaaabbaaaabbaaa\n" ++
  "aaaabbaabbaaaaaaabbbabbbaaabbaabaaa\n" ++
  "babaaabbbaaabaababbaabababaaab\n" ++
  "aabbbbbaabbbaaaaaabbbbbababaaaaabbaaabba\n")

/-- The grammar table that `solve_rules(parse_rules(test))` builds. -/
def test_rules : iMap Rule :=
  [(0, { v_ := [4, 1, 5], alt_ := [], c_ := '#', i_ := 0 }),
   (1, { v_ := [2, 3], alt_ := [3, 2], c_ := '#', i_ := 1 }),
   (2, { v_ := [4, 4], alt_ := [5, 5], c_ := '#', i_ := 2 }),
   (3, { v_ := [4, 5], alt_ := [5, 4], c_ := '#', i_ := 3 }),
   (4, { v_ := [], alt_ := [], c_ := 'a', i_ := 4 }),
   (5, { v_ := [], alt_ := [], c_ := 'b', i_ := 5 })]

/-- The call `r.matches(s, rules)` returns `x`: it does so at some depth of recursion. -/
def Rule.returns (rules : iMap Rule) (r : Rule) (s : List Char) (x : Bool × List Char) : Prop :=
  ∃ fuel, Rule.matches rules fuel r s = .ret x

/-- The rules named by `v` are in the table and match one after the other, the first from
`s`, each from the view the previous one left, the last leaving `s'`. -/
def MatchChain (rules : iMap Rule) : List Int → List Char → List Char → Prop
  | [], s, s' => s' = s
  | i :: v, s, s' =>
    ∃ rule m, rules.at i = .ret rule ∧ rule.returns rules s (true, m) ∧ MatchChain rules v m s'

/-- The rule `r` matches `n` times in a row, the first time from `s`, each time from the view
the previous match left, the last leaving `s'`. -/
def Repeats (rules : iMap Rule) (fuel : Nat) (r : Rule) : Nat → List Char → List Char → Prop
  | 0, s, s' => s' = s
  | n + 1, s, s' => ∃ m, Rule.matches rules fuel r s = .ret (true, m) ∧ Repeats rules fuel r n m s'

/-- The grammar table that `solve_rules(parse_rules(...))` builds from the two rule lines
`0: 1 | 1 1` and `1: "a"`. -/
def alt_rules : iMap Rule :=
  [(0, { v_ := [1], alt_ := [1, 1], c_ := '#', i_ := 0 }),
   (1, { v_ := [], alt_ := [], c_ := 'a', i_ := 1 })]

/-- The test lines of a text: the runs of characters between newlines, the last one ended by a
newline or by the end of the text. -/
def split_lines : List Char → List (List Char)
  | [] => []
  | c :: cs =>
    if c = '\n' then [] :: split_lines cs
    else
      match split_lines cs with
      | [] => [[c]]
      | l :: ls => (c :: l) :: ls

/-- The acceptance policy of `hack_solve` on one line, as the specification words it: with `f`
the `matches_n` count of rule 42 from the start of the line and `t` the `matches_n` count of rule
31 on what rule 42 left, `f > 1`, `t > 0`, `t < f` and nothing of the line is left over. -/
def hack_accepts (rules : iMap Rule) (fuel : Nat) (r42 r31 : Rule) (line : List Char) : Bool :=
  match r42.matches_n rules fuel line with
  | .ret f =>
    match r31.matches_n rules fuel f.2 with
    | .ret t => decide (f.1 > 1 ∧ t.1 > 0 ∧ t.1 < f.1 ∧ t.2 = [])
    | _ => false
  | _ => false

/-- A small 42/31 block: two terminal rules and three test lines. -/
def hack_sample : List Char := view "42: \"a\"\n31: \"b\"\n\naab\nab\naabb\n"

/-- The table of bodies that `parse_rules(hack_sample)` builds. -/
def hack_sample_bodies : iMap (List Char) := [(42, view "\"a\""), (31, view "\"b\"")]

/-- The grammar table that `solve_rules` builds from `hack_sample_bodies`. -/
def hack_sample_rules : iMap Rule := [(42, Rule.ctor 42 'a'), (31, Rule.ctor 31 'b')]

/-- The grammar table is acyclic and closed: `rank` decreases along every reference, and every
id that a stored rule names in `v_` or `alt_` is itself stored in the table. -/
def Acyclic (rules : iMap Rule) (rank : Int → Nat) : Prop :=
  ∀ i r, rules.at i = .ret r →
    ∀ j ∈ r.v_ ++ r.alt_, rank j < rank i ∧ ∃ r', rules.at j = .ret r'

/-- The call `r.matches(s, rules)` ends in `std::out_of_range`, at some depth of recursion. -/
def Rule.throws (rules : iMap Rule) (r : Rule) (s : List Char) : Prop :=
  ∃ fuel, Rule.matches rules fuel r s = .out_of_range

/-- The list matcher on `v` from `s` runs into a failed lookup: the members before some member
`i` match one after the other, and then either `i` is absent from the table or the rule stored
under `i` ends in `std::out_of_range` itself. -/
def ListThrows (rules : iMap Rule) (v : List Int) (s : List Char) : Prop :=
  ∃ pre i post sk, v = pre ++ i :: post ∧ MatchChain rules pre s sk ∧
    (rules.at i = .out_of_range ∨ ∃ rule, rules.at i = .ret rule ∧ rule.throws rules sk)

/-- The list matcher on `v` from `s` returns false, at some depth of recursion. -/
def ListFails (rules : iMap Rule) (v : List Int) (s : List Char) : Prop :=
  ∃ fuel junk, matcher (Rule.matches rules fuel) rules v s = .ret (false, junk)

/-- The call ended without an error: it returned a value, or it is still running. -/
def Outcome.noError {α : Type} (o : Outcome α) : Prop :=
  o = .timeout ∨ ∃ a, o = .ret a

/-- A check of `Acyclic` that runs over the entries of the table. -/
def acyclic_check (rules : iMap Rule) (rank : Int → Nat) : Bool :=
  rules.all fun p => (p.2.v_ ++ p.2.alt_).all fun j =>
    decide (rank j < rank p.1) &&
      (match rules.at j with
        | .ret _ => true
        | _ => false)

/-- A rank for the grammar of `test`: the terminals 4 and 5 at the bottom, rule 0 on top. -/
def test_rank (i : Int) : Nat :=
  if i = 0 then 3 else if i = 1 then 2 else if i = 2 then 1 else if i = 3 then 1 else 0

/-- A grammar with a dangling reference: rule 0 is `1 9`, rule 1 is `"a"`, rule 2 is `1 | 0`,
and no rule 9 exists. -/
def dangling_rules : iMap Rule :=
  [(0, { v_ := [1, 9], alt_ := [], c_ := '#', i_ := 0 }),
   (1, { v_ := [], alt_ := [], c_ := 'a', i_ := 1 }),
   (2, { v_ := [1], alt_ := [0], c_ := '#', i_ := 2 })]

/-- Lines put one after the other, each ended by a newline. -/
def unlines : List (List Char) → List Char
  | [] => []
  | l :: ls => l ++ '\n' :: unlines ls

/-- What the loop of `parse_rules` makes of the rule lines, taken one after the other: the id
in front, two characters dropped, the rest stored as the body. -/
def parse_lines : List (List Char) → iMap (List Char) → Outcome (iMap (List Char))
  | [], res => .ret res
  | line :: ls, res =>
    if (fetch_int line).2.length < 2 then .undefined
    else parse_lines ls (res.emplace (fetch_int line).1 ((fetch_int line).2.drop 2))

/-- The verdict of `parse_solve` on one test line: `matches_exactly` on rule 0 returns true. -/
def exact_verdict (rules : iMap Rule) (fuel : Nat) (zero : Rule) (line : List Char) : Bool :=
  decide (zero.matches_exactly rules fuel line = .ret true)

/-- The six rule lines of `test`. -/
def test_rule_lines : List (List Char) :=
  [view "0: 4 1 5", view "1: 2 3 | 3 2", view "2: 4 4 | 5 5", view "3: 4 5 | 5 4",
   view "4: \"a\"", view "5: \"b\""]

/-- The table of bodies that `parse_rules` builds from the rule lines of `test`. -/
def test_bodies : iMap (List Char) :=
  [(0, view "4 1 5"), (1, view "2 3 | 3 2"), (2, view "4 4 | 5 5"), (3, view "4 5 | 5 4"),
   (4, view "\"a\""), (5, view "\"b\"")]

/-- Grammar construction as `parse_solve` and `hack_solve` run it:
`solve_rules(parse_rules(text))`. -/
def build_grammar (text : List Char) : Outcome (iMap Rule) :=
  (parse_rules text).bind fun p => solve_rules p.1

/-- The decimal numeral of a number. -/
def decimal (n : Nat) : List Char := Nat.toDigits 10 n

/-- An id list as it is written in a rule line: decimal numerals with one blank between two of
them. -/
def render_ids : List Nat → List Char
  | [] => []
  | [i] => decimal i
  | i :: j :: ids => decimal i ++ ' ' :: render_ids (j :: ids)

/-- The three shapes of a rule body in the data model of the specification. -/
inductive Body where
  | terminal (c : Char)
  | sequence (ids : List Nat)
  | alternation (l1 l2 : List Nat)
deriving DecidableEq, Repr

/-- A body as it is written in a rule line: a quoted character, an id list, or two id lists
with ` | ` between them. -/
def Body.render : Body → List Char
  | .terminal c => [Char.ofNat 34, c, Char.ofNat 34]
  | .sequence ids => render_ids ids
  | .alternation l1 l2 => render_ids l1 ++ ' ' :: '|' :: ' ' :: render_ids l2

/-- A rule line `<id>: <body>`, without its newline. -/
def render_line (p : Nat × Body) : List Char :=
  decimal p.1 ++ ':' :: ' ' :: p.2.render

/-- A well-formed body: the quoted character is not a newline, an id list is not empty, and
every id fits an `int`. -/
def Body.wf : Body → Prop
  | .terminal c => c ≠ '\n'
  | .sequence ids => ids ≠ [] ∧ ∀ i ∈ ids, i < 2 ^ 31
  | .alternation l1 l2 => (l1 ≠ [] ∧ ∀ i ∈ l1, i < 2 ^ 31) ∧ (l2 ≠ [] ∧ ∀ i ∈ l2, i < 2 ^ 31)

/-- A block of well-formed rule lines with distinct ids that fit an `int`. -/
def Block.wf (block : List (Nat × Body)) : Prop :=
  (block.map Prod.fst).Nodup ∧ ∀ p ∈ block, p.1 < 2 ^ 31 ∧ p.2.wf

/-- The text of a block: its rule lines, each ended by a newline. -/
def Block.text (block : List (Nat × Body)) : List Char :=
  unlines (block.map render_line)

/-- The three shapes as `Rule::matches` tells them apart: a character other than `missing` makes
a terminal, an empty `alt_` a sequence, anything else an alternation. -/
def Rule.shape (r : Rule) : Body :=
  if r.c_ ≠ Rule.missing then .terminal r.c_
  else if r.alt_.isEmpty then .sequence (r.v_.map Int.toNat)
  else .alternation (r.v_.map Int.toNat) (r.alt_.map Int.toNat)

/-- The rule that `solve_rules` is to build from a body. -/
def Body.rule (i : Int) : Body → Rule
  | .terminal c => Rule.ctor i c
  | .sequence ids => { v_ := ids.map Int.ofNat, alt_ := [], c_ := Rule.missing, i_ := i }
  | .alternation l1 l2 =>
    { v_ := l1.map Int.ofNat, alt_ := l2.map Int.ofNat, c_ := Rule.missing, i_ := i }

/-- The grammar table of a block: one rule under every id. -/
def Block.table (block : List (Nat × Body)) : iMap Rule :=
  block.map fun p => ((p.1 : Int), p.2.rule p.1)

instance Body.wf_decidable (b : Body) : Decidable b.wf := by
  cases b <;> unfold Body.wf <;> infer_instance

instance Block.wf_decidable (block : List (Nat × Body)) : Decidable (Block.wf block) := by
  unfold Block.wf
  infer_instance

/-- The rule lines of `test` in the data model of the specification. -/
def test_block : List (Nat × Body) :=
  [(0, .sequence [4, 1, 5]), (1, .alternation [2, 3] [3, 2]), (2, .alternation [4, 4] [5, 5]),
   (3, .alternation [4, 5] [5, 4]), (4, .terminal 'a'), (5, .terminal 'b')]

/-- The test lines of `test`. -/
def test_lines : List Char := view "ababbb\nbababa\nabbbab\naaabbb\naaaabbb\n"

mutual
/-- Derivation in the context-free grammar of the table: a terminal derives its character, any
other rule derives what its main list derives and, when it has an alternative list, what that
list derives. -/
inductive Derives (rules : iMap Rule) : Rule → List Char → Prop
  | terminal (r : Rule) : r.c_ ≠ Rule.missing → Derives rules r [r.c_]
  | main (r : Rule) (w : List Char) : r.c_ = Rule.missing → DerivesList rules r.v_ w →
      Derives rules r w
  | alt (r : Rule) (w : List Char) : r.c_ = Rule.missing → r.alt_ ≠ [] →
      DerivesList rules r.alt_ w → Derives rules r w
/-- A list of ids derives the concatenation of what the rules stored under the ids derive. -/
inductive DerivesList (rules : iMap Rule) : List Int → List Char → Prop
  | nil : DerivesList rules [] []
  | cons (i : Int) (v : List Int) (rule : Rule) (w1 w2 : List Char) :
      rules.at i = .ret rule → Derives rules rule w1 → DerivesList rules v w2 →
      DerivesList rules (i :: v) (w1 ++ w2)
end

/-- The list matcher of the reference evaluator: the members are matched one after the other
on the advancing view, and when one fails the view is put back to `s0`, where the list
started. -/
def ref_matcher_from (call : Rule → List Char → Outcome (Bool × List Char)) (rules : iMap Rule)
    (s0 : List Char) : List Int → List Char → Outcome (Bool × List Char)
  | [], str => .ret (true, str)
  | i :: v, str =>
    (rules.at i).bind fun rule =>
    (call rule str).bind fun m =>
    if m.1 then ref_matcher_from call rules s0 v m.2 else .ret (false, s0)

/-- The list matcher of the reference evaluator, started on `s`. -/
def ref_matcher (call : Rule → List Char → Outcome (Bool × List Char)) (rules : iMap Rule)
    (v : List Int) (s : List Char) : Outcome (Bool × List Char) :=
  ref_matcher_from call rules s v s

/-- The reference evaluator: `Rule::matches` with the cursor restored whenever a terminal or a
sequence fails, and nothing else changed (the alternative list is still tried first). -/
def Rule.ref_matches (rules : iMap Rule) : Nat → Rule → List Char → Outcome (Bool × List Char)
  | 0, _, _ => .timeout
  | fuel + 1, r, s =>
    if r.c_ ≠ Rule.missing then
      match s with
      | [] => .ret (false, [])
      | f :: rest => if r.c_ = f then .ret (true, rest) else .ret (false, f :: rest)
    else if !r.alt_.isEmpty then
      (ref_matcher (Rule.ref_matches rules fuel) rules r.alt_ s).bind fun matches_alt =>
      if matches_alt.1 then .ret (true, matches_alt.2)
      else ref_matcher (Rule.ref_matches rules fuel) rules r.v_ s
    else ref_matcher (Rule.ref_matches rules fuel) rules r.v_ s

/-- The exact-match driver on the reference evaluator. -/
def Rule.ref_matches_exactly (rules : iMap Rule) (fuel : Nat) (r : Rule) (s : List Char) :
    Outcome Bool :=
  (r.ref_matches rules fuel s).bind fun m => .ret (m.1 && m.2.isEmpty)

/-- The loop of the repetition driver on the reference evaluator. -/
def Rule.ref_matches_n_loop (rules : iMap Rule) (fuel : Nat) (r : Rule) :
    Nat → Nat → List Char → Outcome (Nat × List Char)
  | 0, _, _ => .timeout
  | k + 1, times, s =>
    (r.ref_matches rules fuel s).bind fun m =>
    if !m.1 then .ret (times, s)
    else Rule.ref_matches_n_loop rules fuel r k (times + 1) m.2

/-- The repetition driver on the reference evaluator. -/
def Rule.ref_matches_n (rules : iMap Rule) (fuel : Nat) (r : Rule) (s : List Char) :
    Outcome (Nat × List Char) :=
  Rule.ref_matches_n_loop rules fuel r fuel 0 s

/-- Two outcomes of a match agree: they end the same way and, when they return, they return
the same flag and, on success, the same view. -/
def agree (o o' : Outcome (Bool × List Char)) : Prop :=
  match o, o' with
  | .ret a, .ret b => a.1 = b.1 ∧ (a.1 = true → a.2 = b.2)
  | .out_of_range, .out_of_range => True
  | .undefined, .undefined => True
  | .timeout, .timeout => True
  | _, _ => False

/-- The reference graph of the table: the rule stored under `i` names the id `j` in one of its
lists. -/
def References (rules : iMap Rule) (i j : Int) : Prop :=
  ∃ r, rules.at i = .ret r ∧ j ∈ r.v_ ++ r.alt_

/-- Every referenced id is present in the table. -/
def Closed (rules : iMap Rule) : Prop :=
  ∀ i j, References rules i j → ∃ r', rules.at j = .ret r'

/-- The reference graph has no cycle: no id reaches itself along references. -/
def NoCycle (rules : iMap Rule) : Prop :=
  ∀ i, ¬ Relation.TransGen (References rules) i i

/-- A grammar on which the matcher is not complete: rule 0 is `1 2`, rule 1 is `3 | 3 3`, rule 2
is `3` and rule 3 is `"a"`. -/
def greedy_rules : iMap Rule :=
  [(0, { v_ := [1, 2], alt_ := [], c_ := '#', i_ := 0 }),
   (1, { v_ := [3], alt_ := [3, 3], c_ := '#', i_ := 1 }),
   (2, { v_ := [3], alt_ := [], c_ := '#', i_ := 2 }),
   (3, { v_ := [], alt_ := [], c_ := 'a', i_ := 3 })]

/-- A rank for `greedy_rules`. -/
def greedy_rank (i : Int) : Nat :=
  if i = 0 then 2 else if i = 1 then 1 else if i = 2 then 1 else 0

/-- A grammar with a rule that matches without consuming: rule 42 is `"#"`, rule 31 is
`"b"`. -/
def nullable_rules : iMap Rule :=
  [(42, { v_ := [], alt_ := [], c_ := '#', i_ := 42 }),
   (31, { v_ := [], alt_ := [], c_ := 'b', i_ := 31 })]

/-- A check that every stored rule derives strings of the one length `len` gives for its id: a
terminal has length 1, and the lengths of the ids of a list add up to the length of the rule. -/
def length_check (rules : iMap Rule) (len : Int → Nat) : Bool :=
  rules.all fun p =>
    if p.2.c_ ≠ Rule.missing then len p.1 == 1
    else (p.2.v_.map len).sum == len p.1 &&
      (p.2.alt_.isEmpty || (p.2.alt_.map len).sum == len p.1)

/-- The lengths of the strings that the rules of `test` derive. -/
def test_len (i : Int) : Nat :=
  if i = 0 then 6 else if i = 1 then 4 else if i = 2 then 2 else if i = 3 then 2 else 1

/-- The number that a run of digits denotes. -/
def numeral (ds : List Char) : Int :=
  ds.foldl (fun (res : Int) c => res * 10 + ((c.toNat : Int) - 48)) 0

/-- No run of digits in `s` denotes a number above `2^31 - 1`: `fetch_int` reads every numeral
of `s` without overflow of its `int`. -/
def fits_int (s : List Char) : Prop :=
  ∀ ds : List Char, ds <:+: s → (∀ c ∈ ds, is_digit c = true) → numeral ds ≤ 2147483647

/-- The loop of `parse_rules` as far as it moves the view `s`: lines are fetched until an empty
one is fetched. The body of the loop works on the copy `line` and on the table, not on `s`:
`line.remove_prefix(2)` on a shorter copy spoils that copy, which `solve_rules` reads later,
and `s` is moved by `fetch_line` alone. -/
def parse_rules_leaves_loop : Nat → List Char → Outcome (List Char)
  | 0, _ => .timeout
  | k + 1, s =>
    let line := fetch_line s
    if line.1.isEmpty then .ret line.2 else parse_rules_leaves_loop k line.2

/-- The view that `parse_rules` leaves in `s`. Every round but the last consumes a character,
so `s.length + 1` rounds are enough. -/
def parse_rules_leaves (s : List Char) : Outcome (List Char) :=
  parse_rules_leaves_loop (s.length + 1) s

end Day19

/-!
# Advent of Code 2020, day 13: bus alignment

A shallow embedding of `src/aoc/2020/Advent of Code 2020, day 13.cpp`. `Int` (`std::int64_t`)
is modelled by the integers without wrapping, so the results are those of the program as long
as no intermediate value leaves the 64-bit range. `/` and `%` are the truncating `Int.tdiv` and
`Int.tmod`. The one 32-bit variable, `auto t = 0` in `bus_and_earliest_time`, is modelled with
its conversion from 64 bits (`int` has 32 bits, two's complement).

`align_buses` multiplies all the ids, and the product leaves the 64-bit range for ids that
`parse` reads without trouble. `align_buses` is the function in exact arithmetic;
`align_buses64` is the function on 64-bit values, where an overflow (undefined behaviour by
the standard) keeps the value modulo `2^64`, as the compiled program does. Both agree as long
as nothing overflows (`align_buses64_exact`).
-/

namespace Day13

/-- What a call of the program can do: return a value, stop at a failed `assert`, divide by
zero (undefined behaviour), or still be running when the fuel is spent. -/
inductive Run (α : Type) where
  | ret (a : α)
  | assert_failed
  | undefined
  | timeout
deriving DecidableEq, Repr

/-- Sequencing of calls: the first outcome that is not a return ends the computation. -/
def Run.bind {α β : Type} (x : Run α) (f : α → Run β) : Run β :=
  match x with
  | .ret a => f a
  | .assert_failed => .assert_failed
  | .undefined => .undefined
  | .timeout => .timeout

/-- Source `is_digit`: `'0' <= c && c <= '9'`. -/
def is_digit (c : Char) : Bool :=
  decide (48 ≤ c.toNat) && decide (c.toNat ≤ 57)

/-- Source `to_int`: every character of the view is taken for a digit. -/
def to_int (s : List Char) : Int :=
  s.foldl (fun (res : Int) c => res * 10 + ((c.toNat : Int) - 48)) 0

/-- The loop of `parse`: `it` is the text from the iterator `it` to the end, `xs` counts the
positions passed so far. Every round that does not leave the loop consumes a character. -/
def parse_loop : Nat → List Char → Int → List (Int × Int) → Run (List (Int × Int))
  | 0, _, _, _ => .timeout
  | k + 1, it, xs, buses =>
    if it.isEmpty then .ret buses
    else
      let f := it.dropWhile (fun c => !is_digit c)
      if f.isEmpty then .ret buses
      else
        let xs1 := xs + ((it.takeWhile (fun c => !is_digit c)).count 'x' : Nat)
        parse_loop k (f.dropWhile is_digit) (xs1 + 1)
          (buses ++ [(to_int (f.takeWhile is_digit), xs1)])

/-- Source `parse`: the time on the first line, and the buses with their offsets. -/
def parse (text : List Char) : Run (Int × List (Int × Int)) :=
  (parse_loop (text.length + 1) (text.dropWhile (fun c => c != '\n')) 0 []).bind fun buses =>
    .ret (to_int (text.takeWhile (fun c => c != '\n')), buses)

/-- The loop of `ext_euclid`, on the variables `x`, `y`, `x0`, `x1`, `y0`, `y1`. -/
def ext_euclid_loop : Nat → Int → Int → Int → Int → Int → Int → Run (Int × Int × Int)
  | 0, _, _, _, _, _, _ => .timeout
  | fuel + 1, x, y, x0, x1, y0, y1 =>
    if y > 0 then
      ext_euclid_loop fuel y (x.tmod y) x1 (x0 - x.tdiv y * x1) y1 (y0 - x.tdiv y * y1)
    else .ret (x, x0, y0)

/-- Source `ext_euclid`. Every round makes `y` smaller, so `y + 1` rounds are enough. -/
def ext_euclid (x y : Int) : Run (Int × Int × Int) :=
  ext_euclid_loop (y.toNat + 1) x y 1 0 0 1

/-- Source `inv_mod`: the assertion `g == 1`, then `x % m`. -/
def inv_mod (a m : Int) : Run Int :=
  (ext_euclid a m).bind fun r =>
    if r.1 = 1 then (if m = 0 then .undefined else .ret (r.2.1.tmod m)) else .assert_failed

/-- The loop `for (auto const [b, d] : buses)` of `align_buses`. -/
def align_buses_loop (prod : Int) : List (Int × Int) → Int → Run Int
  | [], res => .ret res
  | (b, d) :: buses, res =>
    if b = 0 then .undefined
    else
      (inv_mod (prod.tdiv b) b).bind fun inv =>
        align_buses_loop prod buses (res + (b - d).tmod b * prod.tdiv b * inv)

/-- The loop `while (res < 0) res += prod` of `align_buses`. -/
def add_prod_loop (prod : Int) : Nat → Int → Run Int
  | 0, _ => .timeout
  | fuel + 1, res => if res < 0 then add_prod_loop prod fuel (res + prod) else .ret res

/-- Source `align_buses` in exact integer arithmetic. The loop that adds `prod` ends within
`-res` rounds when `prod` is positive, and never otherwise, so `-res + 1` rounds decide it. -/
def align_buses (buses : List (Int × Int)) : Run Int :=
  let prod := buses.foldl (fun (res : Int) bus => res * bus.1) 1
  (align_buses_loop prod buses 0).bind fun res =>
    (add_prod_loop prod ((-res).toNat + 1) res).bind fun res =>
      if prod = 0 then .undefined else .ret (res.tmod prod)

/-- The raw string `test` of `main`. -/
def test : List Char := "939\n7,13,x,x,59,x,31,19\n".data

/-- The raw string `test2` of `main`. -/
def test2 : List Char := "0\n17,x,13,19\n".data

/-- The value that `inv_mod(a, m)` returns, and 0 when it does not return. -/
def inv_val (a m : Int) : Int :=
  match inv_mod a m with
  | .ret v => v
  | _ => 0

/-- The summand that the loop of `align_buses` adds for the bus `(b, d)`. -/
def term (prod : Int) (bus : Int × Int) : Int :=
  (bus.1 - bus.2).tmod bus.1 * prod.tdiv bus.1 * inv_val (prod.tdiv bus.1) bus.1

/-- The conversion of a 64-bit value to `int`: the value modulo `2^32`, taken between `-2^31`
and `2^31 - 1`. -/
def narrow (x : Int) : Int :=
  (x + 2147483648) % 4294967296 - 2147483648

/-- The loop `for (; t < t0; t += b);` of `bus_and_earliest_time`, where `auto t = 0` makes `t`
an `int`: the sum `t + b` is formed in 64 bits and converted back to `int`. -/
def wait_loop (t0 b : Int) : Nat → Int → Run Int
  | 0, _ => .timeout
  | fuel + 1, t => if t < t0 then wait_loop t0 b fuel (narrow (t + b)) else .ret t

/-- The loop `for (auto const [b, _] : buses)` of `bus_and_earliest_time`; `bus` is `none` as
long as the variable `Int bus;` has no value. An `int` takes one of `2^32` values, so a wait
that has not ended after `2^32` rounds never ends. -/
def bus_loop (t0 : Int) : List (Int × Int) → Option Int → Int → Run (Option Int × Int)
  | [], bus, time => .ret (bus, time)
  | (b, _) :: buses, bus, time =>
    (wait_loop t0 b 4294967297 0).bind fun t =>
      if t < time then bus_loop t0 buses (some b) t else bus_loop t0 buses bus time

/-- Source `bus_and_earliest_time`; `time` starts at `INT64_MAX`. Returning `bus` without a
value is undefined behaviour. -/
def bus_and_earliest_time (t0 : Int) (buses : List (Int × Int)) : Run (Int × Int) :=
  (bus_loop t0 buses none 9223372036854775807).bind fun r =>
    match r.1 with
    | some bus => .ret (bus, r.2)
    | none => .undefined

/-- The smallest multiple of the bus id `b` that is not below `t0`, for a positive `b`. -/
def departure (t0 b : Int) : Int :=
  b * ((t0 + b - 1) / b)

/-- The bus and the time that the loop of `bus_and_earliest_time` holds after the buses `l`,
when every wait ends at the departure of its bus. -/
def earliest (t0 : Int) (l : List (Int × Int)) (acc : Option Int × Int) : Option Int × Int :=
  l.foldl (fun acc p => if departure t0 p.1 < acc.2 then (some p.1, departure t0 p.1) else acc)
    acc

end Day13

/-!
# Advent of Code 2021, day 1: counting increases

A shallow embedding of `src/aoc/2021/AoC_2021_01.hpp` and of the example application
`src/aoc/aoc.m.cpp`. A range is the list of its elements; the counter (`std::size_t`) cannot
wrap, being at most the number of elements.
-/

namespace aoc

/-- The loop of `count_increases`: `prev` is the element under the first iterator, the list
holds the elements from the second iterator `cur` to the end. -/
def count_increases_loop {α : Type} [LT α] [DecidableRel (fun (a b : α) => a < b)] :
    α → List α → Nat → Nat
  | _, [], count => count
  | prev, cur :: rest, count =>
    count_increases_loop cur rest (if prev < cur then count + 1 else count)

/-- Source `aoc::count_increases`. -/
def count_increases {α : Type} [LT α] [DecidableRel (fun (a b : α) => a < b)]
    (measurements : List α) : Nat :=
  match measurements with
  | [] => 0
  | prev :: rest => count_increases_loop prev rest 0

/-- Whether the element at position `i` is smaller than the element at position `j`, both
positions being in the sequence. -/
def lt_at {α : Type} [LT α] [DecidableRel (fun (a b : α) => a < b)] (m : List α) (i j : Nat) :
    Bool :=
  match m[i]?, m[j]? with
  | some a, some b => decide (a < b)
  | _, _ => false

/-- The array `depths` of the example application. -/
def depths : List Int := [199, 200, 208, 210, 200, 207, 240, 269, 260, 263]

end aoc

/-!
# Advent of Code 2020, day 15: the memory game

A shallow embedding of `src/aoc/2020/Advent of Code 2020, day 15.cpp`. The memo
(`std::unordered_map`) is an association list in which a key occurs once. A `std::size_t` is a
natural number below `2 ^ 64`; an `int` is an integer of 32 bits, and the conversion of a
`std::size_t` to `int` wraps modulo `2 ^ 32`.
-/


namespace Day15

/-- Source `std::unordered_map<int, std::pair<std::size_t, std::size_t>>`: the turn before the
last and the last turn of each number. -/
abbrev Memo : Type := List (Int × (Nat × Nat))

/-- Source `unordered_map::find`: the pair stored under `k`, if any. -/
def Memo.find : Memo → Int → Option (Nat × Nat)
  | [], _ => none
  | (k', u) :: m, k => if k' = k then some u else Memo.find m k

/-- Source `unordered_map::contains`. -/
def Memo.contains (m : Memo) (k : Int) : Bool := (m.find k).isSome

/-- Source `unordered_map::emplace`: nothing is inserted when the key is already present. -/
def Memo.emplace : Memo → Int → Nat × Nat → Memo
  | [], k, v => [(k, v)]
  | (k', u) :: m, k, v => if k' = k then (k', u) :: m else (k', u) :: Memo.emplace m k v

/-- Source `memo[k]` read: the pair stored under `k`, after a value-initialised pair was
inserted when the key was absent. Returns the pair and the map. -/
def Memo.index (m : Memo) (k : Int) : (Nat × Nat) × Memo :=
  ((m.find k).getD (0, 0), m.emplace k (0, 0))

/-- Source `memo[k] = v`: the pair under `k` is replaced, or inserted when the key was
absent. -/
def Memo.assign : Memo → Int → Nat × Nat → Memo
  | [], k, v => [(k, v)]
  | (k', u) :: m, k, v => if k' = k then (k', v) :: m else (k', u) :: Memo.assign m k v

/-- The difference of two `std::size_t`, modulo `2 ^ 64`. -/
def size_sub (l p : Nat) : Nat := (l + 2 ^ 64 - p) % 2 ^ 64

/-- The conversion of a `std::size_t` to `int`: modulo `2 ^ 32`, read as a signed number. -/
def to_int (x : Nat) : Int :=
  if x % 2 ^ 32 < 2 ^ 31 then ((x % 2 ^ 32 : Nat) : Int) else ((x % 2 ^ 32 : Nat) : Int) - 2 ^ 32

/-- The loop of `setup`, from index `i` on: `res.emplace(starting[i], {i, i})`. -/
def setup_from : List Int → Nat → Memo → Memo
  | [], _, res => res
  | x :: xs, i, res => setup_from xs (i + 1) (res.emplace x (i, i))

/-- Source `setup`. -/
def setup (starting : List Int) : Memo := setup_from starting 0 []

/-- The loop of `spoken_number`, with `k` rounds left, at index `i`. -/
def spoken_loop : Nat → Nat → Memo → Int → Int
  | 0, _, _, last => last
  | k + 1, i, memo, last =>
    let pl := memo.index last
    let last1 := to_int (size_sub pl.1.2 pl.1.1)
    let memo2 :=
      if pl.2.contains last1 then
        (pl.2.index last1).2.assign last1 ((pl.2.index last1).1.2, i)
      else pl.2.assign last1 (i, i)
    spoken_loop k (i + 1) memo2 last1

/-- Source `spoken_number`. The loop runs for the indices from `starting.size()` up to `n`;
`starting.back()` of an empty vector is undefined behaviour, `none` here. -/
def spoken_number (n : Nat) (starting : List Int) : Option Int :=
  match starting.getLast? with
  | none => none
  | some last => some (spoken_loop (n - starting.length) starting.length (setup starting) last)

/-- The rule of the game, on the numbers spoken so far with the latest in front: the next
number is 0 when the latest number was not spoken before, and else the distance between the
last two turns of the latest number, which is one more than its position among the older
numbers. -/
def next_spoken : List Int → Int
  | [] => 0
  | prev :: older => if prev ∈ older then ((older.indexOf prev + 1 : Nat) : Int) else 0

/-- The numbers spoken after `k` more turns, the latest in front. -/
def play : Nat → List Int → List Int
  | 0, spoken => spoken
  | k + 1, spoken => play k (next_spoken spoken :: spoken)

/-- The `n`-th number spoken, counting from 1, in the game that starts with `starting`, for `n`
from `starting.length` on. -/
def nth_spoken (starting : List Int) (n : Nat) : Option Int :=
  (play (n - starting.length) starting.reverse).head?

/-- What the memo holds for `x` after the numbers `spoken` (the latest in front): the last two
turns on which `x` was spoken, counted from 0, or twice the only turn. -/
def turns : List Int → Int → Option (Nat × Nat)
  | [], _ => none
  | y :: older, x =>
    if y = x then
      match turns older x with
      | none => some (older.length, older.length)
      | some pl => some (pl.2, older.length)
    else turns older x

/-- The numbers from 0 to 2147483647, with 0 first. -/
def all_numbers : List Int := 0 :: (List.range 2147483647).map (fun j : Nat => (j : Int) + 1)

end Day15

/-!
# Advent of Code 2020, day 17: the cellular automaton on a padded cube

A shallow embedding of `src/aoc/2020/Advent of Code 2020, day 17.cpp`, for `Matrix<bool>` and
`Cube<bool>`.

* A `std::vector<bool>` is the list of its elements; a read or a write outside the vector, a
  division by zero, `front()` of an empty vector and the overflow of an `int` are undefined
  behaviour, `Exec.undefined` here.
* A `std::size_t` is a natural number below `2 ^ 64`: the product and the sum in the index of a
  matrix and the sums `r + di` of `count_neighbor`, in which `di` may be `-1`, wrap modulo
  `2 ^ 64`.  Lengths of vectors are below `2 ^ 64` and are not wrapped.
* A function that changes its argument returns the changed value.
* The loop of `parse_reserve_for` takes a fuel argument and reports `Exec.timeout` when it runs
  out: `fetch_line` of this file consumes nothing of a text without a newline.
-/

namespace Day17

/-- What a call of the program can do: return a value, stop at a failed `assert`, run into
undefined behaviour, or still be running when the fuel is spent. -/
inductive Exec (α : Type) where
  | ret (a : α)
  | assert_failed
  | undefined
  | timeout
deriving DecidableEq, Repr

/-- Sequencing of calls: the first failure is the result. -/
def Exec.bind {α β : Type} : Exec α → (α → Exec β) → Exec β
  | .ret a, f => f a
  | .assert_failed, _ => .assert_failed
  | .undefined, _ => .undefined
  | .timeout, _ => .timeout

/-- Source `active`. -/
def active : Char := '#'

/-- Source `inactive`. -/
def inactive : Char := '.'

/-- The characters of a string literal. -/
def view (s : String) : List Char := s.toList

/-- Source `fetch_line`: the text up to the first newline, and the text after it. Without a
newline `pos + 1` wraps to 0: the whole text is the line, and nothing is removed. -/
def fetch_line (text : List Char) : List Char × List Char :=
  if '\n' ∈ text then
    (text.takeWhile (fun c => c != '\n'), (text.dropWhile (fun c => c != '\n')).drop 1)
  else (text, text)

/-- The conversion of an `int` to `std::size_t`: modulo `2 ^ 64`. -/
def to_size (d : Int) : Nat := (d % 2 ^ 64).toNat

/-- Source `class Matrix<bool>`. -/
structure Matrix where
  data_ : List Bool
  cols_ : Nat
deriving DecidableEq, Repr

/-- Source `Matrix::Matrix(rows, cols, value)`. -/
def Matrix.ctor (rows cols : Nat) (value : Bool) : Matrix :=
  { data_ := List.replicate (rows * cols % 2 ^ 64) value, cols_ := cols }

/-- Source `Matrix::add_row(first, last)`: the row is appended, after the assertion that it
has `cols_` elements. -/
def Matrix.add_row (m : Matrix) (row : List Bool) : Exec Matrix :=
  if row.length = m.cols_ then .ret { m with data_ := m.data_ ++ row } else .assert_failed

/-- Source `Matrix::rows`. -/
def Matrix.rows (m : Matrix) : Exec Nat :=
  if m.cols_ = 0 then .undefined else .ret (m.data_.length / m.cols_)

/-- Source `Matrix::cols`. -/
def Matrix.cols (m : Matrix) : Nat := m.cols_

/-- Source `Matrix::idx`. -/
def Matrix.idx (m : Matrix) (row col : Nat) : Nat := (row * m.cols_ + col) % 2 ^ 64

/-- Source `Matrix::at`. -/
def Matrix.at (m : Matrix) (row col : Nat) : Exec Bool :=
  match m.data_[m.idx row col]? with
  | some b => .ret b
  | none => .undefined

/-- Source `Matrix::set`. -/
def Matrix.set (m : Matrix) (row col : Nat) (value : Bool) : Exec Matrix :=
  if m.idx row col < m.data_.length then
    .ret { m with data_ := m.data_.set (m.idx row col) value }
  else .undefined

/-- Source `Matrix::count`. -/
def Matrix.count (m : Matrix) (value : Bool) : Nat := m.data_.count value

/-- Source `class Cube<bool>`. -/
structure Cube where
  slices_ : List Matrix
deriving DecidableEq, Repr

/-- Source `Cube::Cube(r, c, s, value)`. -/
def Cube.ctor (r c s : Nat) (value : Bool) : Cube :=
  { slices_ := List.replicate s (Matrix.ctor r c value) }

/-- Source `Cube::slices`. -/
def Cube.slices (c : Cube) : Nat := c.slices_.length

/-- Source `Cube::rows`: the rows of `slices_.front()`. -/
def Cube.rows (c : Cube) : Exec Nat :=
  match c.slices_.head? with
  | none => .undefined
  | some m => m.rows

/-- Source `Cube::cols`: the columns of `slices_.front()`. -/
def Cube.cols (c : Cube) : Exec Nat :=
  match c.slices_.head? with
  | none => .undefined
  | some m => .ret m.cols

/-- Source `Cube::at`. -/
def Cube.at (c : Cube) (row col s : Nat) : Exec Bool :=
  match c.slices_[s]? with
  | none => .undefined
  | some m => m.at row col

/-- Source `Cube::set`. -/
def Cube.set (c : Cube) (row col s : Nat) (value : Bool) : Exec Cube :=
  match c.slices_[s]? with
  | none => .undefined
  | some m => (m.set row col value).bind fun m' => .ret { slices_ := c.slices_.set s m' }

/-- Source `Cube::count`. -/
def Cube.count (c : Cube) (value : Bool) : Nat :=
  (c.slices_.map fun m => m.count value).sum

/-- Source `Cube::add`. -/
def Cube.add (c : Cube) (slice : Matrix) : Cube := { slices_ := c.slices_ ++ [slice] }

/-- The loop `for (i < line.size()) buffer[i+t] = line[i] == active` of `add_line`, from
index `i` on. -/
def fill_line (t : Nat) : List Char → Nat → List Bool → Exec (List Bool)
  | [], _, buffer => .ret buffer
  | ch :: rest, i, buffer =>
    if i + t < buffer.length then fill_line t rest (i + 1) (buffer.set (i + t) (ch == active))
    else .undefined

/-- The lambda `add_line` of `parse_reserve_for`: the line is written into the buffer, which
keeps whatever the line does not cover, and the buffer is added as a row. Returns the buffer
and the matrix. -/
def add_line (t : Nat) (buffer : List Bool) (m : Matrix) (line : List Char) :
    Exec (List Bool × Matrix) :=
  (fill_line t line 0 buffer).bind fun buf =>
  (m.add_row buf).bind fun m' => .ret (buf, m')

/-- The loop `while (!s.empty()) add_line(slice, fetch_line(s))` of `parse_reserve_for`. -/
def parse_loop (t : Nat) : Nat → List Char → List Bool → Matrix → Exec (List Bool × Matrix)
  | 0, _, _, _ => .timeout
  | fuel + 1, s, buffer, slice =>
    if s.isEmpty then .ret (buffer, slice)
    else
      (add_line t buffer slice (fetch_line s).1).bind fun p =>
      parse_loop t fuel (fetch_line s).2 p.1 p.2

/-- The loop `for (i < t) slice.add_row(buffer)` of `parse_reserve_for`. -/
def add_rows : Nat → List Bool → Matrix → Exec Matrix
  | 0, _, slice => .ret slice
  | n + 1, buffer, slice => (slice.add_row buffer).bind fun m => add_rows n buffer m

/-- The loop `for (i < t) res.add(Matrix(r, c, false))` of `parse_reserve_for`. -/
def add_slices : Nat → Nat → Nat → Cube → Cube
  | 0, _, _, res => res
  | n + 1, r, c, res => add_slices n r c (res.add (Matrix.ctor r c false))

/-- Source `parse_reserve_for`, for `t` that is not negative. The product `2*t` is an `int`.
A round of the loop on a text with a newline consumes a character, so `length + 1` rounds are
enough for a text that ends in a newline. -/
def parse_reserve_for (s : List Char) (t : Nat) : Exec Cube :=
  if 2 ^ 31 ≤ 2 * t then .undefined
  else
    let line := fetch_line s
    let buffer := List.replicate (2 * t + line.1.length) false
    let slice := Matrix.ctor t buffer.length false
    (add_line t buffer slice line.1).bind fun p =>
    (parse_loop t (line.2.length + 1) line.2 p.1 p.2).bind fun q =>
    (add_rows t (List.replicate q.1.length false) q.2).bind fun slice =>
    slice.rows.bind fun r =>
    .ret (add_slices t r slice.cols ((Cube.ctor r slice.cols t false).add slice))

/-- The offsets `{di, dj, dk}` of `count_neighbor`, in the order of its three loops. -/
def offsets : List (Int × Int × Int) :=
  [-1, 0, 1].flatMap fun di => [-1, 0, 1].flatMap fun dj => [-1, 0, 1].map fun dk => (di, dj, dk)

/-- The three loops of `count_neighbor` over the offsets that are left. The sums `r + di` are
sums of `std::size_t`; the comparison `0 <= i` is always true. -/
def count_neighbor_loop (cube : Cube) (R C S r c s : Nat) (value : Bool) :
    List (Int × Int × Int) → Int → Exec Int
  | [], res => .ret res
  | d :: rest, res =>
    let i := (r + to_size d.1) % 2 ^ 64
    let j := (c + to_size d.2.1) % 2 ^ 64
    let k := (s + to_size d.2.2) % 2 ^ 64
    if i ≤ R ∧ j ≤ C ∧ k ≤ S then
      (cube.at i j k).bind fun b =>
      count_neighbor_loop cube R C S r c s value rest (if b = value then res + 1 else res)
    else count_neighbor_loop cube R C S r c s value rest res

/-- Source `count_neighbor`. The counter is an `int`, converted to `std::size_t` on return. -/
def count_neighbor (cube : Cube) (r c s : Nat) (value : Bool) : Exec Nat :=
  cube.rows.bind fun rows =>
  cube.cols.bind fun cols =>
  (count_neighbor_loop cube (to_size ((rows : Int) - 1)) (to_size ((cols : Int) - 1))
    (to_size ((cube.slices : Int) - 1)) r c s value offsets 0).bind fun res =>
  (cube.at r c s).bind fun self =>
  .ret (to_size (if self = value then res - 1 else res))

/-- The indices `(i, j, k)` of the three loops of `evolve`, in the order of the loops. -/
def cells (rows cols slices : Nat) : List (Nat × Nat × Nat) :=
  (List.range rows).flatMap fun i => (List.range cols).flatMap fun j =>
    (List.range slices).map fun k => (i, j, k)

/-- The statement `++res` on the `int` counter of `evolve`. -/
def incr (res : Int) : Exec Int := if res + 1 < 2 ^ 31 then .ret (res + 1) else .undefined

/-- The body of the loops of `evolve` at the cell `p`: the neighbours are counted in `c`, the
change is written to `update`. -/
def evolve_cell (c : Cube) (p : Nat × Nat × Nat) (st : Cube × Int) : Exec (Cube × Int) :=
  (count_neighbor c p.1 p.2.1 p.2.2 true).bind fun neigh =>
  (c.at p.1 p.2.1 p.2.2).bind fun a =>
  if a = true then
    if neigh < 2 ∨ 3 < neigh then
      (st.1.set p.1 p.2.1 p.2.2 false).bind fun u => (incr st.2).bind fun n => .ret (u, n)
    else .ret st
  else
    if neigh = 3 then
      (st.1.set p.1 p.2.1 p.2.2 true).bind fun u => (incr st.2).bind fun n => .ret (u, n)
    else .ret st

/-- The loops of `evolve` over the cells that are left. -/
def evolve_loop (c : Cube) : List (Nat × Nat × Nat) → Cube × Int → Exec (Cube × Int)
  | [], st => .ret st
  | p :: rest, st => (evolve_cell c p st).bind fun st' => evolve_loop c rest st'

/-- Source `evolve(Cube<bool>&)`: the cube after the call, and the number returned. -/
def evolve (c : Cube) : Exec (Cube × Nat) :=
  c.rows.bind fun rows =>
  c.cols.bind fun cols =>
  (evolve_loop c (cells rows cols c.slices) (c, 0)).bind fun st =>
  .ret (st.1, to_size st.2)

/-- Source `evolve(obj, n)`: `n` calls of `evolve`. -/
def evolve_n : Nat → Cube → Exec Cube
  | 0, c => .ret c
  | n + 1, c => (evolve c).bind fun p => evolve_n n p.1

/-- The raw string `test` of `main`. -/
def test : List Char := view ".#.\n..#\n###\n"

/-- A cell of the unbounded grid. -/
abbrev Point : Type := Int × Int × Int

/-- The cell `p` moved by the offset `d`. -/
def translate (p d : Point) : Point := (p.1 + d.1, p.2.1 + d.2.1, p.2.2 + d.2.2)

/-- The cell `q` is a neighbour of `p`: another cell, at most 1 away in each coordinate. -/
def adjacent (p q : Point) : Bool :=
  decide (q ≠ p ∧ (-1 ≤ q.1 - p.1 ∧ q.1 - p.1 ≤ 1) ∧ (-1 ≤ q.2.1 - p.2.1 ∧ q.2.1 - p.2.1 ≤ 1) ∧
    (-1 ≤ q.2.2 - p.2.2 ∧ q.2.2 - p.2.2 ≤ 1))

/-- The number of active neighbours of `p`, in a grid given by the finite set of its active
cells. -/
def around (g : Finset Point) (p : Point) : Nat := (g.filter fun q => adjacent p q).card

/-- The rule of the automaton: an active cell stays active with 2 or 3 active neighbours, an
inactive cell becomes active with 3. -/
def rule (a : Bool) (n : Nat) : Bool := if a then n == 2 || n == 3 else n == 3

/-- The cells at most 1 away from an active cell: the only cells that can be active after a
step. -/
def halo (g : Finset Point) : Finset Point :=
  g.biUnion fun p => (offsets.map (translate p)).toFinset

/-- One step of the rule on the unbounded grid, all cells at once. -/
def step (g : Finset Point) : Finset Point :=
  (halo g).filter fun p => rule (decide (p ∈ g)) (around g p)

/-- The grid after `k` steps. -/
def steps : Nat → Finset Point → Finset Point
  | 0, g => g
  | k + 1, g => steps k (step g)

/-- The input plane: the cell `(x, y, 0)` is active when character `y` of line `x` is `#`. -/
def plane (lines : List (List Char)) : Finset Point :=
  ((List.range lines.length).flatMap fun (x : Nat) =>
    ((List.range (lines.getD x []).length).filter fun (y : Nat) =>
      (lines.getD x []).getD y inactive == active).map fun (y : Nat) =>
        ((x : Int), (y : Int), (0 : Int))).toFinset

/-- Lines put one after the other, each ended by a newline. -/
def unlines : List (List Char) → List Char
  | [] => []
  | l :: ls => l ++ '\n' :: unlines ls

/-- The cell `(i, j, k)` of a cube as a cell of the unbounded grid. -/
def to_point (p : Nat × Nat × Nat) : Point := ((p.1 : Int), (p.2.1 : Int), (p.2.2 : Int))

/-- The active cells of a cube with `R` rows, `C` columns and `S` slices. -/
def Cube.actives (c : Cube) (R C S : Nat) : Finset Point :=
  (((cells R C S).filter fun p => c.at p.1 p.2.1 p.2.2 = .ret true).map to_point).toFinset

/-- The matrix has `R` rows of `C` elements. -/
def Matrix.wf (m : Matrix) (R C : Nat) : Prop := m.cols_ = C ∧ m.data_.length = R * C

/-- The cube has `S` slices of `R` rows and `C` columns each. -/
def Cube.wf (c : Cube) (R C S : Nat) : Prop :=
  c.slices_.length = S ∧ ∀ m ∈ c.slices_, m.wf R C

/-- A cube whose second slice has no rows: `Cube c(1, 1, 1, false); c.add(Matrix(0, 1,
false))`. -/
def ragged : Cube := { slices_ := [{ data_ := [false], cols_ := 1 }, { data_ := [], cols_ := 1 }] }

/-- The state of the cell `p` of a cube: whether `Cube::at` returns true on it. -/
def Cube.state (c : Cube) (p : Nat × Nat × Nat) : Bool :=
  decide (c.at p.1 p.2.1 p.2.2 = .ret true)

/-- The state that the rule gives the cell `p` of a cube with `R` rows, `C` columns and `S`
slices, from its state and the number of active neighbours inside the grid. -/
def Cube.next (c : Cube) (R C S : Nat) (p : Nat × Nat × Nat) : Bool :=
  rule (c.state p) (around (c.actives R C S) (to_point p))

/-- The cell `q` of the padded cube as a cell of the unbounded grid: the padding of `t` cells
is taken off each coordinate. -/
def unpad (t : Nat) (q : Point) : Point := (q.1 - t, q.2.1 - t, q.2.2 - t)

/-- The cells at most `m` away from the input plane of `H` lines and `W` columns. -/
def in_box (H W m : Nat) (p : Point) : Prop :=
  (-(m : Int) ≤ p.1 ∧ p.1 < H + m) ∧ (-(m : Int) ≤ p.2.1 ∧ p.2.1 < W + m) ∧
    (-(m : Int) ≤ p.2.2 ∧ p.2.2 ≤ m)

/-- The row that `add_line` makes of a line: `t` cells of padding on either side. -/
def padded_row (t : Nat) (line : List Char) : List Bool :=
  List.replicate t false ++ line.map (fun ch => ch == active) ++ List.replicate t false

/-- The cube that `parse_reserve_for` builds of lines of width `W`: `t` inactive slices, the
slice of the padded rows between `t` inactive rows on either side, and `t` inactive slices. -/
def padded_cube (lines : List (List Char)) (W t : Nat) : Cube :=
  { slices_ :=
      List.replicate t (Matrix.ctor (lines.length + 2 * t) (W + 2 * t) false) ++
      [{ data_ := (List.replicate t (List.replicate (W + 2 * t) false) ++
            lines.map (padded_row t) ++
            List.replicate t (List.replicate (W + 2 * t) false)).flatten,
         cols_ := W + 2 * t }] ++
      List.replicate t (Matrix.ctor (lines.length + 2 * t) (W + 2 * t) false) }

/-- The three lines of `test`. -/
def test_lines : List (List Char) := [view ".#.", view "..#", view "###"]

end Day17

/-!
# Advent of Code 2020, day 14: bit masks

A shallow embedding of the class `Mask` of `src/aoc/2020/Advent of Code 2020, day 14.cpp`.
An `std::uint64_t` is a natural number below `2^64`, a `std::bitset<36>` a natural number
below `2^36`; `int` has 32 bits and `unsigned long` 64. The array `std::array<char, N>` is
the list of its 36 characters, a vector the list of its elements.
-/

namespace Day14

/-- What a call of the program can do: return a value, stop at a failed `assert`, run into
undefined behaviour, or still be running when the fuel is spent. -/
inductive Run (α : Type) where
  | ret (a : α)
  | assert_failed
  | undefined
  | timeout
deriving DecidableEq, Repr

/-- Sequencing of calls: the first outcome that is not a return ends the computation. -/
def Run.bind {α β : Type} (x : Run α) (f : α → Run β) : Run β :=
  match x with
  | .ret a => f a
  | .assert_failed => .assert_failed
  | .undefined => .undefined
  | .timeout => .timeout

/-- Source `Mask::N`. -/
def N : Nat := 36

/-- The element `mask[j]` of the array; `j` is below 36 wherever the program reads it. -/
def char_at (mask : List Char) (j : Nat) : Char :=
  mask.getD j '\x00'

/-- Source `std::bitset::flip(i)`, for a position `i` of the bitset. -/
def flip (bits i : Nat) : Nat :=
  bits ^^^ 2 ^ i

/-- Source `class Mask::Protocol1`, with its members `zero_` and `one_`. -/
structure Protocol1 where
  zero_ : Nat
  one_ : Nat
deriving DecidableEq, Repr

/-- One round of the loop of the constructor of `Protocol1`. -/
def Protocol1.round (mask : List Char) (p : Protocol1) (i : Nat) : Protocol1 :=
  let c := char_at mask (N - 1 - i)
  let p := if c = '0' then { p with zero_ := flip p.zero_ i } else p
  if c = '1' then { p with one_ := flip p.one_ i } else p

/-- Source constructor `Protocol1(mask)`: `zero_.set()`, then the loop over `i < N`. -/
def Protocol1.ctor (mask : List Char) : Protocol1 :=
  (List.range N).foldl (Protocol1.round mask) { zero_ := 2 ^ N - 1, one_ := 0 }

/-- Source `Protocol1::apply`: `(std::bitset<N>{value} & zero_) | one_`, as an
`unsigned long`. -/
def Protocol1.apply (p : Protocol1) (value : Nat) : Nat :=
  ((value % 2 ^ N) &&& p.zero_) ||| p.one_

/-- Source `class Mask::Protocol2`, with its members `ones_` and `xs_`. -/
structure Protocol2 where
  ones_ : List Nat
  xs_ : List Nat
deriving DecidableEq, Repr

/-- One round of the loop of the constructor of `Protocol2`. -/
def Protocol2.round (mask : List Char) (p : Protocol2) (i : Nat) : Protocol2 :=
  let c := char_at mask (N - 1 - i)
  let p := if c = '1' then { p with ones_ := p.ones_ ++ [i] } else p
  if c = 'x' ∨ c = 'X' then { p with xs_ := p.xs_ ++ [i] } else p

/-- Source constructor `Protocol2(mask)`. -/
def Protocol2.ctor (mask : List Char) : Protocol2 :=
  (List.range N).foldl (Protocol2.round mask) { ones_ := [], xs_ := [] }

/-- The loop `for (auto it = begin(res); it != end(res); it += 2*block)` of
`Protocol2::apply` with its `std::for_each(it, std::next(it, block), ...)`; `it` is the part
of the vector from the iterator on. Stepping past the end is undefined behaviour. -/
def mark_blocks (block mask : Nat) : Nat → List Nat → Run (List Nat)
  | 0, _ => .timeout
  | fuel + 1, it =>
    if it.isEmpty then .ret []
    else if it.length < 2 * block then .undefined
    else
      (mark_blocks block mask fuel (it.drop (2 * block))).bind fun rest =>
        .ret ((it.take block).map (fun v => v ||| mask) ++ (it.drop block).take block ++ rest)

/-- The loop `for (std::size_t i = 0; i < xs_.size(); ++i)` of `Protocol2::apply`; `xs` holds
the elements of `xs_` from index `i` on. -/
def Protocol2.apply_loop : List Nat → Nat → List Nat → Run (List Nat)
  | [], _, res => .ret res
  | x :: xs, i, res =>
    (mark_blocks (2 ^ i) (2 ^ x) (res.length + 1) res).bind fun res =>
      Protocol2.apply_loop xs (i + 1) res

/-- The base address of `Protocol2::apply`: the bits of `ones_` set, the bits of `xs_`
cleared. -/
def Protocol2.base (p : Protocol2) (value : Nat) : Nat :=
  p.xs_.foldl (fun base b => base &&& (2 ^ 64 - 1 - 2 ^ b))
    (p.ones_.foldl (fun base b => base ||| 2 ^ b) value)

/-- Source `Protocol2::apply`. The size `1 << xs_.size()` of the vector is an `int`: from 31
floating bits on the shift gives no size of a vector (it overflows `int`), which the model
counts as undefined behaviour. -/
def Protocol2.apply (p : Protocol2) (value : Nat) : Run (List Nat) :=
  if 31 ≤ p.xs_.length then .undefined
  else Protocol2.apply_loop p.xs_ 0 (List.replicate (2 ^ p.xs_.length) (p.base value))

/-- Source `class Mask`, with its member `mask_`. -/
structure Mask where
  mask_ : List Char
deriving DecidableEq, Repr

/-- Source constructor `Mask(s)`: the assertion `s.size() == N`, then the copy. -/
def Mask.ctor (s : List Char) : Run Mask :=
  if s.length = N then .ret { mask_ := s } else .assert_failed

/-- Source `Mask::protocol1`. -/
def Mask.protocol1 (m : Mask) : Protocol1 :=
  Protocol1.ctor m.mask_

/-- Source `Mask::protocol2`. -/
def Mask.protocol2 (m : Mask) : Protocol2 :=
  Protocol2.ctor m.mask_

/-- The mask of the raw string `test` of `main`. -/
def test_mask : List Char := "XXXXXXXXXXXXXXXXXXXXXXXXXXXXX1XXXX0X".data

/-- The first mask of the raw string `test2` of `main`. -/
def test2_mask : List Char := "000000000000000000000000000000X1001X".data

/-- The second mask of the raw string `test2` of `main`. -/
def test2_mask2 : List Char := "00000000000000000000000000000000X0XX".data

/-- The list `r` written `n` times in a row. -/
def copies (n : Nat) (r : List Nat) : List Nat :=
  match n with
  | 0 => []
  | n + 1 => r ++ copies n r

/-- The addresses that one floating bit makes of the addresses `r`: first those with the bit
`mask` set, then those without. -/
def float_bit (r : List Nat) (mask : Nat) : List Nat :=
  r.map (fun v => v ||| mask) ++ r

/-- The addresses that the floating bits `xs` make of the addresses `r`. -/
def float_bits (r : List Nat) (xs : List Nat) : List Nat :=
  xs.foldl (fun r x => float_bit r (2 ^ x)) r

end Day14

/-!
# Advent of Code 2020, day 16: ticket validation

A shallow embedding of the validation part of `src/aoc/2020/Advent of Code 2020, day 16.cpp`.
An `int` is an integer; the functions below only compare values. `Rules`, an unordered map
from field names to interval sets, is the list of its entries in the order of iteration.
A vector is the list of its elements.
-/

namespace Day16

/-- Source `struct Interval`: the closed interval `[lhs, rhs]`. -/
structure Interval where
  lhs : Int
  rhs : Int
deriving DecidableEq, Repr

/-- Source `class IntervalSet`, with its member `intervals_`. -/
structure IntervalSet where
  intervals_ : List Interval
deriving DecidableEq, Repr

/-- Source `IntervalSet::add`. -/
def IntervalSet.add (s : IntervalSet) (interval : Interval) : IntervalSet :=
  { intervals_ := s.intervals_ ++ [interval] }

/-- Source `IntervalSet::contains`: `std::any_of` over the intervals. -/
def IntervalSet.contains (s : IntervalSet) (i : Int) : Bool :=
  s.intervals_.any fun interval => decide (interval.lhs ≤ i) && decide (i ≤ interval.rhs)

/-- Source `Rules`: the entries of the map. -/
abbrev Rules := List (String × IntervalSet)

/-- Source `struct Ticket`. -/
structure Ticket where
  values : List Int
deriving DecidableEq, Repr

/-- Source `is_invalid(int, Rules)`: `std::none_of` over the entries of the map. -/
def is_invalid (value : Int) (rules : Rules) : Bool :=
  !rules.any fun p => p.2.contains value

/-- Source `is_invalid(Ticket, Rules)`: `std::any_of` over the values of the ticket. -/
def is_invalid_ticket (ticket : Ticket) (rules : Rules) : Bool :=
  ticket.values.any fun v => is_invalid v rules

/-- Source `remove_invalid`: the vector after `erase(remove_if(...), end)`, which keeps the
elements that the predicate rejects, in their order, and the difference of the sizes. -/
def remove_invalid (tickets : List Ticket) (rules : Rules) : List Ticket × Nat :=
  let n := tickets.length
  let kept := tickets.filter fun ticket => !is_invalid_ticket ticket rules
  (kept, n - kept.length)

/-- A value fits a field when it lies in one of the closed intervals of the field. -/
def fits (v : Int) (field : String × IntervalSet) : Prop :=
  ∃ interval ∈ field.2.intervals_, interval.lhs ≤ v ∧ v ≤ interval.rhs

/-- A ticket is valid when each of its values fits at least one field. -/
def valid (rules : Rules) (ticket : Ticket) : Prop :=
  ∀ v ∈ ticket.values, ∃ field ∈ rules, fits v field

instance (v : Int) (field : String × IntervalSet) : Decidable (fits v field) :=
  inferInstanceAs (Decidable (∃ interval ∈ field.2.intervals_,
    interval.lhs ≤ v ∧ v ≤ interval.rhs))

instance (rules : Rules) (ticket : Ticket) : Decidable (valid rules ticket) :=
  inferInstanceAs (Decidable (∀ v ∈ ticket.values, ∃ field ∈ rules, fits v field))

/-- The fields in the raw string `test` of `main`: `class: 1-3 or 5-7`, `row: 6-11 or 33-44`,
`seat: 13-40 or 45-50`. -/
def test_rules : Rules :=
  [("class", { intervals_ := [⟨1, 3⟩, ⟨5, 7⟩] }), ("row", { intervals_ := [⟨6, 11⟩, ⟨33, 44⟩] }),
    ("seat", { intervals_ := [⟨13, 40⟩, ⟨45, 50⟩] })]

/-- The nearby tickets in the raw string `test` of `main`. -/
def test_tickets : List Ticket :=
  [⟨[7, 3, 47]⟩, ⟨[40, 4, 50]⟩, ⟨[55, 2, 20]⟩, ⟨[38, 6, 12]⟩]

end Day16

/-!
# Advent of Code 2020, day 10: adapter chains

A shallow embedding of the counting functions of
`src/aoc/2020/Advent of Code 2020, day 10.cpp`: the memoised `count_paths` and the
brute-force `count_valid` of the `SLOW` build.

* An `int` is an integer; the one sum that can leave the range of `int`, `cpy.back()+3`, is
  undefined behaviour when it does. A `std::size_t` is a natural number below `2^64`, and its
  sums wrap.
* A vector is the list of its elements; `std::sort` gives the sorted list.
* An `std::unordered_map` is an association list in which a key occurs once, iterated from
  the newest entry to the oldest (the order of the standard library is not specified; the
  sums below do not depend on it).
* A `Node*` is the key of the node in the map that owns it: the nodes are not changed once
  they are in the map.
-/

namespace Day10

/-- What a call of the program can do: return a value, throw `std::out_of_range`, run into
undefined behaviour, or still be running when the fuel is spent. -/
inductive Run (α : Type) where
  | ret (a : α)
  | out_of_range
  | undefined
  | timeout
deriving DecidableEq, Repr

/-- Sequencing of calls: the first outcome that is not a return ends the computation. -/
def Run.bind {α β : Type} (x : Run α) (f : α → Run β) : Run β :=
  match x with
  | .ret a => f a
  | .out_of_range => .out_of_range
  | .undefined => .undefined
  | .timeout => .timeout

/-- Source `class Node`, with its members `value_` and `next_`. -/
structure Node where
  value_ : Int
  next_ : List Int
deriving DecidableEq, Repr

/-- Source `unordered_map::find`, as a lookup. -/
def find {β : Type} (m : List (Int × β)) (key : Int) : Option β :=
  match m with
  | [] => none
  | (k, b) :: rest => if k = key then some b else find rest key

/-- Source `unordered_map::emplace`: an entry whose key is there already is not replaced. -/
def emplace {β : Type} (m : List (Int × β)) (key : Int) (b : β) : List (Int × β) :=
  match find m key with
  | some _ => m
  | none => (key, b) :: m

/-- The body of the `std::for_each` of `get_nodes`: the new node points to every node of the
map whose value is at most 3 above its own. -/
def add_node (res : List (Int × Node)) (i : Int) : List (Int × Node) :=
  let p : Node :=
    { value_ := i, next_ := (res.filter fun e => decide (e.1 - i ≤ 3)).map Prod.fst }
  emplace res i p

/-- Source `get_nodes`: the nodes of the sorted values, of 0 and of the last value plus 3, and
that target. -/
def get_nodes (v : List Int) : Run (List (Int × Node) × Int) :=
  let cpy := (v ++ [0]).insertionSort (fun a b => a ≤ b)
  if 2147483647 < cpy.getLastD 0 + 3 then .undefined
  else
    let last_value := cpy.getLastD 0 + 3
    .ret ((cpy ++ [last_value]).reverse.foldl add_node [], last_value)

/-- Source `count_paths_impl`. The loop over `next_` follows each pointer to its node in
`nodes`. A node points to nodes that entered the map before it, so the depth of the recursion
is at most the number of nodes. -/
def count_paths_impl (nodes : List (Int × Node)) :
    Nat → Node → List (Int × Nat) → Run (Nat × List (Int × Nat))
  | 0, _, _ => .timeout
  | fuel + 1, root, cache =>
    match find cache root.value_ with
    | some r => .ret (r, cache)
    | none =>
      (root.next_.foldl (fun (acc : Run (Nat × List (Int × Nat))) p => acc.bind fun st =>
        match find nodes p with
        | none => .undefined
        | some node =>
          (count_paths_impl nodes fuel node st.2).bind fun r =>
            .ret ((st.1 + r.1) % 2 ^ 64, r.2)) (.ret (0, cache))).bind fun st =>
        .ret (st.1, emplace st.2 root.value_ st.1)

/-- Source `count_paths`. -/
def count_paths (v : List Int) : Run Nat :=
  (get_nodes v).bind fun g =>
    match find g.1 0 with
    | none => .out_of_range
    | some root =>
      (count_paths_impl g.1 (g.1.length + 1) root (emplace [] g.2 1)).bind fun r => .ret r.1

/-- The loop of `is_valid`: no difference of neighbours is above 3. -/
def is_valid_loop : List Int → Bool
  | a :: b :: rest => if b - a > 3 then false else is_valid_loop (b :: rest)
  | _ => true

/-- Source `is_valid` (build `SLOW`). -/
def is_valid (v : List Int) : Bool :=
  if v.length < 2 then false else is_valid_loop v

/-- Source `count_valid_impl` (build `SLOW`). The loop erases `v[i]`, calls itself and puts
the element back, so every round starts from the same `v`. Every call works on a vector that
is one element shorter, so the depth of the recursion is at most the size of `v`. -/
def count_valid_impl : Nat → List Int → Nat → Run Nat
  | 0, _, _ => .timeout
  | fuel + 1, v, first =>
    if !is_valid v then .ret 0
    else
      (List.range' first (v.length - 1 - first)).foldl (fun (acc : Run Nat) i => acc.bind fun res =>
        (count_valid_impl fuel (v.eraseIdx i) i).bind fun r => .ret ((res + r) % 2 ^ 64))
        (.ret 1)

/-- Source `count_valid` (build `SLOW`). -/
def count_valid (v : List Int) : Run Nat :=
  let cpy := (v ++ [0]).insertionSort (fun a b => a ≤ b)
  if 2147483647 < cpy.getLastD 0 + 3 then .undefined
  else count_valid_impl (cpy.length + 2) (cpy ++ [cpy.getLastD 0 + 3]) 1

/-- No difference of neighbours in the list is above 3. -/
def small_steps (l : List Int) : Prop :=
  l.Chain' (fun a b => b - a ≤ 3)

instance (l : List Int) : Decidable (small_steps l) :=
  decidable_of_iff (is_valid_loop l = true) (by
    unfold small_steps
    induction l with
    | nil => simp [is_valid_loop]
    | cons a l ih =>
      cases l with
      | nil => simp [is_valid_loop]
      | cons b rest =>
        rw [is_valid_loop, List.chain'_cons, ← ih]
        by_cases h : b - a > 3
        · rw [if_pos h]
          simp only [Bool.false_eq_true, false_iff, not_and]
          intro h'
          omega
        · rw [if_neg h]
          exact ⟨fun h' => ⟨by omega, h'⟩, fun h' => h'.2⟩)

/-- The largest value of `v`, or 0 for the outlet alone, plus 3. -/
def target (v : List Int) : Int :=
  v.foldl max 0 + 3

/-- The number of subsets of `v` that, together with 0 and the largest value plus 3, form an
increasing chain whose consecutive differences are at most 3. A subset is listed in rising
order, as a sublist of the sorted `v`. -/
def arrangements (v : List Int) : Nat :=
  ((v.insertionSort (fun a b => a ≤ b)).sublists.filter fun s =>
    decide (small_steps (0 :: s ++ [target v]))).length

/-- The vector `test` of `main`. -/
def test : List Int := [16, 10, 15, 5, 1, 11, 7, 19, 6, 12, 4]

/-- The vector `test2` of `main`. -/
def test2 : List Int :=
  [28, 33, 18, 42, 31, 14, 46, 20, 48, 47, 24, 23, 49, 45, 19, 38, 39, 11, 1, 32, 25, 35, 8, 17,
    7, 9, 4, 2, 34, 10, 3]

/-- The values `5j+3`, `5j+4`, `5j+5` for `j` below `n`: every chain has to take the first and
the last of each three and is free to take the middle one. -/
def triples (n : Nat) : List Int :=
  (List.range n).flatMap fun (j : Nat) => [5 * (j : Int) + 3, 5 * (j : Int) + 4, 5 * (j : Int) + 5]

/-- The number of sublists `s` of `mid` for which `x :: s ++ [z]` has no difference of
neighbours above 3: the first element of `mid` is left out or, when it is at most 3 above `x`,
taken. -/
def paths : Int → List Int → Int → Nat
  | x, [], z => if z - x ≤ 3 then 1 else 0
  | x, a :: mid, z => paths x mid z + (if a - x ≤ 3 then paths a mid z else 0)

/-- The number of sublists `s` of `mid` for which `pre ++ s ++ [z]` passes `is_valid`. -/
def valid_count : List Int → List Int → Int → Nat
  | pre, [], z => if is_valid (pre ++ [z]) then 1 else 0
  | pre, a :: mid, z => valid_count pre mid z + valid_count (pre ++ [a]) mid z

/-- The number of proper sublists `s` of `mid` for which `pre ++ s ++ [z]` passes `is_valid`,
counted by the first element of `mid` that they leave out. -/
def later_count : List Int → List Int → Int → Nat
  | _, [], _ => 0
  | pre, a :: mid, z => valid_count pre mid z + later_count (pre ++ [a]) mid z

/-- The nodes of `get_nodes` for the rising values `l`: each node points to the later values
that are at most 3 above its own. -/
def node_list : List Int → List (Int × Node)
  | [] => []
  | a :: rest =>
    (a, { value_ := a, next_ := rest.filter fun y => decide (y - a ≤ 3) }) :: node_list rest

/-- The node of the value `k` among the rising values `l`: it points to the values above `k`
by at most 3. -/
def node_of (l : List Int) (k : Int) : Node :=
  { value_ := k,
    next_ := (l.filter fun y => decide (k < y)).filter fun y => decide (y - k ≤ 3) }

/-- The number of chains of small steps from the value `k` to the target `z` over the values
`c`: one for the target itself. -/
def ways (c : List Int) (z k : Int) : Nat :=
  if k = z then 1 else paths k (c.filter fun y => decide (k < y)) z

/-- A cache of `count_paths_impl` is sound when it holds 1 for the target and, for every other
key, the number of its chains modulo `2^64`. -/
def sound (c : List Int) (z : Int) (cache : List (Int × Nat)) : Prop :=
  find cache z = some 1 ∧ ∀ k r, find cache k = some r → r = ways c z k % 2 ^ 64

end Day10

namespace Day19

/-! ## Shared lemmas -/

theorem Outcome.bind_eq_ret {α β : Type} (x : Outcome α) (f : α → Outcome β) (b : β) :
    x.bind f = .ret b ↔ ∃ a, x = .ret a ∧ f a = .ret b := by
  cases x <;> simp [Outcome.bind]

theorem Outcome.ret_bind {α β : Type} (a : α) (f : α → Outcome β) :
    (Outcome.ret a).bind f = f a := rfl

/-- One level of `Rule::matches`. -/
theorem Rule.matches_step (rules : iMap Rule) (fuel : Nat) (r : Rule) (s : List Char) :
    Rule.matches rules (fuel + 1) r s =
      if r.c_ ≠ Rule.missing then
        match s with
        | [] => .ret (false, [])
        | f :: rest => .ret (r.c_ == f, rest)
      else if !r.alt_.isEmpty then
        (matcher (Rule.matches rules fuel) rules r.alt_ s).bind fun matches_alt =>
        if matches_alt.1 then .ret (true, matches_alt.2)
        else matcher (Rule.matches rules fuel) rules r.v_ s
      else matcher (Rule.matches rules fuel) rules r.v_ s := rfl

/-- A terminal rule looks at the first character only. -/
theorem Rule.matches_terminal (rules : iMap Rule) (fuel : Nat) (r : Rule) (s : List Char)
    (hc : r.c_ ≠ Rule.missing) :
    Rule.matches rules (fuel + 1) r s =
      match s with
      | [] => .ret (false, [])
      | f :: rest => .ret (r.c_ == f, rest) := by
  rw [Rule.matches_step, if_pos hc]

/-- A rule without alternation runs its main list on the view itself. -/
theorem Rule.matches_sequence (rules : iMap Rule) (fuel : Nat) (r : Rule) (s : List Char)
    (hc : r.c_ = Rule.missing) (ha : r.alt_ = []) :
    Rule.matches rules (fuel + 1) r s = matcher (Rule.matches rules fuel) rules r.v_ s := by
  rw [Rule.matches_step, if_neg (by simp [hc]), ha]
  simp

/-- A rule with alternation runs `alt_` first, and `v_` only when `alt_` failed. -/
theorem Rule.matches_alternation (rules : iMap Rule) (fuel : Nat) (r : Rule) (s : List Char)
    (hc : r.c_ = Rule.missing) (ha : r.alt_ ≠ []) :
    Rule.matches rules (fuel + 1) r s =
      (matcher (Rule.matches rules fuel) rules r.alt_ s).bind fun matches_alt =>
        if matches_alt.1 then .ret (true, matches_alt.2)
        else matcher (Rule.matches rules fuel) rules r.v_ s := by
  rw [Rule.matches_step, if_neg (by simp [hc]), if_pos (by simpa using ha)]

theorem matcher_nil (call : Rule → List Char → Outcome (Bool × List Char)) (rules : iMap Rule)
    (str : List Char) : matcher call rules [] str = .ret (true, str) := rfl

theorem matcher_cons (call : Rule → List Char → Outcome (Bool × List Char)) (rules : iMap Rule)
    (i : Int) (v : List Int) (str : List Char) :
    matcher call rules (i :: v) str =
      (rules.at i).bind fun rule =>
      (call rule str).bind fun m =>
      if m.1 then matcher call rules v m.2 else .ret (false, m.2) := rfl

/-- The list matcher returns the same with a callee that returns at least as often. -/
theorem matcher_mono {call call' : Rule → List Char → Outcome (Bool × List Char)}
    (rules : iMap Rule) (h : ∀ r s x, call r s = .ret x → call' r s = .ret x) :
    ∀ (v : List Int) (s : List Char) (x : Bool × List Char),
      matcher call rules v s = .ret x → matcher call' rules v s = .ret x := by
  intro v
  induction v with
  | nil => intro s x hx; simpa [matcher_nil] using hx
  | cons i v ih =>
    intro s x hx
    rw [matcher_cons, Outcome.bind_eq_ret] at hx ⊢
    obtain ⟨rule, h1, hx⟩ := hx
    rw [Outcome.bind_eq_ret] at hx
    obtain ⟨m, h2, h3⟩ := hx
    refine ⟨rule, h1, ?_⟩
    rw [Outcome.bind_eq_ret]
    refine ⟨m, h _ _ _ h2, ?_⟩
    by_cases hm : m.1 = true
    · rw [if_pos hm] at h3 ⊢; exact ih _ _ h3
    · rw [if_neg hm] at h3 ⊢; exact h3

/-- More fuel does not change what `Rule::matches` returns. -/
theorem Rule.matches_succ (rules : iMap Rule) :
    ∀ (fuel : Nat) (r : Rule) (s : List Char) (x : Bool × List Char),
      Rule.matches rules fuel r s = .ret x → Rule.matches rules (fuel + 1) r s = .ret x := by
  intro fuel
  induction fuel with
  | zero => intro r s x h; simp [Rule.matches] at h
  | succ n ih =>
    intro r s x h
    by_cases hc : r.c_ ≠ Rule.missing
    · rw [Rule.matches_terminal rules _ r s hc] at h ⊢; exact h
    · have hc' : r.c_ = Rule.missing := by simpa using hc
      by_cases ha : r.alt_ = []
      · rw [Rule.matches_sequence rules _ r s hc' ha] at h ⊢
        exact matcher_mono rules ih _ _ _ h
      · rw [Rule.matches_alternation rules _ r s hc' ha, Outcome.bind_eq_ret] at h ⊢
        obtain ⟨m, h1, h2⟩ := h
        refine ⟨m, matcher_mono rules ih _ _ _ h1, ?_⟩
        by_cases hm : m.1 = true
        · rw [if_pos hm] at h2 ⊢; exact h2
        · rw [if_neg hm] at h2 ⊢; exact matcher_mono rules ih _ _ _ h2

theorem Rule.matches_mono (rules : iMap Rule) (fuel k : Nat) (r : Rule) (s : List Char)
    (x : Bool × List Char) (h : Rule.matches rules fuel r s = .ret x) :
    Rule.matches rules (fuel + k) r s = .ret x := by
  induction k with
  | zero => exact h
  | succ k ih => exact Rule.matches_succ rules _ r s x ih

theorem Rule.matches_mono_le (rules : iMap Rule) {fuel fuel' : Nat} (hle : fuel ≤ fuel')
    (r : Rule) (s : List Char) (x : Bool × List Char)
    (h : Rule.matches rules fuel r s = .ret x) :
    Rule.matches rules fuel' r s = .ret x := by
  obtain ⟨k, rfl⟩ := Nat.exists_eq_add_of_le hle
  exact Rule.matches_mono rules fuel k r s x h

/-- The list matcher leaves a suffix of the view when its callee does. -/
theorem matcher_suffix {call : Rule → List Char → Outcome (Bool × List Char)}
    (rules : iMap Rule) (h : ∀ r s x, call r s = .ret x → x.2 <:+ s) :
    ∀ (v : List Int) (s : List Char) (x : Bool × List Char),
      matcher call rules v s = .ret x → x.2 <:+ s := by
  intro v
  induction v with
  | nil =>
    intro s x hx
    rw [matcher_nil] at hx
    cases hx
    exact List.suffix_refl s
  | cons i v ih =>
    intro s x hx
    rw [matcher_cons, Outcome.bind_eq_ret] at hx
    obtain ⟨rule, _, hx⟩ := hx
    rw [Outcome.bind_eq_ret] at hx
    obtain ⟨m, h2, h3⟩ := hx
    have hm2 := h _ _ _ h2
    by_cases hm : m.1 = true
    · rw [if_pos hm] at h3; exact (ih _ _ h3).trans hm2
    · rw [if_neg hm] at h3; cases h3; exact hm2

/-- Whatever `Rule::matches` returns, the view it leaves is a suffix of the view it got. -/
theorem Rule.matches_suffix (rules : iMap Rule) :
    ∀ (fuel : Nat) (r : Rule) (s : List Char) (x : Bool × List Char),
      Rule.matches rules fuel r s = .ret x → x.2 <:+ s := by
  intro fuel
  induction fuel with
  | zero => intro r s x h; simp [Rule.matches] at h
  | succ n ih =>
    intro r s x h
    by_cases hc : r.c_ ≠ Rule.missing
    · rw [Rule.matches_terminal rules _ r s hc] at h
      cases s with
      | nil => cases h; exact List.suffix_refl _
      | cons f rest => cases h; exact List.suffix_cons f rest
    · have hc' : r.c_ = Rule.missing := by simpa using hc
      by_cases ha : r.alt_ = []
      · rw [Rule.matches_sequence rules _ r s hc' ha] at h
        exact matcher_suffix rules ih _ _ _ h
      · rw [Rule.matches_alternation rules _ r s hc' ha, Outcome.bind_eq_ret] at h
        obtain ⟨m, h1, h2⟩ := h
        by_cases hm : m.1 = true
        · rw [if_pos hm] at h2; cases h2; exact matcher_suffix rules ih _ _ m h1
        · rw [if_neg hm] at h2; exact matcher_suffix rules ih _ _ _ h2

/-- The list matcher at a larger depth. -/
theorem matcher_fuel_le (rules : iMap Rule) {n n' : Nat} (hle : n ≤ n') (v : List Int)
    (s : List Char) (x : Bool × List Char)
    (h : matcher (Rule.matches rules n) rules v s = .ret x) :
    matcher (Rule.matches rules n') rules v s = .ret x :=
  matcher_mono rules (fun r s x hx => Rule.matches_mono_le rules hle r s x hx) v s x h

/-- A successful run of the list matcher is a chain of successful members. -/
theorem matcher_true_chain (rules : iMap Rule) (n : Nat) :
    ∀ (v : List Int) (s s' : List Char),
      matcher (Rule.matches rules n) rules v s = .ret (true, s') → MatchChain rules v s s' := by
  intro v
  induction v with
  | nil =>
    intro s s' h
    rw [matcher_nil] at h
    cases h
    rfl
  | cons i v ih =>
    intro s s' h
    rw [matcher_cons, Outcome.bind_eq_ret] at h
    obtain ⟨rule, h1, h⟩ := h
    rw [Outcome.bind_eq_ret] at h
    obtain ⟨m, h2, h3⟩ := h
    by_cases hm : m.1 = true
    · rw [if_pos hm] at h3
      refine ⟨rule, m.2, h1, ⟨n, ?_⟩, ih _ _ h3⟩
      rw [h2, ← hm]
    · rw [if_neg hm] at h3
      cases h3

/-- A chain of successful members is a successful run of the list matcher. -/
theorem chain_matcher_true (rules : iMap Rule) :
    ∀ (v : List Int) (s s' : List Char), MatchChain rules v s s' →
      ∃ n, matcher (Rule.matches rules n) rules v s = .ret (true, s') := by
  intro v
  induction v with
  | nil =>
    intro s s' h
    cases h
    exact ⟨0, rfl⟩
  | cons i v ih =>
    intro s s' h
    obtain ⟨rule, m, h1, ⟨n1, h2⟩, h3⟩ := h
    obtain ⟨n2, h4⟩ := ih _ _ h3
    refine ⟨max n1 n2, ?_⟩
    rw [matcher_cons, h1, Outcome.ret_bind,
      Rule.matches_mono_le rules (le_max_left n1 n2) rule s _ h2, Outcome.ret_bind]
    simpa using matcher_fuel_le rules (le_max_right n1 n2) v m _ h4

/-- A chain of successful members followed by a failing member is a failing run of the list
matcher, whatever follows the failing member. -/
theorem chain_matcher_false (rules : iMap Rule) (i : Int) (post : List Int) (rule : Rule)
    (sk junk : List Char) (hi : rules.at i = .ret rule)
    (hf : rule.returns rules sk (false, junk)) :
    ∀ (pre : List Int) (s : List Char), MatchChain rules pre s sk →
      ∃ n, matcher (Rule.matches rules n) rules (pre ++ i :: post) s = .ret (false, junk) := by
  intro pre
  induction pre with
  | nil =>
    intro s h
    cases h
    obtain ⟨n, hn⟩ := hf
    refine ⟨n, ?_⟩
    rw [List.nil_append, matcher_cons, hi, Outcome.ret_bind, hn, Outcome.ret_bind]
    simp
  | cons j pre ih =>
    intro s h
    obtain ⟨rj, m, h1, ⟨n1, h2⟩, h3⟩ := h
    obtain ⟨n2, h4⟩ := ih _ h3
    refine ⟨max n1 n2, ?_⟩
    rw [List.cons_append, matcher_cons, h1, Outcome.ret_bind,
      Rule.matches_mono_le rules (le_max_left n1 n2) rj s _ h2, Outcome.ret_bind]
    simpa using matcher_fuel_le rules (le_max_right n1 n2) _ m _ h4

/-- The loop of `matches_n`, started with `times` on the counter. -/
theorem Rule.matches_n_loop_iff (rules : iMap Rule) (fuel : Nat) (r : Rule) :
    ∀ (k times : Nat) (s : List Char) (total : Nat) (s' : List Char),
      Rule.matches_n_loop rules fuel r k times s = .ret (total, s') ↔
        ∃ n, total = times + n ∧ n < k ∧ Repeats rules fuel r n s s' ∧
          ∃ junk, Rule.matches rules fuel r s' = .ret (false, junk) := by
  intro k
  induction k with
  | zero => intro times s total s'; simp [Rule.matches_n_loop]
  | succ k ih =>
    intro times s total s'
    rw [Rule.matches_n_loop, Outcome.bind_eq_ret]
    constructor
    · rintro ⟨m, h1, h2⟩
      by_cases hm : m.1 = true
      · rw [if_neg (by simp [hm]), ih] at h2
        obtain ⟨n, hn, hk, hrep, hj⟩ := h2
        refine ⟨n + 1, by omega, by omega, ⟨m.2, ?_, hrep⟩, hj⟩
        rw [h1, ← hm]
      · rw [if_pos (by simpa using hm)] at h2
        cases h2
        refine ⟨0, rfl, by omega, rfl, m.2, ?_⟩
        rw [h1]
        have : m.1 = false := by simpa using hm
        rw [← this]
    · rintro ⟨n, hn, hk, hrep, junk, hj⟩
      cases n with
      | zero =>
        cases hrep
        refine ⟨(false, junk), hj, ?_⟩
        simp [hn]
      | succ n =>
        obtain ⟨m, hm, hrep⟩ := hrep
        refine ⟨(true, m), hm, ?_⟩
        rw [if_neg (by simp), ih]
        exact ⟨n, by omega, by omega, hrep, junk, hj⟩

/-- A call of `fetch_int` on a view that is not empty shortens it. -/
theorem fetch_int_length (f : List Char) (hf : f ≠ []) :
    (fetch_int f).2.length < f.length := by
  cases f with
  | nil => exact absurd rfl hf
  | cons c cs =>
    unfold fetch_int
    by_cases hd : is_digit c = true
    · have h1 : (c :: cs).dropWhile (fun c => !is_digit c) = c :: cs := by
        simp [List.dropWhile_cons, hd]
      simp only [h1, List.dropWhile_cons, hd, if_true, List.length_cons]
      exact Nat.lt_succ_of_le (List.dropWhile_suffix _).length_le
    · have h1 : (c :: cs).dropWhile (fun c => !is_digit c)
          = cs.dropWhile (fun c => !is_digit c) := by
        simp [List.dropWhile_cons, hd]
      simp only [h1, List.length_cons]
      exact Nat.lt_succ_of_le
        (((List.dropWhile_suffix _).trans (List.dropWhile_suffix _)).length_le)

/-- The fetching loop returns, given more rounds than the view has characters; it returns the
ids it started with followed by the ids it read, and it reads one at least unless the view is
empty. -/
theorem fetch_ints_ret : ∀ (k : Nat) (f : List Char) (acc : List Int), f.length < k →
    ∃ v, fetch_ints k f acc = .ret (acc ++ v) ∧ (f ≠ [] → v ≠ []) := by
  intro k
  induction k with
  | zero => intro f acc h; omega
  | succ k ih =>
    intro f acc h
    rw [fetch_ints]
    cases f with
    | nil => exact ⟨[], by simp, fun h => absurd rfl h⟩
    | cons c cs =>
      have hlen := fetch_int_length (c :: cs) (by simp)
      obtain ⟨v, hv, _⟩ := ih (fetch_int (c :: cs)).2 (acc ++ [(fetch_int (c :: cs)).1])
        (by omega)
      refine ⟨(fetch_int (c :: cs)).1 :: v, ?_, by simp⟩
      simp only [List.isEmpty_cons, Bool.false_eq_true, if_false]
      rw [hv]
      simp

/-- The number of rounds does not matter once it exceeds the length of the view. -/
theorem fetch_ints_fuel : ∀ (k k' : Nat) (f : List Char) (acc : List Int),
    f.length < k → f.length < k' → fetch_ints k f acc = fetch_ints k' f acc := by
  intro k
  induction k with
  | zero => intro k' f acc h; omega
  | succ k ih =>
    intro k' f acc h h'
    cases k' with
    | zero => omega
    | succ k' =>
      rw [fetch_ints, fetch_ints]
      cases f with
      | nil => simp
      | cons c cs =>
        have hlen := fetch_int_length (c :: cs) (by simp)
        simp only [List.isEmpty_cons, Bool.false_eq_true, if_false]
        exact ih k' _ _ (by omega) (by omega)

theorem is_digit_ne_quote (a : Char) (ha : is_digit a = true) : a ≠ Char.ofNat 34 := by
  intro h
  subst h
  exact absurd ha (by decide)

theorem is_digit_ne_pipe (a : Char) (ha : is_digit a = true) : a ≠ '|' := by
  intro h
  subst h
  exact absurd ha (by decide)

/-- What is not a digit in front of the view is skipped by `fetch_int`. -/
theorem fetch_int_skip (c : Char) (s : List Char) (hc : is_digit c = false) :
    fetch_int (c :: s) = fetch_int s := by
  unfold fetch_int
  simp [List.dropWhile_cons, hc]

/-- The position of the pipe in a body `A | B`. -/
theorem find_pipe (a : Char) (A rest : List Char) (ha : a ≠ '|') (hA : '|' ∉ A) :
    find ((a :: A) ++ ' ' :: '|' :: rest) '|' = some (A.length + 1 + 1) := by
  have hmem : '|' ∉ a :: A := by
    simp only [List.mem_cons, not_or]
    exact ⟨fun h => ha h.symm, hA⟩
  have hidx : List.indexOf '|' ((a :: A) ++ ' ' :: '|' :: rest) = A.length + 1 + 1 := by
    rw [List.indexOf_append_of_not_mem hmem, List.indexOf_cons_ne _ (by decide),
      List.indexOf_cons_self]
    simp
  unfold find
  rw [hidx, if_pos]
  simp only [List.length_append, List.length_cons]
  omega

/-- A call of `fetch_line` on a text that is not empty shortens it. -/
theorem fetch_line_length (text : List Char) (h : text ≠ []) :
    (fetch_line text).2.length < text.length := by
  cases text with
  | nil => exact absurd rfl h
  | cons c cs =>
    unfold fetch_line
    by_cases hc : c = '\n'
    · subst hc
      simp [List.dropWhile_cons]
    · have h1 : (c :: cs).dropWhile (fun c => c != '\n') = cs.dropWhile (fun c => c != '\n') := by
        simp [List.dropWhile_cons, hc]
      simp only [h1, List.length_drop, List.length_cons]
      have := (List.dropWhile_suffix (fun c => c != '\n') (l := cs)).length_le
      omega

/-- One round of `fetch_line` takes the first test line off the text. -/
theorem split_lines_fetch_line : ∀ (text : List Char), text ≠ [] →
    split_lines text = (fetch_line text).1 :: split_lines (fetch_line text).2 := by
  intro text
  induction text with
  | nil => intro h; exact absurd rfl h
  | cons c cs ih =>
    intro _
    by_cases hc : c = '\n'
    · subst hc
      simp [split_lines, fetch_line, List.takeWhile_cons, List.dropWhile_cons]
    · have h1 : fetch_line (c :: cs) = (c :: (fetch_line cs).1, (fetch_line cs).2) := by
        simp [fetch_line, List.takeWhile_cons, List.dropWhile_cons, hc]
      rw [h1, split_lines, if_neg hc]
      cases cs with
      | nil => simp [split_lines, fetch_line]
      | cons d ds => rw [ih (by simp)]

/-- More fuel does not change what `Rule::matches_exactly` returns. -/
theorem Rule.matches_exactly_mono (rules : iMap Rule) (fuel k : Nat) (r : Rule)
    (s : List Char) (b : Bool) (h : r.matches_exactly rules fuel s = .ret b) :
    r.matches_exactly rules (fuel + k) s = .ret b := by
  unfold Rule.matches_exactly at h ⊢
  rw [Outcome.bind_eq_ret] at h ⊢
  obtain ⟨m, h1, h2⟩ := h
  exact ⟨m, Rule.matches_mono rules fuel k r s m h1, h2⟩

/-- More fuel and more rounds do not change what the loop of `matches_n` returns. -/
theorem Rule.matches_n_loop_mono (rules : iMap Rule) (r : Rule) {fuel fuel' : Nat}
    (hle : fuel ≤ fuel') :
    ∀ (k k' times : Nat) (s : List Char) (x : Nat × List Char), k ≤ k' →
      Rule.matches_n_loop rules fuel r k times s = .ret x →
      Rule.matches_n_loop rules fuel' r k' times s = .ret x := by
  intro k
  induction k with
  | zero => intro k' times s x _ h; simp [Rule.matches_n_loop] at h
  | succ k ih =>
    intro k' times s x hk h
    cases k' with
    | zero => omega
    | succ k' =>
      rw [Rule.matches_n_loop, Outcome.bind_eq_ret] at h ⊢
      obtain ⟨m, h1, h2⟩ := h
      refine ⟨m, Rule.matches_mono_le rules hle r s m h1, ?_⟩
      by_cases hm : (!m.1) = true
      · rw [if_pos hm] at h2 ⊢; exact h2
      · rw [if_neg hm] at h2 ⊢; exact ih k' _ _ _ (by omega) h2

/-- More fuel does not change what `Rule::matches_n` returns. -/
theorem Rule.matches_n_mono (rules : iMap Rule) (fuel k : Nat) (r : Rule) (s : List Char)
    (x : Nat × List Char) (h : r.matches_n rules fuel s = .ret x) :
    r.matches_n rules (fuel + k) s = .ret x :=
  Rule.matches_n_loop_mono rules r (Nat.le_add_right fuel k) fuel (fuel + k) 0 s x
    (Nat.le_add_right fuel k) h

/-- More fuel does not change what the loop of `parse_solve` returns. -/
theorem parse_solve_loop_mono (rules : iMap Rule) (fuel j : Nat) (zero : Rule) :
    ∀ (k : Nat) (text : List Char) (res x : Nat),
      parse_solve_loop rules fuel zero k text res = .ret x →
      parse_solve_loop rules (fuel + j) zero k text res = .ret x := by
  intro k
  induction k with
  | zero => intro text res x h; simp [parse_solve_loop] at h
  | succ k ih =>
    intro text res x h
    rw [parse_solve_loop] at h ⊢
    by_cases ht : text.isEmpty = true
    · rw [if_pos ht] at h ⊢; exact h
    · rw [if_neg ht, Outcome.bind_eq_ret] at h ⊢
      obtain ⟨m, h1, h2⟩ := h
      exact ⟨m, Rule.matches_exactly_mono rules fuel j zero _ m h1, ih _ _ _ h2⟩

/-- More fuel does not change what `parse_solve` returns. -/
theorem parse_solve_mono (fuel j : Nat) (text : List Char) (x : Nat)
    (h : parse_solve fuel text = .ret x) : parse_solve (fuel + j) text = .ret x := by
  unfold parse_solve at h ⊢
  rw [Outcome.bind_eq_ret] at h ⊢
  obtain ⟨p, hp, h⟩ := h
  refine ⟨p, hp, ?_⟩
  rw [Outcome.bind_eq_ret] at h ⊢
  obtain ⟨rules, hr, h⟩ := h
  refine ⟨rules, hr, ?_⟩
  rw [Outcome.bind_eq_ret] at h ⊢
  obtain ⟨zero, hz, h⟩ := h
  exact ⟨zero, hz, parse_solve_loop_mono rules fuel j zero _ _ _ _ h⟩

/-- More fuel does not change what the loop of `hack_solve` returns. -/
theorem hack_solve_loop_mono (rules : iMap Rule) (fuel j : Nat) (r42 r31 : Rule) :
    ∀ (k : Nat) (text : List Char) (res x : Nat),
      hack_solve_loop rules fuel r42 r31 k text res = .ret x →
      hack_solve_loop rules (fuel + j) r42 r31 k text res = .ret x := by
  intro k
  induction k with
  | zero => intro text res x h; simp [hack_solve_loop] at h
  | succ k ih =>
    intro text res x h
    rw [hack_solve_loop] at h ⊢
    by_cases ht : text.isEmpty = true
    · rw [if_pos ht] at h ⊢; exact h
    · rw [if_neg ht, Outcome.bind_eq_ret] at h ⊢
      obtain ⟨f, h1, h⟩ := h
      refine ⟨f, Rule.matches_n_mono rules fuel j r42 _ f h1, ?_⟩
      rw [Outcome.bind_eq_ret] at h ⊢
      obtain ⟨t, h2, h⟩ := h
      exact ⟨t, Rule.matches_n_mono rules fuel j r31 _ t h2, ih _ _ _ h⟩

/-- More fuel does not change what `hack_solve` returns. -/
theorem hack_solve_mono (fuel j : Nat) (text : List Char) (x : Nat)
    (h : hack_solve fuel text = .ret x) : hack_solve (fuel + j) text = .ret x := by
  unfold hack_solve at h ⊢
  rw [Outcome.bind_eq_ret] at h ⊢
  obtain ⟨p, hp, h⟩ := h
  refine ⟨p, hp, ?_⟩
  rw [Outcome.bind_eq_ret] at h ⊢
  obtain ⟨rules, hr, h⟩ := h
  refine ⟨rules, hr, ?_⟩
  rw [Outcome.bind_eq_ret] at h ⊢
  obtain ⟨r42, h42, h⟩ := h
  refine ⟨r42, h42, ?_⟩
  rw [Outcome.bind_eq_ret] at h ⊢
  obtain ⟨r31, h31, h⟩ := h
  exact ⟨r31, h31, hack_solve_loop_mono rules fuel j r42 r31 _ _ _ _ h⟩

/-- The loop of `hack_solve` adds to its counter the number of test lines that the policy
accepts, provided both `matches_n` calls return on every line. -/
theorem hack_solve_loop_count (rules : iMap Rule) (fuel : Nat) (r42 r31 : Rule) :
    ∀ (k : Nat) (text : List Char) (res : Nat), text.length < k →
      (∀ line ∈ split_lines text, ∃ f t, r42.matches_n rules fuel line = .ret f ∧
        r31.matches_n rules fuel f.2 = .ret t) →
      hack_solve_loop rules fuel r42 r31 k text res
        = .ret (res + (split_lines text).countP (hack_accepts rules fuel r42 r31)) := by
  intro k
  induction k with
  | zero => intro text res h; omega
  | succ k ih =>
    intro text res hlen hterm
    rw [hack_solve_loop]
    cases text with
    | nil => simp [split_lines]
    | cons c cs =>
      have hsplit := split_lines_fetch_line (c :: cs) (by simp)
      have hshort := fetch_line_length (c :: cs) (by simp)
      rw [hsplit] at hterm ⊢
      obtain ⟨f, t, hf, ht⟩ := hterm _ (List.mem_cons_self _ _)
      have hrest := ih (fetch_line (c :: cs)).2
        (if (decide (f.1 > 1) && decide (t.1 > 0) && decide (t.1 < f.1) && t.2.isEmpty) = true
          then res + 1 else res)
        (by omega) (fun line hl => hterm line (List.mem_cons_of_mem _ hl))
      simp only [List.isEmpty_cons, Bool.false_eq_true, if_false, hf, ht, Outcome.ret_bind]
      rw [hrest]
      have hacc : hack_accepts rules fuel r42 r31 (fetch_line (c :: cs)).1
          = (decide (f.1 > 1) && decide (t.1 > 0) && decide (t.1 < f.1) && t.2.isEmpty) := by
        simp only [hack_accepts, hf, ht]
        rw [Bool.eq_iff_iff]
        simp [and_assoc]
      rw [List.countP_cons, hacc]
      by_cases hb : (decide (f.1 > 1) && decide (t.1 > 0) && decide (t.1 < f.1) && t.2.isEmpty)
          = true
      · rw [if_pos hb, if_pos hb]; congr 1; omega
      · rw [if_neg hb, if_neg hb]; rfl

/-! ## The claims -/

/-- C1, counterexample. A failing `Rule::matches` can leave a view that is not the view it got.
The terminal `4: "a"` fails on `b` after it has removed the `b`; rule `0: 4 1 5` of the grammar
of `test` fails on `a` after member 4 has consumed the `a` (member 1 then fails on the empty
view, which consumes nothing). -/
theorem matches_failure_consumes :
    Rule.matches test_rules 1 (Rule.ctor 4 'a') (view "b") = .ret (false, view "") ∧
    view "" ≠ view "b" ∧
    Rule.matches test_rules 4 { v_ := [4, 1, 5], alt_ := [], c_ := '#', i_ := 0 } (view "a")
      = .ret (false, view "") ∧
    view "" ≠ view "a" := by
  decide

/-- C1, amended. When `Rule::matches` fails, the view it leaves is a suffix of the view it got,
and need not be that view: a failing terminal has removed the first character whenever there
was one. -/
theorem matches_failure_leaves_suffix (rules : iMap Rule) (fuel : Nat) (r : Rule)
    (s s' : List Char) (h : Rule.matches rules fuel r s = .ret (false, s')) :
    s' <:+ s ∧ (r.c_ ≠ Rule.missing → s' = s.tail) := by
  refine ⟨Rule.matches_suffix rules fuel r s _ h, fun hc => ?_⟩
  cases fuel with
  | zero => simp [Rule.matches] at h
  | succ n =>
    rw [Rule.matches_terminal rules n r s hc] at h
    cases s with
    | nil => cases h; rfl
    | cons f rest =>
      simp only [Outcome.ret.injEq, Prod.mk.injEq] at h
      exact h.2.symm

theorem matches_failure_leaves_suffix_witness :
    Rule.matches test_rules 1 (Rule.ctor 4 'a') (view "bab") = .ret (false, view "ab") ∧
    (view "ab" <:+ view "bab" ∧
      ((Rule.ctor 4 'a').c_ ≠ Rule.missing → view "ab" = (view "bab").tail)) :=
  ⟨by decide,
    matches_failure_leaves_suffix test_rules 1 (Rule.ctor 4 'a') (view "bab") (view "ab")
      (by decide)⟩

/-- C2, counterexample. The rule line `0: 1 | 1 1` puts the list before the pipe in `v_` and
the list after it in `alt_`. On `aa` the list before the pipe matches and leaves `a`, yet
`Rule::matches` returns with the empty view: it ran the list after the pipe, which matches
too, and never tried the list before it. -/
theorem alternation_runs_second_list_first :
    (parse_rules (view "0: 1 | 1 1\n1: \"a\"\n")).bind (fun p => solve_rules p.1)
      = .ret alt_rules ∧
    matcher (Rule.matches alt_rules 1) alt_rules [1] (view "aa") = .ret (true, view "a") ∧
    Rule.matches alt_rules 2 { v_ := [1], alt_ := [1, 1], c_ := '#', i_ := 0 } (view "aa")
      = .ret (true, view "") ∧
    view "" ≠ view "a" := by
  decide

/-- C2, amended. For a rule parsed from a body `A | B` (`A` starts with a digit and has no
pipe, `B` is not empty), the ids read from `A` are `v_` and the ids read from `B` are `alt_`, and `Rule::matches` first attempts `B`: if `B` matches from `s`
the result is success with the view `B` leaves, whatever `A` is; `A` is attempted, from the
original view `s`, only when `B` fails, and its outcome is then the outcome of the rule (so the
rule fails if both fail). -/
theorem alternation_tries_alt_first (i : Int) (a : Char) (A : List Char) (b : Char)
    (B : List Char) (ha : is_digit a = true) (hA : '|' ∉ A) :
    ∃ v alt, fetch_ints ((a :: A).length + 1) (a :: A) [] = .ret v ∧
      fetch_ints ((b :: B).length + 1) (b :: B) [] = .ret alt ∧
      solve_rule i ((a :: A) ++ view " | " ++ (b :: B))
        = .ret { v_ := v, alt_ := alt, c_ := Rule.missing, i_ := i } ∧
      ∀ (rules : iMap Rule) (fuel : Nat) (s : List Char),
        (∀ s', matcher (Rule.matches rules fuel) rules alt s = .ret (true, s') →
          Rule.matches rules (fuel + 1) { v_ := v, alt_ := alt, c_ := Rule.missing, i_ := i } s
            = .ret (true, s')) ∧
        (∀ s', matcher (Rule.matches rules fuel) rules alt s = .ret (false, s') →
          Rule.matches rules (fuel + 1) { v_ := v, alt_ := alt, c_ := Rule.missing, i_ := i } s
            = matcher (Rule.matches rules fuel) rules v s) := by
  obtain ⟨v, hv, _⟩ := fetch_ints_ret ((a :: A).length + 1) (a :: A) [] (by omega)
  obtain ⟨alt, halt, hne⟩ := fetch_ints_ret ((b :: B).length + 1) (b :: B) [] (by omega)
  rw [List.nil_append] at hv halt
  have hne' : alt ≠ [] := hne (by simp)
  refine ⟨v, alt, hv, halt, ?_, ?_⟩
  · have hbody : (a :: A) ++ view " | " ++ (b :: B)
        = a :: (A ++ ' ' :: '|' :: ' ' :: b :: B) := by
      simp [view]
    have hfind := find_pipe a A (' ' :: b :: B) (is_digit_ne_pipe a ha) hA
    rw [List.cons_append] at hfind
    rw [hbody]
    simp only [solve_rule, if_neg (is_digit_ne_quote a ha), hfind]
    have htake : (a :: (A ++ ' ' :: '|' :: ' ' :: b :: B)).take (A.length + 1) = a :: A := by
      simp
    have hdrop : (a :: (A ++ ' ' :: '|' :: ' ' :: b :: B)).drop (A.length + 1 + 1)
        = '|' :: ' ' :: b :: B := by
      simp
    rw [htake, hdrop, hv, Outcome.ret_bind]
    have hskip : fetch_ints (('|' :: ' ' :: b :: B).length + 1) ('|' :: ' ' :: b :: B) []
        = fetch_ints ((b :: B).length + 1) (b :: B) [] := by
      rw [fetch_ints, fetch_ints]
      simp only [List.isEmpty_cons, Bool.false_eq_true, if_false]
      rw [fetch_int_skip '|' _ (by decide), fetch_int_skip ' ' _ (by decide)]
      have hlen := fetch_int_length (b :: B) (by simp)
      exact fetch_ints_fuel _ _ _ _ (by simp only [List.length_cons] at hlen ⊢; omega) hlen
    rw [hskip, halt, Outcome.ret_bind]
  · intro rules fuel s
    constructor
    · intro s' h
      rw [Rule.matches_alternation rules fuel _ s rfl hne', h, Outcome.ret_bind]
      simp
    · intro s' h
      rw [Rule.matches_alternation rules fuel _ s rfl hne', h, Outcome.ret_bind]
      simp

theorem alternation_tries_alt_first_witness :
    (is_digit '2' = true ∧ '|' ∉ view " 3") ∧
    ∃ v alt, fetch_ints (('2' :: view " 3").length + 1) ('2' :: view " 3") [] = .ret v ∧
      fetch_ints (('3' :: view " 2").length + 1) ('3' :: view " 2") [] = .ret alt ∧
      solve_rule 1 (('2' :: view " 3") ++ view " | " ++ ('3' :: view " 2"))
        = .ret { v_ := v, alt_ := alt, c_ := Rule.missing, i_ := 1 } ∧
      ∀ (rules : iMap Rule) (fuel : Nat) (s : List Char),
        (∀ s', matcher (Rule.matches rules fuel) rules alt s = .ret (true, s') →
          Rule.matches rules (fuel + 1) { v_ := v, alt_ := alt, c_ := Rule.missing, i_ := 1 } s
            = .ret (true, s')) ∧
        (∀ s', matcher (Rule.matches rules fuel) rules alt s = .ret (false, s') →
          Rule.matches rules (fuel + 1) { v_ := v, alt_ := alt, c_ := Rule.missing, i_ := 1 } s
            = matcher (Rule.matches rules fuel) rules v s) :=
  ⟨by decide,
    alternation_tries_alt_first 1 '2' (view " 3") '3' (view " 2") (by decide) (by decide)⟩

/-- C3, counterexample. The terminal built with the character `#` is taken for a rule without
a character: it matches the empty view, and consumes nothing. -/
theorem terminal_hash_matches_empty :
    Rule.matches [] 1 (Rule.ctor 0 '#') [] = .ret (true, []) ∧
    Rule.matches [] 1 (Rule.ctor 0 '#') (view "#a") = .ret (true, view "#a") := by
  decide

/-- C3, amended. For every character `c` other than `#` and every view `s`, the terminal
`Rule(i, c)` returns, never throws, and its result is true exactly when `s` is not empty and
starts with `c`; the view it leaves is `s` without its first character. On the empty view it
returns false. -/
theorem terminal_matches (rules : iMap Rule) (fuel : Nat) (i : Int) (c : Char) (s : List Char)
    (hc : c ≠ Rule.missing) :
    Rule.matches rules (fuel + 1) (Rule.ctor i c) s = .ret (decide (s.head? = some c), s.tail) := by
  rw [Rule.matches_terminal rules fuel (Rule.ctor i c) s hc]
  cases s with
  | nil => rfl
  | cons f rest =>
    show Outcome.ret (c == f, rest) = .ret (decide (some f = some c), rest)
    by_cases h : c = f
    · subst h; simp
    · have h' : ¬ f = c := fun e => h e.symm
      simp [h, h']

theorem terminal_matches_witness :
    'a' ≠ Rule.missing ∧
    Rule.matches test_rules (0 + 1) (Rule.ctor 4 'a') (view "ab")
      = .ret (decide ((view "ab").head? = some 'a'), (view "ab").tail) :=
  ⟨by decide, terminal_matches test_rules 0 4 'a' (view "ab") (by decide)⟩

/-- C4. `Rule::matches_exactly` returns true exactly when `Rule::matches` returns true from
the start of the line and leaves the empty view; it returns false exactly when `matches`
returns false or leaves something. The line is passed by value: no view is handed back. -/
theorem matches_exactly_iff (rules : iMap Rule) (fuel : Nat) (r : Rule) (line : List Char) :
    (r.matches_exactly rules fuel line = .ret true ↔
      Rule.matches rules fuel r line = .ret (true, [])) ∧
    (r.matches_exactly rules fuel line = .ret false ↔
      ∃ m s', Rule.matches rules fuel r line = .ret (m, s') ∧ (m = false ∨ s' ≠ [])) := by
  unfold Rule.matches_exactly
  constructor
  · rw [Outcome.bind_eq_ret]
    constructor
    · rintro ⟨⟨m, s'⟩, h1, h2⟩
      simp only [Outcome.ret.injEq, Bool.and_eq_true, List.isEmpty_iff] at h2
      rw [h1, h2.1, h2.2]
    · intro h
      exact ⟨(true, []), h, rfl⟩
  · rw [Outcome.bind_eq_ret]
    constructor
    · rintro ⟨⟨m, s'⟩, h1, h2⟩
      refine ⟨m, s', h1, ?_⟩
      simp only [Outcome.ret.injEq, Bool.and_eq_false_iff] at h2
      rcases h2 with h2 | h2
      · exact Or.inl h2
      · right
        intro hs
        simp [hs] at h2
    · rintro ⟨m, s', h1, h2⟩
      refine ⟨(m, s'), h1, ?_⟩
      rcases h2 with h2 | h2
      · simp [h2]
      · cases s' with
        | nil => exact absurd rfl h2
        | cons a l => simp

/-- C5. A rule without alternation whose list is `r1..rn` returns true from `s0` leaving `sn`
exactly when `r1` returns true from `s0` leaving `s1`, `r2` from `s1` leaving `s2`, and so on
up to `rn` leaving `sn`. When a member fails after the members before it succeeded, the rule
returns false whatever the members after it are: they are not evaluated. -/
theorem sequence_matches_iff (rules : iMap Rule) (r : Rule) (hc : r.c_ = Rule.missing)
    (ha : r.alt_ = []) (s0 sn : List Char) :
    (r.returns rules s0 (true, sn) ↔ MatchChain rules r.v_ s0 sn) ∧
    (∀ (pre : List Int) (i : Int) (post : List Int) (rule : Rule) (sk junk : List Char),
      r.v_ = pre ++ i :: post → MatchChain rules pre s0 sk → rules.at i = .ret rule →
      rule.returns rules sk (false, junk) → r.returns rules s0 (false, junk)) := by
  constructor
  · constructor
    · rintro ⟨fuel, h⟩
      cases fuel with
      | zero => simp [Rule.matches] at h
      | succ n =>
        rw [Rule.matches_sequence rules n r s0 hc ha] at h
        exact matcher_true_chain rules n _ _ _ h
    · intro h
      obtain ⟨n, hn⟩ := chain_matcher_true rules _ _ _ h
      exact ⟨n + 1, by rw [Rule.matches_sequence rules n r s0 hc ha]; exact hn⟩
  · intro pre i post rule sk junk hv hpre hi hf
    obtain ⟨n, hn⟩ := chain_matcher_false rules i post rule sk junk hi hf pre s0 hpre
    exact ⟨n + 1, by rw [Rule.matches_sequence rules n r s0 hc ha, hv]; exact hn⟩

theorem sequence_matches_iff_witness :
    ((Rule.mk [4, 1, 5] [] '#' 0).c_ = Rule.missing ∧ (Rule.mk [4, 1, 5] [] '#' 0).alt_ = []) ∧
    MatchChain test_rules (Rule.mk [4, 1, 5] [] '#' 0).v_ (view "ababbb") [] :=
  ⟨⟨rfl, rfl⟩,
    ((sequence_matches_iff test_rules (Rule.mk [4, 1, 5] [] '#' 0) rfl rfl
      (view "ababbb") []).1).mp ⟨4, by decide⟩⟩

/-- C6. `Rule::matches_n` returns the count `n` and leaves `s'` exactly when the rule matched
`n` times in a row from `s`, each time from where the previous match stopped, the last match
leaving `s'`, and the rule fails on `s'`: what the failed attempt consumed is not kept. (The
fuel bounds the rounds of the loop: `n < fuel`.) -/
theorem matches_n_iff (rules : iMap Rule) (fuel : Nat) (r : Rule) (s : List Char) (n : Nat)
    (s' : List Char) :
    r.matches_n rules fuel s = .ret (n, s') ↔
      n < fuel ∧ Repeats rules fuel r n s s' ∧
        ∃ junk, Rule.matches rules fuel r s' = .ret (false, junk) := by
  unfold Rule.matches_n
  rw [Rule.matches_n_loop_iff]
  constructor
  · rintro ⟨k, hk, hlt, hrep, hj⟩
    have : n = k := by omega
    subst this
    exact ⟨hlt, hrep, hj⟩
  · rintro ⟨hlt, hrep, hj⟩
    exact ⟨n, by omega, hlt, hrep, hj⟩

/-- C7. `hack_solve` returns the number of test lines that the policy accepts: the lines for
which, with `f` the `matches_n` count of rule 42 from the start of the line and `t` the
`matches_n` count of rule 31 on what rule 42 left, `f > 1`, `t > 0`, `t < f` and nothing of the
line is left over. It does so whenever the grammar is built, rules 42 and 31 are in the table
and both `matches_n` calls return on every test line. -/
theorem hack_solve_counts (fuel : Nat) (text rest : List Char) (bodies : iMap (List Char))
    (rules : iMap Rule) (r42 r31 : Rule)
    (hp : parse_rules text = .ret (bodies, rest)) (hs : solve_rules bodies = .ret rules)
    (h42 : rules.at 42 = .ret r42) (h31 : rules.at 31 = .ret r31)
    (hterm : ∀ line ∈ split_lines rest, ∃ f t, r42.matches_n rules fuel line = .ret f ∧
      r31.matches_n rules fuel f.2 = .ret t) :
    hack_solve fuel text
      = .ret ((split_lines rest).countP (hack_accepts rules fuel r42 r31)) := by
  unfold hack_solve
  rw [hp, Outcome.ret_bind, hs, Outcome.ret_bind, h42, Outcome.ret_bind, h31, Outcome.ret_bind]
  have := hack_solve_loop_count rules fuel r42 r31 (rest.length + 1) rest 0 (by omega) hterm
  simpa using this

theorem hack_solve_counts_witness :
    (parse_rules hack_sample = .ret (hack_sample_bodies, view "aab\nab\naabb\n") ∧
      solve_rules hack_sample_bodies = .ret hack_sample_rules ∧
      hack_sample_rules.at 42 = .ret (Rule.ctor 42 'a') ∧
      hack_sample_rules.at 31 = .ret (Rule.ctor 31 'b') ∧
      split_lines (view "aab\nab\naabb\n") = [view "aab", view "ab", view "aabb"] ∧
      (split_lines (view "aab\nab\naabb\n")).countP
        (hack_accepts hack_sample_rules 5 (Rule.ctor 42 'a') (Rule.ctor 31 'b')) = 1) ∧
    hack_solve 5 hack_sample
      = .ret ((split_lines (view "aab\nab\naabb\n")).countP
          (hack_accepts hack_sample_rules 5 (Rule.ctor 42 'a') (Rule.ctor 31 'b'))) :=
  ⟨by decide,
    hack_solve_counts 5 hack_sample (view "aab\nab\naabb\n") hack_sample_bodies
      hack_sample_rules (Rule.ctor 42 'a') (Rule.ctor 31 'b') (by decide) (by decide)
      (by decide) (by decide) (by
        intro line hl
        have hlines : split_lines (view "aab\nab\naabb\n")
            = [view "aab", view "ab", view "aabb"] := by decide
        rw [hlines] at hl
        simp only [List.mem_cons, List.not_mem_nil, or_false] at hl
        rcases hl with rfl | rfl | rfl
        · exact ⟨(2, view "b"), (1, []), by decide, by decide⟩
        · exact ⟨(1, view "b"), (1, []), by decide, by decide⟩
        · exact ⟨(2, view "bb"), (2, []), by decide, by decide⟩)⟩

/-- C8. `parse_rules` and `solve_rules` build the grammar table of `test`, whose rule 0 is
`4 1 5`, and at every depth of recursion from 4 on `matches_exactly` on rule 0 is true for
`ababbb`, false for `bababa`, true for `abbbab` and false for `aaabbb`. -/
theorem test_matches_exactly (k : Nat) :
    (parse_rules test).bind (fun p => solve_rules p.1) = .ret test_rules ∧
    test_rules.at 0 = .ret (Rule.mk [4, 1, 5] [] '#' 0) ∧
    (Rule.mk [4, 1, 5] [] '#' 0).matches_exactly test_rules (4 + k) (view "ababbb")
      = .ret true ∧
    (Rule.mk [4, 1, 5] [] '#' 0).matches_exactly test_rules (4 + k) (view "bababa")
      = .ret false ∧
    (Rule.mk [4, 1, 5] [] '#' 0).matches_exactly test_rules (4 + k) (view "abbbab")
      = .ret true ∧
    (Rule.mk [4, 1, 5] [] '#' 0).matches_exactly test_rules (4 + k) (view "aaabbb")
      = .ret false :=
  ⟨by decide, by decide,
    Rule.matches_exactly_mono test_rules 4 k _ _ _ (by decide),
    Rule.matches_exactly_mono test_rules 4 k _ _ _ (by decide),
    Rule.matches_exactly_mono test_rules 4 k _ _ _ (by decide),
    Rule.matches_exactly_mono test_rules 4 k _ _ _ (by decide)⟩

set_option maxRecDepth 1000000 in
/-- C9. The block `test2` holds 31 rules and 15 test lines, and `parse_solve` returns 3 on it
at every depth of recursion from 8 on: three of the fifteen lines match rule 0 exactly. -/
theorem parse_solve_test2 (k : Nat) :
    (parse_rules test2).bind (fun p => .ret (p.1.length, (split_lines p.2).length))
      = .ret (31, 15) ∧
    parse_solve (8 + k) test2 = .ret 3 :=
  ⟨by decide, parse_solve_mono 8 k test2 3 (by decide)⟩

set_option maxRecDepth 1000000 in
/-- C10. The block `test2` holds 31 rules and 15 test lines, and `hack_solve` returns 12 on it
with every fuel from 9 on: twelve of the fifteen lines satisfy the acceptance policy on the
counts of rules 42 and 31. -/
theorem hack_solve_test2 (k : Nat) :
    (parse_rules test2).bind (fun p => .ret (p.1.length, (split_lines p.2).length))
      = .ret (31, 15) ∧
    hack_solve (9 + k) test2 = .ret 12 :=
  ⟨by decide, hack_solve_mono 9 k test2 12 (by decide)⟩

/-! ## Lookup errors and closed grammars -/

theorem Outcome.out_of_range_bind {α β : Type} (f : α → Outcome β) :
    (Outcome.out_of_range : Outcome α).bind f = .out_of_range := rfl

theorem Outcome.undefined_bind {α β : Type} (f : α → Outcome β) :
    (Outcome.undefined : Outcome α).bind f = .undefined := rfl

theorem Outcome.timeout_bind {α β : Type} (f : α → Outcome β) :
    (Outcome.timeout : Outcome α).bind f = .timeout := rfl

/-- The list matcher ends the same way with a callee that ends the same way whenever the
first callee does not run out of fuel. -/
theorem matcher_mono_outcome {call call' : Rule → List Char → Outcome (Bool × List Char)}
    (rules : iMap Rule) (h : ∀ r s o, call r s = o → o ≠ .timeout → call' r s = o) :
    ∀ (v : List Int) (s : List Char) (o : Outcome (Bool × List Char)),
      matcher call rules v s = o → o ≠ .timeout → matcher call' rules v s = o := by
  intro v
  induction v with
  | nil => intro s o ho _; rw [matcher_nil] at ho ⊢; exact ho
  | cons i v ih =>
    intro s o ho hne
    rw [matcher_cons] at ho ⊢
    cases hat : rules.at i with
    | ret rule =>
      rw [hat, Outcome.ret_bind] at ho
      rw [Outcome.ret_bind]
      cases hc : call rule s with
      | ret m =>
        rw [hc, Outcome.ret_bind] at ho
        rw [h _ _ _ hc (by simp), Outcome.ret_bind]
        by_cases hm : m.1 = true
        · rw [if_pos hm] at ho ⊢; exact ih _ _ ho hne
        · rw [if_neg hm] at ho ⊢; exact ho
      | out_of_range =>
        rw [hc] at ho
        rw [h _ _ _ hc (by simp)]
        exact ho
      | undefined =>
        rw [hc] at ho
        rw [h _ _ _ hc (by simp)]
        exact ho
      | timeout =>
        rw [hc, Outcome.timeout_bind] at ho
        exact absurd ho.symm hne
    | out_of_range => rw [hat] at ho; exact ho
    | undefined => rw [hat] at ho; exact ho
    | timeout => rw [hat] at ho; exact ho

/-- More fuel does not change how `Rule::matches` ends, once it ends. -/
theorem Rule.matches_succ_outcome (rules : iMap Rule) :
    ∀ (fuel : Nat) (r : Rule) (s : List Char) (o : Outcome (Bool × List Char)),
      Rule.matches rules fuel r s = o → o ≠ .timeout →
      Rule.matches rules (fuel + 1) r s = o := by
  intro fuel
  induction fuel with
  | zero =>
    intro r s o h hne
    rw [Rule.matches] at h
    exact absurd h.symm hne
  | succ n ih =>
    intro r s o h hne
    by_cases hc : r.c_ ≠ Rule.missing
    · rw [Rule.matches_terminal rules _ r s hc] at h ⊢; exact h
    · have hc' : r.c_ = Rule.missing := by simpa using hc
      by_cases ha : r.alt_ = []
      · rw [Rule.matches_sequence rules _ r s hc' ha] at h ⊢
        exact matcher_mono_outcome rules ih _ _ _ h hne
      · rw [Rule.matches_alternation rules _ r s hc' ha] at h ⊢
        cases halt : matcher (Rule.matches rules n) rules r.alt_ s with
        | ret m =>
          rw [halt, Outcome.ret_bind] at h
          rw [matcher_mono_outcome rules ih _ _ _ halt (by simp), Outcome.ret_bind]
          by_cases hm : m.1 = true
          · rw [if_pos hm] at h ⊢; exact h
          · rw [if_neg hm] at h ⊢; exact matcher_mono_outcome rules ih _ _ _ h hne
        | out_of_range =>
          rw [halt] at h
          rw [matcher_mono_outcome rules ih _ _ _ halt (by simp)]
          exact h
        | undefined =>
          rw [halt] at h
          rw [matcher_mono_outcome rules ih _ _ _ halt (by simp)]
          exact h
        | timeout =>
          rw [halt, Outcome.timeout_bind] at h
          exact absurd h.symm hne

theorem Rule.matches_mono_outcome (rules : iMap Rule) {fuel fuel' : Nat} (hle : fuel ≤ fuel')
    (r : Rule) (s : List Char) (o : Outcome (Bool × List Char))
    (h : Rule.matches rules fuel r s = o) (hne : o ≠ .timeout) :
    Rule.matches rules fuel' r s = o := by
  obtain ⟨k, rfl⟩ := Nat.exists_eq_add_of_le hle
  induction k with
  | zero => exact h
  | succ k ih => exact Rule.matches_succ_outcome rules _ r s o (ih (Nat.le_add_right _ _)) hne

/-- A call cannot both return and end in `std::out_of_range`. -/
theorem Rule.throws_not_returns (rules : iMap Rule) (r : Rule) (s : List Char)
    (h : r.throws rules s) (x : Bool × List Char) : ¬ r.returns rules s x := by
  rintro ⟨m, hm⟩
  obtain ⟨n, hn⟩ := h
  have h1 := Rule.matches_mono_outcome rules (le_max_left n m) r s _ hn (by simp)
  have h2 := Rule.matches_mono_outcome rules (le_max_right n m) r s _ hm (by simp)
  rw [h1] at h2
  cases h2

/-- A list matcher that runs into a failed lookup ends in `std::out_of_range`. -/
theorem list_throws_matcher (rules : iMap Rule) (v : List Int) (s : List Char)
    (h : ListThrows rules v s) :
    ∃ n, matcher (Rule.matches rules n) rules v s = .out_of_range := by
  obtain ⟨pre, i, post, sk, rfl, hchain, hi⟩ := h
  induction pre generalizing s with
  | nil =>
    cases hchain
    rcases hi with hi | ⟨rule, hi, n, hn⟩
    · exact ⟨0, by rw [List.nil_append, matcher_cons, hi, Outcome.out_of_range_bind]⟩
    · exact ⟨n, by rw [List.nil_append, matcher_cons, hi, Outcome.ret_bind, hn,
        Outcome.out_of_range_bind]⟩
  | cons j pre ih =>
    obtain ⟨rj, m, h1, ⟨n1, h2⟩, h3⟩ := hchain
    obtain ⟨n2, h4⟩ := ih m h3
    refine ⟨max n1 n2, ?_⟩
    rw [List.cons_append, matcher_cons, h1, Outcome.ret_bind,
      Rule.matches_mono_le rules (le_max_left n1 n2) rj s _ h2, Outcome.ret_bind]
    simp only [if_true]
    exact matcher_mono_outcome rules
      (fun r s o ho hne => Rule.matches_mono_outcome rules (le_max_right n1 n2) r s o ho hne)
      _ _ _ h4 (by simp)

/-- C12. A sequence member whose id is absent from the table ends the whole match in
`std::out_of_range`: the error comes out of the list in which the lookup fails, out of a rule
whose alternative list throws (the main list is not tried), out of a rule whose main list throws,
and so, step by step, out of every enclosing rule. It is not a return value: a call that throws
returns nothing. The lookup is lazy: when a member before the absent id fails, the rule returns
false and the absent id is not looked up. -/
theorem dangling_reference_aborts (rules : iMap Rule) (r : Rule) (s : List Char)
    (hc : r.c_ = Rule.missing) :
    (r.alt_ ≠ [] → ListThrows rules r.alt_ s → r.throws rules s) ∧
    ((r.alt_ = [] ∨ ListFails rules r.alt_ s) → ListThrows rules r.v_ s → r.throws rules s) ∧
    (r.throws rules s → ∀ x, ¬ r.returns rules s x) ∧
    (r.alt_ = [] → ∀ (pre : List Int) (j : Int) (post : List Int) (rule : Rule)
      (sk junk : List Char) (i : Int), r.v_ = pre ++ j :: post → i ∈ post →
      rules.at i = .out_of_range → MatchChain rules pre s sk → rules.at j = .ret rule →
      rule.returns rules sk (false, junk) → r.returns rules s (false, junk)) := by
  refine ⟨?_, ?_, ?_, ?_⟩
  · intro ha h
    obtain ⟨n, hn⟩ := list_throws_matcher rules _ _ h
    exact ⟨n + 1, by rw [Rule.matches_alternation rules n r s hc ha, hn,
      Outcome.out_of_range_bind]⟩
  · intro halt h
    obtain ⟨n, hn⟩ := list_throws_matcher rules _ _ h
    by_cases ha : r.alt_ = []
    · exact ⟨n + 1, by rw [Rule.matches_sequence rules n r s hc ha, hn]⟩
    · rcases halt with halt | ⟨m, junk, hm⟩
      · exact absurd halt ha
      · refine ⟨max m n + 1, ?_⟩
        rw [Rule.matches_alternation rules _ r s hc ha,
          matcher_fuel_le rules (le_max_left m n) _ _ _ hm, Outcome.ret_bind]
        simp only [Bool.false_eq_true, if_false]
        exact matcher_mono_outcome rules
          (fun r s o ho hne => Rule.matches_mono_outcome rules (le_max_right m n) r s o ho hne)
          _ _ _ hn (by simp)
  · intro h x
    exact Rule.throws_not_returns rules r s h x
  · intro ha pre j post rule sk junk i hv _ _ hpre hj hf
    obtain ⟨n, hn⟩ := chain_matcher_false rules j post rule sk junk hj hf pre s hpre
    exact ⟨n + 1, by rw [Rule.matches_sequence rules n r s hc ha, hv]; exact hn⟩

theorem dangling_reference_aborts_witness :
    (Rule.mk [1, 9] [] '#' 0).c_ = Rule.missing ∧
    (Rule.mk [1, 9] [] '#' 0).throws dangling_rules (view "ab") ∧
    (Rule.mk [1, 9] [] '#' 0).returns dangling_rules (view "b") (false, []) :=
  ⟨rfl,
    (dangling_reference_aborts dangling_rules (Rule.mk [1, 9] [] '#' 0) (view "ab") rfl).2.1
      (Or.inl rfl)
      ⟨[1], 9, [], view "b", rfl,
        ⟨Rule.mk [] [] 'a' 1, view "b", by decide, ⟨1, by decide⟩, rfl⟩, Or.inl (by decide)⟩,
    (dangling_reference_aborts dangling_rules (Rule.mk [1, 9] [] '#' 0) (view "b") rfl).2.2.2
      rfl [] 1 [9] (Rule.mk [] [] 'a' 1) (view "b") [] 9 rfl (by decide) (by decide) rfl
      (by decide) ⟨1, by decide⟩⟩

/-- The list matcher returns when its members are in the table and the callee returns. -/
theorem matcher_returns {call : Rule → List Char → Outcome (Bool × List Char)}
    (rules : iMap Rule) :
    ∀ (v : List Int) (s : List Char),
      (∀ j ∈ v, ∃ r', rules.at j = .ret r' ∧ ∀ s, ∃ x, call r' s = .ret x) →
      ∃ x, matcher call rules v s = .ret x := by
  intro v
  induction v with
  | nil => intro s _; exact ⟨_, matcher_nil call rules s⟩
  | cons i v ih =>
    intro s h
    obtain ⟨r', hi, hr'⟩ := h i (List.mem_cons_self _ _)
    obtain ⟨m, hm⟩ := hr' s
    rw [matcher_cons, hi, Outcome.ret_bind, hm, Outcome.ret_bind]
    by_cases hm1 : m.1 = true
    · rw [if_pos hm1]
      exact ih m.2 (fun j hj => h j (List.mem_cons_of_mem _ hj))
    · rw [if_neg hm1]
      exact ⟨_, rfl⟩

/-- In an acyclic closed grammar a stored rule returns at every depth above its rank. -/
theorem Rule.matches_total (rules : iMap Rule) (rank : Int → Nat) (hac : Acyclic rules rank) :
    ∀ (n : Nat) (i : Int) (r : Rule), rules.at i = .ret r → rank i < n →
      ∀ s, ∃ x, Rule.matches rules n r s = .ret x := by
  intro n
  induction n with
  | zero => intro i r _ h; omega
  | succ n ih =>
    intro i r hi hrank s
    have hmem : ∀ v : List Int, (∀ j ∈ v, j ∈ r.v_ ++ r.alt_) → ∀ s,
        ∃ x, matcher (Rule.matches rules n) rules v s = .ret x := by
      intro v hv s
      refine matcher_returns rules v s (fun j hj => ?_)
      obtain ⟨hlt, r', hr'⟩ := hac i r hi j (hv j hj)
      exact ⟨r', hr', ih j r' hr' (by omega)⟩
    by_cases hc : r.c_ ≠ Rule.missing
    · rw [Rule.matches_terminal rules _ r s hc]
      cases s with
      | nil => exact ⟨_, rfl⟩
      | cons f rest => exact ⟨_, rfl⟩
    · have hc' : r.c_ = Rule.missing := by simpa using hc
      by_cases ha : r.alt_ = []
      · rw [Rule.matches_sequence rules _ r s hc' ha]
        exact hmem r.v_ (fun j hj => List.mem_append_left _ hj) s
      · rw [Rule.matches_alternation rules _ r s hc' ha]
        obtain ⟨m, hm⟩ := hmem r.alt_ (fun j hj => List.mem_append_right _ hj) s
        rw [hm, Outcome.ret_bind]
        by_cases hm1 : m.1 = true
        · rw [if_pos hm1]; exact ⟨_, rfl⟩
        · rw [if_neg hm1]
          exact hmem r.v_ (fun j hj => List.mem_append_left _ hj) s

/-- The list matcher ends without an error when its members are in the table and the callee
ends without an error. -/
theorem matcher_noError {call : Rule → List Char → Outcome (Bool × List Char)}
    (rules : iMap Rule) :
    ∀ (v : List Int) (s : List Char),
      (∀ j ∈ v, ∃ r', rules.at j = .ret r' ∧ ∀ s, (call r' s).noError) →
      (matcher call rules v s).noError := by
  intro v
  induction v with
  | nil => intro s _; exact Or.inr ⟨_, matcher_nil call rules s⟩
  | cons i v ih =>
    intro s h
    obtain ⟨r', hi, hr'⟩ := h i (List.mem_cons_self _ _)
    rw [matcher_cons, hi, Outcome.ret_bind]
    rcases hr' s with ht | ⟨m, hm⟩
    · rw [ht]; exact Or.inl rfl
    · rw [hm, Outcome.ret_bind]
      by_cases hm1 : m.1 = true
      · rw [if_pos hm1]
        exact ih m.2 (fun j hj => h j (List.mem_cons_of_mem _ hj))
      · rw [if_neg hm1]
        exact Or.inr ⟨_, rfl⟩

/-- In a closed grammar a stored rule ends without an error at every depth. -/
theorem Rule.matches_noError (rules : iMap Rule) (rank : Int → Nat)
    (hac : Acyclic rules rank) :
    ∀ (n : Nat) (i : Int) (r : Rule), rules.at i = .ret r →
      ∀ s, (Rule.matches rules n r s).noError := by
  intro n
  induction n with
  | zero => intro i r _ s; exact Or.inl rfl
  | succ n ih =>
    intro i r hi s
    have hmem : ∀ v : List Int, (∀ j ∈ v, j ∈ r.v_ ++ r.alt_) → ∀ s,
        (matcher (Rule.matches rules n) rules v s).noError := by
      intro v hv s
      refine matcher_noError rules v s (fun j hj => ?_)
      obtain ⟨_, r', hr'⟩ := hac i r hi j (hv j hj)
      exact ⟨r', hr', ih j r' hr'⟩
    by_cases hc : r.c_ ≠ Rule.missing
    · rw [Rule.matches_terminal rules _ r s hc]
      cases s with
      | nil => exact Or.inr ⟨_, rfl⟩
      | cons f rest => exact Or.inr ⟨_, rfl⟩
    · have hc' : r.c_ = Rule.missing := by simpa using hc
      by_cases ha : r.alt_ = []
      · rw [Rule.matches_sequence rules _ r s hc' ha]
        exact hmem r.v_ (fun j hj => List.mem_append_left _ hj) s
      · rw [Rule.matches_alternation rules _ r s hc' ha]
        rcases hmem r.alt_ (fun j hj => List.mem_append_right _ hj) s with ht | ⟨m, hm⟩
        · rw [ht]; exact Or.inl rfl
        · rw [hm, Outcome.ret_bind]
          by_cases hm1 : m.1 = true
          · rw [if_pos hm1]; exact Or.inr ⟨_, rfl⟩
          · rw [if_neg hm1]
            exact hmem r.v_ (fun j hj => List.mem_append_left _ hj) s

/-- The loop of `matches_n` ends without an error when `matches` does. -/
theorem Rule.matches_n_loop_noError (rules : iMap Rule) (fuel : Nat) (r : Rule)
    (h : ∀ s, (Rule.matches rules fuel r s).noError) :
    ∀ (k times : Nat) (s : List Char), (Rule.matches_n_loop rules fuel r k times s).noError := by
  intro k
  induction k with
  | zero => intro times s; exact Or.inl rfl
  | succ k ih =>
    intro times s
    rw [Rule.matches_n_loop]
    rcases h s with ht | ⟨m, hm⟩
    · rw [ht]; exact Or.inl rfl
    · rw [hm, Outcome.ret_bind]
      by_cases hm1 : (!m.1) = true
      · rw [if_pos hm1]; exact Or.inr ⟨_, rfl⟩
      · rw [if_neg hm1]; exact ih _ _

/-- The entries of the table pass `acyclic_check` only if the table is acyclic and closed. -/
theorem acyclic_of_check (rules : iMap Rule) (rank : Int → Nat)
    (h : acyclic_check rules rank = true) : Acyclic rules rank := by
  have hmem : ∀ (m : iMap Rule) (i : Int) (r : Rule), iMap.at m i = .ret r → (i, r) ∈ m := by
    intro m
    induction m with
    | nil => intro i r h; simp [iMap.at] at h
    | cons p m ih =>
      intro i r h
      obtain ⟨k, t⟩ := p
      rw [iMap.at] at h
      by_cases hk : k = i
      · rw [if_pos hk] at h
        cases h
        subst hk
        exact List.mem_cons_self _ _
      · rw [if_neg hk] at h
        exact List.mem_cons_of_mem _ (ih i r h)
  intro i r hi j hj
  unfold acyclic_check at h
  rw [List.all_eq_true] at h
  have h1 := h (i, r) (hmem rules i r hi)
  rw [List.all_eq_true] at h1
  have h2 := h1 j hj
  simp only [Bool.and_eq_true, decide_eq_true_eq] at h2
  refine ⟨h2.1, ?_⟩
  cases hat : rules.at j with
  | ret r' => exact ⟨r', rfl⟩
  | out_of_range => rw [hat] at h2; simp at h2
  | undefined => rw [hat] at h2; simp at h2
  | timeout => rw [hat] at h2; simp at h2

/-- C13. In an acyclic grammar in which every referenced id is present, a stored rule never
raises an error: `matches` and `matches_exactly` return a value on every cursor (a non-match is
the value false) once the depth exceeds the rank of the rule, and at every fuel `matches`,
`matches_exactly` and `matches_n` either return a value or are still running. -/
theorem closed_grammar_never_raises (rules : iMap Rule) (rank : Int → Nat)
    (hac : Acyclic rules rank) (i : Int) (r : Rule) (hi : rules.at i = .ret r) (s : List Char) :
    (∃ x, Rule.matches rules (rank i + 1) r s = .ret x) ∧
    (∃ b, r.matches_exactly rules (rank i + 1) s = .ret b) ∧
    ∀ fuel, (Rule.matches rules fuel r s).noError ∧
      (r.matches_exactly rules fuel s).noError ∧ (r.matches_n rules fuel s).noError := by
  obtain ⟨x, hx⟩ := Rule.matches_total rules rank hac (rank i + 1) i r hi (by omega) s
  refine ⟨⟨x, hx⟩, ⟨x.1 && x.2.isEmpty, ?_⟩, fun fuel => ⟨?_, ?_, ?_⟩⟩
  · unfold Rule.matches_exactly
    rw [hx, Outcome.ret_bind]
  · exact Rule.matches_noError rules rank hac fuel i r hi s
  · unfold Rule.matches_exactly
    rcases Rule.matches_noError rules rank hac fuel i r hi s with ht | ⟨m, hm⟩
    · rw [ht]; exact Or.inl rfl
    · rw [hm, Outcome.ret_bind]; exact Or.inr ⟨_, rfl⟩
  · exact Rule.matches_n_loop_noError rules fuel r
      (Rule.matches_noError rules rank hac fuel i r hi) fuel 0 s

theorem closed_grammar_never_raises_witness :
    (Acyclic test_rules test_rank ∧ test_rules.at 0 = .ret (Rule.mk [4, 1, 5] [] '#' 0)) ∧
    ((∃ x, Rule.matches test_rules (test_rank 0 + 1) (Rule.mk [4, 1, 5] [] '#' 0) (view "ab")
        = .ret x) ∧
      (∃ b, (Rule.mk [4, 1, 5] [] '#' 0).matches_exactly test_rules (test_rank 0 + 1)
        (view "ab") = .ret b) ∧
      ∀ fuel, (Rule.matches test_rules fuel (Rule.mk [4, 1, 5] [] '#' 0) (view "ab")).noError ∧
        ((Rule.mk [4, 1, 5] [] '#' 0).matches_exactly test_rules fuel (view "ab")).noError ∧
        ((Rule.mk [4, 1, 5] [] '#' 0).matches_n test_rules fuel (view "ab")).noError) :=
  ⟨⟨acyclic_of_check test_rules test_rank (by decide), by decide⟩,
    closed_grammar_never_raises test_rules test_rank
      (acyclic_of_check test_rules test_rank (by decide)) 0 (Rule.mk [4, 1, 5] [] '#' 0)
      (by decide) (view "ab")⟩

/-- In an acyclic closed grammar without nullable rules a stored rule fails on the empty
view. -/
theorem Rule.matches_nil_false (rules : iMap Rule) (rank : Int → Nat) (hac : Acyclic rules rank)
    (hnn : ∀ i r, rules.at i = .ret r → r.c_ ≠ Rule.missing ∨ r.v_ ≠ []) :
    ∀ (n : Nat) (i : Int) (r : Rule), rules.at i = .ret r → rank i < n →
      Rule.matches rules n r [] = .ret (false, []) := by
  intro n
  induction n with
  | zero => intro i r _ h; omega
  | succ n ih =>
    intro i r hi hrank
    have hmem : ∀ v : List Int, v ≠ [] → (∀ j ∈ v, j ∈ r.v_ ++ r.alt_) →
        matcher (Rule.matches rules n) rules v [] = .ret (false, []) := by
      intro v hv hsub
      cases v with
      | nil => exact absurd rfl hv
      | cons j v =>
        obtain ⟨hlt, r', hr'⟩ := hac i r hi j (hsub j (List.mem_cons_self _ _))
        rw [matcher_cons, hr', Outcome.ret_bind, ih j r' hr' (by omega), Outcome.ret_bind]
        simp
    by_cases hc : r.c_ ≠ Rule.missing
    · rw [Rule.matches_terminal rules _ r [] hc]
    · have hc' : r.c_ = Rule.missing := by simpa using hc
      have hv : r.v_ ≠ [] := (hnn i r hi).resolve_left hc
      by_cases ha : r.alt_ = []
      · rw [Rule.matches_sequence rules _ r [] hc' ha]
        exact hmem r.v_ hv (fun j hj => List.mem_append_left _ hj)
      · rw [Rule.matches_alternation rules _ r [] hc' ha,
          hmem r.alt_ ha (fun j hj => List.mem_append_right _ hj), Outcome.ret_bind]
        simp only [Bool.false_eq_true, if_false]
        exact hmem r.v_ hv (fun j hj => List.mem_append_left _ hj)

/-- C16. In an acyclic grammar with every referenced id present in which every rule is a
terminal or has a main list that is not empty (an alternative list, when there is one, never is
empty), `matches_exactly` on the empty line returns false for every stored rule, at every depth
above the rank of the rule. -/
theorem empty_line_never_matches (rules : iMap Rule) (rank : Int → Nat)
    (hac : Acyclic rules rank)
    (hnn : ∀ i r, rules.at i = .ret r → r.c_ ≠ Rule.missing ∨ r.v_ ≠ [])
    (i : Int) (r : Rule) (hi : rules.at i = .ret r) (k : Nat) :
    r.matches_exactly rules (rank i + 1 + k) [] = .ret false := by
  have h := Rule.matches_nil_false rules rank hac hnn (rank i + 1 + k) i r hi (by omega)
  unfold Rule.matches_exactly
  rw [h, Outcome.ret_bind]
  rfl

theorem empty_line_never_matches_witness :
    (Acyclic test_rules test_rank ∧
      (∀ i r, test_rules.at i = .ret r → r.c_ ≠ Rule.missing ∨ r.v_ ≠ []) ∧
      test_rules.at 1 = .ret (Rule.mk [2, 3] [3, 2] '#' 1)) ∧
    (Rule.mk [2, 3] [3, 2] '#' 1).matches_exactly test_rules (test_rank 1 + 1 + 0) []
      = .ret false :=
  have hnn : ∀ i r, test_rules.at i = .ret r → r.c_ ≠ Rule.missing ∨ r.v_ ≠ [] := by
    intro i r h
    simp only [test_rules, iMap.at] at h
    repeat' split at h
    all_goals first
      | (cases h; decide)
      | exact absurd h (by simp)
  ⟨⟨acyclic_of_check test_rules test_rank (by decide), hnn, by decide⟩,
    empty_line_never_matches test_rules test_rank
      (acyclic_of_check test_rules test_rank (by decide)) hnn 1 (Rule.mk [2, 3] [3, 2] '#' 1)
      (by decide) 0⟩

/-! ## Blocks of lines -/

/-- A line that ends in a newline is what `fetch_line` fetches. -/
theorem fetch_line_line (line rest : List Char) (h : '\n' ∉ line) :
    fetch_line (line ++ '\n' :: rest) = (line, rest) := by
  induction line with
  | nil => simp [fetch_line, List.takeWhile_cons, List.dropWhile_cons]
  | cons c cs ih =>
    have hc : c ≠ '\n' := fun e => h (by simp [e])
    have hcs : '\n' ∉ cs := fun e => h (List.mem_cons_of_mem _ e)
    have := ih hcs
    simp only [fetch_line, Prod.mk.injEq] at this
    simp [fetch_line, List.takeWhile_cons, List.dropWhile_cons, hc, this.1, this.2]

/-- The rule lines take at least as many characters as there are lines. -/
theorem unlines_length (lines : List (List Char)) : lines.length ≤ (unlines lines).length := by
  induction lines with
  | nil => simp [unlines]
  | cons l ls ih => simp only [unlines, List.length_cons, List.length_append]; omega

/-- The loop of `parse_rules` on rule lines followed by a blank line. -/
theorem parse_rules_loop_block :
    ∀ (lines : List (List Char)), (∀ l ∈ lines, l ≠ [] ∧ '\n' ∉ l) →
      ∀ (k : Nat) (X : List Char) (res : iMap (List Char)), lines.length < k →
        parse_rules_loop k (unlines lines ++ '\n' :: X) res
          = (parse_lines lines res).bind fun b => .ret (b, X) := by
  intro lines
  induction lines with
  | nil =>
    intro _ k X res hk
    cases k with
    | zero => omega
    | succ k =>
      have hf : fetch_line ('\n' :: X) = ([], X) := fetch_line_line [] X (by simp)
      rw [unlines, List.nil_append, parse_rules_loop, hf]
      simp [parse_lines, Outcome.ret_bind]
  | cons l ls ih =>
    intro h k X res hk
    cases k with
    | zero => omega
    | succ k =>
      obtain ⟨hne, hnl⟩ := h l (List.mem_cons_self _ _)
      have hrest := ih (fun l' hl' => h l' (List.mem_cons_of_mem _ hl')) k X
      have hfetch : fetch_line (unlines (l :: ls) ++ '\n' :: X)
          = (l, unlines ls ++ '\n' :: X) := by
        rw [unlines, List.append_assoc, List.cons_append]
        exact fetch_line_line l _ hnl
      rw [parse_rules_loop, hfetch, parse_lines]
      have hl : l.isEmpty = false := by
        cases l with
        | nil => exact absurd rfl hne
        | cons c cs => rfl
      simp only [hl, Bool.false_eq_true, if_false]
      by_cases hshort : (fetch_int l).2.length < 2
      · rw [if_pos hshort, if_pos hshort]; rfl
      · rw [if_neg hshort, if_neg hshort]
        exact hrest _ (by simp only [List.length_cons] at hk; omega)

/-- The function `parse_rules` on rule lines followed by a blank line and a rest: the table of
the rule lines, and the rest. -/
theorem parse_rules_block (lines : List (List Char)) (h : ∀ l ∈ lines, l ≠ [] ∧ '\n' ∉ l)
    (X : List Char) :
    parse_rules (unlines lines ++ '\n' :: X)
      = (parse_lines lines []).bind fun b => .ret (b, X) := by
  unfold parse_rules
  refine parse_rules_loop_block lines h _ X [] ?_
  have := unlines_length lines
  simp only [List.length_append, List.length_cons]
  omega

/-- Test lines put one after the other split into the lines of each part, when the first part
is empty or ends in a newline. -/
theorem split_lines_append (u t2 : List Char) :
    split_lines ((u ++ ['\n']) ++ t2) = split_lines (u ++ ['\n']) ++ split_lines t2 := by
  induction u with
  | nil => simp [split_lines]
  | cons c cs ih =>
    by_cases hc : c = '\n'
    · subst hc
      simp only [List.cons_append, List.nil_append, List.append_assoc] at ih ⊢
      rw [split_lines, if_pos rfl, ih, split_lines, if_pos rfl]
      rfl
    · have hne : split_lines (cs ++ ['\n']) ≠ [] := by
        rw [split_lines_fetch_line _ (by simp)]
        simp
      simp only [List.cons_append, List.nil_append, List.append_assoc] at ih ⊢
      rw [split_lines, if_neg hc, ih, split_lines, if_neg hc]
      cases hs : split_lines (cs ++ ['\n']) with
      | nil => exact absurd hs hne
      | cons l ls => simp

/-- The loop of `parse_solve` adds to its counter the number of test lines on which
`matches_exactly` returns true, provided `matches_exactly` returns on every line. -/
theorem parse_solve_loop_count (rules : iMap Rule) (fuel : Nat) (zero : Rule) :
    ∀ (k : Nat) (text : List Char) (res : Nat), text.length < k →
      (∀ line ∈ split_lines text, ∃ b, zero.matches_exactly rules fuel line = .ret b) →
      parse_solve_loop rules fuel zero k text res
        = .ret (res + (split_lines text).countP (exact_verdict rules fuel zero)) := by
  intro k
  induction k with
  | zero => intro text res h; omega
  | succ k ih =>
    intro text res hlen hterm
    rw [parse_solve_loop]
    cases text with
    | nil => simp [split_lines]
    | cons c cs =>
      have hsplit := split_lines_fetch_line (c :: cs) (by simp)
      have hshort := fetch_line_length (c :: cs) (by simp)
      rw [hsplit] at hterm ⊢
      obtain ⟨b, hb⟩ := hterm _ (List.mem_cons_self _ _)
      have hrest := ih (fetch_line (c :: cs)).2 (res + (if b = true then 1 else 0))
        (by omega) (fun line hl => hterm line (List.mem_cons_of_mem _ hl))
      simp only [List.isEmpty_cons, Bool.false_eq_true, if_false, hb, Outcome.ret_bind]
      rw [hrest, List.countP_cons]
      have hv : exact_verdict rules fuel zero (fetch_line (c :: cs)).1 = b := by
        unfold exact_verdict
        rw [hb]
        cases b <;> simp
      rw [hv]
      congr 1
      omega

/-- C17. On an input block (the rule lines and the blank line, then the test lines),
`parse_solve` returns the number of test lines on which `matches_exactly` on rule 0 is true,
provided it returns on every line. The verdict on a line depends on the grammar and on that
line only: for test lines cut in two after a newline, `parse_solve` on the whole block returns
the sum of what it returns on the block with the first part and on the block with the second
part. -/
theorem parse_solve_counts (fuel : Nat) (head t1 t2 : List Char) (bodies : iMap (List Char))
    (rules : iMap Rule) (zero : Rule)
    (hp : ∀ X, parse_rules (head ++ X) = .ret (bodies, X))
    (hs : solve_rules bodies = .ret rules) (h0 : rules.at 0 = .ret zero)
    (hcut : t1 = [] ∨ ∃ u, t1 = u ++ ['\n'])
    (hterm : ∀ line ∈ split_lines (t1 ++ t2),
      ∃ b, zero.matches_exactly rules fuel line = .ret b) :
    parse_solve fuel (head ++ (t1 ++ t2))
      = .ret ((split_lines (t1 ++ t2)).countP (exact_verdict rules fuel zero)) ∧
    parse_solve fuel (head ++ t1)
      = .ret ((split_lines t1).countP (exact_verdict rules fuel zero)) ∧
    parse_solve fuel (head ++ t2)
      = .ret ((split_lines t2).countP (exact_verdict rules fuel zero)) ∧
    (split_lines (t1 ++ t2)).countP (exact_verdict rules fuel zero)
      = (split_lines t1).countP (exact_verdict rules fuel zero)
        + (split_lines t2).countP (exact_verdict rules fuel zero) := by
  have hsplit : split_lines (t1 ++ t2) = split_lines t1 ++ split_lines t2 := by
    rcases hcut with rfl | ⟨u, rfl⟩
    · simp [split_lines]
    · exact split_lines_append u t2
  have hrun : ∀ X : List Char,
      (∀ line ∈ split_lines X, ∃ b, zero.matches_exactly rules fuel line = .ret b) →
      parse_solve fuel (head ++ X)
        = .ret ((split_lines X).countP (exact_verdict rules fuel zero)) := by
    intro X hX
    unfold parse_solve
    rw [hp X, Outcome.ret_bind, hs, Outcome.ret_bind, h0, Outcome.ret_bind]
    have := parse_solve_loop_count rules fuel zero (X.length + 1) X 0 (by omega) hX
    simpa using this
  refine ⟨hrun _ hterm, hrun _ ?_, hrun _ ?_, ?_⟩
  · intro line hl
    exact hterm line (by rw [hsplit]; exact List.mem_append_left _ hl)
  · intro line hl
    exact hterm line (by rw [hsplit]; exact List.mem_append_right _ hl)
  · rw [hsplit, List.countP_append]

theorem parse_solve_counts_witness :
    ((∀ X, parse_rules ((unlines test_rule_lines ++ ['\n']) ++ X) = .ret (test_bodies, X)) ∧
      solve_rules test_bodies = .ret test_rules ∧
      test_rules.at 0 = .ret (Rule.mk [4, 1, 5] [] '#' 0) ∧
      (unlines test_rule_lines ++ ['\n'])
        ++ (view "ababbb\nbababa\n" ++ view "abbbab\naaabbb\naaaabbb\n") = test ∧
      (split_lines (view "ababbb\nbababa\n")).countP
        (exact_verdict test_rules 4 (Rule.mk [4, 1, 5] [] '#' 0)) = 1 ∧
      (split_lines (view "abbbab\naaabbb\naaaabbb\n")).countP
        (exact_verdict test_rules 4 (Rule.mk [4, 1, 5] [] '#' 0)) = 1) ∧
    parse_solve 4 ((unlines test_rule_lines ++ ['\n'])
        ++ (view "ababbb\nbababa\n" ++ view "abbbab\naaabbb\naaaabbb\n"))
      = .ret ((split_lines (view "ababbb\nbababa\n")).countP
          (exact_verdict test_rules 4 (Rule.mk [4, 1, 5] [] '#' 0))
        + (split_lines (view "abbbab\naaabbb\naaaabbb\n")).countP
          (exact_verdict test_rules 4 (Rule.mk [4, 1, 5] [] '#' 0))) :=
  have hp : ∀ X, parse_rules ((unlines test_rule_lines ++ ['\n']) ++ X)
      = .ret (test_bodies, X) := by
    intro X
    have hb : parse_lines test_rule_lines [] = .ret test_bodies := by decide
    have := parse_rules_block test_rule_lines (by decide) X
    rw [hb, Outcome.ret_bind] at this
    rw [List.append_assoc]
    exact this
  have hall := parse_solve_counts 4 (unlines test_rule_lines ++ ['\n'])
    (view "ababbb\nbababa\n") (view "abbbab\naaabbb\naaaabbb\n") test_bodies test_rules
    (Rule.mk [4, 1, 5] [] '#' 0) hp (by decide) (by decide)
    (Or.inr ⟨view "ababbb\nbababa", by decide⟩) (by
      intro line hl
      have hlines : split_lines (view "ababbb\nbababa\n" ++ view "abbbab\naaabbb\naaaabbb\n")
          = [view "ababbb", view "bababa", view "abbbab", view "aaabbb", view "aaaabbb"] := by
        decide
      rw [hlines] at hl
      simp only [List.mem_cons, List.not_mem_nil, or_false] at hl
      rcases hl with rfl | rfl | rfl | rfl | rfl
      · exact ⟨true, by decide⟩
      · exact ⟨false, by decide⟩
      · exact ⟨true, by decide⟩
      · exact ⟨false, by decide⟩
      · exact ⟨false, by decide⟩)
  ⟨⟨hp, by decide, by decide, by decide, by decide, by decide⟩, by rw [hall.1, hall.2.2.2]⟩

/-! ## Bodies of any shape -/

/-- The loop body of `solve_rules` builds a rule from every body but the empty one and the
lone quote, on which it reads outside the view. -/
theorem solve_rule_cases (i : Int) (s : List Char) :
    ((s = [] ∨ s = [Char.ofNat 34]) ∧ solve_rule i s = .undefined) ∨
    (¬ (s = [] ∨ s = [Char.ofNat 34]) ∧ ∃ r, solve_rule i s = .ret r) := by
  cases s with
  | nil => exact Or.inl ⟨Or.inl rfl, rfl⟩
  | cons c0 cs =>
    by_cases hq : c0 = Char.ofNat 34
    · subst hq
      cases cs with
      | nil => exact Or.inl ⟨Or.inr rfl, by simp [solve_rule]⟩
      | cons c1 rest => exact Or.inr ⟨by simp, Rule.ctor i c1, by simp [solve_rule]⟩
    · refine Or.inr ⟨by simp [hq], ?_⟩
      simp only [solve_rule, if_neg hq]
      generalize hf : (match find (c0 :: cs) '|' with
        | none => c0 :: cs
        | some 0 => c0 :: cs
        | some (p + 1) => (c0 :: cs).take p) = f
      obtain ⟨v, hv, _⟩ := fetch_ints_ret (f.length + 1) f [] (by omega)
      rw [hv, Outcome.ret_bind]
      cases find (c0 :: cs) '|' with
      | none => exact ⟨_, rfl⟩
      | some p =>
        obtain ⟨alt, halt, _⟩ := fetch_ints_ret (((c0 :: cs).drop p).length + 1)
          ((c0 :: cs).drop p) [] (by omega)
        simp only [halt, Outcome.ret_bind]
        exact ⟨_, rfl⟩

/-- The loop of `solve_rules` returns a table or reads outside a view. -/
theorem solve_rules_loop_cases :
    ∀ (bodies : iMap (List Char)) (res : iMap Rule),
      solve_rules_loop bodies res = .undefined ∨ ∃ rules, solve_rules_loop bodies res = .ret rules := by
  intro bodies
  induction bodies with
  | nil => intro res; exact Or.inr ⟨res, rfl⟩
  | cons p bodies ih =>
    intro res
    obtain ⟨i, s⟩ := p
    rw [solve_rules_loop]
    rcases solve_rule_cases i s with ⟨_, h⟩ | ⟨_, r, h⟩
    · rw [h]; exact Or.inl rfl
    · rw [h, Outcome.ret_bind]; exact ih _

/-- The loop of `parse_rules` returns a table or reads outside a view, given more rounds than
the text has characters. -/
theorem parse_rules_loop_cases :
    ∀ (k : Nat) (s : List Char) (res : iMap (List Char)), s.length < k →
      parse_rules_loop k s res = .undefined ∨ ∃ p, parse_rules_loop k s res = .ret p := by
  intro k
  induction k with
  | zero => intro s res h; omega
  | succ k ih =>
    intro s res hk
    rw [parse_rules_loop]
    by_cases he : (fetch_line s).1.isEmpty = true
    · rw [if_pos he]; exact Or.inr ⟨_, rfl⟩
    · rw [if_neg he]
      simp only
      by_cases hshort : (fetch_int (fetch_line s).1).2.length < 2
      · rw [if_pos hshort]; exact Or.inl rfl
      · rw [if_neg hshort]
        cases s with
        | nil => simp [fetch_line] at he
        | cons c cs =>
          have := fetch_line_length (c :: cs) (by simp)
          exact ih _ _ (by omega)

/-- C11, counterexample. A body without digits and a body with two pipes are not of the three
shapes, yet grammar construction returns a grammar for both: the body `x` becomes the list of the
one id 0, and in `1 | 2 | 3` all that follows the first pipe becomes the alternative list. -/
theorem malformed_bodies_are_accepted :
    build_grammar (view "0: x\n") = .ret [(0, { v_ := [0], alt_ := [], c_ := '#', i_ := 0 })] ∧
    build_grammar (view "0: 1 | 2 | 3\n")
      = .ret [(0, { v_ := [1], alt_ := [2, 3], c_ := '#', i_ := 0 })] := by
  decide

/-- A run of digits whose number fits an `int` is read without overflow: the wrapped sums are
the sums. -/
theorem foldl_int_wrap (ds : List Char) (hds : ∀ c ∈ ds, is_digit c = true) :
    ∀ init : Int, 0 ≤ init →
      init ≤ ds.foldl (fun (res : Int) c => res * 10 + ((c.toNat : Int) - 48)) init ∧
      (ds.foldl (fun (res : Int) c => res * 10 + ((c.toNat : Int) - 48)) init ≤ 2147483647 →
        ds.foldl (fun (res : Int) c => int_wrap (res * 10 + ((c.toNat : Int) - 48))) init
          = ds.foldl (fun (res : Int) c => res * 10 + ((c.toNat : Int) - 48)) init) := by
  induction ds with
  | nil => intro init _; exact ⟨le_rfl, fun _ => rfl⟩
  | cons c ds ih =>
    intro init hinit
    have hc := hds c (List.mem_cons_self _ _)
    simp only [is_digit, Bool.and_eq_true, decide_eq_true_eq] at hc
    obtain ⟨h1, h2⟩ := ih (fun c' hc' => hds c' (List.mem_cons_of_mem _ hc'))
      (init * 10 + ((c.toNat : Int) - 48)) (by omega)
    rw [List.foldl_cons, List.foldl_cons]
    refine ⟨by omega, fun hfit => ?_⟩
    have hw : int_wrap (init * 10 + ((c.toNat : Int) - 48))
        = init * 10 + ((c.toNat : Int) - 48) := by
      unfold int_wrap
      omega
    rw [hw]
    exact h2 hfit

/-- What `fetch_int` reads of a view without overflowing numerals is a number between 0 and
`2^31 - 1`, and what it leaves has no overflowing numeral either. -/
theorem fetch_int_fits (f : List Char) (hf : fits_int f) :
    (0 ≤ (fetch_int f).1 ∧ (fetch_int f).1 ≤ 2147483647) ∧ fits_int (fetch_int f).2 := by
  have hdig : ∀ c ∈ (f.dropWhile (fun c => !is_digit c)).takeWhile is_digit,
      is_digit c = true := fun c hc => List.mem_takeWhile_imp hc
  have hinfix : (f.dropWhile (fun c => !is_digit c)).takeWhile is_digit <:+: f :=
    (List.takeWhile_prefix _).isInfix.trans (List.dropWhile_suffix _).isInfix
  have hval := hf _ hinfix hdig
  obtain ⟨h0, hw⟩ := foldl_int_wrap _ hdig 0 le_rfl
  refine ⟨?_, fun ds hds hd => hf ds (hds.trans
    ((List.dropWhile_suffix _).trans (List.dropWhile_suffix _)).isInfix) hd⟩
  unfold numeral at hval
  unfold fetch_int
  simp only []
  rw [hw hval]
  exact ⟨h0, hval⟩

/-- The fetching loop on a view without overflowing numerals returns ids between 0 and
`2^31 - 1`. -/
theorem fetch_ints_fits : ∀ (k : Nat) (f : List Char) (acc : List Int), f.length < k →
    fits_int f →
    ∃ v, fetch_ints k f acc = .ret (acc ++ v) ∧ ∀ id ∈ v, 0 ≤ id ∧ id ≤ 2147483647 := by
  intro k
  induction k with
  | zero => intro f acc h; omega
  | succ k ih =>
    intro f acc h hf
    rw [fetch_ints]
    cases f with
    | nil => exact ⟨[], by simp, fun id hid => absurd hid (List.not_mem_nil id)⟩
    | cons c cs =>
      have hlen := fetch_int_length (c :: cs) (by simp)
      obtain ⟨hval, hrest⟩ := fetch_int_fits (c :: cs) hf
      obtain ⟨v, hv, hvfit⟩ := ih (fetch_int (c :: cs)).2 (acc ++ [(fetch_int (c :: cs)).1])
        (by omega) hrest
      refine ⟨(fetch_int (c :: cs)).1 :: v, ?_, fun id hid => ?_⟩
      · simp only [List.isEmpty_cons, Bool.false_eq_true, if_false]
        rw [hv]
        simp
      · rcases List.mem_cons.mp hid with rfl | hid
        · exact hval
        · exact hvfit id hid

/-- The loop body of `solve_rules` on a body without overflowing numerals, other than the
empty body and the lone quote: it returns a rule whose ids lie between 0 and `2^31 - 1`. -/
theorem solve_rule_fits (i : Int) (s : List Char) (hs : ¬ (s = [] ∨ s = [Char.ofNat 34]))
    (hf : fits_int s) :
    ∃ r, solve_rule i s = .ret r ∧ ∀ id ∈ r.v_ ++ r.alt_, 0 ≤ id ∧ id ≤ 2147483647 := by
  cases s with
  | nil => exact absurd (Or.inl rfl) hs
  | cons c0 cs =>
    by_cases hq : c0 = Char.ofNat 34
    · subst hq
      cases cs with
      | nil => exact absurd (Or.inr rfl) hs
      | cons c1 rest =>
        exact ⟨Rule.ctor i c1, by simp [solve_rule], fun id hid => by simp [Rule.ctor] at hid⟩
    · simp only [solve_rule, if_neg hq]
      have hfits : fits_int (match find (c0 :: cs) '|' with
          | none => c0 :: cs
          | some 0 => c0 :: cs
          | some (p + 1) => (c0 :: cs).take p) := by
        cases find (c0 :: cs) '|' with
        | none => exact hf
        | some p =>
          cases p with
          | zero => exact hf
          | succ p => exact fun ds hds hd => hf ds (hds.trans (List.take_prefix _ _).isInfix) hd
      generalize (match find (c0 :: cs) '|' with
        | none => c0 :: cs
        | some 0 => c0 :: cs
        | some (p + 1) => (c0 :: cs).take p) = f at hfits
      obtain ⟨v, hv, hvfit⟩ := fetch_ints_fits (f.length + 1) f [] (by omega) hfits
      rw [List.nil_append] at hv
      rw [hv, Outcome.ret_bind]
      cases find (c0 :: cs) '|' with
      | none =>
        refine ⟨_, rfl, fun id hid => ?_⟩
        rw [List.append_nil] at hid
        exact hvfit id hid
      | some p =>
        obtain ⟨alt, halt, haltfit⟩ := fetch_ints_fits (((c0 :: cs).drop p).length + 1)
          ((c0 :: cs).drop p) [] (by omega)
          (fun ds hds hd => hf ds (hds.trans (List.drop_suffix _ _).isInfix) hd)
        rw [List.nil_append] at halt
        simp only [halt, Outcome.ret_bind]
        refine ⟨_, rfl, fun id hid => ?_⟩
        rcases List.mem_append.mp hid with hid | hid
        · exact hvfit id hid
        · exact haltfit id hid

/-- A numeral above `2^31 - 1` overflows the `int` of `fetch_int`: the compiled program reads
`2147483648` as `-2147483648` and `4294967296` as 0, and builds the rule of the body
`99999999999` with the id 1215752191. -/
theorem fetch_int_overflow :
    fetch_int (view "2147483648") = (-2147483648, []) ∧
    fetch_int (view "4294967296") = (0, []) ∧
    ¬ fits_int (view "99999999999") ∧
    solve_rule 0 (view "99999999999")
      = .ret { v_ := [1215752191], alt_ := [], c_ := Rule.missing, i_ := 0 } := by
  refine ⟨by decide, by decide, fun h => ?_, by decide⟩
  have := h (view "99999999999") List.infix_rfl (by decide)
  exact absurd this (by decide)

/-- C11, amended. Grammar construction has no malformed-grammar error. The loop body of
`solve_rules` builds a rule from every body, whatever its shape, except the empty body and the
body that is a lone quote, on which it reads outside the view, and a body with a numeral above
`2^31 - 1`, which overflows the `int` of `fetch_int` (undefined behaviour each, no error is
reported): from every other body it returns a rule, with ids between 0 and `2^31 - 1`. And
`solve_rules(parse_rules(text))` reports no error for any text: it returns a grammar or runs
into undefined behaviour. -/
theorem grammar_construction_never_rejects (i : Int) (s : List Char) (text : List Char) :
    ((s = [] ∨ s = [Char.ofNat 34]) → solve_rule i s = .undefined) ∧
    (¬ (s = [] ∨ s = [Char.ofNat 34]) → fits_int s →
      ∃ r, solve_rule i s = .ret r ∧ ∀ id ∈ r.v_ ++ r.alt_, 0 ≤ id ∧ id ≤ 2147483647) ∧
    (build_grammar text = .undefined ∨ ∃ rules, build_grammar text = .ret rules) := by
  refine ⟨?_, ?_, ?_⟩
  · intro h
    rcases solve_rule_cases i s with ⟨_, h'⟩ | ⟨hn, _⟩
    · exact h'
    · exact absurd h hn
  · intro h hf
    exact solve_rule_fits i s h hf
  · unfold build_grammar parse_rules
    rcases parse_rules_loop_cases (text.length + 1) text [] (by omega) with h | ⟨p, h⟩
    · rw [h]; exact Or.inl rfl
    · rw [h, Outcome.ret_bind]
      exact solve_rules_loop_cases p.1 []

/-! ## Blocks of well-formed rule lines -/

theorem digitChar_is_digit (k : Nat) (hk : k < 10) :
    is_digit (Nat.digitChar k) = true ∧ ((Nat.digitChar k).toNat : Int) - 48 = k := by
  interval_cases k <;> exact ⟨by decide, by decide⟩

/-- The numeral that `toDigitsCore` puts in front of `ds`. -/
theorem toDigitsCore_spec :
    ∀ (fuel n : Nat) (ds : List Char), n < fuel →
      ∃ pre, Nat.toDigitsCore 10 fuel n ds = pre ++ ds ∧ pre ≠ [] ∧
        (∀ c ∈ pre, is_digit c = true) ∧
        ∀ init : Int, pre.foldl (fun (res : Int) c => res * 10 + ((c.toNat : Int) - 48)) init
          = init * 10 ^ pre.length + n := by
  intro fuel
  induction fuel with
  | zero => intro n ds h; omega
  | succ fuel ih =>
    intro n ds hn
    have hd := digitChar_is_digit (n % 10) (Nat.mod_lt _ (by decide))
    rw [Nat.toDigitsCore]
    by_cases h0 : n / 10 = 0
    · simp only [h0, if_true]
      refine ⟨[Nat.digitChar (n % 10)], rfl, by simp, by simpa using hd.1, fun init => ?_⟩
      have hlt : n < 10 := by omega
      simp only [List.foldl_cons, List.foldl_nil, List.length_singleton, pow_one]
      rw [hd.2, Nat.mod_eq_of_lt hlt]
    · simp only [h0, if_false]
      obtain ⟨pre, hpre, hne, hdig, hval⟩ := ih (n / 10) (Nat.digitChar (n % 10) :: ds)
        (by omega)
      refine ⟨pre ++ [Nat.digitChar (n % 10)], by rw [hpre]; simp, by simp, ?_, fun init => ?_⟩
      · intro c hc
        rcases List.mem_append.mp hc with hc | hc
        · exact hdig c hc
        · simp only [List.mem_singleton] at hc
          rw [hc]; exact hd.1
      · rw [List.foldl_append, hval, List.foldl_cons, List.foldl_nil, hd.2, List.length_append,
          List.length_singleton, pow_succ]
        have : (n : Int) = ((n / 10 : Nat) : Int) * 10 + ((n % 10 : Nat) : Int) := by
          have := Nat.div_add_mod n 10
          omega
        rw [this]
        push_cast
        ring

theorem decimal_spec (n : Nat) :
    decimal n ≠ [] ∧ (∀ c ∈ decimal n, is_digit c = true) ∧
      (decimal n).foldl (fun (res : Int) c => res * 10 + ((c.toNat : Int) - 48)) 0 = n := by
  obtain ⟨pre, hpre, hne, hdig, hval⟩ := toDigitsCore_spec (n + 1) n [] (by omega)
  have : decimal n = pre := by rw [decimal, Nat.toDigits, hpre, List.append_nil]
  rw [this]
  exact ⟨hne, hdig, by rw [hval 0]; simp⟩


/-- Characters that are not digits are skipped up to the first digit. -/
theorem dropWhile_not_digit (pre : List Char) (d : Char) (s : List Char)
    (hpre : ∀ c ∈ pre, is_digit c = false) (hd : is_digit d = true) :
    (pre ++ d :: s).dropWhile (fun c => !is_digit c) = d :: s := by
  induction pre with
  | nil => simp [List.dropWhile_cons, hd]
  | cons c cs ih =>
    have hc := hpre c (List.mem_cons_self _ _)
    rw [List.cons_append, List.dropWhile_cons]
    simp only [hc, Bool.not_false, if_true]
    exact ih (fun c' hc' => hpre c' (List.mem_cons_of_mem _ hc'))

/-- A run of digits is read up to the first character that is not a digit. -/
theorem takeWhile_digits (ds rest : List Char) (hds : ∀ c ∈ ds, is_digit c = true)
    (hrest : ∀ c ∈ rest.head?, is_digit c = false) :
    (ds ++ rest).takeWhile is_digit = ds ∧ (ds ++ rest).dropWhile is_digit = rest := by
  induction ds with
  | nil =>
    cases rest with
    | nil => simp
    | cons c cs =>
      have hc : is_digit c = false := hrest c (by simp)
      simp [List.takeWhile_cons, List.dropWhile_cons, hc]
  | cons c cs ih =>
    have hc := hds c (List.mem_cons_self _ _)
    have := ih (fun c' hc' => hds c' (List.mem_cons_of_mem _ hc'))
    simp [List.takeWhile_cons, List.dropWhile_cons, hc, this.1, this.2]

/-- The numeral of `n`, below `2^31`, after characters that are not digits, is read as `n` by
`fetch_int`, which leaves what follows the numeral. -/
theorem fetch_int_decimal (pre : List Char) (n : Nat) (rest : List Char) (hn : n < 2 ^ 31)
    (hpre : ∀ c ∈ pre, is_digit c = false) (hrest : ∀ c ∈ rest.head?, is_digit c = false) :
    fetch_int (pre ++ (decimal n ++ rest)) = ((n : Int), rest) := by
  obtain ⟨hne, hdig, hval⟩ := decimal_spec n
  obtain ⟨d, ds, hd⟩ := List.exists_cons_of_ne_nil hne
  have hdd : is_digit d = true := hdig d (by rw [hd]; exact List.mem_cons_self _ _)
  have hdrop : (pre ++ (decimal n ++ rest)).dropWhile (fun c => !is_digit c)
      = decimal n ++ rest := by
    rw [hd, List.cons_append]
    exact dropWhile_not_digit pre d _ hpre hdd
  have htd := takeWhile_digits (decimal n) rest hdig hrest
  have hwrap := (foldl_int_wrap (decimal n) hdig 0 le_rfl).2 (by rw [hval]; omega)
  unfold fetch_int
  simp only [hdrop, htd.1, htd.2, hwrap, hval]

/-- An id list starts with a digit and holds digits and blanks only. -/
theorem render_ids_chars : ∀ (ids : List Nat), ids ≠ [] →
    (∃ d t, render_ids ids = d :: t ∧ is_digit d = true) ∧
      ∀ c ∈ render_ids ids, is_digit c = true ∨ c = ' ' := by
  intro ids
  induction ids with
  | nil => intro h; exact absurd rfl h
  | cons i ids ih =>
    intro _
    obtain ⟨hne, hdig, _⟩ := decimal_spec i
    obtain ⟨d, ds, hd⟩ := List.exists_cons_of_ne_nil hne
    have hdd : is_digit d = true := hdig d (by rw [hd]; exact List.mem_cons_self _ _)
    cases ids with
    | nil =>
      rw [render_ids]
      exact ⟨⟨d, ds, hd, hdd⟩, fun c hc => Or.inl (hdig c hc)⟩
    | cons j ids =>
      rw [render_ids]
      refine ⟨⟨d, ds ++ ' ' :: render_ids (j :: ids), by rw [hd]; rfl, hdd⟩, fun c hc => ?_⟩
      rcases List.mem_append.mp hc with hc | hc
      · exact Or.inl (hdig c hc)
      · rcases List.mem_cons.mp hc with hc | hc
        · exact Or.inr hc
        · exact (ih (by simp)).2 c hc

theorem head_not_digit (c : Char) (t : List Char) (hc : is_digit c = false) :
    ∀ c' ∈ (c :: t).head?, is_digit c' = false := by
  intro c' h
  simp only [List.head?_cons, Option.mem_def, Option.some.injEq] at h
  rw [← h]; exact hc

theorem all_not_digit_one (c : Char) (hc : is_digit c = false) :
    ∀ c' ∈ [c], is_digit c' = false := by
  intro c' h
  rw [List.mem_singleton] at h
  rw [h]; exact hc

/-- The fetching loop on an empty view returns what it has. -/
theorem fetch_ints_nil (k : Nat) (acc : List Int) (hk : 0 < k) :
    fetch_ints k [] acc = .ret acc := by
  cases k with
  | zero => omega
  | succ k => simp [fetch_ints]

/-- The fetching loop reads an id list as its ids, also after characters that are not
digits. -/
theorem fetch_ints_render : ∀ (ids : List Nat), ids ≠ [] → (∀ i ∈ ids, i < 2 ^ 31) →
    ∀ (pre : List Char) (k : Nat) (acc : List Int), (∀ c ∈ pre, is_digit c = false) →
      (pre ++ render_ids ids).length < k →
      fetch_ints k (pre ++ render_ids ids) acc = .ret (acc ++ ids.map Int.ofNat) := by
  intro ids
  induction ids with
  | nil => intro h; exact absurd rfl h
  | cons i ids ih =>
    intro _ hfit pre k acc hpre hk
    have hi := hfit i (List.mem_cons_self _ _)
    obtain ⟨hne, _, _⟩ := decimal_spec i
    have hlen : 0 < (decimal i).length := List.length_pos.mpr hne
    cases k with
    | zero => omega
    | succ k =>
      cases ids with
      | nil =>
        rw [render_ids] at hk ⊢
        have hf := fetch_int_decimal pre i [] hi hpre (by simp)
        rw [List.append_nil] at hf
        have hne' : (pre ++ decimal i).isEmpty = false := by
          cases hp : pre ++ decimal i with
          | nil => exact absurd (List.append_eq_nil.mp hp).2 hne
          | cons c cs => rfl
        rw [fetch_ints, hne', hf]
        simp only [Bool.false_eq_true, if_false]
        rw [fetch_ints_nil k _ (by simp only [List.length_append] at hk; omega)]
        simp
      | cons j ids =>
        rw [render_ids] at hk ⊢
        have hf := fetch_int_decimal pre i (' ' :: render_ids (j :: ids)) hi hpre
          (head_not_digit ' ' _ (by decide))
        have hne' : (pre ++ (decimal i ++ ' ' :: render_ids (j :: ids))).isEmpty = false := by
          cases hp : pre ++ (decimal i ++ ' ' :: render_ids (j :: ids)) with
          | nil =>
            exact absurd (List.append_eq_nil.mp (List.append_eq_nil.mp hp).2).1 hne
          | cons c cs => rfl
        rw [fetch_ints, hne', hf]
        simp only [Bool.false_eq_true, if_false]
        have := ih (by simp) (fun i' hi' => hfit i' (List.mem_cons_of_mem _ hi')) [' '] k
          (acc ++ [(i : Int)]) (all_not_digit_one ' ' (by decide))
          (by simp only [List.length_append, List.length_cons, List.singleton_append] at hk ⊢
              omega)
        rw [List.singleton_append] at this
        rw [this]
        simp

/-- No pipe and no newline stands in an id list. -/
theorem render_ids_no_pipe (ids : List Nat) (hne : ids ≠ []) :
    '|' ∉ render_ids ids ∧ '\n' ∉ render_ids ids := by
  have h := (render_ids_chars ids hne).2
  constructor
  · intro hmem
    rcases h _ hmem with h1 | h1
    · exact absurd h1 (by decide)
    · exact absurd h1 (by decide)
  · intro hmem
    rcases h _ hmem with h1 | h1
    · exact absurd h1 (by decide)
    · exact absurd h1 (by decide)

/-- The loop body of `solve_rules` builds from a well-formed body the rule of its shape. -/
theorem solve_rule_render (i : Int) (b : Body) (hwf : b.wf) :
    solve_rule i b.render = .ret (b.rule i) := by
  cases b with
  | terminal c => simp [solve_rule, Body.render, Body.rule]
  | sequence ids =>
    obtain ⟨hne, hfit⟩ := hwf
    obtain ⟨⟨d, t, hdt, hd⟩, _⟩ := render_ids_chars ids hne
    have hpipe := (render_ids_no_pipe ids hne).1
    have hfind : find (d :: t) '|' = none := by
      rw [hdt] at hpipe
      unfold find
      rw [if_neg]
      rw [List.indexOf_eq_length.mpr hpipe]
      exact lt_irrefl _
    have hread := fetch_ints_render ids hne hfit [] ((d :: t).length + 1) []
      (fun c hc => absurd hc (List.not_mem_nil c)) (by rw [List.nil_append, hdt]; omega)
    rw [List.nil_append, hdt, List.nil_append] at hread
    simp only [Body.render, Body.rule, hdt]
    simp only [solve_rule, if_neg (is_digit_ne_quote d hd), hfind, hread, Outcome.ret_bind]
  | alternation l1 l2 =>
    obtain ⟨⟨hne1, hfit1⟩, ⟨hne2, hfit2⟩⟩ := hwf
    obtain ⟨⟨d, t, hdt, hd⟩, _⟩ := render_ids_chars l1 hne1
    have hpipe : '|' ∉ t := by
      have := (render_ids_no_pipe l1 hne1).1
      rw [hdt] at this
      exact fun h => this (List.mem_cons_of_mem _ h)
    have hfind := find_pipe d t (' ' :: render_ids l2) (is_digit_ne_pipe d hd) hpipe
    rw [List.cons_append] at hfind
    have htake : (d :: (t ++ ' ' :: '|' :: ' ' :: render_ids l2)).take (t.length + 1)
        = d :: t := by
      simp
    have hdrop : (d :: (t ++ ' ' :: '|' :: ' ' :: render_ids l2)).drop (t.length + 1 + 1)
        = '|' :: ' ' :: render_ids l2 := by
      simp
    have hread1 := fetch_ints_render l1 hne1 hfit1 [] ((d :: t).length + 1) []
      (fun c hc => absurd hc (List.not_mem_nil c)) (by rw [List.nil_append, hdt]; omega)
    rw [List.nil_append, hdt, List.nil_append] at hread1
    have hread2 := fetch_ints_render l2 hne2 hfit2 ['|', ' ']
      (('|' :: ' ' :: render_ids l2).length + 1) []
      (by
        intro c hc
        simp only [List.mem_cons, List.mem_singleton, List.not_mem_nil, or_false] at hc
        rcases hc with rfl | rfl <;> decide)
      (by simp)
    rw [List.nil_append] at hread2
    have hs : ['|', ' '] ++ render_ids l2 = '|' :: ' ' :: render_ids l2 := rfl
    rw [hs] at hread2
    simp only [Body.render, Body.rule, hdt, List.cons_append]
    simp only [solve_rule, if_neg (is_digit_ne_quote d hd), hfind, htake, hdrop, hread1,
      hread2, Outcome.ret_bind]

/-- A new key is appended to the table by `emplace`. -/
theorem emplace_of_not_mem {T : Type} : ∀ (m : iMap T) (i : Int) (t : T),
    i ∉ m.map Prod.fst → iMap.emplace m i t = m ++ [(i, t)] := by
  intro m
  induction m with
  | nil => intro i t _; rfl
  | cons p m ih =>
    intro i t h
    obtain ⟨k, u⟩ := p
    have hk : k ≠ i := fun e => h (by simp [e])
    have hm : i ∉ m.map Prod.fst := fun e => h (by simp [e])
    rw [iMap.emplace, if_neg hk, ih i t hm]
    rfl

/-- A rule line is read as its id and its body, is not empty and holds no newline. -/
theorem render_line_facts (p : Nat × Body) (hid : p.1 < 2 ^ 31) (hwf : p.2.wf) :
    fetch_int (render_line p) = ((p.1 : Int), ':' :: ' ' :: p.2.render) ∧
      render_line p ≠ [] ∧ '\n' ∉ render_line p := by
  obtain ⟨hne, hdig, _⟩ := decimal_spec p.1
  refine ⟨?_, ?_, ?_⟩
  · have := fetch_int_decimal [] p.1 (':' :: ' ' :: p.2.render) hid
      (fun c hc => absurd hc (List.not_mem_nil c)) (head_not_digit ':' _ (by decide))
    rw [List.nil_append] at this
    exact this
  · intro h
    exact hne (List.append_eq_nil.mp h).1
  · intro h
    rcases List.mem_append.mp h with h | h
    · exact absurd (hdig _ h) (by decide)
    · rcases List.mem_cons.mp h with h | h
      · exact absurd h (by decide)
      · rcases List.mem_cons.mp h with h | h
        · exact absurd h (by decide)
        · cases hb : p.2 with
          | terminal c =>
            rw [hb] at h hwf
            simp only [Body.render, List.mem_cons, List.mem_singleton, List.not_mem_nil,
              or_false] at h
            rcases h with h | h | h
            · exact absurd h (by decide)
            · exact hwf h.symm
            · exact absurd h (by decide)
          | sequence ids =>
            rw [hb] at h hwf
            exact (render_ids_no_pipe ids hwf.1).2 h
          | alternation l1 l2 =>
            rw [hb] at h hwf
            rcases List.mem_append.mp h with h | h
            · exact (render_ids_no_pipe l1 hwf.1.1).2 h
            · rcases List.mem_cons.mp h with h | h
              · exact absurd h (by decide)
              · rcases List.mem_cons.mp h with h | h
                · exact absurd h (by decide)
                · rcases List.mem_cons.mp h with h | h
                  · exact absurd h (by decide)
                  · exact (render_ids_no_pipe l2 hwf.2.1).2 h

/-- The rule lines of a block become the table of their bodies, in the order of the lines. -/
theorem parse_lines_block : ∀ (block : List (Nat × Body)) (res : iMap (List Char)),
    (∀ p ∈ block, p.1 < 2 ^ 31 ∧ p.2.wf) → (block.map Prod.fst).Nodup →
    (∀ p ∈ block, (p.1 : Int) ∉ res.map Prod.fst) →
    parse_lines (block.map render_line) res
      = .ret (res ++ block.map fun p => ((p.1 : Int), p.2.render)) := by
  intro block
  induction block with
  | nil => intro res _ _ _; simp [parse_lines]
  | cons p ps ih =>
    intro res hwf hnd hres
    obtain ⟨hfetch, _, _⟩ := render_line_facts p (hwf p (List.mem_cons_self _ _)).1
      (hwf p (List.mem_cons_self _ _)).2
    rw [List.map_cons, List.nodup_cons] at hnd
    rw [List.map_cons, parse_lines, hfetch]
    simp only [List.length_cons, List.drop_succ_cons, List.drop_zero]
    rw [if_neg (by omega), emplace_of_not_mem res _ _ (hres p (List.mem_cons_self _ _)),
      ih _ (fun q hq => hwf q (List.mem_cons_of_mem _ hq)) hnd.2]
    · simp
    · intro q hq hmem
      rw [List.map_append, List.mem_append] at hmem
      rcases hmem with hmem | hmem
      · exact hres q (List.mem_cons_of_mem _ hq) hmem
      · simp only [List.map_cons, List.map_nil, List.mem_singleton, Nat.cast_inj] at hmem
        exact hnd.1 (by rw [← hmem]; exact List.mem_map_of_mem _ hq)

/-- The bodies of a block become the rules of their shapes, in the order of the lines. -/
theorem solve_rules_loop_block : ∀ (block : List (Nat × Body)) (res : iMap Rule),
    (∀ p ∈ block, p.2.wf) → (block.map Prod.fst).Nodup →
    (∀ p ∈ block, (p.1 : Int) ∉ res.map Prod.fst) →
    solve_rules_loop (block.map fun p => ((p.1 : Int), p.2.render)) res
      = .ret (res ++ Block.table block) := by
  intro block
  induction block with
  | nil => intro res _ _ _; simp [solve_rules_loop, Block.table]
  | cons p ps ih =>
    intro res hwf hnd hres
    rw [List.map_cons, List.nodup_cons] at hnd
    rw [List.map_cons, solve_rules_loop, solve_rule_render _ _ (hwf p (List.mem_cons_self _ _)),
      Outcome.ret_bind, emplace_of_not_mem res _ _ (hres p (List.mem_cons_self _ _)),
      ih _ (fun q hq => hwf q (List.mem_cons_of_mem _ hq)) hnd.2]
    · simp [Block.table]
    · intro q hq hmem
      rw [List.map_append, List.mem_append] at hmem
      rcases hmem with hmem | hmem
      · exact hres q (List.mem_cons_of_mem _ hq) hmem
      · simp only [List.map_cons, List.map_nil, List.mem_singleton, Nat.cast_inj] at hmem
        exact hnd.1 (by rw [← hmem]; exact List.mem_map_of_mem _ hq)

/-- The loop of `parse_rules` on rule lines followed by the end of the text. -/
theorem parse_rules_loop_block_end :
    ∀ (lines : List (List Char)), (∀ l ∈ lines, l ≠ [] ∧ '\n' ∉ l) →
      ∀ (k : Nat) (res : iMap (List Char)), lines.length < k →
        parse_rules_loop k (unlines lines) res
          = (parse_lines lines res).bind fun b => .ret (b, []) := by
  intro lines
  induction lines with
  | nil =>
    intro _ k res hk
    cases k with
    | zero => omega
    | succ k => simp [unlines, parse_rules_loop, fetch_line, parse_lines, Outcome.ret_bind]
  | cons l ls ih =>
    intro h k res hk
    cases k with
    | zero => omega
    | succ k =>
      obtain ⟨hne, hnl⟩ := h l (List.mem_cons_self _ _)
      have hrest := ih (fun l' hl' => h l' (List.mem_cons_of_mem _ hl')) k
      have hfetch : fetch_line (unlines (l :: ls)) = (l, unlines ls) := by
        rw [unlines]
        exact fetch_line_line l _ hnl
      rw [parse_rules_loop, hfetch, parse_lines]
      have hl : l.isEmpty = false := by
        cases l with
        | nil => exact absurd rfl hne
        | cons c cs => rfl
      simp only [hl, Bool.false_eq_true, if_false]
      by_cases hshort : (fetch_int l).2.length < 2
      · rw [if_pos hshort, if_pos hshort]; rfl
      · rw [if_neg hshort, if_neg hshort]
        exact hrest _ (by simp only [List.length_cons] at hk; omega)

/-- The function `parse_rules` on a well-formed block followed by a blank line and a rest, and
on a well-formed block that ends the text. -/
theorem parse_rules_wf_block (block : List (Nat × Body)) (hwf : Block.wf block)
    (X : List Char) :
    parse_rules (Block.text block ++ '\n' :: X)
      = .ret (block.map (fun p => ((p.1 : Int), p.2.render)), X) ∧
    parse_rules (Block.text block)
      = .ret (block.map (fun p => ((p.1 : Int), p.2.render)), []) := by
  have hlines : ∀ l ∈ block.map render_line, l ≠ [] ∧ '\n' ∉ l := by
    intro l hl
    obtain ⟨p, hp, rfl⟩ := List.mem_map.mp hl
    exact (render_line_facts p (hwf.2 p hp).1 (hwf.2 p hp).2).2
  have hparse := parse_lines_block block [] (fun p hp => hwf.2 p hp) hwf.1
    (fun p _ h => absurd h (List.not_mem_nil _))
  rw [List.nil_append] at hparse
  constructor
  · rw [Block.text, parse_rules_block _ hlines X, hparse, Outcome.ret_bind]
  · unfold parse_rules
    rw [Block.text, parse_rules_loop_block_end _ hlines _ []
      (by have := unlines_length (block.map render_line); omega), hparse, Outcome.ret_bind]

/-- The function `solve_rules` on the bodies of a well-formed block. -/
theorem solve_rules_wf_block (block : List (Nat × Body)) (hwf : Block.wf block) :
    solve_rules (block.map fun p => ((p.1 : Int), p.2.render)) = .ret (Block.table block) := by
  have := solve_rules_loop_block block [] (fun p hp => (hwf.2 p hp).2) hwf.1
    (fun p _ h => absurd h (List.not_mem_nil _))
  rw [List.nil_append] at this
  exact this

/-- What is stored under a key is an entry of the table. -/
theorem at_ret_mem {T : Type} : ∀ (m : iMap T) (i : Int) (t : T),
    iMap.at m i = .ret t → (i, t) ∈ m := by
  intro m
  induction m with
  | nil => intro i t h; simp [iMap.at] at h
  | cons p m ih =>
    intro i t h
    obtain ⟨k, u⟩ := p
    rw [iMap.at] at h
    by_cases hk : k = i
    · rw [if_pos hk] at h
      cases h
      subst hk
      exact List.mem_cons_self _ _
    · rw [if_neg hk] at h
      exact List.mem_cons_of_mem _ (ih i t h)

/-- An entry of a table with distinct keys is what is stored under its key. -/
theorem at_of_mem {T : Type} : ∀ (m : iMap T) (i : Int) (t : T),
    (m.map Prod.fst).Nodup → (i, t) ∈ m → iMap.at m i = .ret t := by
  intro m
  induction m with
  | nil => intro i t _ h; exact absurd h (List.not_mem_nil _)
  | cons p m ih =>
    intro i t hnd h
    obtain ⟨k, u⟩ := p
    rw [List.map_cons, List.nodup_cons] at hnd
    rw [iMap.at]
    rcases List.mem_cons.mp h with h | h
    · cases h
      rw [if_pos rfl]
    · have hk : k ≠ i := by
        intro e
        subst e
        exact hnd.1 (List.mem_map.mpr ⟨(k, t), h, rfl⟩)
      rw [if_neg hk]
      exact ih i t hnd.2 h

/-- A lookup returns an entry or throws. -/
theorem at_cases {T : Type} : ∀ (m : iMap T) (i : Int),
    iMap.at m i = .out_of_range ∨ ∃ t, iMap.at m i = .ret t := by
  intro m
  induction m with
  | nil => intro i; exact Or.inl rfl
  | cons p m ih =>
    intro i
    obtain ⟨k, u⟩ := p
    rw [iMap.at]
    by_cases hk : k = i
    · rw [if_pos hk]; exact Or.inr ⟨u, rfl⟩
    · rw [if_neg hk]; exact ih i

/-- Tables with distinct keys and the same entries answer every lookup alike. -/
theorem at_perm {T : Type} (m m' : iMap T) (hperm : m.Perm m')
    (hnd : (m.map Prod.fst).Nodup) (i : Int) : iMap.at m i = iMap.at m' i := by
  have hnd' : (m'.map Prod.fst).Nodup := (hperm.map Prod.fst).nodup_iff.mp hnd
  rcases at_cases m i with h | ⟨t, h⟩
  · rcases at_cases m' i with h' | ⟨t', h'⟩
    · rw [h, h']
    · have := at_of_mem m i t' hnd (hperm.mem_iff.mpr (at_ret_mem m' i t' h'))
      rw [h] at this
      cases this
  · rw [h, at_of_mem m' i t hnd' (hperm.mem_iff.mp (at_ret_mem m i t h))]

/-- The keys of the table of a well-formed block are distinct. -/
theorem table_nodup (block : List (Nat × Body)) (hwf : Block.wf block) :
    ((Block.table block).map Prod.fst).Nodup := by
  have : (Block.table block).map Prod.fst = (block.map Prod.fst).map (fun n : Nat => (n : Int)) := by
    simp [Block.table, List.map_map, Function.comp]
  rw [this]
  exact hwf.1.map (fun a b h => by exact_mod_cast h)

/-- The list matcher asks the table for lookups only. -/
theorem matcher_congr (call : Rule → List Char → Outcome (Bool × List Char))
    (rules rules' : iMap Rule) (h : ∀ i, rules.at i = rules'.at i) :
    ∀ (v : List Int) (s : List Char), matcher call rules v s = matcher call rules' v s := by
  intro v
  induction v with
  | nil => intro s; rfl
  | cons i v ih =>
    intro s
    rw [matcher_cons, matcher_cons, h i]
    congr 1
    funext rule
    congr 1
    funext m
    rw [ih]

/-- The function `Rule::matches` asks the table for lookups only. -/
theorem Rule.matches_congr (rules rules' : iMap Rule) (h : ∀ i, rules.at i = rules'.at i) :
    ∀ (fuel : Nat), Rule.matches rules fuel = Rule.matches rules' fuel := by
  intro fuel
  induction fuel with
  | zero => funext r s; rfl
  | succ n ih =>
    funext r s
    rw [Rule.matches_step, Rule.matches_step, ih]
    simp only [matcher_congr (Rule.matches rules' n) rules rules' h]

/-- The loop of `matches_n` asks the table for lookups only. -/
theorem Rule.matches_n_congr (rules rules' : iMap Rule) (h : ∀ i, rules.at i = rules'.at i)
    (fuel : Nat) (r : Rule) :
    ∀ (k times : Nat) (s : List Char),
      Rule.matches_n_loop rules fuel r k times s = Rule.matches_n_loop rules' fuel r k times s := by
  intro k
  induction k with
  | zero => intro times s; rfl
  | succ k ih =>
    intro times s
    rw [Rule.matches_n_loop, Rule.matches_n_loop, Rule.matches_congr rules rules' h fuel]
    congr 1
    funext m
    rw [ih]

/-- The loop of `parse_solve` asks the table for lookups only. -/
theorem parse_solve_loop_congr (rules rules' : iMap Rule) (h : ∀ i, rules.at i = rules'.at i)
    (fuel : Nat) (zero : Rule) :
    ∀ (k : Nat) (text : List Char) (res : Nat),
      parse_solve_loop rules fuel zero k text res
        = parse_solve_loop rules' fuel zero k text res := by
  intro k
  induction k with
  | zero => intro text res; rfl
  | succ k ih =>
    intro text res
    rw [parse_solve_loop, parse_solve_loop]
    unfold Rule.matches_exactly
    rw [Rule.matches_congr rules rules' h fuel]
    simp only [ih]

/-- The loop of `hack_solve` asks the table for lookups only. -/
theorem hack_solve_loop_congr (rules rules' : iMap Rule) (h : ∀ i, rules.at i = rules'.at i)
    (fuel : Nat) (r42 r31 : Rule) :
    ∀ (k : Nat) (text : List Char) (res : Nat),
      hack_solve_loop rules fuel r42 r31 k text res
        = hack_solve_loop rules' fuel r42 r31 k text res := by
  intro k
  induction k with
  | zero => intro text res; rfl
  | succ k ih =>
    intro text res
    rw [hack_solve_loop, hack_solve_loop]
    unfold Rule.matches_n
    simp only [Rule.matches_n_congr rules rules' h fuel, ih]

/-- The rule of a well-formed body has the shape of the body, unless the body is the quoted
character `#`. -/
theorem rule_shape (i : Int) (b : Body) (hwf : b.wf) (hsharp : b ≠ .terminal '#') :
    (b.rule i).shape = b := by
  have hmap : ∀ l : List Nat, l.map (Int.toNat ∘ Int.ofNat) = l := by
    intro l
    have : (Int.toNat ∘ Int.ofNat) = id := by funext n; simp
    rw [this, List.map_id]
  cases b with
  | terminal c =>
    have hc : c ≠ Rule.missing := fun h => hsharp (by rw [h]; rfl)
    simp [Body.rule, Rule.shape, Rule.ctor, hc]
  | sequence ids =>
    simp [Body.rule, Rule.shape, List.map_map, hmap]
  | alternation l1 l2 =>
    have hne : l2 ≠ [] := hwf.2.1
    simp [Body.rule, Rule.shape, List.map_map, hmap, hne]

/-- C14, counterexample. The rule line `0: "#"` is well formed, yet the rule that is stored
under 0 is no terminal holding `#`: it is the rule without a character and with two empty
lists, which `Rule::matches` takes for an empty sequence and which matches `#` without
consuming it. -/
theorem quoted_hash_is_no_terminal :
    Block.wf [(0, Body.terminal '#')] ∧
    Block.text [(0, Body.terminal '#')] = view "0: \"#\"\n" ∧
    build_grammar (view "0: \"#\"\n")
      = .ret [(0, { v_ := [], alt_ := [], c_ := Rule.missing, i_ := 0 })] ∧
    (Rule.mk [] [] Rule.missing 0).shape = Body.sequence [] ∧
    Rule.matches [(0, { v_ := [], alt_ := [], c_ := Rule.missing, i_ := 0 })] 1
      (Rule.mk [] [] Rule.missing 0) (view "#") = .ret (true, view "#") := by
  decide

/-- C14, amended. For every block of well-formed rule lines `<id>: <body>` with distinct ids,
followed by a blank line or by the end of the text, `parse_rules` followed by `solve_rules`
yields a table with exactly those ids, in which a body `"c"` with `c` other than `#` is a
terminal holding `c`, a body that is an id list is a sequence holding exactly those ids in
order, and a body `L1 | L2` is an alternation holding exactly the ids of `L1` (in `v_`) and
exactly the ids of `L2` (in `alt_`). -/
theorem block_builds_table (block : List (Nat × Body)) (hwf : Block.wf block)
    (hsharp : ∀ p ∈ block, p.2 ≠ .terminal '#') (X : List Char) :
    build_grammar (Block.text block ++ '\n' :: X) = .ret (Block.table block) ∧
    build_grammar (Block.text block) = .ret (Block.table block) ∧
    (∀ i, (∃ r, (Block.table block).at i = .ret r) ↔ ∃ p ∈ block, (p.1 : Int) = i) ∧
    ∀ p ∈ block, ∃ r, (Block.table block).at p.1 = .ret r ∧ r.shape = p.2 := by
  obtain ⟨hp1, hp2⟩ := parse_rules_wf_block block hwf X
  have hs := solve_rules_wf_block block hwf
  have hnd := table_nodup block hwf
  have hmem : ∀ p ∈ block, (Block.table block).at p.1 = .ret (p.2.rule p.1) := by
    intro p hp
    refine at_of_mem _ _ _ hnd ?_
    exact List.mem_map.mpr ⟨p, hp, rfl⟩
  refine ⟨?_, ?_, ?_, ?_⟩
  · unfold build_grammar
    rw [hp1, Outcome.ret_bind, hs]
  · unfold build_grammar
    rw [hp2, Outcome.ret_bind, hs]
  · intro i
    constructor
    · rintro ⟨r, hr⟩
      obtain ⟨p, hp, he⟩ := List.mem_map.mp (at_ret_mem _ _ _ hr)
      exact ⟨p, hp, (Prod.mk.inj he).1⟩
    · rintro ⟨p, hp, rfl⟩
      exact ⟨_, hmem p hp⟩
  · intro p hp
    exact ⟨_, hmem p hp, rule_shape _ _ (hwf.2 p hp).2 (hsharp p hp)⟩

theorem block_builds_table_witness :
    (Block.wf test_block ∧ (∀ p ∈ test_block, p.2 ≠ .terminal '#') ∧
      Block.text test_block ++ '\n' :: test_lines = test ∧
      Block.table test_block = test_rules) ∧
    (build_grammar (Block.text test_block ++ '\n' :: test_lines)
        = .ret (Block.table test_block) ∧
      build_grammar (Block.text test_block) = .ret (Block.table test_block) ∧
      (∀ i, (∃ r, (Block.table test_block).at i = .ret r) ↔ ∃ p ∈ test_block, (p.1 : Int) = i) ∧
      ∀ p ∈ test_block, ∃ r, (Block.table test_block).at p.1 = .ret r ∧ r.shape = p.2) :=
  ⟨⟨by decide, by decide, by decide, by decide⟩,
    block_builds_table test_block (by decide) (by decide) test_lines⟩

/-- C15. For every block of well-formed rule lines with distinct ids, permuting the rule lines
does not change the grammar table as a map (every lookup has the same answer), and does not
change the result of `parse_solve` or `hack_solve` on any test lines. No condition is put on
the ids that the bodies reference: they may be defined on later lines. -/
theorem permuted_block_same_grammar (block block' : List (Nat × Body))
    (hperm : block.Perm block') (hwf : Block.wf block) (X : List Char) (fuel : Nat) :
    build_grammar (Block.text block ++ '\n' :: X) = .ret (Block.table block) ∧
    build_grammar (Block.text block' ++ '\n' :: X) = .ret (Block.table block') ∧
    (∀ i, (Block.table block).at i = (Block.table block').at i) ∧
    parse_solve fuel (Block.text block ++ '\n' :: X)
      = parse_solve fuel (Block.text block' ++ '\n' :: X) ∧
    hack_solve fuel (Block.text block ++ '\n' :: X)
      = hack_solve fuel (Block.text block' ++ '\n' :: X) := by
  have hwf' : Block.wf block' :=
    ⟨(hperm.map Prod.fst).nodup_iff.mp hwf.1, fun p hp => hwf.2 p (hperm.mem_iff.mpr hp)⟩
  have hp := (parse_rules_wf_block block hwf X).1
  have hp' := (parse_rules_wf_block block' hwf' X).1
  have hs := solve_rules_wf_block block hwf
  have hs' := solve_rules_wf_block block' hwf'
  have hat : ∀ i, (Block.table block).at i = (Block.table block').at i :=
    fun i => at_perm _ _ (hperm.map _) (table_nodup block hwf) i
  refine ⟨?_, ?_, hat, ?_, ?_⟩
  · unfold build_grammar
    rw [hp, Outcome.ret_bind, hs]
  · unfold build_grammar
    rw [hp', Outcome.ret_bind, hs']
  · unfold parse_solve
    rw [hp, hp', Outcome.ret_bind, Outcome.ret_bind, hs, hs', Outcome.ret_bind,
      Outcome.ret_bind, hat 0]
    congr 1
    funext zero
    exact parse_solve_loop_congr _ _ hat fuel zero _ _ _
  · unfold hack_solve
    rw [hp, hp', Outcome.ret_bind, Outcome.ret_bind, hs, hs', Outcome.ret_bind,
      Outcome.ret_bind, hat 42, hat 31]
    congr 1
    funext r42
    congr 1
    funext r31
    exact hack_solve_loop_congr _ _ hat fuel r42 r31 _ _ _

theorem permuted_block_same_grammar_witness :
    (test_block.Perm test_block.reverse ∧ Block.wf test_block ∧
      Block.text test_block ++ '\n' :: test_lines = test ∧
      parse_solve 4 (Block.text test_block.reverse ++ '\n' :: test_lines) = .ret 2) ∧
    (build_grammar (Block.text test_block ++ '\n' :: test_lines)
        = .ret (Block.table test_block) ∧
      build_grammar (Block.text test_block.reverse ++ '\n' :: test_lines)
        = .ret (Block.table test_block.reverse) ∧
      (∀ i, (Block.table test_block).at i = (Block.table test_block.reverse).at i) ∧
      parse_solve 4 (Block.text test_block ++ '\n' :: test_lines)
        = parse_solve 4 (Block.text test_block.reverse ++ '\n' :: test_lines) ∧
      hack_solve 4 (Block.text test_block ++ '\n' :: test_lines)
        = hack_solve 4 (Block.text test_block.reverse ++ '\n' :: test_lines)) :=
  ⟨⟨(List.reverse_perm test_block).symm, by decide, by decide, by decide⟩,
    permuted_block_same_grammar test_block test_block.reverse
      (List.reverse_perm test_block).symm (by decide) test_lines 4⟩

/-! ## Derivations and the reference evaluator -/

/-- A successful run of the list matcher consumes a string that the list derives, when that
holds for the callee. -/
theorem matcher_sound {call : Rule → List Char → Outcome (Bool × List Char)} (rules : iMap Rule)
    (h : ∀ r s s', call r s = .ret (true, s') → ∃ w, s = w ++ s' ∧ Derives rules r w) :
    ∀ (v : List Int) (s s' : List Char), matcher call rules v s = .ret (true, s') →
      ∃ w, s = w ++ s' ∧ DerivesList rules v w := by
  intro v
  induction v with
  | nil =>
    intro s s' hm
    rw [matcher_nil] at hm
    cases hm
    exact ⟨[], rfl, DerivesList.nil⟩
  | cons i v ih =>
    intro s s' hm
    rw [matcher_cons, Outcome.bind_eq_ret] at hm
    obtain ⟨rule, hi, hm⟩ := hm
    rw [Outcome.bind_eq_ret] at hm
    obtain ⟨m, hc, hm⟩ := hm
    by_cases hm1 : m.1 = true
    · rw [if_pos hm1] at hm
      have hc' : call rule s = .ret (true, m.2) := by rw [hc, ← hm1]
      obtain ⟨w1, hs1, hd1⟩ := h _ _ _ hc'
      obtain ⟨w2, hs2, hd2⟩ := ih _ _ hm
      exact ⟨w1 ++ w2, by rw [hs1, hs2, List.append_assoc], DerivesList.cons i v rule w1 w2 hi hd1 hd2⟩
    · rw [if_neg hm1] at hm
      cases hm

/-- A successful call of `Rule::matches` consumes a string that the rule derives. -/
theorem Rule.matches_sound (rules : iMap Rule) :
    ∀ (fuel : Nat) (r : Rule) (s s' : List Char),
      Rule.matches rules fuel r s = .ret (true, s') → ∃ w, s = w ++ s' ∧ Derives rules r w := by
  intro fuel
  induction fuel with
  | zero => intro r s s' h; simp [Rule.matches] at h
  | succ n ih =>
    intro r s s' h
    by_cases hc : r.c_ ≠ Rule.missing
    · rw [Rule.matches_terminal rules _ r s hc] at h
      cases s with
      | nil => cases h
      | cons f rest =>
        simp only [Outcome.ret.injEq, Prod.mk.injEq, beq_iff_eq] at h
        obtain ⟨hf, hrest⟩ := h
        subst hrest
        refine ⟨[r.c_], by rw [hf]; rfl, Derives.terminal r hc⟩
    · have hc' : r.c_ = Rule.missing := by simpa using hc
      by_cases ha : r.alt_ = []
      · rw [Rule.matches_sequence rules _ r s hc' ha] at h
        obtain ⟨w, hs, hd⟩ := matcher_sound rules ih _ _ _ h
        exact ⟨w, hs, Derives.main r w hc' hd⟩
      · rw [Rule.matches_alternation rules _ r s hc' ha, Outcome.bind_eq_ret] at h
        obtain ⟨m, h1, h2⟩ := h
        by_cases hm : m.1 = true
        · rw [if_pos hm] at h2
          cases h2
          have h1' : matcher (Rule.matches rules n) rules r.alt_ s = .ret (true, m.2) := by
            rw [h1, ← hm]
          obtain ⟨w, hs, hd⟩ := matcher_sound rules ih _ _ _ h1'
          exact ⟨w, hs, Derives.alt r w hc' ha hd⟩
        · rw [if_neg hm] at h2
          obtain ⟨w, hs, hd⟩ := matcher_sound rules ih _ _ _ h2
          exact ⟨w, hs, Derives.main r w hc' hd⟩

/-- C22. Soundness of the recognizer: when `Rule::matches` on rule `r` succeeds from `s`
leaving `s'`, then `s = w ++ s'` for a string `w` that `r` derives in the context-free grammar;
hence every line that `matches_exactly` accepts is derived by the rule. (This holds for every
grammar table, acyclic or not.) -/
theorem recognizer_sound (rules : iMap Rule) (fuel : Nat) (r : Rule) (s : List Char) :
    (∀ s', Rule.matches rules fuel r s = .ret (true, s') →
      ∃ w, s = w ++ s' ∧ Derives rules r w) ∧
    (r.matches_exactly rules fuel s = .ret true → Derives rules r s) := by
  refine ⟨fun s' h => Rule.matches_sound rules fuel r s s' h, fun h => ?_⟩
  unfold Rule.matches_exactly at h
  rw [Outcome.bind_eq_ret] at h
  obtain ⟨⟨m, s'⟩, h1, h2⟩ := h
  simp only [Outcome.ret.injEq, Bool.and_eq_true, List.isEmpty_iff] at h2
  obtain ⟨hm, hs'⟩ := h2
  subst hm hs'
  obtain ⟨w, hs, hd⟩ := Rule.matches_sound rules fuel r s [] h1
  rw [List.append_nil] at hs
  rw [hs]
  exact hd

/-- Outcomes that agree both return, or end in the same way without returning. -/
theorem agree_cases (o o' : Outcome (Bool × List Char)) (h : agree o o') :
    (∃ a b, o = .ret a ∧ o' = .ret b ∧ a.1 = b.1 ∧ (a.1 = true → a.2 = b.2)) ∨
    (o' = o ∧ ∀ a, o ≠ .ret a) := by
  cases o <;> cases o' <;> simp_all [agree]

/-- Sequencing after an outcome that does not return ends in that outcome. -/
theorem Outcome.bind_non_ret {α β : Type} (o : Outcome α) (h : ∀ a, o ≠ .ret a)
    (f g : α → Outcome β) : o.bind f = o.bind g ∧ ∀ b, o.bind g ≠ .ret b := by
  cases o <;> simp_all [Outcome.bind]

theorem agree_self (o : Outcome (Bool × List Char)) (h : ∀ a, o ≠ .ret a) : agree o o := by
  cases o <;> simp_all [agree]

/-- The list matcher and the list matcher of the reference evaluator agree when their callees
do, and the latter puts the view back to `s0` when it fails. -/
theorem matcher_agree {call call' : Rule → List Char → Outcome (Bool × List Char)}
    (rules : iMap Rule) (h : ∀ r s, agree (call r s) (call' r s)) (s0 : List Char) :
    ∀ (v : List Int) (s : List Char),
      agree (matcher call rules v s) (ref_matcher_from call' rules s0 v s) ∧
      ∀ x, ref_matcher_from call' rules s0 v s = .ret (false, x) → x = s0 := by
  intro v
  induction v with
  | nil =>
    intro s
    refine ⟨⟨rfl, fun _ => rfl⟩, fun x hx => ?_⟩
    rw [ref_matcher_from] at hx
    cases hx
  | cons i v ih =>
    intro s
    rw [matcher_cons, ref_matcher_from]
    cases hat : rules.at i with
    | out_of_range => exact ⟨trivial, fun x hx => by cases hx⟩
    | undefined => exact ⟨trivial, fun x hx => by cases hx⟩
    | timeout => exact ⟨trivial, fun x hx => by cases hx⟩
    | ret rule =>
      rw [Outcome.ret_bind, Outcome.ret_bind]
      rcases agree_cases _ _ (h rule s) with ⟨a, b, hc, hc', hflag, hcur⟩ | ⟨heq, hnr⟩
      · rw [hc, hc', Outcome.ret_bind, Outcome.ret_bind]
        by_cases ha : a.1 = true
        · have hb : b.1 = true := by rw [← hflag]; exact ha
          rw [if_pos ha, if_pos hb, hcur ha]
          exact ih b.2
        · have hb : ¬ b.1 = true := by rw [← hflag]; exact ha
          rw [if_neg ha, if_neg hb]
          exact ⟨⟨rfl, fun h => absurd h (by simp)⟩, fun x hx => by cases hx; rfl⟩
      · rw [heq]
        obtain ⟨hb, hne⟩ := Outcome.bind_non_ret (call rule s) hnr
          (fun m => if m.1 = true then matcher call rules v m.2 else .ret (false, m.2))
          (fun m => if m.1 = true then ref_matcher_from call' rules s0 v m.2
            else .ret (false, s0))
        rw [hb]
        exact ⟨agree_self _ hne, fun x hx => absurd hx (hne _)⟩

/-- One level of the reference evaluator. -/
theorem Rule.ref_matches_step (rules : iMap Rule) (fuel : Nat) (r : Rule) (s : List Char) :
    Rule.ref_matches rules (fuel + 1) r s =
      if r.c_ ≠ Rule.missing then
        match s with
        | [] => .ret (false, [])
        | f :: rest => if r.c_ = f then .ret (true, rest) else .ret (false, f :: rest)
      else if !r.alt_.isEmpty then
        (ref_matcher (Rule.ref_matches rules fuel) rules r.alt_ s).bind fun matches_alt =>
        if matches_alt.1 then .ret (true, matches_alt.2)
        else ref_matcher (Rule.ref_matches rules fuel) rules r.v_ s
      else ref_matcher (Rule.ref_matches rules fuel) rules r.v_ s := rfl

/-- The function `Rule::matches` and the reference evaluator agree at every fuel, and the
reference evaluator leaves the view it got when it fails. -/
theorem Rule.matches_agree (rules : iMap Rule) :
    ∀ (fuel : Nat) (r : Rule) (s : List Char),
      agree (Rule.matches rules fuel r s) (Rule.ref_matches rules fuel r s) ∧
      ∀ x, Rule.ref_matches rules fuel r s = .ret (false, x) → x = s := by
  intro fuel
  induction fuel with
  | zero =>
    intro r s
    exact ⟨trivial, fun x hx => by rw [Rule.ref_matches] at hx; cases hx⟩
  | succ n ih =>
    intro r s
    have hlist : ∀ v : List Int,
        agree (matcher (Rule.matches rules n) rules v s)
          (ref_matcher (Rule.ref_matches rules n) rules v s) ∧
        ∀ x, ref_matcher (Rule.ref_matches rules n) rules v s = .ret (false, x) → x = s :=
      fun v => matcher_agree rules (fun r s => (ih r s).1) s v s
    by_cases hc : r.c_ ≠ Rule.missing
    · rw [Rule.matches_terminal rules _ r s hc, Rule.ref_matches_step, if_pos hc]
      cases s with
      | nil => exact ⟨⟨rfl, fun _ => rfl⟩, fun x hx => by cases hx; rfl⟩
      | cons f rest =>
        by_cases hf : r.c_ = f
        · simp only [hf, beq_self_eq_true, if_true]
          exact ⟨⟨rfl, fun _ => rfl⟩, fun x hx => by cases hx⟩
        · have hbeq : (r.c_ == f) = false := by simpa using hf
          simp only [hbeq, hf, if_false]
          exact ⟨⟨rfl, fun h => absurd h (by simp)⟩, fun x hx => by cases hx; rfl⟩
    · have hc' : r.c_ = Rule.missing := by simpa using hc
      by_cases ha : r.alt_ = []
      · rw [Rule.matches_sequence rules _ r s hc' ha, Rule.ref_matches_step, if_neg hc, ha]
        simp only [List.isEmpty_nil, Bool.not_true, Bool.false_eq_true, if_false]
        exact hlist r.v_
      · have hne : (!r.alt_.isEmpty) = true := by simpa using ha
        rw [Rule.matches_alternation rules _ r s hc' ha, Rule.ref_matches_step, if_neg hc,
          if_pos hne]
        rcases agree_cases _ _ (hlist r.alt_).1 with ⟨a, b, hm, hm', hflag, hcur⟩ | ⟨heq, hnr⟩
        · rw [hm, hm', Outcome.ret_bind, Outcome.ret_bind]
          by_cases ha1 : a.1 = true
          · have hb : b.1 = true := by rw [← hflag]; exact ha1
            rw [if_pos ha1, if_pos hb, hcur ha1]
            exact ⟨⟨rfl, fun _ => rfl⟩, fun x hx => by cases hx⟩
          · have hb : ¬ b.1 = true := by rw [← hflag]; exact ha1
            rw [if_neg ha1, if_neg hb]
            exact hlist r.v_
        · rw [heq]
          obtain ⟨hb, hne'⟩ := Outcome.bind_non_ret
            (matcher (Rule.matches rules n) rules r.alt_ s) hnr
            (fun m => if m.1 = true then Outcome.ret (true, m.2)
              else matcher (Rule.matches rules n) rules r.v_ s)
            (fun m => if m.1 = true then Outcome.ret (true, m.2)
              else ref_matcher (Rule.ref_matches rules n) rules r.v_ s)
          rw [hb]
          exact ⟨agree_self _ hne', fun x hx => absurd hx (hne' _)⟩

/-- The loops of the repetition driver on the two evaluators return the same. -/
theorem Rule.matches_n_loop_ref (rules : iMap Rule) (fuel : Nat) (r : Rule) :
    ∀ (k times : Nat) (s : List Char),
      Rule.matches_n_loop rules fuel r k times s
        = Rule.ref_matches_n_loop rules fuel r k times s := by
  intro k
  induction k with
  | zero => intro times s; rfl
  | succ k ih =>
    intro times s
    rw [Rule.matches_n_loop, Rule.ref_matches_n_loop]
    rcases agree_cases _ _ (Rule.matches_agree rules fuel r s).1 with
      ⟨a, b, hm, hm', hflag, hcur⟩ | ⟨heq, hnr⟩
    · rw [hm, hm', Outcome.ret_bind, Outcome.ret_bind, ← hflag]
      by_cases ha1 : a.1 = true
      · rw [if_neg (by simp [ha1]), if_neg (by simp [ha1]), ← hcur ha1]
        exact ih _ _
      · rw [if_pos (by simpa using ha1), if_pos (by simpa using ha1)]
    · rw [heq]
      exact (Outcome.bind_non_ret _ hnr _ _).1

/-- C23. At every fuel and on every grammar table, `Rule::matches` agrees with the reference
evaluator that restores the cursor whenever a terminal or a sequence fails (it leaves the view
it got on every failure): both end the same way, return the same flag and, on success, the same
cursor. Consequently `matches_exactly` and `matches_n` (count and final cursor) return the same
on both evaluators. -/
theorem matches_refines_reference (rules : iMap Rule) (fuel : Nat) (r : Rule) (s : List Char) :
    agree (Rule.matches rules fuel r s) (Rule.ref_matches rules fuel r s) ∧
    (∀ x, Rule.ref_matches rules fuel r s = .ret (false, x) → x = s) ∧
    r.matches_exactly rules fuel s = r.ref_matches_exactly rules fuel s ∧
    r.matches_n rules fuel s = r.ref_matches_n rules fuel s := by
  obtain ⟨hag, hrestore⟩ := Rule.matches_agree rules fuel r s
  refine ⟨hag, hrestore, ?_, Rule.matches_n_loop_ref rules fuel r fuel 0 s⟩
  unfold Rule.matches_exactly Rule.ref_matches_exactly
  rcases agree_cases _ _ hag with ⟨a, b, hm, hm', hflag, hcur⟩ | ⟨heq, hnr⟩
  · rw [hm, hm', Outcome.ret_bind, Outcome.ret_bind, ← hflag]
    by_cases ha1 : a.1 = true
    · rw [← hcur ha1]
    · have : a.1 = false := by simpa using ha1
      rw [this]
      simp
  · rw [heq]

/-- In an acyclic closed grammar in which all strings that a rule derives have one length, a
stored rule matches every string it derives, whatever follows the string, and leaves what
follows. -/
theorem Rule.matches_complete (rules : iMap Rule) (rank : Int → Nat) (hac : Acyclic rules rank)
    (hlen : ∀ i r, rules.at i = .ret r → ∀ w w', Derives rules r w → Derives rules r w' →
      w.length = w'.length) :
    ∀ (n : Nat) (i : Int) (r : Rule), rules.at i = .ret r → rank i < n →
      ∀ w t, Derives rules r w → Rule.matches rules n r (w ++ t) = .ret (true, t) := by
  intro n
  induction n with
  | zero => intro i r _ h; omega
  | succ n ih =>
    intro i r hi hrank w t hD
    have hmem : ∀ v : List Int, (∀ j ∈ v, j ∈ r.v_ ++ r.alt_) → ∀ w t,
        DerivesList rules v w → matcher (Rule.matches rules n) rules v (w ++ t)
          = .ret (true, t) := by
      intro v
      induction v with
      | nil =>
        intro _ w t hDl
        cases hDl
        rfl
      | cons j v ihv =>
        intro hv w t hDl
        cases hDl with
        | cons _ _ rule w1 w2 hj hD1 hD2 =>
          obtain ⟨hlt, _⟩ := hac i r hi j (hv j (List.mem_cons_self _ _))
          rw [matcher_cons, hj, Outcome.ret_bind, List.append_assoc,
            ih j rule hj (by omega) w1 (w2 ++ t) hD1, Outcome.ret_bind]
          simp only [if_true]
          exact ihv (fun j' hj' => hv j' (List.mem_cons_of_mem _ hj')) w2 t hD2
    by_cases hc : r.c_ ≠ Rule.missing
    · rw [Rule.matches_terminal rules _ r _ hc]
      cases hD with
      | terminal _ _ => simp
      | main _ _ hm _ => exact absurd hm hc
      | alt _ _ hm _ _ => exact absurd hm hc
    · have hc' : r.c_ = Rule.missing := by simpa using hc
      by_cases ha : r.alt_ = []
      · rw [Rule.matches_sequence rules _ r _ hc' ha]
        cases hD with
        | terminal _ hm => exact absurd hc' hm
        | main _ _ _ hDl => exact hmem r.v_ (fun j hj => List.mem_append_left _ hj) w t hDl
        | alt _ _ _ hne _ => exact absurd ha hne
      · rw [Rule.matches_alternation rules _ r _ hc' ha]
        obtain ⟨x, hx⟩ := @matcher_returns (Rule.matches rules n) rules r.alt_ (w ++ t)
          (fun j hj => by
            obtain ⟨hlt, r', hr'⟩ := hac i r hi j (List.mem_append_right _ hj)
            exact ⟨r', hr', Rule.matches_total rules rank hac n j r' hr' (by omega)⟩)
        rw [hx, Outcome.ret_bind]
        by_cases hx1 : x.1 = true
        · rw [if_pos hx1]
          have hx' : matcher (Rule.matches rules n) rules r.alt_ (w ++ t)
              = .ret (true, x.2) := by rw [hx, ← hx1]
          obtain ⟨w', hs, hDl⟩ := matcher_sound rules
            (fun r s s' h => Rule.matches_sound rules n r s s' h) _ _ _ hx'
          have hl := hlen i r hi w w' hD (Derives.alt r w' hc' ha hDl)
          have := List.append_inj hs hl
          rw [this.2]
        · rw [if_neg hx1]
          cases hD with
          | terminal _ hm => exact absurd hc' hm
          | main _ _ _ hDl => exact hmem r.v_ (fun j hj => List.mem_append_left _ hj) w t hDl
          | alt _ _ _ _ hDl =>
            have := hmem r.alt_ (fun j hj => List.mem_append_right _ hj) w t hDl
            rw [hx] at this
            cases this
            exact absurd rfl hx1

/-- C24. In an acyclic grammar with all ids present in which, for each rule, all derivable
strings have one common length, `matches_exactly` on a stored rule returns true exactly for
the lines that the rule derives in the context-free grammar (at every depth above the rank of
the rule). -/
theorem exact_match_iff_derives (rules : iMap Rule) (rank : Int → Nat)
    (hac : Acyclic rules rank)
    (hlen : ∀ i r, rules.at i = .ret r → ∀ w w', Derives rules r w → Derives rules r w' →
      w.length = w'.length)
    (i : Int) (r : Rule) (hi : rules.at i = .ret r) (line : List Char) (k : Nat) :
    r.matches_exactly rules (rank i + 1 + k) line = .ret true ↔ Derives rules r line := by
  constructor
  · intro h
    unfold Rule.matches_exactly at h
    rw [Outcome.bind_eq_ret] at h
    obtain ⟨⟨m, s'⟩, h1, h2⟩ := h
    simp only [Outcome.ret.injEq, Bool.and_eq_true, List.isEmpty_iff] at h2
    obtain ⟨hm, hs'⟩ := h2
    subst hm hs'
    obtain ⟨w, hs, hd⟩ := Rule.matches_sound rules _ r line [] h1
    rw [List.append_nil] at hs
    rw [hs]
    exact hd
  · intro hD
    have := Rule.matches_complete rules rank hac hlen (rank i + 1 + k) i r hi (by omega)
      line [] hD
    rw [List.append_nil] at this
    unfold Rule.matches_exactly
    rw [this, Outcome.ret_bind]
    rfl

/-- C25. The grammar `0: 1 2`, `1: 3 | 3 3`, `2: 3`, `3: "a"` is acyclic with all ids present,
and rule 0 derives the line `aa`, yet `matches_exactly` on rule 0 is false for `aa` at every
depth from 3 on: rule 1 commits to the list `3 3`, which it tries first and which consumes both
letters, and nothing is left for rule 2. -/
theorem greedy_rejects_member (k : Nat) :
    build_grammar (view "0: 1 2\n1: 3 | 3 3\n2: 3\n3: \"a\"\n") = .ret greedy_rules ∧
    Acyclic greedy_rules greedy_rank ∧
    greedy_rules.at 0 = .ret (Rule.mk [1, 2] [] '#' 0) ∧
    Derives greedy_rules (Rule.mk [1, 2] [] '#' 0) (view "aa") ∧
    (Rule.mk [1, 2] [] '#' 0).matches_exactly greedy_rules (3 + k) (view "aa") = .ret false := by
  refine ⟨by decide, acyclic_of_check _ _ (by decide), by decide, ?_,
    Rule.matches_exactly_mono greedy_rules 3 k _ _ _ (by decide)⟩
  have h3 : Derives greedy_rules (Rule.mk [] [] 'a' 3) ['a'] :=
    Derives.terminal (Rule.mk [] [] 'a' 3) (by decide)
  have h1 : Derives greedy_rules (Rule.mk [3] [3, 3] '#' 1) ['a'] :=
    Derives.main _ _ rfl
      (DerivesList.cons 3 [] (Rule.mk [] [] 'a' 3) ['a'] [] (by decide) h3 DerivesList.nil)
  have h2 : Derives greedy_rules (Rule.mk [3] [] '#' 2) ['a'] :=
    Derives.main _ _ rfl
      (DerivesList.cons 3 [] (Rule.mk [] [] 'a' 3) ['a'] [] (by decide) h3 DerivesList.nil)
  exact Derives.main _ _ rfl
    (DerivesList.cons 1 [2] (Rule.mk [3] [3, 3] '#' 1) ['a'] ['a'] (by decide) h1
      (DerivesList.cons 2 [] (Rule.mk [3] [] '#' 2) ['a'] [] (by decide) h2 DerivesList.nil))

/-- In an acyclic grammar that passes `length_check`, every string that a stored rule derives
has the length that `len` gives for the id of the rule. -/
theorem derives_length (rules : iMap Rule) (rank : Int → Nat) (hac : Acyclic rules rank)
    (len : Int → Nat) (hchk : length_check rules len = true) :
    ∀ (n : Nat) (i : Int) (r : Rule), rules.at i = .ret r → rank i < n →
      ∀ w, Derives rules r w → w.length = len i := by
  intro n
  induction n with
  | zero => intro i r _ h; omega
  | succ n ih =>
    intro i r hi hrank w hD
    have hentry := List.all_eq_true.mp hchk (i, r) (at_ret_mem rules i r hi)
    have hmem : ∀ v : List Int, (∀ j ∈ v, j ∈ r.v_ ++ r.alt_) → ∀ w,
        DerivesList rules v w → w.length = (v.map len).sum := by
      intro v
      induction v with
      | nil =>
        intro _ w hDl
        cases hDl
        rfl
      | cons j v ihv =>
        intro hv w hDl
        cases hDl with
        | cons _ _ rule w1 w2 hj hD1 hD2 =>
          obtain ⟨hlt, _⟩ := hac i r hi j (hv j (List.mem_cons_self _ _))
          rw [List.length_append, ih j rule hj (by omega) w1 hD1,
            ihv (fun j' hj' => hv j' (List.mem_cons_of_mem _ hj')) w2 hD2, List.map_cons,
            List.sum_cons]
    cases hD with
    | terminal _ hc =>
      simp only [hc, if_true, ne_eq, not_false_eq_true, beq_iff_eq] at hentry
      rw [hentry]
      rfl
    | main _ _ hc hDl =>
      simp only [hc, ne_eq, not_true_eq_false, if_false, Bool.and_eq_true, beq_iff_eq] at hentry
      rw [hmem r.v_ (fun j hj => List.mem_append_left _ hj) w hDl, hentry.1]
    | alt _ _ hc hne hDl =>
      simp only [hc, ne_eq, not_true_eq_false, if_false, Bool.and_eq_true, beq_iff_eq,
        Bool.or_eq_true, List.isEmpty_iff] at hentry
      rw [hmem r.alt_ (fun j hj => List.mem_append_right _ hj) w hDl,
        hentry.2.resolve_left hne]

theorem exact_match_iff_derives_witness :
    (Acyclic test_rules test_rank ∧
      (∀ i r, test_rules.at i = .ret r → ∀ w w', Derives test_rules r w →
        Derives test_rules r w' → w.length = w'.length) ∧
      test_rules.at 0 = .ret (Rule.mk [4, 1, 5] [] '#' 0) ∧
      (Rule.mk [4, 1, 5] [] '#' 0).matches_exactly test_rules (test_rank 0 + 1 + 0)
        (view "ababbb") = .ret true) ∧
    ((Rule.mk [4, 1, 5] [] '#' 0).matches_exactly test_rules (test_rank 0 + 1 + 0)
        (view "ababbb") = .ret true ↔
      Derives test_rules (Rule.mk [4, 1, 5] [] '#' 0) (view "ababbb")) :=
  have hac : Acyclic test_rules test_rank := acyclic_of_check _ _ (by decide)
  have hlen : ∀ i r, test_rules.at i = .ret r → ∀ w w', Derives test_rules r w →
      Derives test_rules r w' → w.length = w'.length := by
    intro i r hi w w' hw hw'
    have h := derives_length test_rules test_rank hac test_len (by decide) (test_rank i + 1) i r
      hi (by omega)
    rw [h w hw, h w' hw']
  ⟨⟨hac, hlen, by decide, by decide⟩,
    exact_match_iff_derives test_rules test_rank hac hlen 0 (Rule.mk [4, 1, 5] [] '#' 0)
      (by decide) (view "ababbb") 0⟩

theorem recognizer_sound_witness :
    (Rule.mk [4, 1, 5] [] '#' 0).matches_exactly test_rules 4 (view "ababbb") = .ret true ∧
    Derives test_rules (Rule.mk [4, 1, 5] [] '#' 0) (view "ababbb") :=
  ⟨by decide,
    (recognizer_sound test_rules 4 (Rule.mk [4, 1, 5] [] '#' 0) (view "ababbb")).2 (by decide)⟩

/-! ## Progress and termination -/

/-- A successful run of the list matcher on a list that is not empty shortens the view, when
the callee shortens it. -/
theorem matcher_progress {call : Rule → List Char → Outcome (Bool × List Char)}
    (rules : iMap Rule) (v : List Int) (hv : v ≠ [])
    (hsuf : ∀ r s x, call r s = .ret x → x.2 <:+ s)
    (hprog : ∀ j ∈ v, ∀ r, rules.at j = .ret r → ∀ s s', call r s = .ret (true, s') →
      s'.length < s.length)
    (s s' : List Char) (h : matcher call rules v s = .ret (true, s')) :
    s'.length < s.length := by
  cases v with
  | nil => exact absurd rfl hv
  | cons j v =>
    rw [matcher_cons, Outcome.bind_eq_ret] at h
    obtain ⟨rule, hj, h⟩ := h
    rw [Outcome.bind_eq_ret] at h
    obtain ⟨m, hc, h⟩ := h
    by_cases hm : m.1 = true
    · rw [if_pos hm] at h
      have hc' : call rule s = .ret (true, m.2) := by rw [hc, ← hm]
      have h1 := hprog j (List.mem_cons_self _ _) rule hj s m.2 hc'
      have h2 := (matcher_suffix rules hsuf v m.2 _ h).length_le
      simp only at h2
      omega
    · rw [if_neg hm] at h
      cases h

/-- In a grammar without nullable rules a successful call of `Rule::matches` on a stored
rule shortens the view. -/
theorem Rule.matches_progress (rules : iMap Rule)
    (hnn : ∀ i r, rules.at i = .ret r → r.c_ ≠ Rule.missing ∨ r.v_ ≠ []) :
    ∀ (n : Nat) (i : Int) (r : Rule), rules.at i = .ret r →
      ∀ s s', Rule.matches rules n r s = .ret (true, s') → s'.length < s.length := by
  intro n
  induction n with
  | zero => intro i r _ s s' h; simp [Rule.matches] at h
  | succ n ih =>
    intro i r hi s s' h
    have hlist : ∀ v : List Int, v ≠ [] → (∀ j ∈ v, j ∈ r.v_ ++ r.alt_) → ∀ s s',
        matcher (Rule.matches rules n) rules v s = .ret (true, s') → s'.length < s.length := by
      intro v hv hsub s s' hm
      refine matcher_progress rules v hv (Rule.matches_suffix rules n) ?_ s s' hm
      intro j hj rj hrj s1 s2 hcall
      exact ih j rj hrj s1 s2 hcall
    by_cases hc : r.c_ ≠ Rule.missing
    · rw [Rule.matches_terminal rules _ r s hc] at h
      cases s with
      | nil => cases h
      | cons f rest =>
        simp only [Outcome.ret.injEq, Prod.mk.injEq] at h
        rw [← h.2]
        simp
    · have hc' : r.c_ = Rule.missing := by simpa using hc
      have hv : r.v_ ≠ [] := (hnn i r hi).resolve_left hc
      by_cases ha : r.alt_ = []
      · rw [Rule.matches_sequence rules _ r s hc' ha] at h
        exact hlist r.v_ hv (fun j hj => List.mem_append_left _ hj) s s' h
      · rw [Rule.matches_alternation rules _ r s hc' ha, Outcome.bind_eq_ret] at h
        obtain ⟨m, h1, h2⟩ := h
        by_cases hm : m.1 = true
        · rw [if_pos hm] at h2
          cases h2
          exact hlist r.alt_ ha (fun j hj => List.mem_append_right _ hj) s m.2
            (by rw [h1, ← hm])
        · rw [if_neg hm] at h2
          exact hlist r.v_ hv (fun j hj => List.mem_append_left _ hj) s s' h2

/-- The loop of `matches_n` returns within as many rounds as the view has characters, and one
more, when every call of `matches` returns and every successful call shortens the view. -/
theorem Rule.matches_n_loop_terminates (rules : iMap Rule) (fuel : Nat) (r : Rule)
    (htot : ∀ s, ∃ x, Rule.matches rules fuel r s = .ret x)
    (hprog : ∀ s s', Rule.matches rules fuel r s = .ret (true, s') → s'.length < s.length) :
    ∀ (k times : Nat) (s : List Char), s.length < k →
      ∃ n s', Rule.matches_n_loop rules fuel r k times s = .ret (times + n, s') ∧
        n + s'.length ≤ s.length := by
  intro k
  induction k with
  | zero => intro times s h; omega
  | succ k ih =>
    intro times s hk
    obtain ⟨m, hm⟩ := htot s
    rw [Rule.matches_n_loop, hm, Outcome.ret_bind]
    by_cases hm1 : m.1 = true
    · rw [if_neg (by simp [hm1])]
      have hlt := hprog s m.2 (by rw [hm, ← hm1])
      obtain ⟨n, s', hn, hle⟩ := ih (times + 1) m.2 (by omega)
      exact ⟨n + 1, s', by rw [hn]; congr 2; omega, by omega⟩
    · rw [if_pos (by simpa using hm1)]
      exact ⟨0, s, rfl, by omega⟩

/-- A rule that matches every view without consuming keeps the loop of `matches_n` running. -/
theorem Rule.matches_n_loop_diverges (rules : iMap Rule) (fuel : Nat) (r : Rule)
    (h : ∀ s, Rule.matches rules fuel r s = .ret (true, s) ∨
      Rule.matches rules fuel r s = .timeout) :
    ∀ (k times : Nat) (s : List Char),
      Rule.matches_n_loop rules fuel r k times s = .timeout := by
  intro k
  induction k with
  | zero => intro times s; rfl
  | succ k ih =>
    intro times s
    rw [Rule.matches_n_loop]
    rcases h s with hs | hs
    · rw [hs, Outcome.ret_bind]
      simp only [Bool.not_true, Bool.false_eq_true, if_false]
      exact ih _ _
    · rw [hs]; rfl

/-- C26, counterexample. The grammar `42: "#"`, `31: "b"` is acyclic with all ids present, yet
rule 42 matches `a` and leaves `a`: nothing is consumed, and `matches_n` on rule 42 does not
terminate (it runs out of every fuel). -/
theorem nullable_rule_never_advances :
    build_grammar (view "42: \"#\"\n31: \"b\"\n") = .ret nullable_rules ∧
    Acyclic nullable_rules (fun _ => 0) ∧
    nullable_rules.at 42 = .ret (Rule.mk [] [] '#' 42) ∧
    Rule.matches nullable_rules 1 (Rule.mk [] [] '#' 42) (view "a") = .ret (true, view "a") ∧
    ∀ fuel, (Rule.mk [] [] '#' 42).matches_n nullable_rules fuel (view "a") = .timeout := by
  refine ⟨by decide, acyclic_of_check _ _ (by decide), by decide, by decide, fun fuel => ?_⟩
  refine Rule.matches_n_loop_diverges nullable_rules fuel _ (fun s => ?_) fuel 0 _
  cases fuel with
  | zero => exact Or.inr rfl
  | succ n => exact Or.inl rfl

/-- C26, amended. In an acyclic grammar with all ids present in which every rule is a terminal
or has a main list that is not empty, each successful `Rule::matches` call on a stored rule
leaves a cursor strictly shorter than the one it was given; hence `matches_n` terminates, once
the fuel exceeds the rank of the rule and the length of `s`, and its count is at most the length
of `s`. -/
theorem matches_n_terminates (rules : iMap Rule) (rank : Int → Nat) (hac : Acyclic rules rank)
    (hnn : ∀ i r, rules.at i = .ret r → r.c_ ≠ Rule.missing ∨ r.v_ ≠ [])
    (i : Int) (r : Rule) (hi : rules.at i = .ret r) (s : List Char) :
    (∀ fuel s', Rule.matches rules fuel r s = .ret (true, s') → s'.length < s.length) ∧
    ∀ fuel, rank i < fuel → s.length < fuel →
      ∃ n s', r.matches_n rules fuel s = .ret (n, s') ∧ n ≤ s.length := by
  refine ⟨fun fuel s' h => Rule.matches_progress rules hnn fuel i r hi s s' h,
    fun fuel hrank hlen => ?_⟩
  obtain ⟨n, s', hn, hle⟩ := Rule.matches_n_loop_terminates rules fuel r
    (Rule.matches_total rules rank hac fuel i r hi hrank)
    (fun s s' h => Rule.matches_progress rules hnn fuel i r hi s s' h) fuel 0 s hlen
  refine ⟨n, s', ?_, by omega⟩
  unfold Rule.matches_n
  rw [hn, Nat.zero_add]

/-! ## The reference graph -/

/-- Along a path of references the rank of an acyclic grammar decreases. -/
theorem rank_lt_of_path (rules : iMap Rule) (rank : Int → Nat) (hac : Acyclic rules rank)
    (i j : Int) (h : Relation.TransGen (References rules) i j) : rank j < rank i := by
  induction h with
  | single h =>
    obtain ⟨r, hr, hj⟩ := h
    exact (hac _ r hr _ hj).1
  | tail _ h ih =>
    obtain ⟨r, hr, hj⟩ := h
    have := (hac _ r hr _ hj).1
    omega

/-- A grammar with a rank is closed and its reference graph has no cycle. -/
theorem closed_noCycle_of_acyclic (rules : iMap Rule) (rank : Int → Nat)
    (hac : Acyclic rules rank) : Closed rules ∧ NoCycle rules := by
  refine ⟨fun i j h => ?_, fun i h => ?_⟩
  · obtain ⟨r, hr, hj⟩ := h
    exact (hac i r hr j hj).2
  · exact Nat.lt_irrefl _ (rank_lt_of_path rules rank hac i i h)

/-- A closed grammar whose reference graph has no cycle has a rank: the number of stored ids
that an id reaches along references. -/
theorem exists_rank (rules : iMap Rule) (hc : Closed rules) (hn : NoCycle rules) :
    ∃ rank : Int → Nat, Acyclic rules rank := by
  classical
  refine ⟨fun i => ((rules.map Prod.fst).toFinset.filter
    (fun j => Relation.TransGen (References rules) i j)).card, ?_⟩
  intro i r hi j hj
  have href : References rules i j := ⟨r, hi, hj⟩
  obtain ⟨r', hr'⟩ := hc i j href
  refine ⟨?_, r', hr'⟩
  apply Finset.card_lt_card
  rw [Finset.ssubset_iff_of_subset]
  · refine ⟨j, ?_, ?_⟩
    · rw [Finset.mem_filter, List.mem_toFinset]
      exact ⟨List.mem_map.mpr ⟨(j, r'), at_ret_mem rules j r' hr', rfl⟩,
        Relation.TransGen.single href⟩
    · rw [Finset.mem_filter]
      exact fun h => hn j h.2
  · intro x hx
    rw [Finset.mem_filter] at hx ⊢
    exact ⟨hx.1, Relation.TransGen.head href hx.2⟩

/-- C27. In a grammar whose reference graph has no cycle and names only stored ids, every rule
has a depth that decreases along references, and with fuel above the depth of a stored rule
`Rule::matches` returns on every cursor, and so does `matches_exactly`. -/
theorem acyclic_graph_terminates (rules : iMap Rule) (hc : Closed rules) (hn : NoCycle rules) :
    ∃ depth : Int → Nat, (∀ i j, References rules i j → depth j < depth i) ∧
      ∀ i r, rules.at i = .ret r → ∀ (s : List Char) (k : Nat),
        (∃ x, Rule.matches rules (depth i + 1 + k) r s = .ret x) ∧
        ∃ b, r.matches_exactly rules (depth i + 1 + k) s = .ret b := by
  obtain ⟨rank, hac⟩ := exists_rank rules hc hn
  refine ⟨rank, fun i j h => ?_, fun i r hi s k => ?_⟩
  · obtain ⟨r, hr, hj⟩ := h
    exact (hac i r hr j hj).1
  · obtain ⟨x, hx⟩ := Rule.matches_total rules rank hac (rank i + 1 + k) i r hi (by omega) s
    refine ⟨⟨x, hx⟩, ?_⟩
    unfold Rule.matches_exactly
    rw [hx, Outcome.ret_bind]
    exact ⟨_, rfl⟩

theorem acyclic_graph_terminates_witness :
    (Closed test_rules ∧ NoCycle test_rules) ∧
    ∃ depth : Int → Nat, (∀ i j, References test_rules i j → depth j < depth i) ∧
      ∀ i r, test_rules.at i = .ret r → ∀ (s : List Char) (k : Nat),
        (∃ x, Rule.matches test_rules (depth i + 1 + k) r s = .ret x) ∧
        ∃ b, r.matches_exactly test_rules (depth i + 1 + k) s = .ret b :=
  have h := closed_noCycle_of_acyclic test_rules test_rank (acyclic_of_check _ _ (by decide))
  ⟨h, acyclic_graph_terminates test_rules h.1 h.2⟩

theorem matches_n_terminates_witness :
    (Acyclic test_rules test_rank ∧
      (∀ i r, test_rules.at i = .ret r → r.c_ ≠ Rule.missing ∨ r.v_ ≠ []) ∧
      test_rules.at 4 = .ret (Rule.mk [] [] 'a' 4)) ∧
    ((∀ fuel s', Rule.matches test_rules fuel (Rule.mk [] [] 'a' 4) (view "aab") =
        .ret (true, s') → s'.length < (view "aab").length) ∧
      ∀ fuel, test_rank 4 < fuel → (view "aab").length < fuel →
        ∃ n s', (Rule.mk [] [] 'a' 4).matches_n test_rules fuel (view "aab") = .ret (n, s') ∧
          n ≤ (view "aab").length) :=
  have hac : Acyclic test_rules test_rank := acyclic_of_check _ _ (by decide)
  have hnn : ∀ i r, test_rules.at i = .ret r → r.c_ ≠ Rule.missing ∨ r.v_ ≠ [] := by
    intro i r hi
    have hmem := at_ret_mem test_rules i r hi
    have hall : test_rules.all (fun p => decide (p.2.c_ ≠ Rule.missing ∨ p.2.v_ ≠ [])) = true := by
      decide
    have := List.all_eq_true.mp hall (i, r) hmem
    simpa using this
  ⟨⟨hac, hnn, by decide⟩,
    matches_n_terminates test_rules test_rank hac hnn 4 (Rule.mk [] [] 'a' 4) (by decide)
      (view "aab")⟩

/-! ## The cursor that `parse_rules` leaves -/

/-- The text `5`, blank line, `ab` has the rule line `5`, of which nothing is left after the
id: `line.remove_prefix(2)` removes more than the copy `line` holds, which spoils the table
(undefined behaviour); the view `s` is left at `ab` all the same. -/
theorem parse_rules_short_line :
    view "5\n\nab\n" = unlines [view "5"] ++ '\n' :: view "ab\n" ∧
    fetch_int (view "5") = (5, []) ∧
    parse_rules (view "5\n\nab\n") = .undefined ∧
    parse_rules_leaves (view "5\n\nab\n") = .ret (view "ab\n") := by
  decide

end Day19

namespace Day13

theorem Run.run_ret_bind {α β : Type} (a : α) (f : α → Run β) : (Run.ret a).bind f = f a := rfl

/-- The gcd survives a round of the loop: `gcd(y, x % y) = gcd(x, y)`. -/
theorem gcd_tmod (x y : Int) (hx : 0 ≤ x) (hy : 0 < y) :
    Int.gcd y (x.tmod y) = Int.gcd x y := by
  obtain ⟨a, rfl⟩ := Int.eq_ofNat_of_zero_le hx
  obtain ⟨b, rfl⟩ := Int.eq_ofNat_of_zero_le hy.le
  rw [Int.tmod_eq_emod hx hy.le]
  have h : ((a : Int) % (b : Int)) = ((a % b : Nat) : Int) := by norm_cast
  rw [h, Int.gcd_natCast_natCast, Int.gcd_natCast_natCast, Nat.gcd_comm a b, Nat.gcd_rec b a,
    Nat.gcd_comm]

/-- The invariant of the loop of `ext_euclid`: `x` and `y` are combinations of the arguments
`X` and `Y` with the coefficients `x0`, `y0` and `x1`, `y1`, and have the gcd of `X` and `Y`. -/
theorem ext_euclid_loop_spec (X Y : Int) :
    ∀ (fuel : Nat) (x y x0 x1 y0 y1 : Int), 0 ≤ x → 0 ≤ y → y.toNat < fuel →
      x0 * X + y0 * Y = x → x1 * X + y1 * Y = y → Int.gcd x y = Int.gcd X Y →
      ∃ a b, ext_euclid_loop fuel x y x0 x1 y0 y1 = .ret ((Int.gcd X Y : Int), a, b) ∧
        a * X + b * Y = (Int.gcd X Y : Int) := by
  intro fuel
  induction fuel with
  | zero => intro x y x0 x1 y0 y1 _ _ h; omega
  | succ n ih =>
    intro x y x0 x1 y0 y1 hx hy hfuel h0 h1 hg
    rw [ext_euclid_loop]
    by_cases hpos : y > 0
    · rw [if_pos hpos]
      have hlt := Int.tmod_lt_of_pos x hpos
      have hnn := Int.tmod_nonneg y hx
      refine ih y (x.tmod y) x1 (x0 - x.tdiv y * x1) y1 (y0 - x.tdiv y * y1) hy hnn
        (by omega) h1 ?_ ?_
      · rw [Int.tmod_def, ← h0, ← h1]; ring
      · rw [gcd_tmod x y hx hpos]; exact hg
    · rw [if_neg hpos]
      have hy0 : y = 0 := by omega
      subst hy0
      rw [Int.gcd_zero_right] at hg
      have hxg : x = (Int.gcd X Y : Int) := by
        rw [← hg]
        exact (Int.natAbs_of_nonneg hx).symm
      refine ⟨x0, y0, by rw [← hxg], ?_⟩
      rw [h0, hxg]

/-- C20. For all integers `x >= 0` and `y >= 0`, `ext_euclid(x, y)` returns: the result is
`(g, a, b)` with `g` the greatest common divisor of `x` and `y`, and `a*x + b*y = g`. -/
theorem ext_euclid_spec (x y : Int) (hx : 0 ≤ x) (hy : 0 ≤ y) :
    ∃ a b, ext_euclid x y = .ret ((Int.gcd x y : Int), a, b) ∧
      a * x + b * y = (Int.gcd x y : Int) :=
  ext_euclid_loop_spec x y (y.toNat + 1) x y 1 0 0 1 hx hy (by omega) (by ring) (by ring) rfl

theorem ext_euclid_spec_witness :
    ((0 : Int) ≤ 240 ∧ (0 : Int) ≤ 46) ∧
    ∃ a b, ext_euclid 240 46 = .ret ((Int.gcd 240 46 : Int), a, b) ∧
      a * 240 + b * 46 = (Int.gcd 240 46 : Int) :=
  ⟨by decide, ext_euclid_spec 240 46 (by decide) (by decide)⟩

/-- The accumulated product of `align_buses` is the product of the bus ids. -/
theorem foldl_prod (buses : List (Int × Int)) (init : Int) :
    buses.foldl (fun (res : Int) bus => res * bus.1) init
      = init * (buses.map Prod.fst).prod := by
  induction buses generalizing init with
  | nil => simp
  | cons p ps ih => rw [List.foldl_cons, ih, List.map_cons, List.prod_cons, mul_assoc]

/-- With `gcd(c, b) = 1` the assertion of `inv_mod(c, b)` holds and the result is an inverse of
`c` modulo `b`. -/
theorem inv_mod_spec (c b : Int) (hc : 0 ≤ c) (hb : 0 < b) (hg : Int.gcd c b = 1) :
    ∃ inv, inv_mod c b = .ret inv ∧ b ∣ c * inv - 1 := by
  obtain ⟨x, y, he, hxy⟩ : ∃ x y, ext_euclid c b = .ret ((Int.gcd c b : Int), x, y) ∧
      x * c + y * b = (Int.gcd c b : Int) :=
    ext_euclid_loop_spec c b (b.toNat + 1) c b 1 0 0 1 hc hb.le (by omega) (by ring) (by ring)
      rfl
  rw [hg] at he hxy
  refine ⟨x.tmod b, ?_, ?_⟩
  · unfold inv_mod
    rw [he, Run.run_ret_bind]
    simp [hb.ne']
  · refine ⟨-y - c * x.tdiv b, ?_⟩
    rw [Int.tmod_def]
    have : x * c = 1 - y * b := by
      have := hxy
      push_cast at this
      linarith
    linear_combination this

/-- The loop of `align_buses` adds the summands of the buses, when every `inv_mod` returns. -/
theorem align_buses_loop_sum (prod : Int) :
    ∀ (buses : List (Int × Int)) (res : Int),
      (∀ p ∈ buses, p.1 ≠ 0 ∧ ∃ v, inv_mod (prod.tdiv p.1) p.1 = .ret v) →
      align_buses_loop prod buses res = .ret (res + (buses.map (term prod)).sum) := by
  intro buses
  induction buses with
  | nil => intro res _; simp [align_buses_loop]
  | cons p ps ih =>
    intro res h
    obtain ⟨b, d⟩ := p
    obtain ⟨hb, v, hv⟩ := h (b, d) (List.mem_cons_self _ _)
    simp only at hb hv
    rw [align_buses_loop, if_neg hb, hv, Run.run_ret_bind,
      ih _ (fun q hq => h q (List.mem_cons_of_mem _ hq))]
    have ht : term prod (b, d) = (b - d).tmod b * prod.tdiv b * v := by
      simp only [term, inv_val, hv]
    rw [List.map_cons, List.sum_cons, ht]
    congr 1
    ring

/-- The loop that adds `prod` returns the first value that is not negative. -/
theorem add_prod_loop_spec (prod : Int) (hprod : 0 < prod) :
    ∀ (fuel : Nat) (res : Int), (-res).toNat < fuel →
      ∃ k : Int, add_prod_loop prod fuel res = .ret (res + k * prod) ∧ 0 ≤ res + k * prod := by
  intro fuel
  induction fuel with
  | zero => intro res h; omega
  | succ n ih =>
    intro res h
    rw [add_prod_loop]
    by_cases hneg : res < 0
    · rw [if_pos hneg]
      obtain ⟨k, hk, hnn⟩ := ih (res + prod) (by omega)
      exact ⟨k + 1, by rw [hk]; congr 1; ring, by linarith⟩
    · rw [if_neg hneg]
      exact ⟨0, by simp, by simpa using hneg⟩

/-- A product of ids that are coprime to `b` is coprime to `b`. -/
theorem isCoprime_prod (b : Int) (l : List (Int × Int))
    (h : ∀ q ∈ l, IsCoprime q.1 b) : IsCoprime (l.map Prod.fst).prod b := by
  induction l with
  | nil => simpa using isCoprime_one_left
  | cons q qs ih =>
    rw [List.map_cons, List.prod_cons]
    exact (h q (List.mem_cons_self _ _)).mul_left
      (ih (fun q' hq' => h q' (List.mem_cons_of_mem _ hq')))

/-- A product of positive ids is positive. -/
theorem prod_pos (l : List (Int × Int)) (h : ∀ q ∈ l, 0 < q.1) :
    0 < (l.map Prod.fst).prod := by
  induction l with
  | nil => simp
  | cons q qs ih =>
    rw [List.map_cons, List.prod_cons]
    exact mul_pos (h q (List.mem_cons_self _ _))
      (ih (fun q' hq' => h q' (List.mem_cons_of_mem _ hq')))

/-- What is divisible by each of pairwise coprime ids is divisible by their product. -/
theorem prod_dvd (n : Int) (l : List (Int × Int))
    (hco : l.Pairwise (fun p q => IsCoprime p.1 q.1)) (h : ∀ q ∈ l, q.1 ∣ n) :
    (l.map Prod.fst).prod ∣ n := by
  induction l with
  | nil => simp
  | cons q qs ih =>
    rw [List.pairwise_cons] at hco
    rw [List.map_cons, List.prod_cons]
    refine IsCoprime.mul_dvd ?_ (h q (List.mem_cons_self _ _))
      (ih hco.2 (fun q' hq' => h q' (List.mem_cons_of_mem _ hq')))
    exact (isCoprime_prod q.1 qs (fun q' hq' => (hco.1 q' hq').symm)).symm

/-- In a list of pairwise coprime ids, the bus at one place is coprime to the buses at the
other places. -/
theorem coprime_others (pre post : List (Int × Int)) (p : Int × Int)
    (hco : (pre ++ p :: post).Pairwise (fun p q => IsCoprime p.1 q.1)) :
    ∀ q ∈ pre ++ post, IsCoprime q.1 p.1 := by
  rw [List.pairwise_append, List.pairwise_cons] at hco
  obtain ⟨_, ⟨hpost, _⟩, hpre⟩ := hco
  intro q hq
  rcases List.mem_append.mp hq with hq | hq
  · exact hpre q hq p (List.mem_cons_self _ _)
  · exact (hpost q hq).symm

/-- The summand of a bus is divisible by every id that is coprime to the id of the bus and
divides the product. -/
theorem term_other (P b : Int) (q : Int × Int) (hco : IsCoprime b q.1) (hb : b ∣ P)
    (hq : q.1 ∣ P) : b ∣ term P q := by
  have h1 : b ∣ q.1 * P.tdiv q.1 := by rw [Int.mul_tdiv_cancel' hq]; exact hb
  have h2 : b ∣ P.tdiv q.1 := hco.dvd_of_dvd_mul_left h1
  unfold term
  exact Dvd.dvd.mul_right (Dvd.dvd.mul_left h2 _) _

/-- The summand of a bus plus the offset of the bus is divisible by the id of the bus. -/
theorem term_self (P : Int) (p : Int × Int) (v : Int)
    (hv : inv_mod (P.tdiv p.1) p.1 = .ret v) (hinv : p.1 ∣ P.tdiv p.1 * v - 1) :
    p.1 ∣ term P p + p.2 := by
  obtain ⟨w, hw⟩ := hinv
  have ht : term P p = (p.1 - p.2).tmod p.1 * (P.tdiv p.1 * v) := by
    simp only [term, inv_val, hv]
    ring
  have hcv : P.tdiv p.1 * v = 1 + p.1 * w := by linarith
  rw [ht, hcv, Int.tmod_def]
  exact ⟨1 - (p.1 - p.2).tdiv p.1
    + (p.1 - p.2 - p.1 * (p.1 - p.2).tdiv p.1) * w, by ring⟩

/-- With positive pairwise coprime ids, `inv_mod` returns an inverse for every bus. -/
theorem inv_mod_bus (buses : List (Int × Int)) (hpos : ∀ p ∈ buses, 0 < p.1)
    (hco : buses.Pairwise (fun p q => IsCoprime p.1 q.1)) (p : Int × Int) (hp : p ∈ buses) :
    ∃ v, inv_mod ((buses.map Prod.fst).prod.tdiv p.1) p.1 = .ret v ∧
      p.1 ∣ (buses.map Prod.fst).prod.tdiv p.1 * v - 1 := by
  obtain ⟨pre, post, rfl⟩ := List.append_of_mem hp
  have hothers := coprime_others pre post p hco
  have hpos' : ∀ q ∈ pre ++ post, 0 < q.1 := by
    intro q hq
    refine hpos q ?_
    rcases List.mem_append.mp hq with h | h
    · exact List.mem_append_left _ h
    · exact List.mem_append_right _ (List.mem_cons_of_mem _ h)
  have hb : 0 < p.1 := hpos p hp
  have hc : ((pre ++ p :: post).map Prod.fst).prod.tdiv p.1
      = ((pre ++ post).map Prod.fst).prod := by
    have : ((pre ++ p :: post).map Prod.fst).prod
        = ((pre ++ post).map Prod.fst).prod * p.1 := by
      simp only [List.map_append, List.map_cons, List.prod_append, List.prod_cons]
      ring
    rw [this, Int.mul_tdiv_cancel _ hb.ne']
  rw [hc]
  exact inv_mod_spec _ _ (prod_pos _ hpos').le hb
    (Int.gcd_eq_one_iff_coprime.mpr (isCoprime_prod p.1 _ hothers))

/-- The sum of the summands plus the offset of a bus is divisible by the id of the bus. -/
theorem sum_aligned (buses : List (Int × Int)) (hpos : ∀ p ∈ buses, 0 < p.1)
    (hco : buses.Pairwise (fun p q => IsCoprime p.1 q.1)) (p : Int × Int) (hp : p ∈ buses) :
    p.1 ∣ (buses.map (term (buses.map Prod.fst).prod)).sum + p.2 := by
  have hdvd : ∀ q ∈ buses, q.1 ∣ (buses.map Prod.fst).prod :=
    fun q hq => List.dvd_prod (List.mem_map_of_mem _ hq)
  obtain ⟨v, hv, hinv⟩ := inv_mod_bus buses hpos hco p hp
  have hself := term_self _ p v hv hinv
  generalize (buses.map Prod.fst).prod = P at hdvd hself ⊢
  obtain ⟨pre, post, rfl⟩ := List.append_of_mem hp
  have hothers := coprime_others pre post p hco
  have hpre : p.1 ∣ (pre.map (term P)).sum := by
    refine List.dvd_sum (fun x hx => ?_)
    obtain ⟨q, hq, rfl⟩ := List.mem_map.mp hx
    exact term_other P p.1 q (hothers q (List.mem_append_left _ hq)).symm (hdvd p hp)
      (hdvd q (List.mem_append_left _ hq))
  have hpost : p.1 ∣ (post.map (term P)).sum := by
    refine List.dvd_sum (fun x hx => ?_)
    obtain ⟨q, hq, rfl⟩ := List.mem_map.mp hx
    exact term_other P p.1 q (hothers q (List.mem_append_right _ hq)).symm (hdvd p hp)
      (hdvd q (List.mem_append_right _ (List.mem_cons_of_mem _ hq)))
  have : ((pre ++ p :: post).map (term P)).sum + p.2
      = (pre.map (term P)).sum + ((term P p + p.2) + (post.map (term P)).sum) := by
    simp only [List.map_append, List.map_cons, List.sum_append, List.sum_cons]
    ring
  rw [this]
  exact dvd_add hpre (dvd_add hself hpost)

/-- C19. For every list of buses with positive pairwise coprime ids, `align_buses`, computed in
exact integer arithmetic, returns `r` with `0 <= r < product of the ids` and `r + d` divisible
by `b` for every bus `(b, d)`; `r` is the smallest non-negative timestamp aligned in this
way. (The offsets may have any sign.) -/
theorem align_buses_spec (buses : List (Int × Int)) (hpos : ∀ p ∈ buses, 0 < p.1)
    (hco : buses.Pairwise (fun p q => Int.gcd p.1 q.1 = 1)) :
    ∃ r, align_buses buses = .ret r ∧ 0 ≤ r ∧ r < (buses.map Prod.fst).prod ∧
      (∀ p ∈ buses, p.1 ∣ r + p.2) ∧
      ∀ r', 0 ≤ r' → (∀ p ∈ buses, p.1 ∣ r' + p.2) → r ≤ r' := by
  have hco' : buses.Pairwise (fun p q => IsCoprime p.1 q.1) :=
    hco.imp (fun h => Int.gcd_eq_one_iff_coprime.mp h)
  have hPpos := prod_pos buses hpos
  have hdvd : ∀ q ∈ buses, q.1 ∣ (buses.map Prod.fst).prod :=
    fun q hq => List.dvd_prod (List.mem_map_of_mem _ hq)
  have hsum := sum_aligned buses hpos hco'
  have hprod_dvd : ∀ n : Int, (∀ q ∈ buses, q.1 ∣ n) → (buses.map Prod.fst).prod ∣ n :=
    fun n h => prod_dvd n buses hco' h
  have hloop := align_buses_loop_sum (buses.map Prod.fst).prod buses 0 (fun p hp => by
    obtain ⟨v, hv, _⟩ := inv_mod_bus buses hpos hco' p hp
    exact ⟨(hpos p hp).ne', v, hv⟩)
  generalize (buses.map (term (buses.map Prod.fst).prod)).sum = S at hsum hloop
  obtain ⟨k, hk, hnn⟩ := add_prod_loop_spec _ hPpos ((-(0 + S)).toNat + 1) (0 + S) (by omega)
  have halign : align_buses buses
      = .ret ((0 + S + k * (buses.map Prod.fst).prod).tmod (buses.map Prod.fst).prod) := by
    unfold align_buses
    simp only [foldl_prod, one_mul]
    rw [hloop, Run.run_ret_bind, hk, Run.run_ret_bind, if_neg hPpos.ne']
  generalize (buses.map Prod.fst).prod = P at *
  have hr : (0 + S + k * P).tmod P = (0 + S + k * P) % P := Int.tmod_eq_emod hnn hPpos.le
  have haligned : ∀ p ∈ buses, p.1 ∣ (0 + S + k * P) % P + p.2 := by
    intro p hp
    have h1 : (0 + S + k * P) % P + p.2
        = (S + p.2) + (k * P - P * ((0 + S + k * P) / P)) := by
      rw [Int.emod_def]; ring
    rw [h1]
    exact dvd_add (hsum p hp)
      (dvd_sub (Dvd.dvd.mul_left (hdvd p hp) k) (Dvd.dvd.mul_right (hdvd p hp) _))
  refine ⟨_, halign, ?_, ?_, ?_, ?_⟩
  · rw [hr]; exact Int.emod_nonneg _ hPpos.ne'
  · rw [hr]; exact Int.emod_lt_of_pos _ hPpos
  · rw [hr]; exact haligned
  · intro r' hr' hall
    rw [hr]
    have hlt := Int.emod_lt_of_pos (0 + S + k * P) hPpos
    generalize (0 + S + k * P) % P = r at haligned hlt
    have hP : P ∣ r' - r := by
      refine hprod_dvd (r' - r) (fun q hq => ?_)
      have h1 := hall q hq
      have h2 := haligned q hq
      have : r' - r = (r' + q.2) - (r + q.2) := by ring
      rw [this]
      exact dvd_sub h1 h2
    obtain ⟨m, hm⟩ := hP
    by_contra hcon
    have hm1 : m ≤ -1 := by
      by_contra hm0
      have : 0 ≤ m := by omega
      have : 0 ≤ P * m := mul_nonneg hPpos.le this
      omega
    have : P * m ≤ P * (-1) := mul_le_mul_of_nonneg_left hm1 hPpos.le
    omega

theorem align_buses_spec_witness :
    ((∀ p ∈ [((7 : Int), (0 : Int)), (13, 1), (59, 4), (31, 6), (19, 7)], 0 < p.1) ∧
      [((7 : Int), (0 : Int)), (13, 1), (59, 4), (31, 6), (19, 7)].Pairwise
        (fun p q => Int.gcd p.1 q.1 = 1) ∧
      parse test = .ret (939, [(7, 0), (13, 1), (59, 4), (31, 6), (19, 7)]) ∧
      align_buses [(7, 0), (13, 1), (59, 4), (31, 6), (19, 7)] = .ret 1068781 ∧
      parse test2 = .ret (0, [(17, 0), (13, 2), (19, 3)]) ∧
      align_buses [(17, 0), (13, 2), (19, 3)] = .ret 3417) ∧
    ∃ r, align_buses [(7, 0), (13, 1), (59, 4), (31, 6), (19, 7)] = .ret r ∧ 0 ≤ r ∧
      r < ([((7 : Int), (0 : Int)), (13, 1), (59, 4), (31, 6), (19, 7)].map Prod.fst).prod ∧
      (∀ p ∈ [((7 : Int), (0 : Int)), (13, 1), (59, 4), (31, 6), (19, 7)], p.1 ∣ r + p.2) ∧
      ∀ r', 0 ≤ r' →
        (∀ p ∈ [((7 : Int), (0 : Int)), (13, 1), (59, 4), (31, 6), (19, 7)], p.1 ∣ r' + p.2) →
        r ≤ r' :=
  ⟨⟨by decide, by decide, by decide, by decide, by decide, by decide⟩,
    align_buses_spec [(7, 0), (13, 1), (59, 4), (31, 6), (19, 7)] (by decide) (by decide)⟩

/-- A value that fits an `int` is kept by the conversion. -/
theorem narrow_eq (x : Int) (h0 : -2147483648 ≤ x) (h1 : x ≤ 2147483647) : narrow x = x := by
  unfold narrow
  omega

/-- The conversion gives a value that fits an `int`. -/
theorem narrow_le (x : Int) : narrow x ≤ 2147483647 := by
  unfold narrow
  omega

/-- The departure of a bus is a multiple of its id, not below `t0`, and less than one id
above it. -/
theorem departure_spec (t0 b : Int) (hb : 0 < b) :
    b ∣ departure t0 b ∧ t0 ≤ departure t0 b ∧ departure t0 b - t0 < b := by
  unfold departure
  have h1 := Int.emod_add_ediv (t0 + b - 1) b
  have h2 := Int.emod_nonneg (t0 + b - 1) hb.ne'
  have h3 := Int.emod_lt_of_pos (t0 + b - 1) hb
  exact ⟨Dvd.intro _ rfl, by omega, by omega⟩

/-- No multiple of the id lies between `t0` and the departure. -/
theorem departure_le (t0 b m : Int) (hb : 0 < b) (hm : b ∣ m) (h : t0 ≤ m) :
    departure t0 b ≤ m := by
  obtain ⟨hd, _, hlt⟩ := departure_spec t0 b hb
  obtain ⟨q, hq⟩ := hd
  obtain ⟨c, rfl⟩ := hm
  rw [hq] at hlt ⊢
  by_contra hcon
  have hlt' : c < q := by
    by_contra hge
    exact hcon (mul_le_mul_of_nonneg_left (not_lt.mp hge) hb.le)
  have : b * (c + 1) ≤ b * q := mul_le_mul_of_nonneg_left (by omega) hb.le
  rw [mul_add, mul_one] at this
  omega

/-- A wait whose departure fits an `int` ends at the departure. -/
theorem wait_loop_spec (t0 b : Int) (hb : 0 < b) (hM : departure t0 b ≤ 2147483647) :
    ∀ (fuel : Nat) (t : Int), 0 ≤ t → b ∣ t → t ≤ departure t0 b →
      (departure t0 b - t).toNat < fuel → wait_loop t0 b fuel t = .ret (departure t0 b) := by
  obtain ⟨hd, hge, hlt⟩ := departure_spec t0 b hb
  intro fuel
  induction fuel with
  | zero => intro t _ _ _ h; omega
  | succ n ih =>
    intro t ht0 hdt hle hfuel
    obtain ⟨q, hq⟩ := hd
    obtain ⟨c, hc⟩ := hdt
    rw [wait_loop]
    by_cases hlt0 : t < t0
    · rw [if_pos hlt0]
      have hcq : c < q := by
        by_contra hge'
        have := mul_le_mul_of_nonneg_left (not_lt.mp hge') hb.le
        omega
      have hstep : t + b ≤ departure t0 b := by
        have := mul_le_mul_of_nonneg_left (show c + 1 ≤ q by omega) hb.le
        rw [mul_add, mul_one] at this
        omega
      rw [narrow_eq (t + b) (by omega) (by omega)]
      exact ih (t + b) (by omega) ⟨c + 1, by rw [hc]; ring⟩ hstep (by omega)
    · rw [if_neg hlt0]
      have hcq : q ≤ c := by
        by_contra hlt'
        have := mul_le_mul_of_nonneg_left (show c + 1 ≤ q by omega) hb.le
        rw [mul_add, mul_one] at this
        omega
      have := mul_le_mul_of_nonneg_left hcq hb.le
      congr 1
      omega

/-- A wait for a time that fits no `int` does not end. -/
theorem wait_loop_timeout (t0 b : Int) (h : 2147483647 < t0) :
    ∀ (fuel : Nat) (t : Int), t ≤ 2147483647 → wait_loop t0 b fuel t = .timeout := by
  intro fuel
  induction fuel with
  | zero => intro t _; rfl
  | succ n ih =>
    intro t ht
    rw [wait_loop, if_pos (by omega)]
    exact ih _ (narrow_le _)

/-- With departures that fit an `int`, the loop over the buses keeps the earliest departure. -/
theorem bus_loop_spec (t0 : Int) (ht0 : 0 ≤ t0) :
    ∀ (buses : List (Int × Int)) (bus : Option Int) (time : Int),
      (∀ p ∈ buses, 0 < p.1 ∧ departure t0 p.1 ≤ 2147483647) →
      bus_loop t0 buses bus time = .ret (earliest t0 buses (bus, time)) := by
  intro buses
  induction buses with
  | nil => intro bus time _; rfl
  | cons p ps ih =>
    intro bus time h
    obtain ⟨b, d⟩ := p
    obtain ⟨hb, hM⟩ := h (b, d) (List.mem_cons_self _ _)
    simp only at hb hM
    have hge := (departure_spec t0 b hb).2.1
    rw [bus_loop, wait_loop_spec t0 b hb hM 4294967297 0 le_rfl (dvd_zero b) (by omega)
      (by omega), Run.run_ret_bind]
    have ih' := fun bus time => ih bus time (fun q hq => h q (List.mem_cons_of_mem _ hq))
    unfold earliest at ih' ⊢
    rw [List.foldl_cons]
    by_cases hlt : departure t0 b < time
    · rw [if_pos hlt, ih']
      simp only [if_pos hlt]
    · rw [if_neg hlt, ih']
      simp only [if_neg hlt]

/-- The loop over the buses never raises the time and never loses a bus. -/
theorem earliest_le (t0 : Int) :
    ∀ (l : List (Int × Int)) (acc : Option Int × Int),
      (earliest t0 l acc).2 ≤ acc.2 ∧ (∀ p ∈ l, (earliest t0 l acc).2 ≤ departure t0 p.1) ∧
      ((earliest t0 l acc).2 = acc.2 → earliest t0 l acc = acc) := by
  intro l
  induction l with
  | nil => intro acc; simp [earliest]
  | cons p ps ih =>
    intro acc
    unfold earliest at ih ⊢
    rw [List.foldl_cons]
    by_cases hlt : departure t0 p.1 < acc.2
    · simp only [if_pos hlt]
      obtain ⟨h1, h2, h3⟩ := ih (some p.1, departure t0 p.1)
      simp only at h1 h3
      refine ⟨by omega, ?_, fun h => by omega⟩
      intro q hq
      rcases List.mem_cons.mp hq with rfl | hq
      · exact h1
      · exact h2 q hq
    · simp only [if_neg hlt]
      obtain ⟨h1, h2, h3⟩ := ih acc
      refine ⟨h1, ?_, h3⟩
      intro q hq
      rcases List.mem_cons.mp hq with rfl | hq
      · omega
      · exact h2 q hq

/-- When the loop over the buses lowers the time, it holds the first bus of the list with the
earliest departure. -/
theorem earliest_first (t0 : Int) :
    ∀ (l : List (Int × Int)) (acc : Option Int × Int), (earliest t0 l acc).2 < acc.2 →
      ∃ pre p post, l = pre ++ p :: post ∧ earliest t0 l acc = (some p.1, departure t0 p.1) ∧
        ∀ q ∈ pre, departure t0 p.1 < departure t0 q.1 := by
  intro l
  induction l with
  | nil => intro acc h; simp [earliest] at h
  | cons p ps ih =>
    intro acc h
    obtain ⟨_, _, hsame⟩ := earliest_le t0 ps (some p.1, departure t0 p.1)
    have hle := (earliest_le t0 ps (some p.1, departure t0 p.1)).1
    have hle' := (earliest_le t0 ps acc).1
    have hunf : ∀ a, earliest t0 (p :: ps) a
        = earliest t0 ps (if departure t0 p.1 < a.2 then (some p.1, departure t0 p.1) else a) :=
      fun a => by unfold earliest; rw [List.foldl_cons]
    rw [hunf] at h ⊢
    by_cases hlt : departure t0 p.1 < acc.2
    · rw [if_pos hlt] at h ⊢
      by_cases heq : (earliest t0 ps (some p.1, departure t0 p.1)).2 = departure t0 p.1
      · exact ⟨[], p, ps, rfl, hsame heq, by simp⟩
      · obtain ⟨pre, q, post, rfl, hq, hpre⟩ := ih (some p.1, departure t0 p.1)
          (lt_of_le_of_ne hle heq)
        refine ⟨p :: pre, q, post, rfl, hq, ?_⟩
        intro r hr
        rcases List.mem_cons.mp hr with rfl | hr
        · rw [hq] at hle heq
          exact lt_of_le_of_ne hle heq
        · exact hpre r hr
    · rw [if_neg hlt] at h ⊢
      obtain ⟨pre, q, post, rfl, hq, hpre⟩ := ih acc h
      refine ⟨p :: pre, q, post, rfl, hq, ?_⟩
      intro r hr
      rcases List.mem_cons.mp hr with rfl | hr
      · rw [hq] at h
        simp only at h
        omega
      · exact hpre r hr

/-- Within the range of `int`, `bus_and_earliest_time` returns the first bus with the earliest
departure: for `t0 >= 0` and a non-empty list of buses with positive ids whose departures
are at most `2^31 - 1`, the result `(b, t)` has `t` the smallest departure and `b` the first
bus of the list that attains it. -/
theorem bus_and_earliest_time_in_range (t0 : Int) (buses : List (Int × Int)) (ht0 : 0 ≤ t0)
    (hne : buses ≠ []) (h : ∀ p ∈ buses, 0 < p.1 ∧ departure t0 p.1 ≤ 2147483647) :
    ∃ pre p post, buses = pre ++ p :: post ∧
      bus_and_earliest_time t0 buses = .ret (p.1, departure t0 p.1) ∧
      (∀ q ∈ buses, departure t0 p.1 ≤ departure t0 q.1) ∧
      (∀ q ∈ pre, departure t0 p.1 < departure t0 q.1) ∧
      t0 ≤ departure t0 p.1 ∧ p.1 ∣ departure t0 p.1 ∧ departure t0 p.1 - t0 < p.1 := by
  have hlt : (earliest t0 buses (none, 9223372036854775807)).2 < 9223372036854775807 := by
    obtain ⟨q, hq⟩ := List.exists_mem_of_ne_nil buses hne
    have := (earliest_le t0 buses (none, 9223372036854775807)).2.1 q hq
    have := (h q hq).2
    omega
  obtain ⟨pre, p, post, rfl, hp, hpre⟩ := earliest_first t0 buses _ hlt
  have hall := (earliest_le t0 (pre ++ p :: post) (none, 9223372036854775807)).2.1
  rw [hp] at hall
  obtain ⟨hd, hge, hw⟩ := departure_spec t0 p.1 (h p (by simp)).1
  refine ⟨pre, p, post, rfl, ?_, hall, hpre, hge, hd, hw⟩
  unfold bus_and_earliest_time
  rw [bus_loop_spec t0 ht0 _ none _ h, Run.run_ret_bind, hp]

set_option maxRecDepth 1000000 in
/-- C35. The variable `t` of `bus_and_earliest_time` is an `int` (`auto t = 0`), while the
times are 64-bit everywhere else: on the text of time 5 and the one bus 2147483655 the sum
`t + b` does not fit, the wait ends at 14, and the function returns time 14 for the bus
2147483655, which is no multiple of the id; the smallest multiple of the id that is not below
5 is 2147483655. For a time above `2^31 - 1` the wait never ends. On the sample (time 939)
the function returns bus 59 at time 944. -/
theorem bus_and_earliest_time_narrows :
    parse "5\n2147483655\n".data = .ret (5, [(2147483655, 0)]) ∧
    bus_and_earliest_time 5 [(2147483655, 0)] = .ret (2147483655, 14) ∧
    ¬ (2147483655 : Int) ∣ 14 ∧ departure 5 2147483655 = 2147483655 ∧
    (∀ (b d : Int) (buses : List (Int × Int)),
      bus_and_earliest_time 2147483648 ((b, d) :: buses) = .timeout) ∧
    parse test = .ret (939, [(7, 0), (13, 1), (59, 4), (31, 6), (19, 7)]) ∧
    bus_and_earliest_time 939 [(7, 0), (13, 1), (59, 4), (31, 6), (19, 7)] = .ret (59, 944) := by
  refine ⟨by decide, by decide, by decide, by decide, ?_, by decide, by decide⟩
  intro b d buses
  unfold bus_and_earliest_time
  rw [bus_loop, wait_loop_timeout 2147483648 b (by decide) _ 0 (by decide)]
  rfl

end Day13

namespace aoc

/-- The loop adds to its counter the number of positions of `prev :: rest` whose element is
smaller than the next one. -/
theorem count_increases_loop_eq {α : Type} [LT α] [DecidableRel (fun (a b : α) => a < b)] :
    ∀ (rest : List α) (prev : α) (count : Nat),
      count_increases_loop prev rest count
        = count + (List.range rest.length).countP (fun i => lt_at (prev :: rest) i (i + 1)) := by
  intro rest
  induction rest with
  | nil => intro prev count; simp [count_increases_loop]
  | cons cur rest ih =>
    intro prev count
    rw [count_increases_loop, ih, List.length_cons, List.range_succ_eq_map, List.countP_cons,
      List.countP_map]
    have h0 : lt_at (prev :: cur :: rest) 0 (0 + 1) = decide (prev < cur) := by
      simp [lt_at]
    have hs : ((fun i => lt_at (prev :: cur :: rest) i (i + 1)) ∘ Nat.succ)
        = fun i => lt_at (cur :: rest) i (i + 1) := by
      funext i
      simp [lt_at]
    rw [h0, hs]
    by_cases h : prev < cur
    · simp only [h, if_true, decide_True]; omega
    · simp only [h, if_false, decide_False, Bool.false_eq_true]; omega

/-- C18. For every finite sequence `m`, `count_increases(m)` is the number of positions
`i >= 1` of `m` with `m[i-1] < m[i]`; it is 0 for the empty sequence and for a sequence of one
element, and it is 7 for the ten depths of the example application. -/
theorem count_increases_eq {α : Type} [LT α] [DecidableRel (fun (a b : α) => a < b)]
    (m : List α) (a : α) :
    count_increases m
      = (List.range m.length).countP (fun i => decide (1 ≤ i) && lt_at m (i - 1) i) ∧
    count_increases ([] : List α) = 0 ∧
    count_increases [a] = 0 ∧
    count_increases depths = 7 := by
  refine ⟨?_, rfl, rfl, by decide⟩
  cases m with
  | nil => rfl
  | cons prev rest =>
    rw [count_increases, count_increases_loop_eq, List.length_cons, List.range_succ_eq_map,
      List.countP_cons, List.countP_map]
    simp only [Nat.zero_add, Nat.le_zero_eq, Nat.one_ne_zero, decide_False, Bool.false_and,
      Bool.false_eq_true, if_false, Nat.add_zero]
    congr 1
    funext i
    simp

end aoc

namespace Day15

/-! ## The memo -/

/-- Source `emplace` leaves a map that holds the key as it is. -/
theorem Memo.emplace_of_find (m : Memo) (k : Int) (u v : Nat × Nat) (h : m.find k = some u) :
    m.emplace k v = m := by
  induction m with
  | nil => simp [Memo.find] at h
  | cons e m ih =>
    obtain ⟨k', u'⟩ := e
    by_cases hk : k' = k
    · simp [Memo.emplace, hk]
    · simp only [Memo.find, hk, if_false] at h
      simp only [Memo.emplace, hk, if_false, ih h]

/-- Source `emplace` on a map without the key: the key is found afterwards, the other keys
are found as before. -/
theorem Memo.find_emplace (m : Memo) (k : Int) (v : Nat × Nat) (h : m.find k = none) (x : Int) :
    (m.emplace k v).find x = if k = x then some v else m.find x := by
  induction m with
  | nil => simp [Memo.emplace, Memo.find]
  | cons e m ih =>
    obtain ⟨k', u'⟩ := e
    by_cases hk : k' = k
    · simp [Memo.find, hk] at h
    · simp only [Memo.find, hk, if_false] at h
      simp only [Memo.emplace, hk, if_false, Memo.find, ih h]
      by_cases hx : k' = x
      · have : k ≠ x := fun e => hk (by rw [hx, e])
        simp [hx, this]
      · simp [hx]

/-- Source `memo[k] = v`: the key is found with the new pair, the other keys as before. -/
theorem Memo.find_assign (m : Memo) (k : Int) (v : Nat × Nat) (x : Int) :
    (m.assign k v).find x = if k = x then some v else m.find x := by
  induction m with
  | nil => simp [Memo.assign, Memo.find]
  | cons e m ih =>
    obtain ⟨k', u'⟩ := e
    by_cases hk : k' = k
    · subst hk
      by_cases hx : k' = x <;> simp [Memo.assign, Memo.find, hx]
    · simp only [Memo.assign, hk, if_false, Memo.find, ih]
      by_cases hx : k' = x
      · have : k ≠ x := fun e => hk (by rw [hx, e])
        simp [hx, this]
      · simp [hx]

/-! ## The turns of a number -/

/-- A number has turns exactly when it was spoken. -/
theorem turns_eq_none (spoken : List Int) (x : Int) : turns spoken x = none ↔ x ∉ spoken := by
  induction spoken with
  | nil => simp [turns]
  | cons y older ih =>
    by_cases hy : y = x
    · subst hy
      simp only [turns, if_true, List.mem_cons, true_or, not_true_eq_false, iff_false]
      cases turns older y <;> simp
    · simp only [turns, hy, if_false, ih, List.mem_cons, not_or]
      exact ⟨fun h => ⟨fun e => hy e.symm, h⟩, fun h => h.2⟩

/-- The last turn of a number is its position from the end, and the turn before is not
later. -/
theorem turns_eq_some (spoken : List Int) (x : Int) (p l : Nat)
    (h : turns spoken x = some (p, l)) :
    x ∈ spoken ∧ l + spoken.indexOf x + 1 = spoken.length ∧ p ≤ l := by
  induction spoken generalizing p l with
  | nil => simp [turns] at h
  | cons y older ih =>
    by_cases hy : y = x
    · subst hy
      simp only [turns, if_true] at h
      refine ⟨List.mem_cons_self _ _, ?_⟩
      rw [List.indexOf_cons_self, List.length_cons]
      cases ht : turns older y with
      | none =>
        rw [ht] at h
        simp only [Option.some.injEq, Prod.mk.injEq] at h
        omega
      | some pl =>
        rw [ht] at h
        simp only [Option.some.injEq, Prod.mk.injEq] at h
        obtain ⟨_, h2, _⟩ := ih pl.1 pl.2 ht
        have := List.indexOf_lt_length.mpr (ih pl.1 pl.2 ht).1
        omega
    · simp only [turns, hy, if_false] at h
      obtain ⟨h1, h2, h3⟩ := ih p l h
      refine ⟨List.mem_cons_of_mem _ h1, ?_, h3⟩
      rw [List.indexOf_cons_ne _ hy, List.length_cons]
      omega

/-- The next number of the game is the difference of the two turns that the memo holds for
the latest number. -/
theorem next_spoken_turns (prev : Int) (older : List Int) :
    ∃ p l, turns (prev :: older) prev = some (p, l) ∧ l = older.length ∧ p ≤ l ∧
      next_spoken (prev :: older) = ((l - p : Nat) : Int) := by
  cases ht : turns older prev with
  | none =>
    refine ⟨older.length, older.length, by simp [turns, ht], rfl, le_rfl, ?_⟩
    have := (turns_eq_none older prev).mp ht
    simp [next_spoken, this]
  | some pl =>
    obtain ⟨h1, h2, h3⟩ := turns_eq_some older prev pl.1 pl.2 ht
    refine ⟨pl.2, older.length, by simp [turns, ht], rfl, by omega, ?_⟩
    simp only [next_spoken, h1, if_true]
    congr 1
    omega

/-! ## The loops -/

/-- The loop of `setup` on numbers that are new and pairwise distinct records each of them
once. -/
theorem setup_from_turns : ∀ (xs : List Int) (spoken : List Int) (res : Memo),
    (∀ x, res.find x = turns spoken x) → xs.Nodup → (∀ x ∈ xs, x ∉ spoken) →
    ∀ x, (setup_from xs spoken.length res).find x = turns (xs.reverse ++ spoken) x := by
  intro xs
  induction xs with
  | nil => intro spoken res h _ _ x; simpa [setup_from] using h x
  | cons y ys ih =>
    intro spoken res h hnd hnew x
    have hy : y ∉ spoken := hnew y (List.mem_cons_self _ _)
    have hnone : res.find y = none := by rw [h y]; exact (turns_eq_none spoken y).mpr hy
    have hstep : ∀ x, (res.emplace y (spoken.length, spoken.length)).find x
        = turns (y :: spoken) x := by
      intro x
      rw [Memo.find_emplace res y _ hnone x]
      by_cases hx : y = x
      · subst hx
        simp [turns, (turns_eq_none spoken y).mpr hy]
      · simp [turns, hx, h x]
    have := ih (y :: spoken) _ hstep (List.nodup_cons.mp hnd).2 (fun z hz hmem => by
      rcases List.mem_cons.mp hmem with rfl | hmem
      · exact (List.nodup_cons.mp hnd).1 hz
      · exact hnew z (List.mem_cons_of_mem _ hz) hmem) x
    simpa [setup_from] using this

/-- Source `setup` on pairwise distinct numbers. -/
theorem setup_turns (starting : List Int) (hnd : starting.Nodup) (x : Int) :
    (setup starting).find x = turns starting.reverse x := by
  have := setup_from_turns starting [] [] (fun x => rfl) hnd (fun x _ => List.not_mem_nil x) x
  simpa [setup] using this

/-- The conversion to `int` keeps a number below `2 ^ 31`. -/
theorem to_int_small (x : Nat) (h : x < 2 ^ 31) : to_int x = (x : Int) := by
  unfold to_int
  have h1 : x % 2 ^ 32 = x := Nat.mod_eq_of_lt (by omega)
  rw [h1, if_pos h]

/-- The difference of two `std::size_t` is exact when nothing wraps. -/
theorem size_sub_exact (l p : Nat) (hp : p ≤ l) (hl : l < 2 ^ 64) : size_sub l p = l - p := by
  unfold size_sub
  omega

/-- One round of the loop of `spoken_number`: the next number of the game is spoken and
recorded, while the index is at most `2 ^ 31`. -/
theorem spoken_loop_step (k i : Nat) (memo : Memo) (last : Int) (older : List Int)
    (hlen : (last :: older).length = i) (hmemo : ∀ x, memo.find x = turns (last :: older) x)
    (hi : i ≤ 2 ^ 31) :
    ∃ memo2, spoken_loop (k + 1) i memo last
        = spoken_loop k (i + 1) memo2 (next_spoken (last :: older)) ∧
      ∀ x, memo2.find x = turns (next_spoken (last :: older) :: last :: older) x := by
  obtain ⟨p, l, ht, hl, hpl, hnext⟩ := next_spoken_turns last older
  have hfind : memo.find last = some (p, l) := by rw [hmemo, ht]
  have hidx : memo.index last = ((p, l), memo) := by
    simp only [Memo.index, hfind, Option.getD_some, Memo.emplace_of_find memo last (p, l) _ hfind]
  simp only [List.length_cons] at hlen
  have hlast1 : to_int (size_sub l p) = next_spoken (last :: older) := by
    rw [size_sub_exact l p hpl (by omega), to_int_small _ (by omega), hnext]
  rw [spoken_loop]
  simp only [hidx, hlast1]
  refine ⟨_, rfl, fun x => ?_⟩
  generalize next_spoken (last :: older) = nxt
  cases hn : turns (last :: older) nxt with
  | none =>
    have hc : memo.contains nxt = false := by simp [Memo.contains, hmemo, hn]
    simp only [hc, Bool.false_eq_true, if_false, Memo.find_assign]
    by_cases hx : nxt = x
    · subst hx
      simp only [if_true]
      rw [turns, if_pos rfl, hn]
      simp only [List.length_cons]
      rw [← hlen]
    · rw [if_neg hx, turns, if_neg hx, hmemo]
  | some pl =>
    have hf : memo.find nxt = some pl := by rw [hmemo, hn]
    have hc : memo.contains nxt = true := by simp [Memo.contains, hf]
    have hidx2 : memo.index nxt = (pl, memo) := by
      simp only [Memo.index, hf, Option.getD_some, Memo.emplace_of_find memo nxt pl _ hf]
    simp only [hc, if_true, hidx2, Memo.find_assign]
    by_cases hx : nxt = x
    · subst hx
      simp only [if_true]
      rw [turns, if_pos rfl, hn]
      simp only [List.length_cons]
      rw [← hlen]
    · rw [if_neg hx, turns, if_neg hx, hmemo]

/-- The loop of `spoken_number` plays the game, while the index stays at most `2 ^ 31`. -/
theorem spoken_loop_play : ∀ (k i : Nat) (memo : Memo) (last : Int) (older : List Int),
    (last :: older).length = i → (∀ x, memo.find x = turns (last :: older) x) →
    i + k ≤ 2 ^ 31 + 1 →
    (play k (last :: older)).head? = some (spoken_loop k i memo last) := by
  intro k
  induction k with
  | zero => intro i memo last older _ _ _; rfl
  | succ k ih =>
    intro i memo last older hlen hmemo hi
    obtain ⟨memo2, hstep, hmemo2⟩ := spoken_loop_step k i memo last older hlen hmemo (by omega)
    rw [hstep, play]
    exact ih (i + 1) memo2 _ _ (by simp only [List.length_cons] at hlen ⊢; omega) hmemo2
      (by omega)

/-- C21, amended. For every non-empty list of pairwise distinct numbers and every `n` from
`starting.size()` up to `2 ^ 31 + 1`, `spoken_number(n, starting)` returns the `n`-th number
of the game that starts with `starting`. -/
theorem spoken_number_plays (starting : List Int) (hne : starting ≠ []) (hnd : starting.Nodup)
    (n : Nat) (hn : starting.length ≤ n) (hr : n ≤ 2 ^ 31 + 1) :
    ∃ x, spoken_number n starting = some x ∧ nth_spoken starting n = some x := by
  obtain ⟨last, older, hrev⟩ : ∃ last older, starting.reverse = last :: older := by
    cases h : starting.reverse with
    | nil => exact absurd (List.reverse_eq_nil_iff.mp h) hne
    | cons a b => exact ⟨a, b, rfl⟩
  have hlast : starting.getLast? = some last := by
    rw [← List.head?_reverse, hrev]
    rfl
  have hlen : (last :: older).length = starting.length := by
    rw [← hrev, List.length_reverse]
  have hplay := spoken_loop_play (n - starting.length) starting.length (setup starting) last older
    hlen (fun x => by rw [setup_turns starting hnd x, hrev]) (by omega)
  refine ⟨spoken_loop (n - starting.length) starting.length (setup starting) last, ?_, ?_⟩
  · simp only [spoken_number, hlast]
  · rw [nth_spoken, hrev, hplay]

set_option maxRecDepth 1000000 in
theorem spoken_number_plays_witness :
    spoken_number 10 [0, 3, 6] = some 0 ∧ nth_spoken [0, 3, 6] 10 = some 0 ∧
    ∃ x, spoken_number 2020 [0, 3, 6] = some x ∧ nth_spoken [0, 3, 6] 2020 = some x :=
  ⟨by decide, by decide,
    spoken_number_plays [0, 3, 6] (by decide) (by decide) 2020 (by decide) (by decide)⟩

/-- The game on a list of `2 ^ 31` pairwise distinct numbers that starts with 0: the number
after the list is 0, and the next one is `2 ^ 31`, which `spoken_number` returns as
`-2 ^ 31`. -/
theorem spoken_number_long_start (tail : List Int) (h0 : (0 : Int) ∉ tail) (hnd : tail.Nodup)
    (hlen : tail.length = 2147483647) :
    spoken_number 2147483650 (0 :: tail) = some (-2147483648) ∧
    nth_spoken (0 :: tail) 2147483650 = some 2147483648 := by
  have hnd0 : (0 :: tail).Nodup := List.nodup_cons.mpr ⟨h0, hnd⟩
  have hne : tail.reverse ≠ [] := by
    intro h
    have := congrArg List.length h
    rw [List.length_reverse, hlen] at this
    simp at this
  obtain ⟨last, rest, hrest⟩ : ∃ last rest, tail.reverse = last :: rest := by
    cases h : tail.reverse with
    | nil => exact absurd h hne
    | cons a b => exact ⟨a, b, rfl⟩
  have hrev : (0 :: tail).reverse = last :: (rest ++ [0]) := by
    rw [List.reverse_cons, hrest, List.cons_append]
  have hndr : (last :: (rest ++ [0])).Nodup := by
    rw [← hrev]
    exact List.nodup_reverse.mpr hnd0
  have hlast_new : last ∉ rest ++ [0] := (List.nodup_cons.mp hndr).1
  have hlenr : (last :: (rest ++ [0])).length = 2147483648 := by
    rw [← hrev, List.length_reverse, List.length_cons, hlen]
  have hstart : (0 :: tail).length = 2147483648 := by rw [List.length_cons, hlen]
  have hlast : (0 :: tail).getLast? = some last := by
    rw [← List.head?_reverse, hrev]
    rfl
  have hnext : next_spoken (last :: (rest ++ [0])) = 0 := by
    simp only [next_spoken, hlast_new, if_false]
  have h0mem : (0 : Int) ∈ last :: (rest ++ [0]) := by simp
  have h0idx : (last :: (rest ++ [0])).indexOf (0 : Int) = 2147483647 := by
    have hnot : (0 : Int) ∉ tail.reverse := fun h => h0 (List.mem_reverse.mp h)
    rw [← List.cons_append, ← hrest, List.indexOf_append_of_not_mem hnot, List.length_reverse,
      hlen]
    simp
  constructor
  · simp only [spoken_number, hlast, hstart]
    obtain ⟨memo2, hstep, hmemo2⟩ := spoken_loop_step 1 2147483648 (setup (0 :: tail)) last
      (rest ++ [0]) hlenr (fun x => by rw [setup_turns _ hnd0 x, hrev]) (by norm_num)
    rw [show 2147483650 - 2147483648 = 1 + 1 from rfl, hstep, hnext]
    obtain ⟨p, l, ht, _, _⟩ : ∃ p l, turns (last :: (rest ++ [0])) 0 = some (p, l) ∧
        p = 0 ∧ l = 0 := by
      cases ht : turns (last :: (rest ++ [0])) 0 with
      | none => exact absurd h0mem ((turns_eq_none _ _).mp ht)
      | some pl =>
        obtain ⟨_, h2, h3⟩ := turns_eq_some _ 0 pl.1 pl.2 ht
        rw [h0idx, hlenr] at h2
        exact ⟨pl.1, pl.2, rfl, by omega, by omega⟩
    subst_vars
    have hfind : memo2.find 0 = some (0, 2147483648) := by
      rw [hmemo2, hnext, turns, if_pos rfl, ht, hlenr]
    rw [spoken_loop]
    simp only [spoken_loop, Memo.index, hfind, Option.getD_some]
    decide
  · rw [nth_spoken, hrev, hstart, show 2147483650 - 2147483648 = 1 + 1 from rfl, play, play,
      hnext, play, List.head?_cons, next_spoken, if_pos h0mem, h0idx]
    rfl

/-- C21, counterexample. The numbers 0, 1, ..., 2147483647 are pairwise distinct and not
negative; the number spoken on turn 2147483650 of their game is 2147483648, the distance
between the two turns of 0, and `spoken_number` returns -2147483648: the distance does not fit
the `int` that holds it. -/
theorem spoken_number_wraps :
    all_numbers ≠ [] ∧ all_numbers.Nodup ∧ (∀ x ∈ all_numbers, 0 ≤ x) ∧
    all_numbers.length ≤ 2147483650 ∧
    spoken_number 2147483650 all_numbers = some (-2147483648) ∧
    nth_spoken all_numbers 2147483650 = some 2147483648 := by
  have h0 : (0 : Int) ∉ (List.range 2147483647).map (fun j : Nat => (j : Int) + 1) := by
    intro h
    obtain ⟨j, _, hj⟩ := List.mem_map.mp h
    have hj' : (j : Int) + 1 = 0 := hj
    omega
  have hinj : Function.Injective (fun j : Nat => (j : Int) + 1) := by
    intro a b h
    have h' : (a : Int) + 1 = (b : Int) + 1 := h
    omega
  have hnd : ((List.range 2147483647).map (fun j : Nat => (j : Int) + 1)).Nodup :=
    List.Nodup.map hinj (List.nodup_range 2147483647)
  have hlen : ((List.range 2147483647).map (fun j : Nat => (j : Int) + 1)).length = 2147483647 := by
    rw [List.length_map, List.length_range]
  refine ⟨List.cons_ne_nil _ _, List.nodup_cons.mpr ⟨h0, hnd⟩, ?_, ?_,
    spoken_number_long_start _ h0 hnd hlen⟩
  · intro x hx
    rcases List.mem_cons.mp hx with rfl | hx
    · exact le_rfl
    · obtain ⟨j, _, hj⟩ := List.mem_map.mp hx
      have hj' : (j : Int) + 1 = x := hj
      omega
  · rw [all_numbers, List.length_cons, hlen]
    norm_num

end Day15

namespace Day17

/-! ## Sequencing -/

theorem Exec.exec_ret_bind {α β : Type} (a : α) (f : α → Exec β) : (Exec.ret a).bind f = f a :=
  rfl

theorem Exec.exec_bind_eq_ret {α β : Type} (x : Exec α) (f : α → Exec β) (b : β) :
    x.bind f = .ret b ↔ ∃ a, x = .ret a ∧ f a = .ret b := by
  cases x <;> simp [Exec.bind]

/-! ## Matrices and cubes of known dimensions -/

/-- The index of an element of a matrix does not wrap, and is inside the vector. -/
theorem Matrix.idx_eq (m : Matrix) (R C : Nat) (hm : m.wf R C) (hRC : R * C < 2 ^ 64)
    (i j : Nat) (hi : i < R) (hj : j < C) :
    m.idx i j = i * C + j ∧ i * C + j < m.data_.length := by
  have h1 : i * C + j < R * C := by
    calc i * C + j < i * C + C := by omega
      _ = (i + 1) * C := by ring
      _ ≤ R * C := Nat.mul_le_mul_right C hi
  rw [Matrix.idx, hm.1, hm.2]
  exact ⟨Nat.mod_eq_of_lt (by omega), h1⟩

/-- Two cells of a matrix with the same index are the same cell. -/
theorem idx_inj (C i j i' j' : Nat) (hj : j < C) (hj' : j' < C)
    (h : i * C + j = i' * C + j') : i = i' ∧ j = j' := by
  have h1 : (i * C + j) / C = i := by
    rw [Nat.add_comm, Nat.add_mul_div_right _ _ (by omega), Nat.div_eq_of_lt hj, Nat.zero_add]
  have h2 : (i' * C + j') / C = i' := by
    rw [Nat.add_comm, Nat.add_mul_div_right _ _ (by omega), Nat.div_eq_of_lt hj', Nat.zero_add]
  have hi : i = i' := by rw [← h1, ← h2, h]
  subst hi
  exact ⟨rfl, by omega⟩

/-- Source `Matrix::at` inside the matrix returns an element. -/
theorem Matrix.matrix_at_ret (m : Matrix) (R C : Nat) (hm : m.wf R C) (hRC : R * C < 2 ^ 64)
    (i j : Nat) (hi : i < R) (hj : j < C) :
    m.at i j = .ret (m.data_.getD (i * C + j) false) := by
  obtain ⟨h1, h2⟩ := Matrix.idx_eq m R C hm hRC i j hi hj
  rw [Matrix.at, h1, List.getElem?_eq_getElem h2]
  simp [List.getD_eq_getElem?_getD, List.getElem?_eq_getElem h2]

/-- Source `Matrix::set` inside the matrix: the dimensions stay, the cell holds the new
value, and the other cells are as before. -/
theorem Matrix.matrix_set_ret (m : Matrix) (R C : Nat) (hm : m.wf R C) (hRC : R * C < 2 ^ 64)
    (i j : Nat) (hi : i < R) (hj : j < C) (v : Bool) :
    ∃ m', m.set i j v = .ret m' ∧ m'.wf R C ∧
      ∀ i' j', i' < R → j' < C →
        m'.at i' j' = if i' = i ∧ j' = j then .ret v else m.at i' j' := by
  obtain ⟨h1, h2⟩ := Matrix.idx_eq m R C hm hRC i j hi hj
  refine ⟨{ m with data_ := m.data_.set (i * C + j) v }, ?_, ?_, ?_⟩
  · rw [Matrix.set, h1, if_pos h2]
  · exact ⟨hm.1, by simp [hm.2]⟩
  · intro i' j' hi' hj'
    have hm' : Matrix.wf { m with data_ := m.data_.set (i * C + j) v } R C :=
      ⟨hm.1, by simp [hm.2]⟩
    rw [Matrix.matrix_at_ret _ R C hm' hRC i' j' hi' hj', Matrix.matrix_at_ret m R C hm hRC i' j' hi' hj']
    obtain ⟨_, h2'⟩ := Matrix.idx_eq m R C hm hRC i' j' hi' hj'
    by_cases hsame : i' = i ∧ j' = j
    · obtain ⟨rfl, rfl⟩ := hsame
      simp [List.getD_eq_getElem?_getD, List.getElem?_set_self, h2]
    · rw [if_neg hsame]
      have hne : i * C + j ≠ i' * C + j' := by
        intro h
        obtain ⟨rfl, rfl⟩ := idx_inj C i j i' j' hj hj' h
        exact hsame ⟨rfl, rfl⟩
      simp [List.getD_eq_getElem?_getD, List.getElem?_set_ne hne]

/-- The dimensions of a cube with at least one slice and one column. -/
theorem Cube.dims (c : Cube) (R C S : Nat) (hc : c.wf R C S) (hC : 0 < C) (hS : 0 < S) :
    c.rows = .ret R ∧ c.cols = .ret C ∧ c.slices = S := by
  obtain ⟨hlen, hall⟩ := hc
  cases hs : c.slices_ with
  | nil => rw [hs] at hlen; simp at hlen; omega
  | cons m ms =>
    have hm := hall m (by rw [hs]; exact List.mem_cons_self _ _)
    refine ⟨?_, ?_, hlen⟩
    · simp only [Cube.rows, hs, List.head?_cons, Matrix.rows, hm.1]
      rw [if_neg (by omega), hm.2, Nat.mul_div_cancel _ hC]
    · simp only [Cube.cols, hs, List.head?_cons, Matrix.cols, hm.1]

/-- The cells that the loops of `evolve` visit are the cells inside the grid. -/
theorem mem_cells (R C S : Nat) (p : Nat × Nat × Nat) :
    p ∈ cells R C S ↔ p.1 < R ∧ p.2.1 < C ∧ p.2.2 < S := by
  obtain ⟨i, j, k⟩ := p
  simp only [cells, List.mem_flatMap, List.mem_map, List.mem_range, Prod.mk.injEq]
  constructor
  · rintro ⟨i', hi, j', hj, k', hk, rfl, rfl, rfl⟩
    exact ⟨hi, hj, hk⟩
  · rintro ⟨hi, hj, hk⟩
    exact ⟨i, hi, j, hj, k, hk, rfl, rfl, rfl⟩

/-- The loops of `evolve` visit no cell twice. -/
theorem cells_nodup (R C S : Nat) : (cells R C S).Nodup := by
  unfold cells
  refine List.nodup_flatMap.mpr ⟨fun i _ => ?_, ?_⟩
  · refine List.nodup_flatMap.mpr ⟨fun j _ => ?_, ?_⟩
    · exact (List.nodup_range S).map (fun a b h => by simpa using h)
    · refine List.Pairwise.imp_of_mem ?_ (List.nodup_range C)
      intro a b _ _ hab
      simp only [Function.onFun, List.Disjoint, List.mem_map, List.mem_range]
      rintro x ⟨_, _, rfl⟩ ⟨_, _, h⟩
      simp only [Prod.mk.injEq] at h
      exact hab h.2.1.symm
  · refine List.Pairwise.imp_of_mem ?_ (List.nodup_range R)
    intro a b _ _ hab
    simp only [Function.onFun, List.Disjoint, List.mem_flatMap, List.mem_map, List.mem_range]
    rintro x ⟨_, _, _, _, rfl⟩ ⟨_, _, _, _, h⟩
    simp only [Prod.mk.injEq] at h
    exact hab h.1.symm

/-- Source `Cube::at` inside the cube is `Matrix::at` on the slice, a matrix of the
dimensions of the cube. -/
theorem Cube.at_slice (c : Cube) (R C S : Nat) (hc : c.wf R C S) (k : Nat) (hk : k < S) :
    ∃ m, c.slices_[k]? = some m ∧ m.wf R C ∧ ∀ i j, c.at i j k = m.at i j := by
  have hk' : k < c.slices_.length := by rw [hc.1]; exact hk
  refine ⟨c.slices_[k], List.getElem?_eq_getElem hk', hc.2 _ (List.getElem_mem _), ?_⟩
  intro i j
  simp only [Cube.at, List.getElem?_eq_getElem hk']

/-- Source `Cube::at` inside the cube returns. -/
theorem Cube.at_ret (c : Cube) (R C S : Nat) (hc : c.wf R C S) (hRC : R * C < 2 ^ 64)
    (p : Nat × Nat × Nat) (hp : p ∈ cells R C S) :
    ∃ b, c.at p.1 p.2.1 p.2.2 = .ret b := by
  obtain ⟨hi, hj, hk⟩ := (mem_cells R C S p).mp hp
  obtain ⟨m, _, hm, hat⟩ := Cube.at_slice c R C S hc p.2.2 hk
  exact ⟨_, by rw [hat, Matrix.matrix_at_ret m R C hm hRC p.1 p.2.1 hi hj]⟩

/-- Source `Cube::set` inside the cube: the dimensions stay, the cell holds the new value,
and the other cells are as before. -/
theorem Cube.set_ret (c : Cube) (R C S : Nat) (hc : c.wf R C S) (hRC : R * C < 2 ^ 64)
    (p : Nat × Nat × Nat) (hp : p ∈ cells R C S) (v : Bool) :
    ∃ c', c.set p.1 p.2.1 p.2.2 v = .ret c' ∧ c'.wf R C S ∧
      ∀ q ∈ cells R C S,
        c'.at q.1 q.2.1 q.2.2 = if q = p then .ret v else c.at q.1 q.2.1 q.2.2 := by
  obtain ⟨hi, hj, hk⟩ := (mem_cells R C S p).mp hp
  obtain ⟨m, hmk, hm, hat⟩ := Cube.at_slice c R C S hc p.2.2 hk
  obtain ⟨m', hset, hm', hat'⟩ := Matrix.matrix_set_ret m R C hm hRC p.1 p.2.1 hi hj v
  have hk' : p.2.2 < c.slices_.length := by rw [hc.1]; exact hk
  have hwf : Cube.wf { slices_ := c.slices_.set p.2.2 m' } R C S := by
    refine ⟨by simp [hc.1], fun x hx => ?_⟩
    rcases List.mem_or_eq_of_mem_set hx with h | h
    · exact hc.2 x h
    · rw [h]; exact hm'
  refine ⟨{ slices_ := c.slices_.set p.2.2 m' }, ?_, hwf, ?_⟩
  · simp only [Cube.set, hmk, hset, Exec.exec_ret_bind]
  · intro q hq
    obtain ⟨hqi, hqj, hqk⟩ := (mem_cells R C S q).mp hq
    by_cases hkk : q.2.2 = p.2.2
    · have h1 : Cube.at { slices_ := c.slices_.set p.2.2 m' } q.1 q.2.1 q.2.2 = m'.at q.1 q.2.1 := by
        simp only [Cube.at, hkk, List.getElem?_set_self hk']
      have h2 : c.at q.1 q.2.1 q.2.2 = m.at q.1 q.2.1 := by rw [hkk, hat]
      rw [h1, h2, hat' q.1 q.2.1 hqi hqj]
      by_cases hsame : q.1 = p.1 ∧ q.2.1 = p.2.1
      · have : q = p := Prod.ext hsame.1 (Prod.ext hsame.2 hkk)
        rw [if_pos hsame, if_pos this]
      · have : q ≠ p := fun e => hsame ⟨by rw [e], by rw [e]⟩
        rw [if_neg hsame, if_neg this]
    · have : q ≠ p := fun e => hkk (by rw [e])
      rw [if_neg this]
      simp only [Cube.at]
      rw [List.getElem?_set_ne (fun e => hkk e.symm)]

/-! ## Counting neighbours -/

/-- The offsets are the triples of numbers from -1 to 1. -/
theorem mem_offsets (d : Point) :
    d ∈ offsets ↔ (-1 ≤ d.1 ∧ d.1 ≤ 1) ∧ (-1 ≤ d.2.1 ∧ d.2.1 ≤ 1) ∧ (-1 ≤ d.2.2 ∧ d.2.2 ≤ 1) := by
  obtain ⟨a, b, c⟩ := d
  have h3 : ∀ x : Int, x ∈ [(-1 : Int), 0, 1] ↔ -1 ≤ x ∧ x ≤ 1 := by
    intro x
    simp only [List.mem_cons, List.mem_singleton, List.not_mem_nil, or_false]
    omega
  simp only [offsets, List.mem_flatMap, List.mem_map, Prod.mk.injEq]
  constructor
  · rintro ⟨a', ha, b', hb, c', hc, rfl, rfl, rfl⟩
    exact ⟨(h3 _).mp ha, (h3 _).mp hb, (h3 _).mp hc⟩
  · rintro ⟨ha, hb, hc⟩
    exact ⟨a, (h3 a).mpr ha, b, (h3 b).mpr hb, c, (h3 c).mpr hc, rfl, rfl, rfl⟩

/-- No offset occurs twice. -/
theorem offsets_nodup : offsets.Nodup := by decide

/-- The sum `r + di` of `count_neighbor`, computed modulo `2 ^ 64`, passes the test
`i <= R` exactly when the exact sum is between 0 and `R`, and is the exact sum then. -/
theorem wrap_offset (r Rm : Nat) (d : Int) (hd : -1 ≤ d ∧ d ≤ 1) (hr : r ≤ Rm)
    (hR : Rm < 2 ^ 63) :
    ((r + to_size d) % 2 ^ 64 ≤ Rm ↔ 0 ≤ (r : Int) + d ∧ (r : Int) + d ≤ Rm) ∧
    ((r + to_size d) % 2 ^ 64 ≤ Rm → (((r + to_size d) % 2 ^ 64 : Nat) : Int) = r + d) := by
  have hcases : d = -1 ∨ d = 0 ∨ d = 1 := by omega
  rcases hcases with rfl | rfl | rfl
  · have h : to_size (-1) = 2 ^ 64 - 1 := by decide
    rw [h]
    omega
  · have h : to_size 0 = 0 := by decide
    rw [h]
    omega
  · have h : to_size 1 = 1 := by decide
    rw [h]
    omega

/-- The conversion to `std::size_t` keeps a natural number below `2 ^ 64`. -/
theorem to_size_nat (n : Nat) (h : n < 2 ^ 64) : to_size (n : Int) = n := by
  unfold to_size
  rw [Int.emod_eq_of_lt (by omega) (by omega)]
  simp

/-- The bound `R = rows() - 1` of `count_neighbor` does not wrap when there is a row. -/
theorem to_size_pred (R : Nat) (h0 : 0 < R) (hR : R < 2 ^ 64) :
    to_size ((R : Int) - 1) = R - 1 := by
  unfold to_size
  have h : ((R : Int) - 1) % 2 ^ 64 = (R : Int) - 1 := Int.emod_eq_of_lt (by omega) (by omega)
  rw [h]
  omega

/-- The active cells of a cube are the cells inside the grid at which `Cube::at` returns
true. -/
theorem mem_actives (c : Cube) (R C S : Nat) (q : Point) :
    q ∈ c.actives R C S ↔
      ∃ p ∈ cells R C S, c.at p.1 p.2.1 p.2.2 = .ret true ∧ to_point p = q := by
  simp only [Cube.actives, List.mem_toFinset, List.mem_map, List.mem_filter, decide_eq_true_eq]
  constructor
  · rintro ⟨p, ⟨hp, hat⟩, rfl⟩
    exact ⟨p, hp, hat, rfl⟩
  · rintro ⟨p, hp, hat, rfl⟩
    exact ⟨p, ⟨hp, hat⟩, rfl⟩

/-- The embedding of the cells of a cube into the unbounded grid is injective. -/
theorem to_point_inj (p q : Nat × Nat × Nat) (h : to_point p = to_point q) : p = q := by
  obtain ⟨a, b, c⟩ := p
  obtain ⟨a', b', c'⟩ := q
  simp only [to_point, Prod.mk.injEq, Nat.cast_inj] at h
  obtain ⟨rfl, rfl, rfl⟩ := h
  rfl

/-- A cell inside the grid is active exactly when `Cube::at` returns true on it. -/
theorem mem_actives_cell (c : Cube) (R C S : Nat) (p : Nat × Nat × Nat) (hp : p ∈ cells R C S) :
    to_point p ∈ c.actives R C S ↔ c.at p.1 p.2.1 p.2.2 = .ret true := by
  rw [mem_actives]
  constructor
  · rintro ⟨p', _, hat, h⟩
    rw [← to_point_inj p' p h]
    exact hat
  · intro h
    exact ⟨p, hp, h, rfl⟩

/-- The three loops of `count_neighbor` add to the counter the number of offsets that lead to
an active cell of the grid. -/
theorem count_neighbor_loop_eq (c : Cube) (R C S : Nat) (hc : c.wf R C S)
    (hR : 0 < R) (hC : 0 < C) (hS : 0 < S) (hRC : R * C < 2 ^ 63) (hS63 : S < 2 ^ 63)
    (p : Nat × Nat × Nat) (hp : p ∈ cells R C S) :
    ∀ (L : List Point), (∀ d ∈ L, d ∈ offsets) → ∀ res : Int,
      count_neighbor_loop c (R - 1) (C - 1) (S - 1) p.1 p.2.1 p.2.2 true L res
        = .ret (res + ((L.filter fun d =>
            decide (translate (to_point p) d ∈ c.actives R C S)).length : Nat)) := by
  obtain ⟨hi, hj, hk⟩ := (mem_cells R C S p).mp hp
  have hR63 : R < 2 ^ 63 := lt_of_le_of_lt (Nat.le_mul_of_pos_right R hC) hRC
  have hC63 : C < 2 ^ 63 := lt_of_le_of_lt (Nat.le_mul_of_pos_left C hR) hRC
  intro L
  induction L with
  | nil => intro _ res; simp [count_neighbor_loop]
  | cons d L ih =>
    intro hL res
    have hd := (mem_offsets d).mp (hL d (List.mem_cons_self _ _))
    have ih' := ih (fun d' hd' => hL d' (List.mem_cons_of_mem _ hd'))
    obtain ⟨hwi, hvi⟩ := wrap_offset p.1 (R - 1) d.1 hd.1 (by omega) (by omega)
    obtain ⟨hwj, hvj⟩ := wrap_offset p.2.1 (C - 1) d.2.1 hd.2.1 (by omega) (by omega)
    obtain ⟨hwk, hvk⟩ := wrap_offset p.2.2 (S - 1) d.2.2 hd.2.2 (by omega) (by omega)
    rw [count_neighbor_loop]
    by_cases hin : (p.1 + to_size d.1) % 2 ^ 64 ≤ R - 1 ∧ (p.2.1 + to_size d.2.1) % 2 ^ 64 ≤ C - 1
        ∧ (p.2.2 + to_size d.2.2) % 2 ^ 64 ≤ S - 1
    · rw [if_pos hin]
      have hq : ((p.1 + to_size d.1) % 2 ^ 64, (p.2.1 + to_size d.2.1) % 2 ^ 64,
          (p.2.2 + to_size d.2.2) % 2 ^ 64) ∈ cells R C S := by
        rw [mem_cells]
        simp only []
        omega
      have hqp : to_point ((p.1 + to_size d.1) % 2 ^ 64, (p.2.1 + to_size d.2.1) % 2 ^ 64,
          (p.2.2 + to_size d.2.2) % 2 ^ 64) = translate (to_point p) d := by
        simp only [to_point, translate, Prod.mk.injEq]
        exact ⟨hvi hin.1, hvj hin.2.1, hvk hin.2.2⟩
      obtain ⟨b, hb⟩ := Cube.at_ret c R C S hc (by omega) _ hq
      have hmem := mem_actives_cell c R C S _ hq
      rw [hqp] at hmem
      simp only [] at hb hmem
      rw [hb, Exec.exec_ret_bind, ih', List.filter_cons]
      cases b with
      | true =>
        have : translate (to_point p) d ∈ c.actives R C S := hmem.mpr hb
        simp only [this, decide_True, if_true, List.length_cons]
        congr 1
        push_cast
        ring
      | false =>
        have : translate (to_point p) d ∉ c.actives R C S := fun h => by
          have := hmem.mp h
          rw [hb] at this
          cases this
        simp [this]
    · rw [if_neg hin, ih', List.filter_cons]
      have : translate (to_point p) d ∉ c.actives R C S := by
        intro h
        obtain ⟨q, hq, _, hqe⟩ := (mem_actives c R C S _).mp h
        obtain ⟨hqi, hqj, hqk⟩ := (mem_cells R C S q).mp hq
        simp only [to_point, translate, Prod.mk.injEq] at hqe
        apply hin
        refine ⟨hwi.mpr ?_, hwj.mpr ?_, hwk.mpr ?_⟩ <;> omega
      simp [this]

/-- The number of active neighbours of a cell is the number of offsets other than zero that
lead to an active cell. -/
theorem around_eq (g : Finset Point) (p : Point) :
    around g p = ((offsets.filter fun d => decide (d ≠ (0, 0, 0))).filter fun d =>
      decide (translate p d ∈ g)).length := by
  have hnd : (((offsets.filter fun d => decide (d ≠ (0, 0, 0))).filter fun d =>
      decide (translate p d ∈ g)).map (translate p)).Nodup := by
    refine List.Nodup.map ?_ ((offsets_nodup.filter _).filter _)
    intro a b h
    obtain ⟨a1, a2, a3⟩ := a
    obtain ⟨b1, b2, b3⟩ := b
    simp only [translate, Prod.mk.injEq] at h ⊢
    omega
  have hlen := List.length_map ((offsets.filter fun d => decide (d ≠ (0, 0, 0))).filter fun d =>
      decide (translate p d ∈ g)) (translate p)
  rw [around, ← hlen, ← List.toFinset_card_of_nodup hnd]
  congr 1
  ext q
  simp only [Finset.mem_filter, List.mem_toFinset, List.mem_map, List.mem_filter,
    decide_eq_true_eq, adjacent, mem_offsets]
  constructor
  · rintro ⟨hq, hne, h1, h2, h3⟩
    refine ⟨(q.1 - p.1, q.2.1 - p.2.1, q.2.2 - p.2.2), ⟨⟨⟨h1, h2, h3⟩, ?_⟩, ?_⟩, ?_⟩
    · intro h0
      simp only [Prod.mk.injEq] at h0
      apply hne
      refine Prod.ext ?_ (Prod.ext ?_ ?_) <;> omega
    · have : translate p (q.1 - p.1, q.2.1 - p.2.1, q.2.2 - p.2.2) = q := by
        refine Prod.ext ?_ (Prod.ext ?_ ?_) <;> simp [translate]
      rw [this]; exact hq
    · refine Prod.ext ?_ (Prod.ext ?_ ?_) <;> simp [translate]
  · rintro ⟨d, ⟨⟨⟨h1, h2, h3⟩, hne⟩, hmem⟩, rfl⟩
    refine ⟨hmem, ?_, ?_, ?_, ?_⟩
    · intro h
      apply hne
      have e1 := congrArg Prod.fst h
      have e2 := congrArg (fun x => x.2.1) h
      have e3 := congrArg (fun x => x.2.2) h
      simp only [translate] at e1 e2 e3
      refine Prod.ext ?_ (Prod.ext ?_ ?_) <;> simp <;> omega
    · simp only [translate]; omega
    · simp only [translate]; omega
    · simp only [translate]; omega

/-- In a list without repetition, the elements with a property are those other than `z` with
the property, and `z` when it has the property. -/
theorem filter_split {α : Type} [DecidableEq α] (P : α → Bool) (z : α) :
    ∀ (L : List α), L.Nodup → z ∈ L →
      (L.filter P).length
        = ((L.filter fun d => decide (d ≠ z)).filter P).length + (if P z then 1 else 0) := by
  intro L
  induction L with
  | nil => intro _ h; exact absurd h (List.not_mem_nil _)
  | cons a L ih =>
    intro hnd hz
    obtain ⟨ha, hnd'⟩ := List.nodup_cons.mp hnd
    by_cases haz : a = z
    · subst haz
      have hrest : (L.filter fun d => decide (d ≠ a)) = L := by
        rw [List.filter_eq_self]
        intro d hd
        simp only [ne_eq, decide_not, Bool.not_eq_true', decide_eq_false_iff_not]
        intro e
        exact ha (e ▸ hd)
      rw [List.filter_cons, List.filter_cons]
      simp only [ne_eq, not_true_eq_false, decide_False, Bool.false_eq_true, if_false, hrest]
      by_cases hP : P a = true
      · simp [hP]
      · simp [hP]
    · have hz' : z ∈ L := by
        rcases List.mem_cons.mp hz with h | h
        · exact absurd h.symm haz
        · exact h
      have := ih hnd' hz'
      have hfa : (List.filter (fun d => decide (d ≠ z)) (a :: L))
          = a :: List.filter (fun d => decide (d ≠ z)) L :=
        List.filter_cons_of_pos (by simp [haz])
      rw [hfa]
      by_cases hP : P a = true
      · rw [List.filter_cons_of_pos hP, List.filter_cons_of_pos hP, List.length_cons,
          List.length_cons, this]
        omega
      · rw [List.filter_cons_of_neg hP, List.filter_cons_of_neg hP, this]

/-- Source `count_neighbor` on a cell of the grid returns the number of active neighbours of
the cell. -/
theorem count_neighbor_eq (c : Cube) (R C S : Nat) (hc : c.wf R C S)
    (hR : 0 < R) (hC : 0 < C) (hS : 0 < S) (hRC : R * C < 2 ^ 63) (hS63 : S < 2 ^ 63)
    (p : Nat × Nat × Nat) (hp : p ∈ cells R C S) :
    count_neighbor c p.1 p.2.1 p.2.2 true = .ret (around (c.actives R C S) (to_point p)) := by
  have hR63 : R < 2 ^ 63 := lt_of_le_of_lt (Nat.le_mul_of_pos_right R hC) hRC
  have hC63 : C < 2 ^ 63 := lt_of_le_of_lt (Nat.le_mul_of_pos_left C hR) hRC
  obtain ⟨hrows, hcols, hslices⟩ := Cube.dims c R C S hc hC hS
  obtain ⟨b, hb⟩ := Cube.at_ret c R C S hc (by omega) p hp
  have hmem := mem_actives_cell c R C S p hp
  have hzero : translate (to_point p) (0, 0, 0) = to_point p := by
    simp [translate, to_point]
  have hsplit := filter_split (fun d => decide (translate (to_point p) d ∈ c.actives R C S))
    (0, 0, 0) offsets offsets_nodup (by decide)
  simp only [hzero] at hsplit
  rw [count_neighbor, hrows, Exec.exec_ret_bind, hcols, Exec.exec_ret_bind, hslices,
    to_size_pred R hR (by omega), to_size_pred C hC (by omega), to_size_pred S hS (by omega),
    count_neighbor_loop_eq c R C S hc hR hC hS hRC hS63 p hp offsets (fun d hd => hd) 0,
    Exec.exec_ret_bind, hb, Exec.exec_ret_bind, around_eq, hsplit]
  have hn : ((offsets.filter fun d => decide (d ≠ (0, 0, 0))).filter fun d =>
      decide (translate (to_point p) d ∈ c.actives R C S)).length < 2 ^ 64 :=
    lt_of_le_of_lt (List.length_filter_le _ _)
      (lt_of_le_of_lt (List.length_filter_le _ _) (by decide))
  generalize ((offsets.filter fun d => decide (d ≠ (0, 0, 0))).filter fun d =>
      decide (translate (to_point p) d ∈ c.actives R C S)).length = n at hn ⊢
  cases b with
  | true =>
    have : to_point p ∈ c.actives R C S := hmem.mpr hb
    simp only [this, decide_True, if_true, Int.zero_add]
    have e : (((n + 1 : Nat) : Int) - 1) = (n : Int) := by push_cast; ring
    rw [e, to_size_nat n hn]
  | false =>
    have : to_point p ∉ c.actives R C S := fun h => by
      have := hmem.mp h
      rw [hb] at this
      cases this
    simp only [this, decide_False, Bool.false_eq_true, if_false, Int.zero_add, Nat.add_zero]
    rw [to_size_nat n hn]

/-! ## One call of `evolve` -/

/-- Inside the grid `Cube::at` returns the state of the cell. -/
theorem Cube.at_state (c : Cube) (R C S : Nat) (hc : c.wf R C S) (hRC : R * C < 2 ^ 64)
    (p : Nat × Nat × Nat) (hp : p ∈ cells R C S) :
    c.at p.1 p.2.1 p.2.2 = .ret (c.state p) := by
  obtain ⟨b, hb⟩ := Cube.at_ret c R C S hc hRC p hp
  rw [Cube.state, hb]
  cases b <;> simp

/-- The body of the loops of `evolve` at a cell that was not visited before: the cell of
`update` gets the state that the rule gives it, the other cells stay, and the counter goes up
by one when the state of the cell changes. -/
theorem evolve_cell_spec (c : Cube) (R C S : Nat) (hc : c.wf R C S)
    (hR : 0 < R) (hC : 0 < C) (hS : 0 < S) (hRC : R * C < 2 ^ 63) (hS63 : S < 2 ^ 63)
    (p : Nat × Nat × Nat) (hp : p ∈ cells R C S) (u : Cube) (hu : u.wf R C S)
    (hup : u.at p.1 p.2.1 p.2.2 = c.at p.1 p.2.1 p.2.2) (n : Int) (hn : n + 1 < 2 ^ 31) :
    ∃ u', evolve_cell c p (u, n)
        = .ret (u', n + (if c.next R C S p = c.state p then 0 else 1)) ∧ u'.wf R C S ∧
      ∀ q ∈ cells R C S, u'.at q.1 q.2.1 q.2.2
        = if q = p then .ret (c.next R C S p) else u.at q.1 q.2.1 q.2.2 := by
  have hat := Cube.at_state c R C S hc (by omega) p hp
  have hcount := count_neighbor_eq c R C S hc hR hC hS hRC hS63 p hp
  rw [evolve_cell, hcount, Exec.exec_ret_bind, hat, Exec.exec_ret_bind]
  simp only []
  have hkeep : ∀ q ∈ cells R C S, c.next R C S p = c.state p →
      u.at q.1 q.2.1 q.2.2 = if q = p then .ret (c.next R C S p) else u.at q.1 q.2.1 q.2.2 := by
    intro q _ hsame
    by_cases hq : q = p
    · rw [if_pos hq, hq, hup, hat, hsame]
    · rw [if_neg hq]
  generalize hnb : around (c.actives R C S) (to_point p) = nb at *
  have hnext : c.next R C S p = rule (c.state p) nb := by rw [Cube.next, hnb]
  cases hs : c.state p with
  | true =>
    rw [hs] at hnext
    simp only [if_true]
    by_cases hcond : nb < 2 ∨ 3 < nb
    · have hr : c.next R C S p = false := by
        rw [hnext]
        simp only [rule, if_true, Bool.or_eq_false_iff, beq_eq_false_iff_ne]
        omega
      obtain ⟨u', hset, hwf, hu'⟩ := Cube.set_ret u R C S hu (by omega) p hp false
      refine ⟨u', ?_, hwf, ?_⟩
      · rw [if_pos hcond, hset, Exec.exec_ret_bind, incr, if_pos hn, Exec.exec_ret_bind, hr]
        simp
      · intro q hq
        rw [hu' q hq, hr]
    · have hr : c.next R C S p = true := by
        rw [hnext]
        simp only [rule, if_true, Bool.or_eq_true, beq_iff_eq]
        omega
      refine ⟨u, ?_, hu, fun q hq => hkeep q hq (by rw [hr, hs])⟩
      rw [if_neg hcond, hr]
      simp
  | false =>
    rw [hs] at hnext
    simp only [Bool.false_eq_true, if_false]
    by_cases hcond : nb = 3
    · have hr : c.next R C S p = true := by
        rw [hnext]
        simp [rule, hcond]
      obtain ⟨u', hset, hwf, hu'⟩ := Cube.set_ret u R C S hu (by omega) p hp true
      refine ⟨u', ?_, hwf, ?_⟩
      · rw [if_pos hcond, hset, Exec.exec_ret_bind, incr, if_pos hn, Exec.exec_ret_bind, hr]
        simp
      · intro q hq
        rw [hu' q hq, hr]
    · have hr : c.next R C S p = false := by
        rw [hnext]
        simp [rule, hcond]
      refine ⟨u, ?_, hu, fun q hq => hkeep q hq (by rw [hr, hs])⟩
      rw [if_neg hcond, hr]
      simp

/-- The loops of `evolve` over cells that were not visited before: each of them gets the state
that the rule gives it, the other cells stay, and the counter goes up by the number of cells
whose state changes. -/
theorem evolve_loop_spec (c : Cube) (R C S : Nat) (hc : c.wf R C S)
    (hR : 0 < R) (hC : 0 < C) (hS : 0 < S) (hRC : R * C < 2 ^ 63) (hS63 : S < 2 ^ 63) :
    ∀ (L : List (Nat × Nat × Nat)), L.Nodup → (∀ p ∈ L, p ∈ cells R C S) →
      ∀ (u : Cube) (n : Int), u.wf R C S →
        (∀ p ∈ L, u.at p.1 p.2.1 p.2.2 = c.at p.1 p.2.1 p.2.2) → n + L.length < 2 ^ 31 →
        ∃ u', evolve_loop c L (u, n)
            = .ret (u', n + ((L.filter fun p => decide (c.next R C S p ≠ c.state p)).length : Nat))
          ∧ u'.wf R C S ∧
          ∀ q ∈ cells R C S, u'.at q.1 q.2.1 q.2.2
            = if q ∈ L then .ret (c.next R C S q) else u.at q.1 q.2.1 q.2.2 := by
  intro L
  induction L with
  | nil =>
    intro _ _ u n hu _ _
    exact ⟨u, by simp [evolve_loop], hu, fun q _ => by simp⟩
  | cons p L ih =>
    intro hnd hL u n hu hun hn
    obtain ⟨hpL, hnd'⟩ := List.nodup_cons.mp hnd
    have hp := hL p (List.mem_cons_self _ _)
    simp only [List.length_cons] at hn
    obtain ⟨u1, h1, hwf1, hat1⟩ := evolve_cell_spec c R C S hc hR hC hS hRC hS63 p hp u hu
      (hun p (List.mem_cons_self _ _)) n (by push_cast at hn; omega)
    obtain ⟨u2, h2, hwf2, hat2⟩ := ih hnd' (fun q hq => hL q (List.mem_cons_of_mem _ hq)) u1
      (n + (if c.next R C S p = c.state p then 0 else 1)) hwf1
      (fun q hq => by
        have hqp : q ≠ p := fun e => hpL (e ▸ hq)
        rw [hat1 q (hL q (List.mem_cons_of_mem _ hq)), if_neg hqp]
        exact hun q (List.mem_cons_of_mem _ hq))
      (by push_cast at hn; split <;> omega)
    refine ⟨u2, ?_, hwf2, ?_⟩
    · rw [evolve_loop, h1, Exec.exec_ret_bind, h2, List.filter_cons]
      by_cases hsame : c.next R C S p = c.state p
      · simp [hsame]
      · simp only [hsame, if_false, ne_eq, not_false_eq_true, decide_True, if_true,
          List.length_cons]
        congr 2
        push_cast
        ring
    · intro q hq
      rw [hat2 q hq]
      by_cases hqL : q ∈ L
      · rw [if_pos hqL, if_pos (List.mem_cons_of_mem _ hqL)]
      · rw [if_neg hqL, hat1 q hq]
        by_cases hqp : q = p
        · rw [if_pos hqp, if_pos (by rw [hqp]; exact List.mem_cons_self _ _), hqp]
        · rw [if_neg hqp, if_neg (by simp [hqp, hqL])]

/-- The loops of `evolve` visit as many cells as the cube has. -/
theorem cells_length (R C S : Nat) : (cells R C S).length = R * C * S := by
  have hconst : ∀ {α β : Type} (l : List α) (f : α → List β) (n : Nat),
      (∀ a, (f a).length = n) → (l.flatMap f).length = l.length * n := by
    intro α β l f n h
    induction l with
    | nil => simp
    | cons a l ih => rw [List.flatMap_cons, List.length_append, ih, h, List.length_cons]; ring
  unfold cells
  rw [hconst _ _ (C * S) (fun i => by
    rw [hconst _ _ S (fun j => by rw [List.length_map, List.length_range]), List.length_range]),
    List.length_range, Nat.mul_assoc]

/-- One call of `evolve` on a cube of positive dimensions with fewer than `2 ^ 31` cells:
every cell gets the state that the rule gives it, the dimensions stay, and the number returned
is the number of cells whose state changes. -/
theorem evolve_next (c : Cube) (R C S : Nat) (hc : c.wf R C S)
    (hR : 0 < R) (hC : 0 < C) (hS : 0 < S) (hsize : R * C * S < 2 ^ 31) :
    ∃ c', evolve c = .ret (c', ((cells R C S).filter fun p =>
        decide (c.next R C S p ≠ c.state p)).length) ∧ c'.wf R C S ∧
      ∀ q ∈ cells R C S, c'.at q.1 q.2.1 q.2.2 = .ret (c.next R C S q) := by
  have hRCS : R * C ≤ R * C * S := Nat.le_mul_of_pos_right _ hS
  have hS' : S ≤ R * C * S := Nat.le_mul_of_pos_left _ (Nat.mul_pos hR hC)
  obtain ⟨hrows, hcols, hslices⟩ := Cube.dims c R C S hc hC hS
  have hlen := cells_length R C S
  obtain ⟨c', hloop, hwf, hat⟩ := evolve_loop_spec c R C S hc hR hC hS (by omega) (by omega)
    (cells R C S) (cells_nodup R C S) (fun p hp => hp) c 0 hc (fun p _ => rfl)
    (by rw [hlen]; push_cast; have : ((R * C * S : Nat) : Int) < 2 ^ 31 := by exact_mod_cast hsize
        push_cast at this; omega)
  refine ⟨c', ?_, hwf, fun q hq => by rw [hat q hq, if_pos hq]⟩
  rw [evolve, hrows, Exec.exec_ret_bind, hcols, Exec.exec_ret_bind, hslices, hloop,
    Exec.exec_ret_bind, Int.zero_add]
  have hle := List.length_filter_le (fun p => decide (c.next R C S p ≠ c.state p)) (cells R C S)
  rw [to_size_nat _ (by omega)]

/-- The number of active neighbours of a cell of a cube is the number of cells of the grid,
neighbours of the cell, on which `Cube::at` returns true. -/
theorem around_actives (c : Cube) (R C S : Nat) (p : Point) :
    around (c.actives R C S) p
      = ((cells R C S).filter fun q => adjacent p (to_point q) && c.state q).length := by
  have hnd : (((cells R C S).filter fun q => adjacent p (to_point q) && c.state q).map
      to_point).Nodup :=
    List.Nodup.map (fun a b h => to_point_inj a b h) ((cells_nodup R C S).filter _)
  have hlen := List.length_map ((cells R C S).filter fun q =>
    adjacent p (to_point q) && c.state q) to_point
  rw [around, ← hlen, ← List.toFinset_card_of_nodup hnd]
  congr 1
  ext q
  simp only [Finset.mem_filter, mem_actives, List.mem_toFinset, List.mem_map, List.mem_filter,
    Bool.and_eq_true, Cube.state, decide_eq_true_eq]
  constructor
  · rintro ⟨⟨x, hx, hat, rfl⟩, hadj⟩
    exact ⟨x, ⟨hx, hadj, hat⟩, rfl⟩
  · rintro ⟨x, ⟨hx, hadj, hat⟩, rfl⟩
    exact ⟨⟨x, hx, hat, rfl⟩, hadj⟩

/-- The rule in words. -/
theorem rule_eq_true (b : Bool) (n : Nat) :
    rule b n = true ↔ (b = true ∧ (n = 2 ∨ n = 3)) ∨ (b = false ∧ n = 3) := by
  cases b <;> simp [rule]

/-- Source `Cube::Cube(r, c, s, value)` makes a cube of the dimensions it is given. -/
theorem Cube.ctor_wf (r c s : Nat) (value : Bool) (h : r * c < 2 ^ 64) :
    (Cube.ctor r c s value).wf r c s := by
  refine ⟨by simp [Cube.ctor], fun m hm => ?_⟩
  simp only [Cube.ctor] at hm
  rw [List.eq_of_mem_replicate hm]
  exact ⟨rfl, by rw [Matrix.ctor, Nat.mod_eq_of_lt h, List.length_replicate]⟩

/-- C29, counterexample. The cube `Cube c(1, 1, 1, false); c.add(Matrix(0, 1, false))` is not
empty: it has one row, one column and two slices, of which the second has no cell. A call of
`evolve` reads the cell `(0, 0, 1)`, outside the vector of the second slice. -/
theorem evolve_ragged_undefined :
    (Cube.ctor 1 1 1 false).add (Matrix.ctor 0 1 false) = ragged ∧
    ragged.rows = .ret 1 ∧ ragged.cols = .ret 1 ∧ ragged.slices = 2 ∧
    ragged.at 0 0 1 = .undefined ∧ evolve ragged = .undefined := by
  decide

/-- C29, amended. For every cube whose slices all have the same `R >= 1` rows and `C >= 1`
columns, with `S >= 1` slices and fewer than `2 ^ 31` cells, one call of `evolve` returns, the
dimensions are unchanged, every cell is active afterwards iff it was active with exactly 2 or 3
active cells among its neighbours inside the grid or inactive with exactly 3, all from the
state before the call, and the number returned is the number of cells whose state changed. -/
theorem evolve_applies_rule (c : Cube) (R C S : Nat) (hc : c.wf R C S)
    (hR : 0 < R) (hC : 0 < C) (hS : 0 < S) (hsize : R * C * S < 2 ^ 31) :
    ∃ c' n, evolve c = .ret (c', n) ∧
      (c.rows = .ret R ∧ c.cols = .ret C ∧ c.slices = S) ∧
      (c'.rows = .ret R ∧ c'.cols = .ret C ∧ c'.slices = S) ∧
      (∀ p ∈ cells R C S, ∃ b b', c.at p.1 p.2.1 p.2.2 = .ret b ∧
        c'.at p.1 p.2.1 p.2.2 = .ret b' ∧
        (b' = true ↔
          (b = true ∧
            (((cells R C S).filter fun q =>
                adjacent (to_point p) (to_point q) && c.state q).length = 2 ∨
              ((cells R C S).filter fun q =>
                adjacent (to_point p) (to_point q) && c.state q).length = 3)) ∨
          (b = false ∧
            ((cells R C S).filter fun q =>
              adjacent (to_point p) (to_point q) && c.state q).length = 3))) ∧
      n = ((cells R C S).filter fun p =>
        decide (c'.at p.1 p.2.1 p.2.2 ≠ c.at p.1 p.2.1 p.2.2)).length := by
  have hRC : R * C < 2 ^ 64 := by
    have : R * C ≤ R * C * S := Nat.le_mul_of_pos_right _ hS
    omega
  obtain ⟨c', hev, hwf, hat⟩ := evolve_next c R C S hc hR hC hS hsize
  refine ⟨c', _, hev, Cube.dims c R C S hc hC hS, Cube.dims c' R C S hwf hC hS, ?_, ?_⟩
  · intro p hp
    refine ⟨c.state p, c.next R C S p, Cube.at_state c R C S hc hRC p hp, hat p hp, ?_⟩
    rw [Cube.next, rule_eq_true, around_actives]
  · apply congrArg List.length
    apply List.filter_congr
    intro p hp
    rw [hat p hp, Cube.at_state c R C S hc hRC p hp]
    simp

theorem evolve_applies_rule_witness :
    (Cube.ctor 2 2 2 true).wf 2 2 2 ∧
    evolve (Cube.ctor 2 2 2 true) = .ret (Cube.ctor 2 2 2 false, 8) ∧
    ∃ c' n, evolve (Cube.ctor 2 2 2 true) = .ret (c', n) ∧
      ((Cube.ctor 2 2 2 true).rows = .ret 2 ∧ (Cube.ctor 2 2 2 true).cols = .ret 2 ∧
        (Cube.ctor 2 2 2 true).slices = 2) ∧
      (c'.rows = .ret 2 ∧ c'.cols = .ret 2 ∧ c'.slices = 2) ∧
      (∀ p ∈ cells 2 2 2, ∃ b b', (Cube.ctor 2 2 2 true).at p.1 p.2.1 p.2.2 = .ret b ∧
        c'.at p.1 p.2.1 p.2.2 = .ret b' ∧
        (b' = true ↔
          (b = true ∧
            (((cells 2 2 2).filter fun q =>
                adjacent (to_point p) (to_point q) && (Cube.ctor 2 2 2 true).state q).length = 2 ∨
              ((cells 2 2 2).filter fun q =>
                adjacent (to_point p) (to_point q) && (Cube.ctor 2 2 2 true).state q).length = 3)) ∨
          (b = false ∧
            ((cells 2 2 2).filter fun q =>
              adjacent (to_point p) (to_point q) && (Cube.ctor 2 2 2 true).state q).length = 3))) ∧
      n = ((cells 2 2 2).filter fun p =>
        decide (c'.at p.1 p.2.1 p.2.2 ≠ (Cube.ctor 2 2 2 true).at p.1 p.2.1 p.2.2)).length :=
  ⟨Cube.ctor_wf 2 2 2 true (by decide), by decide,
    evolve_applies_rule (Cube.ctor 2 2 2 true) 2 2 2 (Cube.ctor_wf 2 2 2 true (by decide))
      (by decide) (by decide) (by decide) (by decide)⟩

/-! ## Counting the active cells -/

/-- A sum over a list of numbers is a sum over the positions of the list. -/
theorem sum_map_range (g : Nat → Nat) (n : Nat) :
    ((List.range n).map g).sum = ∑ i in Finset.range n, g i := by
  induction n with
  | zero => simp
  | succ n ih =>
    rw [List.range_succ, List.map_append, List.sum_append, ih, Finset.sum_range_succ]
    simp

/-- The elements of a list with a property, position by position. -/
theorem length_filter_eq_sum {α : Type} (P : α → Bool) (d : α) (l : List α) :
    (l.filter P).length = ∑ x in Finset.range l.length, if P (l.getD x d) then 1 else 0 := by
  induction l with
  | nil => simp
  | cons a l ih =>
    rw [List.length_cons, Finset.sum_range_succ', List.filter_cons]
    simp only [List.getD_cons_succ, List.getD_cons_zero]
    rw [← ih]
    by_cases h : P a = true
    · simp [h]
    · simp [h]

/-- A sum over the positions of a vector of `R` rows of `C` elements is a sum over the rows and
the columns. -/
theorem sum_range_mul (h : Nat → Nat) (R C : Nat) :
    ∑ x in Finset.range (R * C), h x
      = ∑ i in Finset.range R, ∑ j in Finset.range C, h (i * C + j) := by
  induction R with
  | zero => simp
  | succ R ih =>
    rw [Nat.succ_mul, Finset.sum_range_add, ih, Finset.sum_range_succ]

/-- The cells of a list of cells with a property, row by row. -/
theorem length_filter_flatMap {β : Type} (f : Nat → List β) (P : β → Bool) (n : Nat) :
    (((List.range n).flatMap f).filter P).length
      = ∑ i in Finset.range n, ((f i).filter P).length := by
  induction n with
  | zero => simp
  | succ n ih =>
    rw [List.range_succ, List.flatMap_append, List.filter_append, List.length_append, ih,
      Finset.sum_range_succ]
    simp

/-- The cells of a cube with a property, coordinate by coordinate. -/
theorem length_filter_cells (P : Nat × Nat × Nat → Bool) (R C S : Nat) :
    ((cells R C S).filter P).length
      = ∑ i in Finset.range R, ∑ j in Finset.range C, ∑ k in Finset.range S,
          if P (i, j, k) then 1 else 0 := by
  unfold cells
  rw [length_filter_flatMap]
  refine Finset.sum_congr rfl fun i _ => ?_
  rw [length_filter_flatMap]
  refine Finset.sum_congr rfl fun j _ => ?_
  rw [length_filter_eq_sum P (i, j, 0), List.length_map, List.length_range]
  refine Finset.sum_congr rfl fun k hk => ?_
  have hk' : k < S := Finset.mem_range.mp hk
  have : ((List.range S).map fun k => (i, j, k)).getD k (i, j, 0) = (i, j, k) := by
    simp [List.getD_eq_getElem?_getD, hk']
  rw [this]

/-- Source `Cube::count` on a cube of known dimensions returns the number of its active
cells. -/
theorem Cube.count_eq_card (c : Cube) (R C S : Nat) (hc : c.wf R C S) (hRC : R * C < 2 ^ 64) :
    c.count true = (c.actives R C S).card := by
  have hnd : (((cells R C S).filter fun p => decide (c.at p.1 p.2.1 p.2.2 = .ret true)).map
      to_point).Nodup :=
    List.Nodup.map (fun a b h => to_point_inj a b h) ((cells_nodup R C S).filter _)
  rw [Cube.actives, List.toFinset_card_of_nodup hnd, List.length_map, length_filter_cells]
  -- the sum over the slices
  have hslices : c.count true = ∑ k in Finset.range S,
      ((c.slices_.getD k (Matrix.ctor 0 0 false)).data_.filter fun b => b).length := by
    rw [Cube.count, ← hc.1]
    generalize c.slices_ = l
    induction l with
    | nil => simp
    | cons m l ih =>
      rw [List.map_cons, List.sum_cons, ih, List.length_cons, Finset.sum_range_succ']
      simp only [List.getD_cons_succ, List.getD_cons_zero]
      rw [Nat.add_comm]
      congr 1
      rw [Matrix.count, List.count, List.countP_eq_length_filter]
      congr 1
      apply List.filter_congr
      intro b _
      cases b <;> rfl
  rw [hslices]
  have hcell : ∀ k ∈ Finset.range S,
      ((c.slices_.getD k (Matrix.ctor 0 0 false)).data_.filter fun b => b).length
        = ∑ i in Finset.range R, ∑ j in Finset.range C,
            if decide (c.at i j k = .ret true) then 1 else 0 := by
    intro k hk
    have hk' : k < S := Finset.mem_range.mp hk
    obtain ⟨m, hmk, hm, hat⟩ := Cube.at_slice c R C S hc k hk'
    have hget : c.slices_.getD k (Matrix.ctor 0 0 false) = m := by
      rw [List.getD_eq_getElem?_getD, hmk]
      rfl
    rw [hget, length_filter_eq_sum (fun b => b) false, hm.2, sum_range_mul]
    refine Finset.sum_congr rfl fun i hi => Finset.sum_congr rfl fun j hj => ?_
    rw [hat, Matrix.matrix_at_ret m R C hm hRC i j (Finset.mem_range.mp hi) (Finset.mem_range.mp hj)]
    cases m.data_.getD (i * C + j) false <;> simp
  rw [Finset.sum_congr rfl hcell, Finset.sum_comm]
  refine Finset.sum_congr rfl fun i _ => ?_
  rw [Finset.sum_comm]

/-! ## The unbounded grid -/

/-- The halo of a grid holds the cells at most 1 away from an active cell. -/
theorem mem_halo (g : Finset Point) (p : Point) :
    p ∈ halo g ↔ ∃ q ∈ g, ∃ d ∈ offsets, translate q d = p := by
  simp only [halo, Finset.mem_biUnion, List.mem_toFinset, List.mem_map]

/-- A neighbour of a cell is the cell moved by an offset. -/
theorem adjacent_offset (p q : Point) (h : adjacent p q = true) :
    ∃ d ∈ offsets, translate p d = q := by
  simp only [adjacent, decide_eq_true_eq] at h
  refine ⟨(q.1 - p.1, q.2.1 - p.2.1, q.2.2 - p.2.2), (mem_offsets _).mpr ⟨h.2.1, h.2.2.1, h.2.2.2⟩,
    ?_⟩
  refine Prod.ext ?_ (Prod.ext ?_ ?_) <;> simp [translate]

/-- Being neighbours is symmetric. -/
theorem adjacent_symm (p q : Point) (h : adjacent p q = true) : adjacent q p = true := by
  simp only [adjacent, decide_eq_true_eq] at h ⊢
  exact ⟨fun e => h.1 e.symm, by omega, by omega, by omega⟩

/-- A step of the unbounded grid applies the rule to every cell: the cells outside the halo
have no active neighbour and stay inactive. -/
theorem mem_step (g : Finset Point) (p : Point) :
    p ∈ step g ↔ rule (decide (p ∈ g)) (around g p) = true := by
  rw [step, Finset.mem_filter]
  refine ⟨fun h => h.2, fun h => ⟨?_, h⟩⟩
  rw [mem_halo]
  by_cases hp : p ∈ g
  · exact ⟨p, hp, (0, 0, 0), by decide, by simp [translate]⟩
  · simp only [hp, decide_False, rule, Bool.false_eq_true, if_false, beq_iff_eq] at h
    have hpos : 0 < (g.filter fun q => adjacent p q).card := by
      rw [← around, h]
      norm_num
    obtain ⟨q, hq⟩ := Finset.card_pos.mp hpos
    rw [Finset.mem_filter] at hq
    obtain ⟨d, hd, hdq⟩ := adjacent_offset q p (adjacent_symm p q hq.2)
    exact ⟨q, hq.1, d, hd, hdq⟩

/-- A step widens the box of the active cells by 1. -/
theorem step_in_box (H W m : Nat) (g : Finset Point) (hg : ∀ p ∈ g, in_box H W m p) :
    ∀ p ∈ step g, in_box H W (m + 1) p := by
  intro p hp
  rw [step, Finset.mem_filter, mem_halo] at hp
  obtain ⟨⟨q, hq, d, hd, rfl⟩, _⟩ := hp
  have hb := hg q hq
  have hd' := (mem_offsets d).mp hd
  simp only [in_box, translate] at hb ⊢
  push_cast
  omega

/-- The padding is taken off two neighbours alike. -/
theorem adjacent_unpad (t : Nat) (p q : Point) :
    adjacent (unpad t p) (unpad t q) = adjacent p q := by
  simp only [adjacent, unpad]
  congr 1
  apply propext
  constructor
  · rintro ⟨hne, h1, h2, h3⟩
    refine ⟨fun e => hne (by rw [e]), by omega, by omega, by omega⟩
  · rintro ⟨hne, h1, h2, h3⟩
    refine ⟨fun e => hne ?_, by omega, by omega, by omega⟩
    simp only [Prod.mk.injEq] at e
    refine Prod.ext ?_ (Prod.ext ?_ ?_) <;> omega

/-- Taking the padding off is injective. -/
theorem unpad_inj (t : Nat) (p q : Point) (h : unpad t p = unpad t q) : p = q := by
  simp only [unpad, Prod.mk.injEq] at h
  refine Prod.ext ?_ (Prod.ext ?_ ?_) <;> omega

/-- Every cell of the unbounded grid is a cell of the padded grid without its padding. -/
theorem unpad_surj (t : Nat) (p : Point) : unpad t (p.1 + t, p.2.1 + t, p.2.2 + t) = p := by
  refine Prod.ext ?_ (Prod.ext ?_ ?_) <;> simp [unpad]

/-- A grid that is another grid without the padding has as many active cells. -/
theorem card_unpad (t : Nat) (A g : Finset Point) (h : ∀ q, q ∈ A ↔ unpad t q ∈ g) :
    A.card = g.card := by
  have himg : A.image (unpad t) = g := by
    ext p
    rw [Finset.mem_image]
    constructor
    · rintro ⟨q, hq, rfl⟩
      exact (h q).mp hq
    · intro hp
      refine ⟨(p.1 + t, p.2.1 + t, p.2.2 + t), (h _).mpr ?_, unpad_surj t p⟩
      rw [unpad_surj]
      exact hp
  rw [← himg, Finset.card_image_of_injective _ (fun a b e => unpad_inj t a b e)]

/-- A grid that is another grid without the padding has the same numbers of active
neighbours. -/
theorem around_unpad (t : Nat) (A g : Finset Point) (h : ∀ q, q ∈ A ↔ unpad t q ∈ g)
    (p : Point) : around A p = around g (unpad t p) := by
  rw [around, around]
  apply card_unpad t
  intro q
  rw [Finset.mem_filter, Finset.mem_filter, h q, adjacent_unpad]

/-- One call of `evolve` on a padded cube is one step of the unbounded grid, as long as the
active cells stay inside the padding. -/
theorem evolve_step (c : Cube) (H W t m : Nat) (g : Finset Point)
    (hc : c.wf (H + 2 * t) (W + 2 * t) (2 * t + 1))
    (hH : 0 < H) (hsize : (H + 2 * t) * (W + 2 * t) * (2 * t + 1) < 2 ^ 31)
    (hrep : ∀ q, q ∈ c.actives (H + 2 * t) (W + 2 * t) (2 * t + 1) ↔ unpad t q ∈ g)
    (hbox : ∀ p ∈ g, in_box H W m p) (hm : m + 1 ≤ t) :
    ∃ c' n, evolve c = .ret (c', n) ∧ c'.wf (H + 2 * t) (W + 2 * t) (2 * t + 1) ∧
      (∀ q, q ∈ c'.actives (H + 2 * t) (W + 2 * t) (2 * t + 1) ↔ unpad t q ∈ step g) ∧
      ∀ p ∈ step g, in_box H W (m + 1) p := by
  have hRC : (H + 2 * t) * (W + 2 * t) < 2 ^ 64 := by
    have : (H + 2 * t) * (W + 2 * t) ≤ (H + 2 * t) * (W + 2 * t) * (2 * t + 1) :=
      Nat.le_mul_of_pos_right _ (by omega)
    omega
  obtain ⟨c', hev, hwf, hat⟩ := evolve_next c (H + 2 * t) (W + 2 * t) (2 * t + 1) hc (by omega)
    (by omega) (by omega) hsize
  have hbox' := step_in_box H W m g hbox
  have hnext : ∀ p ∈ cells (H + 2 * t) (W + 2 * t) (2 * t + 1),
      c.next (H + 2 * t) (W + 2 * t) (2 * t + 1) p
        = rule (decide (unpad t (to_point p) ∈ g)) (around g (unpad t (to_point p))) := by
    intro p hp
    have hstate : c.state p = decide (unpad t (to_point p) ∈ g) := by
      rw [Cube.state]
      exact decide_eq_decide.mpr ((mem_actives_cell c _ _ _ p hp).symm.trans (hrep _))
    rw [Cube.next, hstate, around_unpad t _ g hrep]
  refine ⟨c', _, hev, hwf, fun q => ?_, hbox'⟩
  constructor
  · intro hq
    obtain ⟨p, hp, hatp, rfl⟩ := (mem_actives c' _ _ _ _).mp hq
    rw [hat p hp] at hatp
    have hn : c.next (H + 2 * t) (W + 2 * t) (2 * t + 1) p = true := by
      injection hatp
    rw [mem_step, ← hnext p hp, hn]
  · intro hq
    have hb := hbox' _ hq
    simp only [in_box, unpad] at hb
    push_cast at hb
    obtain ⟨⟨h1, h2⟩, ⟨h3, h4⟩, h5, h6⟩ := hb
    have hp : (q.1.toNat, q.2.1.toNat, q.2.2.toNat) ∈ cells (H + 2 * t) (W + 2 * t) (2 * t + 1) := by
      rw [mem_cells]
      simp only []
      omega
    have hqp : to_point (q.1.toNat, q.2.1.toNat, q.2.2.toNat) = q := by
      refine Prod.ext ?_ (Prod.ext ?_ ?_) <;> simp [to_point] <;> omega
    rw [mem_step, ← hqp, ← hnext _ hp] at hq
    rw [← hqp, mem_actives_cell c' _ _ _ _ hp, hat _ hp, hq]

/-- The calls of `evolve(obj, k)` on a padded cube are `k` steps of the unbounded grid, as long
as the active cells stay inside the padding. -/
theorem evolve_n_steps (H W t : Nat) (hH : 0 < H)
    (hsize : (H + 2 * t) * (W + 2 * t) * (2 * t + 1) < 2 ^ 31) :
    ∀ (k m : Nat) (c : Cube) (g : Finset Point),
      c.wf (H + 2 * t) (W + 2 * t) (2 * t + 1) →
      (∀ q, q ∈ c.actives (H + 2 * t) (W + 2 * t) (2 * t + 1) ↔ unpad t q ∈ g) →
      (∀ p ∈ g, in_box H W m p) → m + k ≤ t →
      ∃ c', evolve_n k c = .ret c' ∧ c'.wf (H + 2 * t) (W + 2 * t) (2 * t + 1) ∧
        ∀ q, q ∈ c'.actives (H + 2 * t) (W + 2 * t) (2 * t + 1) ↔ unpad t q ∈ steps k g := by
  intro k
  induction k with
  | zero => intro m c g hc hrep _ _; exact ⟨c, rfl, hc, hrep⟩
  | succ k ih =>
    intro m c g hc hrep hbox hm
    obtain ⟨c1, n, hev, hwf1, hrep1, hbox1⟩ := evolve_step c H W t m g hc hH hsize hrep hbox
      (by omega)
    obtain ⟨c2, hev2, hwf2, hrep2⟩ := ih (m + 1) c1 (step g) hwf1 hrep1 hbox1 (by omega)
    exact ⟨c2, by rw [evolve_n, hev, Exec.exec_ret_bind, hev2], hwf2, by rw [steps]; exact hrep2⟩

/-! ## The cube that `parse_reserve_for` builds -/

/-- A line that ends in a newline is what `fetch_line` fetches, and the text is left after the
newline. -/
theorem fetch_line_newline (line rest : List Char) (h : '\n' ∉ line) :
    fetch_line (line ++ '\n' :: rest) = (line, rest) := by
  have hmem : '\n' ∈ line ++ '\n' :: rest := by simp
  rw [fetch_line, if_pos hmem]
  induction line with
  | nil => simp [List.takeWhile_cons, List.dropWhile_cons]
  | cons c cs ih =>
    have hc : c ≠ '\n' := fun e => h (by simp [e])
    have hcs : '\n' ∉ cs := fun e => h (List.mem_cons_of_mem _ e)
    have := ih hcs (by simp)
    simp only [Prod.mk.injEq] at this
    simp only [List.cons_append, List.takeWhile_cons, List.dropWhile_cons, bne_iff_ne, ne_eq, hc,
      not_false_eq_true, decide_True, if_true, Prod.mk.injEq, List.cons.injEq, true_and]
    exact this

/-- Writing at the position after a prefix replaces the element there. -/
theorem set_after_prefix {α : Type} (pre : List α) (o v : α) (rest : List α) :
    (pre ++ o :: rest).set pre.length v = pre ++ v :: rest := by
  induction pre with
  | nil => rfl
  | cons a pre ih => simp [ih]

/-- The loop of `add_line` writes the line over the part of the buffer that follows the
padding. -/
theorem fill_line_mid (t : Nat) : ∀ (line : List Char) (i : Nat) (pre old post : List Bool),
    pre.length = i + t → old.length = line.length →
    fill_line t line i (pre ++ old ++ post)
      = .ret (pre ++ line.map (fun ch => ch == active) ++ post) := by
  intro line
  induction line with
  | nil =>
    intro i pre old post _ hold
    have : old = [] := List.length_eq_zero.mp hold
    subst this
    simp [fill_line]
  | cons ch rest ih =>
    intro i pre old post hpre hold
    cases old with
    | nil => simp at hold
    | cons o old' =>
      have hlt : i + t < (pre ++ o :: old' ++ post).length := by
        simp only [List.length_append, List.length_cons]
        omega
      rw [fill_line, if_pos hlt]
      have hset : (pre ++ o :: old' ++ post).set (i + t) (ch == active)
          = (pre ++ [ch == active]) ++ old' ++ post := by
        rw [← hpre, List.append_assoc, List.cons_append, set_after_prefix]
        simp
      rw [hset, ih (i + 1) (pre ++ [ch == active]) old' post
        (by simp only [List.length_append, List.length_singleton]; omega)
        (by simpa using hold)]
      simp

/-- The lambda `add_line` on a buffer whose padding is inactive: the padded row of the line is
the buffer afterwards, and the row that is added. -/
theorem add_line_row (t : Nat) (old : List Bool) (m : Matrix) (line : List Char)
    (hold : old.length = line.length) (hm : m.cols_ = line.length + 2 * t) :
    add_line t (List.replicate t false ++ old ++ List.replicate t false) m line
      = .ret (padded_row t line, { m with data_ := m.data_ ++ padded_row t line }) := by
  rw [add_line, fill_line_mid t line 0 (List.replicate t false) old (List.replicate t false)
    (by simp) hold, Exec.exec_ret_bind, Matrix.add_row]
  have hlen : (List.replicate t false ++ line.map (fun ch => ch == active)
      ++ List.replicate t false).length = m.cols_ := by
    simp only [List.length_append, List.length_replicate, List.length_map]
    omega
  rw [if_pos hlen, Exec.exec_ret_bind]
  rfl

/-- The loop of `parse_reserve_for` over lines of one width, each ended by a newline: the
padded row of each line is added. -/
theorem parse_loop_lines (t W : Nat) :
    ∀ (ls : List (List Char)), (∀ l ∈ ls, l.length = W ∧ '\n' ∉ l) →
      ∀ (fuel : Nat) (old : List Bool) (m : Matrix), ls.length < fuel → old.length = W →
        m.cols_ = W + 2 * t →
        ∃ old', old'.length = W ∧
          parse_loop t fuel (unlines ls) (List.replicate t false ++ old ++ List.replicate t false) m
            = .ret (List.replicate t false ++ old' ++ List.replicate t false,
                { m with data_ := m.data_ ++ (ls.map (padded_row t)).flatten }) := by
  intro ls
  induction ls with
  | nil =>
    intro _ fuel old m hf hold _
    cases fuel with
    | zero => simp at hf
    | succ fuel =>
      refine ⟨old, hold, ?_⟩
      simp [unlines, parse_loop]
  | cons l ls ih =>
    intro h fuel old m hf hold hm
    cases fuel with
    | zero => simp at hf
    | succ fuel =>
      obtain ⟨hl, hnl⟩ := h l (List.mem_cons_self _ _)
      have hne : (unlines (l :: ls)).isEmpty = false := by
        cases l <;> rfl
      rw [parse_loop, unlines]
      rw [unlines] at hne
      simp only [hne, Bool.false_eq_true, if_false, fetch_line_newline l _ hnl]
      rw [add_line_row t old m l (by rw [hold, hl]) (by rw [hm, hl]), Exec.exec_ret_bind]
      obtain ⟨old', hold', hloop⟩ := ih (fun l' hl' => h l' (List.mem_cons_of_mem _ hl')) fuel
        (l.map (fun ch => ch == active)) { m with data_ := m.data_ ++ padded_row t l }
        (by simp only [List.length_cons] at hf; omega) (by rw [List.length_map, hl]) hm
      refine ⟨old', hold', ?_⟩
      simp only [padded_row] at hloop ⊢
      rw [hloop]
      simp [padded_row]

/-- The loop that adds `n` copies of the buffer as rows. -/
theorem add_rows_eq : ∀ (n : Nat) (buffer : List Bool) (m : Matrix), buffer.length = m.cols_ →
    add_rows n buffer m
      = .ret { m with data_ := m.data_ ++ (List.replicate n buffer).flatten } := by
  intro n
  induction n with
  | zero => intro buffer m _; simp [add_rows]
  | succ n ih =>
    intro buffer m h
    rw [add_rows, Matrix.add_row, if_pos h, Exec.exec_ret_bind,
      ih buffer { m with data_ := m.data_ ++ buffer } h]
    simp [List.replicate_succ]

/-- The loop that adds `n` inactive slices. -/
theorem add_slices_eq : ∀ (n r c : Nat) (res : Cube),
    add_slices n r c res
      = { slices_ := res.slices_ ++ List.replicate n (Matrix.ctor r c false) } := by
  intro n
  induction n with
  | zero => intro r c res; simp [add_slices]
  | succ n ih =>
    intro r c res
    rw [add_slices, ih]
    simp [Cube.add, List.replicate_succ]

/-- The length of rows of one length put one after the other. -/
theorem length_flatten_rows {α : Type} (C : Nat) :
    ∀ (rows : List (List α)), (∀ r ∈ rows, r.length = C) → rows.flatten.length = rows.length * C := by
  intro rows
  induction rows with
  | nil => intro _; simp
  | cons r rows ih =>
    intro h
    rw [List.flatten_cons, List.length_append, h r (List.mem_cons_self _ _),
      ih (fun r' hr' => h r' (List.mem_cons_of_mem _ hr')), List.length_cons]
    ring

/-- The element at row `i` and column `j` of rows of one length put one after the other. -/
theorem getD_flatten_rows {α : Type} (C : Nat) (d : α) :
    ∀ (rows : List (List α)), (∀ r ∈ rows, r.length = C) → ∀ (i j : Nat), j < C →
      rows.flatten.getD (i * C + j) d = (rows.getD i []).getD j d := by
  intro rows
  induction rows with
  | nil => intro _ i j _; simp
  | cons r rows ih =>
    intro h i j hj
    have hr := h r (List.mem_cons_self _ _)
    cases i with
    | zero =>
      simp only [Nat.zero_mul, Nat.zero_add, List.flatten_cons, List.getD_cons_zero]
      rw [List.getD_append _ _ _ _ (by omega)]
    | succ i =>
      have hidx : (i + 1) * C + j = r.length + (i * C + j) := by rw [hr]; ring
      rw [List.flatten_cons, hidx, List.getD_append_right _ _ _ _ (by omega), List.getD_cons_succ,
        Nat.add_sub_cancel_left]
      exact ih (fun r' hr' => h r' (List.mem_cons_of_mem _ hr')) i j hj

/-- The text of lines is at least as long as the number of its lines. -/
theorem unlines_length_le (ls : List (List Char)) : ls.length ≤ (unlines ls).length := by
  induction ls with
  | nil => simp [unlines]
  | cons l ls ih => simp only [unlines, List.length_cons, List.length_append]; omega

/-- A vector of inactive cells is a list of inactive rows. -/
theorem replicate_rows (n C : Nat) :
    List.replicate (n * C) false = (List.replicate n (List.replicate C false)).flatten := by
  induction n with
  | zero => simp
  | succ n ih =>
    rw [List.replicate_succ, List.flatten_cons, ← ih, Nat.succ_mul, Nat.add_comm,
      List.replicate_add]

/-- Source `parse_reserve_for` on lines of one width `W`, each ended by a newline, returns the
padded cube of the lines, unless the padded rows have no cell (`W = 0` and `t = 0`). -/
theorem parse_reserve_for_eq (l0 : List Char) (ls : List (List Char)) (W t : Nat)
    (hrect : ∀ l ∈ l0 :: ls, l.length = W ∧ '\n' ∉ l) (hW : 0 < W ∨ 0 < t)
    (ht : 2 * t < 2 ^ 31)
    (hRC : ((l0 :: ls).length + 2 * t) * (W + 2 * t) < 2 ^ 64) :
    parse_reserve_for (unlines (l0 :: ls)) t = .ret (padded_cube (l0 :: ls) W t) := by
  obtain ⟨hl0, hnl0⟩ := hrect l0 (List.mem_cons_self _ _)
  have htC : t * (W + 2 * t) < 2 ^ 64 := by
    have : t * (W + 2 * t) ≤ ((l0 :: ls).length + 2 * t) * (W + 2 * t) :=
      Nat.mul_le_mul_right _ (by omega)
    omega
  have hbuf : List.replicate (2 * t + l0.length) false
      = List.replicate t false ++ List.replicate W false ++ List.replicate t false := by
    rw [hl0, ← List.replicate_add, ← List.replicate_add]
    congr 1
    omega
  rw [parse_reserve_for, if_neg (by omega), unlines, fetch_line_newline l0 _ hnl0]
  simp only []
  rw [hbuf]
  have hlen : (List.replicate t false ++ List.replicate W false ++ List.replicate t false).length
      = W + 2 * t := by
    simp only [List.length_append, List.length_replicate]
    omega
  rw [hlen, add_line_row t (List.replicate W false) (Matrix.ctor t (W + 2 * t) false) l0
    (by rw [List.length_replicate, hl0]) (by rw [Matrix.ctor, hl0]), Exec.exec_ret_bind]
  obtain ⟨old', hold', hloop⟩ := parse_loop_lines t W ls
    (fun l hl => hrect l (List.mem_cons_of_mem _ hl)) ((unlines ls).length + 1)
    (l0.map (fun ch => ch == active))
    { Matrix.ctor t (W + 2 * t) false with
      data_ := (Matrix.ctor t (W + 2 * t) false).data_ ++ padded_row t l0 }
    (by have := unlines_length_le ls; omega) (by rw [List.length_map, hl0]) rfl
  simp only [padded_row] at hloop ⊢
  rw [hloop, Exec.exec_ret_bind]
  simp only []
  have hlen' : (List.replicate t false ++ old' ++ List.replicate t false).length = W + 2 * t := by
    simp only [List.length_append, List.length_replicate, hold']
    omega
  rw [hlen', add_rows_eq t (List.replicate (W + 2 * t) false) _
    (by rw [List.length_replicate]; rfl), Exec.exec_ret_bind]
  have hdata : List.replicate (t * (W + 2 * t) % 2 ^ 64) false ++
      (List.replicate t false ++ List.map (fun ch => ch == active) l0 ++ List.replicate t false) ++
      (List.map (padded_row t) ls).flatten ++
      (List.replicate t (List.replicate (W + 2 * t) false)).flatten
      = (List.replicate t (List.replicate (W + 2 * t) false) ++
          (l0 :: ls).map (padded_row t) ++
          List.replicate t (List.replicate (W + 2 * t) false)).flatten := by
    rw [Nat.mod_eq_of_lt htC, replicate_rows]
    simp [padded_row]
  have hrows : ∀ r ∈ List.replicate t (List.replicate (W + 2 * t) false) ++
      (l0 :: ls).map (padded_row t) ++ List.replicate t (List.replicate (W + 2 * t) false),
      r.length = W + 2 * t := by
    intro r hr
    simp only [List.mem_append, List.mem_map] at hr
    rcases hr with (hr | ⟨l, hl, rfl⟩) | hr
    · rw [List.eq_of_mem_replicate hr, List.length_replicate]
    · simp only [padded_row, List.length_append, List.length_replicate, List.length_map,
        (hrect l hl).1]
      omega
    · rw [List.eq_of_mem_replicate hr, List.length_replicate]
  rw [Matrix.rows]
  simp only [Matrix.ctor]
  rw [hdata, if_neg (by omega), Exec.exec_ret_bind, length_flatten_rows (W + 2 * t) _ hrows,
    Nat.mul_div_cancel _ (by omega), add_slices_eq]
  have hcount : (List.replicate t (List.replicate (W + 2 * t) false) ++
      (l0 :: ls).map (padded_row t) ++ List.replicate t (List.replicate (W + 2 * t) false)).length
      = (l0 :: ls).length + 2 * t := by
    simp only [List.length_append, List.length_replicate, List.length_map, List.length_cons]
    omega
  rw [hcount]
  simp [padded_cube, Cube.add, Cube.ctor, Matrix.cols, Matrix.ctor]

/-- The padded cube has the dimensions of the input and twice the padding. -/
theorem padded_cube_wf (lines : List (List Char)) (W t : Nat)
    (hrect : ∀ l ∈ lines, l.length = W ∧ '\n' ∉ l)
    (hRC : (lines.length + 2 * t) * (W + 2 * t) < 2 ^ 64) :
    (padded_cube lines W t).wf (lines.length + 2 * t) (W + 2 * t) (2 * t + 1) := by
  have hZ : (Matrix.ctor (lines.length + 2 * t) (W + 2 * t) false).wf (lines.length + 2 * t)
      (W + 2 * t) :=
    ⟨rfl, by rw [Matrix.ctor, Nat.mod_eq_of_lt hRC, List.length_replicate]⟩
  refine ⟨?_, fun m hm => ?_⟩
  · simp only [padded_cube, List.length_append, List.length_replicate, List.length_singleton]
    omega
  · simp only [padded_cube, List.mem_append, List.mem_singleton] at hm
    rcases hm with (hm | rfl) | hm
    · rw [List.eq_of_mem_replicate hm]; exact hZ
    · refine ⟨rfl, ?_⟩
      rw [length_flatten_rows (W + 2 * t)]
      · simp only [List.length_append, List.length_replicate, List.length_map]
        congr 1
        omega
      · intro r hr
        simp only [List.mem_append, List.mem_map] at hr
        rcases hr with (hr | ⟨l, hl, rfl⟩) | hr
        · rw [List.eq_of_mem_replicate hr, List.length_replicate]
        · simp only [padded_row, List.length_append, List.length_replicate, List.length_map,
            (hrect l hl).1]
          omega
        · rw [List.eq_of_mem_replicate hr, List.length_replicate]
    · rw [List.eq_of_mem_replicate hm]; exact hZ

/-- The cell of a padded row is the cell of the line, and inactive in the padding. -/
theorem padded_row_getD (t : Nat) (line : List Char) (j : Nat) :
    (padded_row t line).getD j false
      = (decide (t ≤ j ∧ j < t + line.length) && (line.getD (j - t) inactive == active)) := by
  unfold padded_row
  by_cases h1 : j < t
  · rw [List.append_assoc, List.getD_append _ _ _ _ (by simpa using h1)]
    have : ¬ (t ≤ j ∧ j < t + line.length) := by omega
    simp [this, List.getD_eq_getElem?_getD, List.getElem?_replicate, h1]
  · by_cases h2 : j < t + line.length
    · rw [List.getD_append _ _ _ _ (by simp; omega),
        List.getD_append_right _ _ _ _ (by simp; omega)]
      have h3 : j - t < line.length := by omega
      simp only [List.length_replicate, List.getD_eq_getElem?_getD, List.getElem?_map,
        List.getElem?_eq_getElem h3, Option.map_some', Option.getD_some]
      have : t ≤ j ∧ j < t + line.length := by omega
      simp [this]
    · rw [List.getD_append_right _ _ _ _ (by simp; omega)]
      have : ¬ (t ≤ j ∧ j < t + line.length) := by omega
      simp only [this, decide_False, Bool.false_and, List.getD_eq_getElem?_getD,
        List.getElem?_replicate]
      split <;> rfl

/-- A cell of the padded cube is active exactly when it is in the slice `t`, inside the
padding, and the character of the input at its place is `#`. -/
theorem padded_cube_at (lines : List (List Char)) (W t : Nat)
    (hrect : ∀ l ∈ lines, l.length = W ∧ '\n' ∉ l)
    (hRC : (lines.length + 2 * t) * (W + 2 * t) < 2 ^ 64)
    (p : Nat × Nat × Nat) (hp : p ∈ cells (lines.length + 2 * t) (W + 2 * t) (2 * t + 1)) :
    (padded_cube lines W t).at p.1 p.2.1 p.2.2 = .ret true ↔
      p.2.2 = t ∧ (t ≤ p.1 ∧ p.1 < t + lines.length) ∧ (t ≤ p.2.1 ∧ p.2.1 < t + W) ∧
        (lines.getD (p.1 - t) []).getD (p.2.1 - t) inactive = active := by
  obtain ⟨hi, hj, hk⟩ := (mem_cells _ _ _ p).mp hp
  have hZ : (Matrix.ctor (lines.length + 2 * t) (W + 2 * t) false).wf (lines.length + 2 * t)
      (W + 2 * t) :=
    ⟨rfl, by rw [Matrix.ctor, Nat.mod_eq_of_lt hRC, List.length_replicate]⟩
  have hZat : (Matrix.ctor (lines.length + 2 * t) (W + 2 * t) false).at p.1 p.2.1 = .ret false := by
    rw [Matrix.matrix_at_ret _ _ _ hZ hRC p.1 p.2.1 hi hj]
    simp only [Matrix.ctor, List.getD_eq_getElem?_getD, List.getElem?_replicate]
    split <;> rfl
  by_cases hkt : p.2.2 = t
  · have hslice : (padded_cube lines W t).slices_[p.2.2]? = some
        { data_ := (List.replicate t (List.replicate (W + 2 * t) false) ++
            lines.map (padded_row t) ++
            List.replicate t (List.replicate (W + 2 * t) false)).flatten,
          cols_ := W + 2 * t } := by
      rw [hkt, padded_cube, List.append_assoc,
        List.getElem?_append_right (by rw [List.length_replicate]), List.length_replicate,
        Nat.sub_self]
      simp
    have hwf := (padded_cube_wf lines W t hrect hRC).2 _ (List.mem_iff_getElem?.mpr ⟨_, hslice⟩)
    have hrows : ∀ r ∈ List.replicate t (List.replicate (W + 2 * t) false) ++
        lines.map (padded_row t) ++ List.replicate t (List.replicate (W + 2 * t) false),
        r.length = W + 2 * t := by
      intro r hr
      simp only [List.mem_append, List.mem_map] at hr
      rcases hr with (hr | ⟨l, hl, rfl⟩) | hr
      · rw [List.eq_of_mem_replicate hr, List.length_replicate]
      · simp only [padded_row, List.length_append, List.length_replicate, List.length_map,
          (hrect l hl).1]
        omega
      · rw [List.eq_of_mem_replicate hr, List.length_replicate]
    rw [Cube.at, hslice]
    simp only []
    rw [Matrix.matrix_at_ret _ _ _ hwf hRC p.1 p.2.1 hi hj]
    simp only []
    rw [getD_flatten_rows (W + 2 * t) false _ hrows p.1 p.2.1 hj]
    by_cases h1 : p.1 < t
    · rw [List.append_assoc, List.getD_append _ _ _ _ (by simpa using h1)]
      simp only [List.getD_eq_getElem?_getD, List.getElem?_replicate, h1, if_true,
        Option.getD_some]
      constructor
      · intro h
        split at h <;> simp at h
      · intro h; omega
    · by_cases h2 : p.1 < t + lines.length
      · rw [List.getD_append _ _ _ _ (by simp; omega),
          List.getD_append_right _ _ _ _ (by simp; omega)]
        have h3 : p.1 - t < lines.length := by omega
        have hline : lines.getD (p.1 - t) [] = lines[p.1 - t] := by
          simp [List.getD_eq_getElem?_getD, List.getElem?_eq_getElem h3]
        have hW := (hrect _ (List.getElem_mem h3)).1
        simp only [List.length_replicate, List.getD_eq_getElem?_getD (List.map _ _),
          List.getElem?_map, List.getElem?_eq_getElem h3, Option.map_some', Option.getD_some]
        rw [padded_row_getD, hline, hW]
        simp only [Exec.ret.injEq, Bool.and_eq_true, decide_eq_true_eq, beq_iff_eq]
        constructor
        · rintro ⟨h4, h5⟩
          exact ⟨hkt, by omega, h4, h5⟩
        · rintro ⟨_, _, h4, h5⟩
          exact ⟨h4, h5⟩
      · rw [List.getD_append_right _ _ _ _ (by simp; omega)]
        simp only [List.getD_eq_getElem?_getD, List.getElem?_replicate]
        constructor
        · intro h
          split at h <;> simp at h
        · intro h; omega
  · have hslice : (padded_cube lines W t).slices_[p.2.2]?
        = some (Matrix.ctor (lines.length + 2 * t) (W + 2 * t) false) := by
      rw [padded_cube]
      by_cases hlt : p.2.2 < t
      · rw [List.append_assoc, List.getElem?_append_left (by rw [List.length_replicate]; exact hlt),
          List.getElem?_replicate, if_pos hlt]
      · rw [List.getElem?_append_right (by simp; omega), List.getElem?_replicate,
          if_pos (by simp; omega)]
    rw [Cube.at, hslice]
    simp only []
    rw [hZat]
    constructor
    · intro h; cases h
    · intro h; exact absurd h.1 hkt

/-- The active cells of the input plane. -/
theorem mem_plane (lines : List (List Char)) (p : Point) :
    p ∈ plane lines ↔ ∃ x y : Nat, x < lines.length ∧ y < (lines.getD x []).length ∧
      (lines.getD x []).getD y inactive = active ∧ p = ((x : Int), (y : Int), (0 : Int)) := by
  simp only [plane, List.mem_toFinset, List.mem_flatMap, List.mem_range, List.mem_map,
    List.mem_filter, beq_iff_eq]
  constructor
  · rintro ⟨x, hx, y, ⟨hy, hc⟩, rfl⟩
    exact ⟨x, y, hx, hy, hc, rfl⟩
  · rintro ⟨x, y, hx, hy, hc, rfl⟩
    exact ⟨x, hx, y, ⟨hy, hc⟩, rfl⟩

/-- The padded cube holds the input plane, moved by the padding, and the plane is inside its
box. -/
theorem padded_cube_plane (lines : List (List Char)) (W t : Nat)
    (hrect : ∀ l ∈ lines, l.length = W ∧ '\n' ∉ l)
    (hRC : (lines.length + 2 * t) * (W + 2 * t) < 2 ^ 64) :
    (∀ q, q ∈ (padded_cube lines W t).actives (lines.length + 2 * t) (W + 2 * t) (2 * t + 1)
      ↔ unpad t q ∈ plane lines) ∧
    ∀ p ∈ plane lines, in_box lines.length W 0 p := by
  constructor
  · intro q
    rw [mem_actives, mem_plane]
    constructor
    · rintro ⟨p, hp, hat, rfl⟩
      obtain ⟨hk, ⟨h1, h2⟩, ⟨h3, h4⟩, hc⟩ := (padded_cube_at lines W t hrect hRC p hp).mp hat
      have hx : p.1 - t < lines.length := by omega
      have hline : lines.getD (p.1 - t) [] = lines[p.1 - t] := by
        simp [List.getD_eq_getElem?_getD, List.getElem?_eq_getElem hx]
      refine ⟨p.1 - t, p.2.1 - t, hx, ?_, hc, ?_⟩
      · rw [hline, (hrect _ (List.getElem_mem hx)).1]
        omega
      · simp only [unpad, to_point, Prod.mk.injEq]
        omega
    · rintro ⟨x, y, hx, hy, hc, hq⟩
      have hline : lines.getD x [] = lines[x] := by
        simp [List.getD_eq_getElem?_getD, List.getElem?_eq_getElem hx]
      have hyW : y < W := by
        rw [hline, (hrect _ (List.getElem_mem hx)).1] at hy
        exact hy
      simp only [unpad, Prod.mk.injEq] at hq
      have hp : (x + t, y + t, t) ∈ cells (lines.length + 2 * t) (W + 2 * t) (2 * t + 1) := by
        rw [mem_cells]
        simp only []
        omega
      refine ⟨(x + t, y + t, t), hp, ?_, ?_⟩
      · rw [padded_cube_at lines W t hrect hRC _ hp]
        refine ⟨rfl, ⟨by simp, by simp; omega⟩, ⟨by simp, by simp; omega⟩, ?_⟩
        simpa using hc
      · refine Prod.ext ?_ (Prod.ext ?_ ?_) <;> simp [to_point] <;> omega
  · intro p hp
    obtain ⟨x, y, hx, hy, _, rfl⟩ := (mem_plane lines p).mp hp
    have hline : lines.getD x [] = lines[x] := by
      simp [List.getD_eq_getElem?_getD, List.getElem?_eq_getElem hx]
    rw [hline, (hrect _ (List.getElem_mem hx)).1] at hy
    refine ⟨⟨?_, ?_⟩, ⟨?_, ?_⟩, ?_, ?_⟩ <;> simp <;> omega

/-- The input of one empty line with `t = 1`: the cube has three rows, two columns and three
slices, and no cell is active before or after a call of `evolve`, as on the unbounded grid. -/
theorem parse_reserve_for_empty_line :
    (parse_reserve_for (view "\n") 1).bind
        (fun c => c.rows.bind fun r => c.cols.bind fun cols =>
          .ret (r, cols, c.slices, c.count true)) = .ret (3, 2, 3, 0) ∧
    ((parse_reserve_for (view "\n") 1).bind (evolve_n 1)).bind
        (fun c => .ret (c.count true)) = .ret 0 ∧
    (steps 1 (plane [[]])).card = 0 := by
  refine ⟨by decide, by decide, by decide⟩

/-- C30, counterexample. The input of one empty line is rectangular and ends in a newline; with
`t = 0` the slice has no column and `slice.rows()` divides by zero, so `parse_reserve_for` does
not return, while the unbounded grid of that input has no active cell. And with `t = 2 ^ 30`
the product `2*t` overflows the `int`. -/
theorem parse_reserve_for_undefined :
    unlines [[]] = view "\n" ∧
    parse_reserve_for (view "\n") 0 = .undefined ∧
    (parse_reserve_for (view "\n") 0).bind (evolve_n 0) = .undefined ∧
    (steps 0 (plane [[]])).card = 0 ∧
    parse_reserve_for test 1073741824 = .undefined := by
  refine ⟨by decide, by decide, by decide, by decide, by decide⟩

/-- C30, amended. For every input of at least one line, all lines of one width `W` and each
ended by a newline, every `t` for which the padded cube has fewer than `2 ^ 31` cells, `W` and
`t` not both zero, and every `k <= t`, the `k` calls of `evolve` on the cube
`parse_reserve_for(input, t)` return, and the number of active cells of the cube is then the
number of active cells after `k` steps of the rule on the unbounded grid that starts from the
input plane. -/
theorem padded_cube_matches_unbounded (lines : List (List Char)) (W t k : Nat)
    (hH : lines ≠ []) (hW : 0 < W ∨ 0 < t) (hrect : ∀ l ∈ lines, l.length = W ∧ '\n' ∉ l)
    (hk : k ≤ t) (hsize : (lines.length + 2 * t) * (W + 2 * t) * (2 * t + 1) < 2 ^ 31) :
    ∃ c, (parse_reserve_for (unlines lines) t).bind (evolve_n k) = .ret c ∧
      c.count true = (steps k (plane lines)).card := by
  have hpos : 0 < lines.length := List.length_pos.mpr hH
  have hRC' : 0 < (lines.length + 2 * t) * (W + 2 * t) := Nat.mul_pos (by omega) (by omega)
  have hRC : (lines.length + 2 * t) * (W + 2 * t) < 2 ^ 64 := by
    have : (lines.length + 2 * t) * (W + 2 * t)
        ≤ (lines.length + 2 * t) * (W + 2 * t) * (2 * t + 1) := Nat.le_mul_of_pos_right _ (by omega)
    omega
  have ht : 2 * t < 2 ^ 31 := by
    have : 2 * t + 1 ≤ (lines.length + 2 * t) * (W + 2 * t) * (2 * t + 1) :=
      Nat.le_mul_of_pos_left _ hRC'
    omega
  obtain ⟨hrep, hbox⟩ := padded_cube_plane lines W t hrect hRC
  have hwf := padded_cube_wf lines W t hrect hRC
  have hparse : parse_reserve_for (unlines lines) t = .ret (padded_cube lines W t) := by
    cases lines with
    | nil => exact absurd rfl hH
    | cons l0 ls => exact parse_reserve_for_eq l0 ls W t hrect hW ht hRC
  obtain ⟨c, hev, hwfc, hrepc⟩ := evolve_n_steps lines.length W t hpos hsize k 0
    (padded_cube lines W t) (plane lines) hwf hrep hbox (by omega)
  refine ⟨c, by rw [hparse, Exec.exec_ret_bind, hev], ?_⟩
  rw [Cube.count_eq_card c _ _ _ hwfc hRC]
  exact card_unpad t _ _ hrepc

set_option maxRecDepth 1000000 in
theorem padded_cube_matches_unbounded_witness :
    (unlines test_lines = test ∧ test_lines ≠ [] ∧ (0 < 3 ∨ 0 < 6) ∧
      (∀ l ∈ test_lines, l.length = 3 ∧ '\n' ∉ l) ∧ 6 ≤ 6 ∧
      (test_lines.length + 2 * 6) * (3 + 2 * 6) * (2 * 6 + 1) < 2 ^ 31) ∧
    (∃ c, (parse_reserve_for (unlines test_lines) 6).bind (evolve_n 6) = .ret c ∧
      c.count true = (steps 6 (plane test_lines)).card) ∧
    ((parse_reserve_for test 1).bind (evolve_n 1)).bind (fun c => .ret (c.count true)) = .ret 11 ∧
    (steps 1 (plane test_lines)).card = 11 :=
  ⟨⟨by decide, by decide, by decide, by decide, by decide, by decide⟩,
    padded_cube_matches_unbounded test_lines 3 6 6 (by decide) (by decide) (by decide)
      (by decide) (by decide),
    by decide, by decide⟩

end Day17

namespace Day14

/-- Flipping position `i` changes the bit at `i` and no other. -/
theorem testBit_flip (bits i j : Nat) :
    (flip bits i).testBit j = (bits.testBit j ^^ decide (i = j)) := by
  rw [flip, Nat.testBit_xor, Nat.testBit_two_pow]

/-- The bits of `zero_` and `one_` after the first `n` rounds of the constructor of
`Protocol1`. -/
theorem Protocol1.round_bits (mask : List Char) (n j : Nat) :
    (((List.range n).foldl (Protocol1.round mask) { zero_ := 2 ^ N - 1, one_ := 0 }).zero_.testBit j
      = (decide (j < N) ^^ (decide (j < n) && decide (char_at mask (N - 1 - j) = '0')))) ∧
    (((List.range n).foldl (Protocol1.round mask) { zero_ := 2 ^ N - 1, one_ := 0 }).one_.testBit j
      = (decide (j < n) && decide (char_at mask (N - 1 - j) = '1'))) := by
  induction n with
  | zero => simp [Nat.testBit_two_pow_sub_one]
  | succ n ih =>
    rw [List.range_succ, List.foldl_append, List.foldl_cons, List.foldl_nil]
    generalize (List.range n).foldl (Protocol1.round mask) { zero_ := 2 ^ N - 1, one_ := 0 } = p
      at ih ⊢
    obtain ⟨hz, ho⟩ := ih
    have h01 : ('0' : Char) ≠ '1' := by decide
    by_cases hjn : n = j
    · subst hjn
      have hlt : ¬ n < n := lt_irrefl n
      simp only [hlt, decide_False, Bool.false_and, Bool.xor_false] at hz ho
      by_cases c0 : char_at mask (N - 1 - n) = '0'
      · have c1 : char_at mask (N - 1 - n) ≠ '1' := by rw [c0]; exact h01
        simp [Protocol1.round, c0, h01, testBit_flip, hz, ho]
      · by_cases c1 : char_at mask (N - 1 - n) = '1'
        · simp [Protocol1.round, c0, c1, testBit_flip, hz, ho]
        · simp [Protocol1.round, c0, c1, testBit_flip, hz, ho]
    · have hlt : (j < n + 1) = (j < n) := by
        apply propext
        omega
      simp only [hlt]
      by_cases c0 : char_at mask (N - 1 - n) = '0'
      · have c1 : char_at mask (N - 1 - n) ≠ '1' := by rw [c0]; exact h01
        simp [Protocol1.round, c0, h01, testBit_flip, hz, ho, hjn]
      · by_cases c1 : char_at mask (N - 1 - n) = '1'
        · simp [Protocol1.round, c0, c1, testBit_flip, hz, ho, hjn]
        · simp [Protocol1.round, c0, c1, testBit_flip, hz, ho, hjn]

/-- The bits of the result of `Protocol1::apply`. -/
theorem Protocol1.apply_bits (mask : List Char) (v j : Nat) :
    ((Protocol1.ctor mask).apply v).testBit j
      = (decide (j < N) && (decide (char_at mask (N - 1 - j) = '1') ||
          (!decide (char_at mask (N - 1 - j) = '0') && v.testBit j))) := by
  obtain ⟨hz, ho⟩ := Protocol1.round_bits mask N j
  rw [Protocol1.apply, Protocol1.ctor, Nat.testBit_or, Nat.testBit_and, Nat.testBit_mod_two_pow,
    hz, ho]
  by_cases hj : j < N <;> by_cases c0 : char_at mask (N - 1 - j) = '0' <;>
    by_cases c1 : char_at mask (N - 1 - j) = '1' <;> simp [hj, c0, c1]

/-- The lists `ones_` and `xs_` after the first `n` rounds of the constructor of `Protocol2`
hold the positions of the characters `1` and of the characters `x` or `X`, in rising order. -/
theorem Protocol2.round_lists (mask : List Char) (n : Nat) :
    (List.range n).foldl (Protocol2.round mask) { ones_ := [], xs_ := [] }
      = { ones_ := (List.range n).filter (fun i => decide (char_at mask (N - 1 - i) = '1')),
          xs_ := (List.range n).filter (fun i =>
            decide (char_at mask (N - 1 - i) = 'x' ∨ char_at mask (N - 1 - i) = 'X')) } := by
  induction n with
  | zero => rfl
  | succ n ih =>
    rw [List.range_succ, List.foldl_append, ih, List.foldl_cons, List.foldl_nil,
      List.filter_append, List.filter_append]
    have h1x : ('1' : Char) ≠ 'x' := by decide
    have h1X : ('1' : Char) ≠ 'X' := by decide
    by_cases c1 : char_at mask (N - 1 - n) = '1'
    · simp [Protocol2.round, c1, h1x, h1X]
    · by_cases cx : char_at mask (N - 1 - n) = 'x' ∨ char_at mask (N - 1 - n) = 'X'
      · simp [Protocol2.round, c1, cx]
      · simp [Protocol2.round, c1, cx]

/-- The bits of an address after the bits of `ones` are set. -/
theorem testBit_set_ones (ones : List Nat) :
    ∀ (v j : Nat), (ones.foldl (fun base b => base ||| 2 ^ b) v).testBit j
      = (v.testBit j || decide (j ∈ ones)) := by
  induction ones with
  | nil => intro v j; simp
  | cons b bs ih =>
    intro v j
    rw [List.foldl_cons, ih, Nat.testBit_or, Nat.testBit_two_pow]
    by_cases hb : b = j
    · simp [hb]
    · have : ¬ j = b := fun h => hb h.symm
      simp [hb, this]

/-- The bits of the constant `~(1 << b)` in 64 bits. -/
theorem testBit_clear_mask (b j : Nat) (hb : b < 64) :
    (2 ^ 64 - 1 - 2 ^ b).testBit j = (decide (j < 64) && !decide (b = j)) := by
  have h : 2 ^ 64 - 1 - 2 ^ b = 2 ^ 64 - (2 ^ b + 1) := by omega
  rw [h, Nat.testBit_two_pow_sub_succ (Nat.pow_lt_pow_right (by decide) hb),
    Nat.testBit_two_pow]

/-- The bits of a 64-bit address after the bits of `xs` are cleared. -/
theorem testBit_clear_xs (xs : List Nat) (hxs : ∀ b ∈ xs, b < 64) :
    ∀ (v j : Nat), v < 2 ^ 64 →
      (xs.foldl (fun base b => base &&& (2 ^ 64 - 1 - 2 ^ b)) v).testBit j
        = (v.testBit j && !decide (j ∈ xs)) := by
  induction xs with
  | nil => intro v j _; simp
  | cons b bs ih =>
    intro v j hv
    have hb := hxs b (List.mem_cons_self _ _)
    rw [List.foldl_cons, ih (fun c hc => hxs c (List.mem_cons_of_mem _ hc)) _ _
      (lt_of_le_of_lt Nat.and_le_left hv), Nat.testBit_and, testBit_clear_mask b j hb]
    have hv64 : ¬ j < 64 → v.testBit j = false := fun h =>
      Nat.testBit_lt_two_pow (lt_of_lt_of_le hv (Nat.pow_le_pow_right (by decide) (not_lt.mp h)))
    by_cases hj : j < 64
    · by_cases hbj : b = j
      · simp [hj, hbj]
      · have : ¬ j = b := fun h => hbj h.symm
        simp [hj, hbj, this]
    · simp [hv64 hj]

theorem Run.day14_ret_bind {α β : Type} (a : α) (f : α → Run β) : (Run.ret a).bind f = f a :=
  rfl

/-- The length of `n` copies. -/
theorem copies_length (n : Nat) (r : List Nat) : (copies n r).length = n * r.length := by
  induction n with
  | zero => simp [copies]
  | succ n ih => rw [copies, List.length_append, ih]; ring

/-- An even number of copies is half as many copies of the doubled list. -/
theorem copies_double (n : Nat) (r : List Nat) : copies (2 * n) r = copies n (r ++ r) := by
  induction n with
  | zero => rfl
  | succ n ih =>
    rw [show 2 * (n + 1) = (2 * n + 1) + 1 by ring, copies, copies, ih, copies,
      List.append_assoc]

/-- Copies of a one-element list. -/
theorem copies_singleton (n v : Nat) : copies n [v] = List.replicate n v := by
  induction n with
  | zero => rfl
  | succ n ih => rw [copies, ih, List.replicate_succ]; rfl

/-- One copy is the list itself. -/
theorem copies_one (r : List Nat) : copies 1 r = r := by
  rw [copies, copies, List.append_nil]

/-- The length of the addresses made by one floating bit. -/
theorem float_bit_length (r : List Nat) (mask : Nat) :
    (float_bit r mask).length = 2 * r.length := by
  rw [float_bit, List.length_append, List.length_map]; ring

/-- One pass of the marking loop over copies of `r ++ r`, where `r` is one block long, sets
the bit in the first half of every copy. -/
theorem mark_blocks_copies (block mask : Nat) (r : List Nat) (hr : r.length = block)
    (hblock : 0 < block) :
    ∀ (n fuel : Nat), n < fuel →
      mark_blocks block mask fuel (copies n (r ++ r)) = .ret (copies n (float_bit r mask)) := by
  intro n
  induction n with
  | zero =>
    intro fuel h
    obtain ⟨f, rfl⟩ : ∃ f, fuel = f + 1 := ⟨fuel - 1, by omega⟩
    simp [mark_blocks, copies]
  | succ n ih =>
    intro fuel h
    obtain ⟨f, rfl⟩ : ∃ f, fuel = f + 1 := ⟨fuel - 1, by omega⟩
    have hne : r ≠ [] := by
      intro h0
      rw [h0] at hr
      simp at hr
      omega
    have hempty : (copies (n + 1) (r ++ r)).isEmpty = false := by
      rw [copies]
      cases r with
      | nil => exact absurd rfl hne
      | cons a as => rfl
    have hlen : ¬ (copies (n + 1) (r ++ r)).length < 2 * block := by
      rw [copies_length, List.length_append, hr]
      have : 1 * (block + block) ≤ (n + 1) * (block + block) :=
        Nat.mul_le_mul_right _ (by omega)
      omega
    have hdrop : (copies (n + 1) (r ++ r)).drop (2 * block) = copies n (r ++ r) := by
      rw [copies]
      exact List.drop_left' (by rw [List.length_append, hr]; ring)
    have htake : (copies (n + 1) (r ++ r)).take block = r := by
      rw [copies, List.append_assoc]
      exact List.take_left' hr
    have htake2 : ((copies (n + 1) (r ++ r)).drop block).take block = r := by
      rw [copies, List.append_assoc, List.drop_left' hr]
      exact List.take_left' hr
    rw [mark_blocks, hempty, if_neg (by simp), if_neg hlen, hdrop, ih f (by omega),
      Run.day14_ret_bind, htake, htake2, copies, float_bit]

/-- The loop over the floating bits, run on copies of a list `r` of `2^i` addresses, makes
the addresses of the floating bits of every copy. -/
theorem Protocol2.apply_loop_copies :
    ∀ (xs : List Nat) (i n : Nat) (r : List Nat), r.length = 2 ^ i →
      Protocol2.apply_loop xs i (copies (2 ^ xs.length * n) r)
        = .ret (copies n (float_bits r xs)) := by
  intro xs
  induction xs with
  | nil => intro i n r _; simp [Protocol2.apply_loop, float_bits]
  | cons x xs ih =>
    intro i n r hr
    have hcop : copies (2 ^ (x :: xs).length * n) r = copies (2 ^ xs.length * n) (r ++ r) := by
      rw [List.length_cons, pow_succ, show 2 ^ xs.length * 2 * n = 2 * (2 ^ xs.length * n) by
        ring, copies_double]
    have hpos : 0 < 2 ^ i := Nat.two_pow_pos i
    rw [Protocol2.apply_loop, hcop, mark_blocks_copies (2 ^ i) (2 ^ x) r hr hpos, Run.day14_ret_bind,
      ih (i + 1) n (float_bit r (2 ^ x)) (by rw [float_bit_length, hr, pow_succ]; ring)]
    · rfl
    · rw [copies_length, List.length_append, hr]
      have : 2 ^ xs.length * n * 1 ≤ 2 ^ xs.length * n * (2 ^ i + 2 ^ i) :=
        Nat.mul_le_mul_left _ (by omega)
      omega

/-- The vector that `Protocol2::apply` returns, for fewer than 31 floating bits. -/
theorem Protocol2.apply_eq (p : Protocol2) (value : Nat) (hk : p.xs_.length < 31) :
    p.apply value = .ret (float_bits [p.base value] p.xs_) := by
  have h := Protocol2.apply_loop_copies p.xs_ 0 1 [p.base value] rfl
  rw [mul_one, copies_singleton, copies_one] at h
  rw [Protocol2.apply, if_neg (by omega), h]

/-- The number of addresses made by the floating bits. -/
theorem float_bits_length (xs : List Nat) :
    ∀ r : List Nat, (float_bits r xs).length = 2 ^ xs.length * r.length := by
  induction xs with
  | nil => intro r; simp [float_bits]
  | cons x xs ih =>
    intro r
    have h := ih (float_bit r (2 ^ x))
    rw [float_bit_length] at h
    rw [List.length_cons, pow_succ]
    unfold float_bits at h ⊢
    rw [List.foldl_cons, h]
    ring

/-- The bits of an address with one more bit set. -/
theorem testBit_or_two_pow (v x p : Nat) :
    (v ||| 2 ^ x).testBit p = (v.testBit p || decide (x = p)) := by
  rw [Nat.testBit_or, Nat.testBit_two_pow]

/-- The addresses made by the floating bits `xs` of the addresses `r` are those that agree
with an address of `r` outside of `xs` and keep its set bits. -/
theorem mem_float_bits (xs : List Nat) :
    ∀ (r : List Nat) (addr : Nat), addr ∈ float_bits r xs ↔
      ∃ v ∈ r, ∀ p, (p ∉ xs → addr.testBit p = v.testBit p) ∧
        (p ∈ xs → v.testBit p = true → addr.testBit p = true) := by
  induction xs with
  | nil =>
    intro r addr
    simp only [float_bits, List.foldl_nil, List.not_mem_nil, not_false_eq_true, true_implies,
      false_implies, and_true]
    constructor
    · intro h
      exact ⟨addr, h, fun _ => rfl⟩
    · rintro ⟨v, hv, h⟩
      rw [Nat.eq_of_testBit_eq h]
      exact hv
  | cons x xs ih =>
    intro r addr
    have hunf : float_bits r (x :: xs) = float_bits (float_bit r (2 ^ x)) xs := by
      unfold float_bits
      rw [List.foldl_cons]
    rw [hunf, ih]
    constructor
    · rintro ⟨w, hw, hcond⟩
      rw [float_bit, List.mem_append, List.mem_map] at hw
      rcases hw with ⟨v, hv, rfl⟩ | hw
      · refine ⟨v, hv, fun p => ⟨fun hp => ?_, fun hp hbit => ?_⟩⟩
        · rw [List.mem_cons, not_or] at hp
          rw [(hcond p).1 hp.2, testBit_or_two_pow]
          have : ¬ x = p := fun h => hp.1 h.symm
          simp [this]
        · by_cases hpx : p ∈ xs
          · exact (hcond p).2 hpx (by rw [testBit_or_two_pow, hbit]; rfl)
          · rw [(hcond p).1 hpx, testBit_or_two_pow, hbit]
            rfl
      · refine ⟨w, hw, fun p => ⟨fun hp => ?_, fun hp hbit => ?_⟩⟩
        · rw [List.mem_cons, not_or] at hp
          exact (hcond p).1 hp.2
        · by_cases hpx : p ∈ xs
          · exact (hcond p).2 hpx hbit
          · rw [(hcond p).1 hpx, hbit]
    · rintro ⟨v, hv, hcond⟩
      by_cases hbit : addr.testBit x = true
      · refine ⟨v ||| 2 ^ x, ?_, fun p => ⟨fun hp => ?_, fun hp hb => ?_⟩⟩
        · rw [float_bit, List.mem_append, List.mem_map]
          exact Or.inl ⟨v, hv, rfl⟩
        · rw [testBit_or_two_pow]
          by_cases hxp : x = p
          · subst hxp
            simp [hbit]
          · have : p ∉ x :: xs := by
              rw [List.mem_cons, not_or]
              exact ⟨fun h => hxp h.symm, hp⟩
            rw [(hcond p).1 this]
            simp [hxp]
        · rw [testBit_or_two_pow] at hb
          by_cases hxp : x = p
          · subst hxp
            exact hbit
          · simp only [hxp, decide_False, Bool.or_false] at hb
            exact (hcond p).2 (List.mem_cons_of_mem _ hp) hb
      · refine ⟨v, ?_, fun p => ⟨fun hp => ?_, fun hp hb => ?_⟩⟩
        · rw [float_bit, List.mem_append]
          exact Or.inr hv
        · by_cases hxp : x = p
          · subst hxp
            by_cases hvx : v.testBit x = true
            · exact absurd ((hcond x).2 (List.mem_cons_self _ _) hvx) hbit
            · rw [Bool.not_eq_true] at hbit hvx
              rw [hbit, hvx]
          · have : p ∉ x :: xs := by
              rw [List.mem_cons, not_or]
              exact ⟨fun h => hxp h.symm, hp⟩
            exact (hcond p).1 this
        · exact (hcond p).2 (List.mem_cons_of_mem _ hp) hb

/-- Distinct addresses whose floating bits are all clear make distinct addresses. -/
theorem nodup_float_bits (xs : List Nat) :
    ∀ r : List Nat, r.Nodup → xs.Nodup → (∀ v ∈ r, ∀ x ∈ xs, v.testBit x = false) →
      (float_bits r xs).Nodup := by
  induction xs with
  | nil => intro r hr _ _; exact hr
  | cons x xs ih =>
    intro r hr hxs hclear
    have hunf : float_bits r (x :: xs) = float_bits (float_bit r (2 ^ x)) xs := by
      unfold float_bits
      rw [List.foldl_cons]
    rw [List.nodup_cons] at hxs
    rw [hunf]
    refine ih _ ?_ hxs.2 ?_
    · rw [float_bit, List.nodup_append]
      refine ⟨?_, hr, ?_⟩
      · refine (List.nodup_map_iff_inj_on hr).mpr ?_
        intro v hv w hw hvw
        refine Nat.eq_of_testBit_eq (fun p => ?_)
        by_cases hxp : x = p
        · subst hxp
          rw [hclear v hv x (List.mem_cons_self _ _), hclear w hw x (List.mem_cons_self _ _)]
        · have := congrArg (fun a => Nat.testBit a p) hvw
          simpa [testBit_or_two_pow, hxp] using this
      · intro a ha1 ha2
        rw [List.mem_map] at ha1
        obtain ⟨v, hv, rfl⟩ := ha1
        have h1 := hclear _ ha2 x (List.mem_cons_self _ _)
        rw [testBit_or_two_pow] at h1
        simp at h1
    · intro w hw y hy
      rw [float_bit, List.mem_append, List.mem_map] at hw
      rcases hw with ⟨v, hv, rfl⟩ | hw
      · rw [testBit_or_two_pow, hclear v hv y (List.mem_cons_of_mem _ hy)]
        have : ¬ x = y := fun h => hxs.1 (h ▸ hy)
        simp [this]
      · exact hclear w hw y (List.mem_cons_of_mem _ hy)

/-- Within the array, `char_at` is the element of the list. -/
theorem char_at_eq (s : List Char) (j : Nat) (c : Char) (hj : j < s.length) :
    s[j]? = some c ↔ char_at s j = c := by
  rw [char_at, List.getD_eq_getElem _ _ hj, List.getElem?_eq_getElem hj, Option.some_inj]

/-- The characters of the mask from the last to the first, as the constructors read them. -/
theorem reverse_eq_map (s : List Char) (hlen : s.length = N) :
    s.reverse = (List.range N).map (fun i => char_at s (N - 1 - i)) := by
  refine List.ext_getElem (by simp [hlen]) (fun i h1 h2 => ?_)
  have hi : i < s.length := by simpa using h1
  rw [List.getElem_reverse, List.getElem_map, List.getElem_range, char_at,
    List.getD_eq_getElem _ _ (by omega)]
  simp only [hlen]

/-- The list `xs_` holds as many positions as the mask has characters `x` or `X`. -/
theorem xs_length (s : List Char) (hlen : s.length = N) :
    (Protocol2.ctor s).xs_.length = s.countP (fun c => decide (c = 'x' ∨ c = 'X')) := by
  have h : s.countP (fun c => decide (c = 'x' ∨ c = 'X'))
      = s.reverse.countP (fun c => decide (c = 'x' ∨ c = 'X')) := (List.countP_reverse _ _).symm
  rw [Protocol2.ctor, Protocol2.round_lists, h, reverse_eq_map s hlen, List.countP_map,
    List.countP_eq_length_filter]
  rfl

/-- The positions in `xs_`. -/
theorem mem_xs (s : List Char) (p : Nat) :
    p ∈ (Protocol2.ctor s).xs_ ↔
      p < N ∧ (char_at s (N - 1 - p) = 'x' ∨ char_at s (N - 1 - p) = 'X') := by
  rw [Protocol2.ctor, Protocol2.round_lists]
  simp [List.mem_filter]

/-- The positions in `ones_`. -/
theorem mem_ones (s : List Char) (p : Nat) :
    p ∈ (Protocol2.ctor s).ones_ ↔ p < N ∧ char_at s (N - 1 - p) = '1' := by
  rw [Protocol2.ctor, Protocol2.round_lists]
  simp [List.mem_filter]

/-- The positions in `xs_` are distinct. -/
theorem xs_nodup (s : List Char) : (Protocol2.ctor s).xs_.Nodup := by
  rw [Protocol2.ctor, Protocol2.round_lists]
  exact List.Nodup.filter (fun i =>
    decide (char_at s (N - 1 - i) = 'x' ∨ char_at s (N - 1 - i) = 'X')) (List.nodup_range N)

/-- Setting bits below 64 keeps a 64-bit address in its range. -/
theorem set_ones_lt (ones : List Nat) (hones : ∀ b ∈ ones, b < 64) :
    ∀ v, v < 2 ^ 64 → ones.foldl (fun base b => base ||| 2 ^ b) v < 2 ^ 64 := by
  induction ones with
  | nil => intro v hv; exact hv
  | cons b bs ih =>
    intro v hv
    rw [List.foldl_cons]
    exact ih (fun c hc => hones c (List.mem_cons_of_mem _ hc)) _
      (Nat.or_lt_two_pow hv (Nat.pow_lt_pow_right (by decide) (hones b (List.mem_cons_self _ _))))

/-- The bits of the base address of `Protocol2::apply`. -/
theorem base_bits (s : List Char) (a j : Nat) (ha : a < 2 ^ 64) :
    ((Protocol2.ctor s).base a).testBit j
      = ((a.testBit j || decide (j ∈ (Protocol2.ctor s).ones_)) &&
          !decide (j ∈ (Protocol2.ctor s).xs_)) := by
  have hones : ∀ b ∈ (Protocol2.ctor s).ones_, b < 64 := fun b hb =>
    lt_trans ((mem_ones s b).mp hb).1 (by decide)
  have hxs : ∀ b ∈ (Protocol2.ctor s).xs_, b < 64 := fun b hb =>
    lt_trans ((mem_xs s b).mp hb).1 (by decide)
  rw [Protocol2.base, testBit_clear_xs _ hxs _ _ (set_ones_lt _ hones a ha), testBit_set_ones]

/-- C33. For every 36-character mask and every value `v`, `Mask::Protocol1::apply(v)` is the
number below `2^36` whose bit `i` (`0 <= i < 36`) is 1 where the mask character at position
`35-i` is `1`, 0 where it is `0`, and bit `i` of `v` otherwise; applying the same mask twice
gives the same result as applying it once. -/
theorem protocol1_apply_spec (s : List Char) (hlen : s.length = 36) (v : Nat) :
    ∃ m, Mask.ctor s = .ret m ∧
      m.protocol1.apply v < 2 ^ 36 ∧
      (∀ i < 36, (m.protocol1.apply v).testBit i =
        if s[35 - i]? = some '1' then true
        else if s[35 - i]? = some '0' then false
        else v.testBit i) ∧
      m.protocol1.apply (m.protocol1.apply v) = m.protocol1.apply v := by
  have hp : ({ mask_ := s } : Mask).protocol1 = Protocol1.ctor s := rfl
  refine ⟨{ mask_ := s }, by rw [Mask.ctor, if_pos (show s.length = N from hlen)], ?_, ?_, ?_⟩
  · refine Nat.lt_pow_two_of_testBit _ (fun i hi => ?_)
    rw [hp, Protocol1.apply_bits]
    have : ¬ i < N := not_lt.mpr hi
    simp [this]
  · intro i hi
    have hj : 35 - i < s.length := by omega
    have hiN : i < N := hi
    have e1 : (s[35 - i]? = some '1') = (char_at s (N - 1 - i) = '1') :=
      propext (char_at_eq s _ _ hj)
    have e0 : (s[35 - i]? = some '0') = (char_at s (N - 1 - i) = '0') :=
      propext (char_at_eq s _ _ hj)
    rw [hp, Protocol1.apply_bits]
    simp only [e1, e0]
    by_cases c1 : char_at s (N - 1 - i) = '1'
    · simp [hiN, c1]
    · by_cases c0 : char_at s (N - 1 - i) = '0'
      · simp [hiN, c0]
      · simp [hiN, c0, c1]
  · refine Nat.eq_of_testBit_eq (fun j => ?_)
    rw [hp, Protocol1.apply_bits, Protocol1.apply_bits]
    by_cases hj : j < N <;> by_cases c0 : char_at s (N - 1 - j) = '0' <;>
      by_cases c1 : char_at s (N - 1 - j) = '1' <;> simp [hj, c0, c1]

set_option maxRecDepth 1000000 in
theorem protocol1_apply_spec_witness :
    (test_mask.length = 36 ∧ (Protocol1.ctor test_mask).apply 11 = 73 ∧
      (Protocol1.ctor test_mask).apply 101 = 101 ∧ (Protocol1.ctor test_mask).apply 0 = 64) ∧
    ∃ m, Mask.ctor test_mask = .ret m ∧
      m.protocol1.apply 11 < 2 ^ 36 ∧
      (∀ i < 36, (m.protocol1.apply 11).testBit i =
        if test_mask[35 - i]? = some '1' then true
        else if test_mask[35 - i]? = some '0' then false
        else (11 : Nat).testBit i) ∧
      m.protocol1.apply (m.protocol1.apply 11) = m.protocol1.apply 11 :=
  ⟨⟨by decide, by decide, by decide, by decide⟩,
    protocol1_apply_spec test_mask (by decide) 11⟩

set_option maxRecDepth 1000000 in
/-- C32, as the claim states it: the mask of thirty-five `0` and a final lowercase `x` has no
character `X`, and `Protocol2::apply(0)` returns the two addresses 1 and 0, not one. On the
mask of thirty-five `0` and a final `2`, which has no `X` either, the address 1 has bit 1
wherever the mask has `1` and agrees with 0 wherever the mask has `0` and on the bits from 36
on, and `apply(0)` returns the address 0 alone. -/
theorem protocol2_lowercase_x :
    ("00000000000000000000000000000000000x".data.length = 36 ∧
      "00000000000000000000000000000000000x".data.countP (fun c => decide (c = 'X')) = 0 ∧
      (∃ m, Mask.ctor "00000000000000000000000000000000000x".data = .ret m ∧
        m.protocol2.apply 0 = .ret [1, 0])) ∧
    ("000000000000000000000000000000000002".data.length = 36 ∧
      "000000000000000000000000000000000002".data.countP (fun c => decide (c = 'X')) = 0 ∧
      (∃ m, Mask.ctor "000000000000000000000000000000000002".data = .ret m ∧
        m.protocol2.apply 0 = .ret [0]) ∧
      (∀ i, (i < 36 → "000000000000000000000000000000000002".data[35 - i]? = some '1' →
          (1 : Nat).testBit i = true) ∧
        ((36 ≤ i ∨ (i < 36 ∧ "000000000000000000000000000000000002".data[35 - i]? = some '0')) →
          (1 : Nat).testBit i = (0 : Nat).testBit i))) := by
  refine ⟨⟨by decide, by decide, ⟨_, rfl, by decide⟩⟩, by decide, by decide, ⟨_, rfl, by decide⟩,
    fun i => ?_⟩
  rcases i with _ | i
  · exact ⟨fun _ h => absurd h (by decide), fun h => by
      rcases h with h | h
      · omega
      · exact absurd h.2 (by decide)⟩
  · have h1 : (1 : Nat).testBit (i + 1) = false := by
      rw [Nat.testBit_succ]
      exact Nat.zero_testBit i
    refine ⟨fun hi h => ?_, fun _ => by rw [h1, Nat.zero_testBit]⟩
    have hall : ∀ j < 36, "000000000000000000000000000000000002".data[j]? ≠ some '1' := by
      decide
    exact absurd h (hall _ (by omega))

/-- C32. For every 36-character mask with `k < 31` characters `X` or `x` and every address
`a`, `Mask::Protocol2::apply(a)` returns exactly `2^k` pairwise distinct addresses, and they
are exactly the addresses that have bit 1 wherever the mask has `1`, agree with `a` wherever
the mask has a character other than `1`, `x` and `X` (and on bits 36 and above), and take
every combination of values on the positions of `X` and `x`. -/
theorem protocol2_apply_spec (s : List Char) (hlen : s.length = 36) (a : Nat)
    (ha : a < 2 ^ 64) (hk : s.countP (fun c => decide (c = 'x' ∨ c = 'X')) < 31) :
    ∃ m res, Mask.ctor s = .ret m ∧ m.protocol2.apply a = .ret res ∧
      res.length = 2 ^ s.countP (fun c => decide (c = 'x' ∨ c = 'X')) ∧ res.Nodup ∧
      ∀ addr, addr ∈ res ↔
        ∀ i, (i < 36 → s[35 - i]? = some '1' → addr.testBit i = true) ∧
          ((36 ≤ i ∨ (s[35 - i]? ≠ some '1' ∧ s[35 - i]? ≠ some 'x' ∧
              s[35 - i]? ≠ some 'X')) → addr.testBit i = a.testBit i) := by
  have hxl := xs_length s hlen
  have hbase := base_bits s a
  have hclear : ∀ x ∈ (Protocol2.ctor s).xs_, ((Protocol2.ctor s).base a).testBit x = false := by
    intro x hx
    rw [hbase x ha]
    simp [hx]
  refine ⟨{ mask_ := s }, float_bits [(Protocol2.ctor s).base a] (Protocol2.ctor s).xs_,
    by rw [Mask.ctor, if_pos (show s.length = N from hlen)],
    Protocol2.apply_eq (Protocol2.ctor s) a (by rw [hxl]; exact hk), ?_, ?_, ?_⟩
  · rw [float_bits_length, hxl, List.length_singleton, mul_one]
  · refine nodup_float_bits _ _ (List.nodup_singleton _) (xs_nodup s) ?_
    intro v hv x hx
    rw [List.mem_singleton.mp hv]
    exact hclear x hx
  · intro addr
    rw [mem_float_bits]
    have hchar : ∀ i, i < 36 → ∀ c, s[35 - i]? = some c ↔ char_at s (N - 1 - i) = c :=
      fun i hi c => char_at_eq s (35 - i) c (by omega)
    have h1x : ('1' : Char) ≠ 'x' := by decide
    have h1X : ('1' : Char) ≠ 'X' := by decide
    constructor
    · rintro ⟨v, hv, hcond⟩ i
      rw [List.mem_singleton.mp hv] at hcond
      constructor
      · intro hi h1
        rw [hchar i hi] at h1
        have hnx : i ∉ (Protocol2.ctor s).xs_ := by
          rw [mem_xs, h1]
          simp [h1x, h1X]
        have hone : i ∈ (Protocol2.ctor s).ones_ := (mem_ones s i).mpr ⟨hi, h1⟩
        rw [(hcond i).1 hnx, hbase i ha]
        simp [hone, hnx]
      · intro h
        have hnx : i ∉ (Protocol2.ctor s).xs_ := by
          rw [mem_xs]
          rintro ⟨hi, hc⟩
          rcases h with h | h
          · exact absurd hi (not_lt.mpr h)
          · rw [Ne, hchar i hi, Ne, hchar i hi, Ne, hchar i hi] at h
            tauto
        have hno : i ∉ (Protocol2.ctor s).ones_ := by
          rw [mem_ones]
          rintro ⟨hi, hc⟩
          rcases h with h | h
          · exact absurd hi (not_lt.mpr h)
          · rw [Ne, hchar i hi] at h
            exact h.1 hc
        rw [(hcond i).1 hnx, hbase i ha]
        simp [hno, hnx]
    · intro h
      refine ⟨_, List.mem_singleton_self _, fun p => ⟨fun hp => ?_, fun hp hb => ?_⟩⟩
      · rw [hbase p ha]
        by_cases hp36 : p < 36
        · by_cases c1 : char_at s (N - 1 - p) = '1'
          · have hone : p ∈ (Protocol2.ctor s).ones_ := (mem_ones s p).mpr ⟨hp36, c1⟩
            rw [(h p).1 hp36 ((hchar p hp36 _).mpr c1)]
            simp [hone, hp]
          · have hno : p ∉ (Protocol2.ctor s).ones_ := fun hm => c1 ((mem_ones s p).mp hm).2
            have hx : ¬ (char_at s (N - 1 - p) = 'x' ∨ char_at s (N - 1 - p) = 'X') :=
              fun hc => hp ((mem_xs s p).mpr ⟨hp36, hc⟩)
            rw [(h p).2 (Or.inr ⟨by rw [Ne, hchar p hp36]; exact c1,
              by rw [Ne, hchar p hp36]; exact fun hc => hx (Or.inl hc),
              by rw [Ne, hchar p hp36]; exact fun hc => hx (Or.inr hc)⟩)]
            simp [hno, hp]
        · have hno : p ∉ (Protocol2.ctor s).ones_ := fun hm => hp36 ((mem_ones s p).mp hm).1
          rw [(h p).2 (Or.inl (not_lt.mp hp36))]
          simp [hno, hp]
      · rw [hclear p hp] at hb
        exact absurd hb (by simp)

set_option maxRecDepth 1000000 in
theorem protocol2_apply_spec_witness :
    (test2_mask.length = 36 ∧ (42 : Nat) < 2 ^ 64 ∧
      test2_mask.countP (fun c => decide (c = 'x' ∨ c = 'X')) = 2 ∧
      (Protocol2.ctor test2_mask).apply 42 = .ret [59, 58, 27, 26] ∧
      (Protocol2.ctor test2_mask2).apply 26 = .ret [27, 26, 25, 24, 19, 18, 17, 16]) ∧
    ∃ m res, Mask.ctor test2_mask = .ret m ∧ m.protocol2.apply 42 = .ret res ∧
      res.length = 2 ^ test2_mask.countP (fun c => decide (c = 'x' ∨ c = 'X')) ∧ res.Nodup ∧
      ∀ addr, addr ∈ res ↔
        ∀ i, (i < 36 → test2_mask[35 - i]? = some '1' → addr.testBit i = true) ∧
          ((36 ≤ i ∨ (test2_mask[35 - i]? ≠ some '1' ∧ test2_mask[35 - i]? ≠ some 'x' ∧
              test2_mask[35 - i]? ≠ some 'X')) → addr.testBit i = (42 : Nat).testBit i) :=
  ⟨⟨by decide, by decide, by decide, by decide, by decide⟩,
    protocol2_apply_spec test2_mask (by decide) 42 (by decide) (by decide)⟩

end Day14

namespace Day16

/-- The call `contains` succeeds exactly when the value fits the field. -/
theorem contains_iff (v : Int) (field : String × IntervalSet) :
    field.2.contains v = true ↔ fits v field := by
  simp [IntervalSet.contains, fits]

/-- The call `is_invalid` rejects a value exactly when it fits no field. -/
theorem is_invalid_iff (v : Int) (rules : Rules) :
    is_invalid v rules = true ↔ ¬ ∃ field ∈ rules, fits v field := by
  simp only [is_invalid, Bool.not_eq_true', ← Bool.not_eq_true, List.any_eq_true, contains_iff]

/-- The call `is_invalid` rejects a ticket exactly when it is not valid. -/
theorem is_invalid_ticket_iff (ticket : Ticket) (rules : Rules) :
    is_invalid_ticket ticket rules = true ↔ ¬ valid rules ticket := by
  simp only [is_invalid_ticket, List.any_eq_true, is_invalid_iff, valid]
  push_neg
  rfl

/-- C36. For every list of tickets and every rule set, `remove_invalid` leaves exactly the
tickets all of whose values lie in at least one closed interval `[lhs, rhs]` of at least one
field, in their original relative order, and returns the number of tickets it removed, which
is the number of tickets having some value that fits no field. -/
theorem remove_invalid_spec (tickets : List Ticket) (rules : Rules) :
    (remove_invalid tickets rules).1 = tickets.filter (fun t => decide (valid rules t)) ∧
    (remove_invalid tickets rules).1.Sublist tickets ∧
    (∀ t, t ∈ (remove_invalid tickets rules).1 ↔ t ∈ tickets ∧
      ∀ v ∈ t.values, ∃ field ∈ rules, ∃ interval ∈ field.2.intervals_,
        interval.lhs ≤ v ∧ v ≤ interval.rhs) ∧
    (remove_invalid tickets rules).2
      = tickets.length - (remove_invalid tickets rules).1.length ∧
    (remove_invalid tickets rules).2 = tickets.countP (fun t => decide (∃ v ∈ t.values,
      ∀ field ∈ rules, ∀ interval ∈ field.2.intervals_,
        ¬ (interval.lhs ≤ v ∧ v ≤ interval.rhs))) := by
  have hpred : (fun ticket => !is_invalid_ticket ticket rules)
      = fun t => decide (valid rules t) := by
    funext t
    by_cases h : valid rules t
    · have : is_invalid_ticket t rules = false := by
        rw [← Bool.not_eq_true, is_invalid_ticket_iff]
        exact not_not.mpr h
      simp [this, h]
    · have : is_invalid_ticket t rules = true := (is_invalid_ticket_iff t rules).mpr h
      simp [this, h]
  have hkept : (remove_invalid tickets rules).1
      = tickets.filter (fun t => decide (valid rules t)) := by
    simp only [remove_invalid, hpred]
  refine ⟨hkept, ?_, ?_, rfl, ?_⟩
  · rw [hkept]
    exact List.filter_sublist _
  · intro t
    rw [hkept, List.mem_filter, decide_eq_true_eq]
    rfl
  · have hcount : (remove_invalid tickets rules).2
        = tickets.length - (tickets.filter (fun t => decide (valid rules t))).length := by
      simp only [remove_invalid, hpred]
    rw [hcount, List.countP_eq_length_filter]
    have hsplit := @List.length_eq_length_filter_add _ tickets (fun t => decide (valid rules t))
    have hneg : (fun t => !decide (valid rules t)) = (fun (t : Ticket) => decide (∃ v ∈ t.values,
        ∀ field ∈ rules, ∀ interval ∈ field.2.intervals_,
          ¬ (interval.lhs ≤ v ∧ v ≤ interval.rhs))) := by
      funext t
      rw [← decide_not]
      refine decide_eq_decide.mpr ?_
      simp only [valid, fits]
      push_neg
      rfl
    rw [hneg] at hsplit
    omega

/-- On the fields and the nearby tickets of `test`, `remove_invalid` keeps the first ticket and
removes three. -/
theorem remove_invalid_test :
    remove_invalid test_tickets test_rules = ([⟨[7, 3, 47]⟩], 3) := by
  decide

end Day16

namespace Day10

theorem Run.day10_ret_bind {α β : Type} (a : α) (f : α → Run β) : (Run.ret a).bind f = f a :=
  rfl

/-- The sublists of `a :: mid` that pass a test are those of `mid` that pass it and those of
`mid` that pass it with `a` in front. -/
theorem sublists_filter_cons (p : List Int → Bool) (a : Int) (mid : List Int) :
    (((a :: mid).sublists').filter p).length
      = ((mid.sublists').filter p).length
        + ((mid.sublists').filter (fun s => p (a :: s))).length := by
  rw [List.sublists'_cons, List.filter_append, List.length_append, List.filter_map,
    List.length_map]
  rfl

/-- The empty sublist alone, when it passes the test. -/
theorem filter_singleton_pos (p : List Int → Bool) (hp : p [] = true) :
    (List.filter p [[]]).length = 1 := by
  rw [List.filter_cons, if_pos hp]
  rfl

/-- The empty sublist alone, when it fails the test. -/
theorem filter_singleton_neg (p : List Int → Bool) (hp : ¬ p [] = true) :
    (List.filter p [[]]).length = 0 := by
  rw [List.filter_cons, if_neg hp]
  rfl

/-- Small steps from `x` over `a`: the step to `a` and small steps from `a`. -/
theorem small_steps_cons (x a : Int) (l : List Int) :
    small_steps (x :: a :: l) ↔ a - x ≤ 3 ∧ small_steps (a :: l) :=
  List.chain'_cons

/-- Small steps of a chain of two. -/
theorem small_steps_pair (x z : Int) : small_steps [x, z] ↔ z - x ≤ 3 := by
  rw [small_steps_cons]
  exact and_iff_left (List.chain'_singleton z)

/-- The function `paths` counts the sublists that make a chain of small steps. -/
theorem paths_eq (mid : List Int) (z : Int) :
    ∀ x, paths x mid z
      = ((mid.sublists').filter (fun s => decide (small_steps (x :: s ++ [z])))).length := by
  induction mid with
  | nil =>
    intro x
    rw [paths, List.sublists'_nil]
    by_cases h : z - x ≤ 3
    · rw [if_pos h]
      exact (filter_singleton_pos _ (decide_eq_true ((small_steps_pair x z).mpr h))).symm
    · rw [if_neg h]
      refine (filter_singleton_neg _ ?_).symm
      show ¬ decide (small_steps [x, z]) = true
      rw [decide_eq_true_eq]
      exact fun h' => h ((small_steps_pair x z).mp h')
  | cons a mid ih =>
    intro x
    rw [paths, sublists_filter_cons, ih x]
    congr 1
    by_cases h : a - x ≤ 3
    · rw [if_pos h, ih a]
      congr 1
      refine List.filter_congr (fun s _ => ?_)
      refine decide_eq_decide.mpr ?_
      show small_steps (a :: (s ++ [z])) ↔ small_steps (x :: a :: (s ++ [z]))
      rw [small_steps_cons x a]
      exact (and_iff_right h).symm
    · rw [if_neg h]
      symm
      rw [List.length_eq_zero, List.filter_eq_nil_iff]
      intro s _
      rw [decide_eq_true_eq]
      show ¬ small_steps (x :: a :: (s ++ [z]))
      rw [small_steps_cons x a]
      exact fun h' => h h'.1

/-- The test `is_valid` on a vector of at least two elements: small steps throughout. -/
theorem is_valid_loop_iff : ∀ l : List Int, is_valid_loop l = true ↔ small_steps l
  | [] => by simp [is_valid_loop, small_steps]
  | [a] => by simp [is_valid_loop, small_steps]
  | a :: b :: rest => by
    have ih := is_valid_loop_iff (b :: rest)
    unfold small_steps at ih ⊢
    rw [is_valid_loop, List.chain'_cons]
    by_cases h : b - a > 3
    · rw [if_pos h]
      simp only [Bool.false_eq_true, false_iff, not_and]
      intro h'
      omega
    · rw [if_neg h, ih]
      constructor
      · exact fun h' => ⟨by omega, h'⟩
      · exact fun h' => h'.2

/-- The test `is_valid` on a vector of at least two elements. -/
theorem is_valid_iff (l : List Int) (hl : 2 ≤ l.length) :
    is_valid l = true ↔ small_steps l := by
  rw [is_valid, if_neg (by omega), is_valid_loop_iff]

/-- The function `valid_count` counts the sublists that pass `is_valid`. -/
theorem valid_count_eq (mid : List Int) (z : Int) :
    ∀ pre, valid_count pre mid z
      = ((mid.sublists').filter (fun s => is_valid (pre ++ s ++ [z]))).length := by
  induction mid with
  | nil =>
    intro pre
    rw [valid_count, List.sublists'_nil]
    by_cases h : is_valid (pre ++ [z]) = true
    · rw [if_pos h]
      exact (filter_singleton_pos _ (by simpa using h)).symm
    · rw [if_neg h]
      exact (filter_singleton_neg _ (by simpa using h)).symm
  | cons a mid ih =>
    intro pre
    rw [valid_count, sublists_filter_cons, ih pre, ih (pre ++ [a])]
    congr 2
    refine List.filter_congr (fun s _ => ?_)
    simp

/-- Behind the outlet 0, `valid_count` and `paths` count the same chains. -/
theorem valid_count_eq_paths (mid : List Int) (z : Int) :
    valid_count [0] mid z = paths 0 mid z := by
  rw [valid_count_eq, paths_eq]
  congr 1
  refine List.filter_congr (fun s _ => ?_)
  have h := is_valid_iff ([0] ++ s ++ [z]) (by simp)
  by_cases hs : small_steps (0 :: s ++ [z])
  · rw [decide_eq_true hs]
    exact h.mpr hs
  · rw [decide_eq_false hs]
    exact Bool.eq_false_iff.mpr (fun hv => hs (h.mp hv))

/-- In a sorted vector, a chain of small steps stays one when a value is put back between two
neighbours. -/
theorem small_steps_insert (pre : List Int) (u a : Int) (rest : List Int) (hrest : rest ≠ [])
    (hs : (pre ++ u :: a :: rest).Sorted (fun x y => x ≤ y))
    (h : small_steps (pre ++ u :: rest)) : small_steps (pre ++ u :: a :: rest) := by
  obtain ⟨w, rest', rfl⟩ := List.exists_cons_of_ne_nil hrest
  unfold small_steps at h ⊢
  rw [List.chain'_split, List.chain'_cons] at h
  rw [List.chain'_split, List.chain'_cons, List.chain'_cons]
  have hs' := (List.pairwise_append.mp hs).2.1
  rw [List.pairwise_cons, List.pairwise_cons] at hs'
  have hua : u ≤ a := hs'.1 a (List.mem_cons_self _ _)
  have haw : a ≤ w := hs'.2.1 w (List.mem_cons_self _ _)
  exact ⟨h.1, by omega, by omega, h.2.2⟩

/-- Leaving out a value keeps a sorted vector sorted. -/
theorem sorted_remove (pre : List Int) (a : Int) (rest : List Int)
    (hs : (pre ++ a :: rest).Sorted (fun x y => x ≤ y)) :
    (pre ++ rest).Sorted (fun x y => x ≤ y) :=
  List.Pairwise.sublist (List.Sublist.append_left (List.sublist_cons_self a rest) pre) hs

/-- Behind a first element, a sorted vector that fails `is_valid` has no sublist that passes
it. -/
theorem valid_count_invalid (mid : List Int) (z : Int) :
    ∀ pre : List Int, pre ≠ [] → (pre ++ mid ++ [z]).Sorted (fun x y => x ≤ y) →
      is_valid (pre ++ mid ++ [z]) = false → valid_count pre mid z = 0 := by
  induction mid with
  | nil =>
    intro pre _ _ h
    rw [List.append_nil] at h
    rw [valid_count, h]
    rfl
  | cons a mid ih =>
    intro pre hpre hs h
    have hs1 : (pre ++ a :: (mid ++ [z])).Sorted (fun x y => x ≤ y) := by
      simpa using hs
    have hlen : 0 < pre.length := List.length_pos.mpr hpre
    have h2 : is_valid ((pre ++ [a]) ++ mid ++ [z]) = false := by
      rw [← h]
      congr 1
      simp
    have h1 : is_valid (pre ++ mid ++ [z]) = false := by
      rw [← Bool.not_eq_true] at h ⊢
      intro hv
      apply h
      rw [is_valid_iff _ (by simp; omega)] at hv ⊢
      obtain ⟨pre', u, rfl⟩ : ∃ pre' u, pre = pre' ++ [u] :=
        ⟨pre.dropLast, pre.getLast hpre, (List.dropLast_append_getLast hpre).symm⟩
      have e1 : pre' ++ [u] ++ a :: mid ++ [z] = pre' ++ u :: a :: (mid ++ [z]) := by simp
      have e2 : pre' ++ [u] ++ mid ++ [z] = pre' ++ u :: (mid ++ [z]) := by simp
      rw [e1]
      rw [e2] at hv
      exact small_steps_insert pre' u a (mid ++ [z]) (by simp) (by simpa using hs1) hv
    rw [valid_count, ih pre hpre (by simpa using sorted_remove pre a (mid ++ [z]) hs1) h1,
      ih (pre ++ [a]) (by simp) (by simpa using hs1) h2]

/-- A vector that passes `is_valid` counts once, and its proper sublists after it. -/
theorem valid_count_valid (mid : List Int) (z : Int) :
    ∀ pre : List Int, is_valid (pre ++ mid ++ [z]) = true →
      valid_count pre mid z = 1 + later_count pre mid z := by
  induction mid with
  | nil =>
    intro pre h
    rw [List.append_nil] at h
    rw [valid_count, if_pos h, later_count]
  | cons a mid ih =>
    intro pre h
    have h2 : is_valid ((pre ++ [a]) ++ mid ++ [z]) = true := by
      rw [← h]
      congr 1
      simp
    rw [valid_count, later_count, ih (pre ++ [a]) h2]
    ring

/-- Erasing the element behind `pre`. -/
theorem eraseIdx_mid (pre : List Int) (a : Int) (rest : List Int) :
    (pre ++ a :: rest).eraseIdx pre.length = pre ++ rest := by
  induction pre with
  | nil => rfl
  | cons p ps ih => simp only [List.cons_append, List.length_cons, List.eraseIdx_cons_succ, ih]

/-- The loop of `count_valid_impl` from the index behind `pre` on adds the counts of the
sublists that leave out an element of `mid`, when the calls with less fuel count right. -/
theorem count_valid_loop (fuel : Nat) (z : Int)
    (ih : ∀ (pre mid : List Int), pre ≠ [] →
      (pre ++ mid ++ [z]).Sorted (fun x y => x ≤ y) → mid.length < fuel →
      count_valid_impl fuel (pre ++ mid ++ [z]) pre.length
        = .ret (valid_count pre mid z % 2 ^ 64)) :
    ∀ (mid pre : List Int) (acc : Nat), pre ≠ [] →
      (pre ++ mid ++ [z]).Sorted (fun x y => x ≤ y) → mid.length ≤ fuel → acc < 2 ^ 64 →
      (List.range' pre.length mid.length).foldl (fun (acc : Run Nat) i => acc.bind fun res =>
        (count_valid_impl fuel ((pre ++ mid ++ [z]).eraseIdx i) i).bind fun r =>
          .ret ((res + r) % 2 ^ 64)) (.ret acc)
        = .ret ((acc + later_count pre mid z) % 2 ^ 64) := by
  intro mid
  induction mid with
  | nil =>
    intro pre acc _ _ _ hacc
    rw [List.length_nil, List.range'_zero, List.foldl_nil, later_count, Nat.add_zero,
      Nat.mod_eq_of_lt hacc]
  | cons a mid ihm =>
    intro pre acc hpre hs hlen hacc
    have hs1 : (pre ++ a :: (mid ++ [z])).Sorted (fun x y => x ≤ y) := by
      simpa using hs
    have e1 : pre ++ a :: mid ++ [z] = pre ++ a :: (mid ++ [z]) := by simp
    have e2 : pre ++ a :: mid ++ [z] = (pre ++ [a]) ++ mid ++ [z] := by simp
    have hcall := ih pre mid hpre (by simpa using sorted_remove pre a (mid ++ [z]) hs1)
      (by simpa using hlen)
    have hnext := ihm (pre ++ [a]) ((acc + valid_count pre mid z % 2 ^ 64) % 2 ^ 64) (by simp)
      (by simpa using hs1) (by simp at hlen; omega) (Nat.mod_lt _ (by decide))
    rw [List.length_cons, List.range'_succ, List.foldl_cons, Run.day10_ret_bind]
    have herase : (pre ++ a :: mid ++ [z]).eraseIdx pre.length = pre ++ mid ++ [z] := by
      rw [e1, eraseIdx_mid, List.append_assoc]
    rw [herase, hcall, Run.day10_ret_bind, later_count]
    rw [List.length_append, List.length_singleton, ← e2] at hnext
    rw [hnext]
    congr 1
    omega

/-- The call `count_valid_impl(v, first)` on a sorted vector counts the sublists of `v` that
keep the first `first` elements and the last one and pass `is_valid`, modulo `2^64`. -/
theorem count_valid_impl_spec (z : Int) :
    ∀ (fuel : Nat) (pre mid : List Int), pre ≠ [] →
      (pre ++ mid ++ [z]).Sorted (fun x y => x ≤ y) → mid.length < fuel →
      count_valid_impl fuel (pre ++ mid ++ [z]) pre.length
        = .ret (valid_count pre mid z % 2 ^ 64) := by
  intro fuel
  induction fuel with
  | zero => intro pre mid _ _ h; omega
  | succ fuel ih =>
    intro pre mid hpre hs hlen
    rw [count_valid_impl]
    by_cases hv : is_valid (pre ++ mid ++ [z]) = true
    · have hsize : (pre ++ mid ++ [z]).length - 1 - pre.length = mid.length := by
        simp only [List.length_append, List.length_singleton]
        omega
      rw [hv, hsize]
      simp only [Bool.not_true, Bool.false_eq_true, if_false]
      rw [count_valid_loop fuel z ih mid pre 1 hpre hs (by omega) (by decide),
        valid_count_valid mid z pre hv]
    · rw [Bool.not_eq_true] at hv
      rw [hv, valid_count_invalid mid z pre hpre hs hv]
      rfl

/-- The running maximum is at least its start and every value. -/
theorem le_foldl_max (v : List Int) :
    ∀ init : Int, init ≤ v.foldl max init ∧ ∀ x ∈ v, x ≤ v.foldl max init := by
  induction v with
  | nil => intro init; simp
  | cons a v ih =>
    intro init
    rw [List.foldl_cons]
    obtain ⟨h1, h2⟩ := ih (max init a)
    refine ⟨le_trans (le_max_left _ _) h1, fun x hx => ?_⟩
    rcases List.mem_cons.mp hx with rfl | hx
    · exact le_trans (le_max_right _ _) h1
    · exact h2 x hx

/-- The running maximum is its start or one of the values. -/
theorem foldl_max_mem (v : List Int) :
    ∀ init : Int, v.foldl max init = init ∨ v.foldl max init ∈ v := by
  induction v with
  | nil => intro init; simp
  | cons a v ih =>
    intro init
    rw [List.foldl_cons]
    rcases ih (max init a) with h | h
    · rw [h]
      rcases max_choice init a with h' | h'
      · exact Or.inl h'
      · exact Or.inr (by rw [h']; exact List.mem_cons_self _ _)
    · exact Or.inr (List.mem_cons_of_mem _ h)

/-- The last element of a sorted vector is at least every element. -/
theorem le_getLastD (l : List Int) (d : Int) (hs : l.Sorted (fun x y => x ≤ y)) :
    ∀ y ∈ l, y ≤ l.getLastD d := by
  intro y hy
  have hne : l ≠ [] := List.ne_nil_of_mem hy
  rw [List.getLastD_eq_getLast?, List.getLast?_eq_getLast _ hne, Option.getD_some]
  have hsplit := List.dropLast_append_getLast hne
  rw [← hsplit] at hy hs
  rcases List.mem_append.mp hy with h | h
  · exact (List.pairwise_append.mp hs).2.2 y h _ (List.mem_singleton_self _)
  · rw [List.mem_singleton.mp h]

/-- The last element of a vector that is not empty is one of its elements. -/
theorem getLastD_mem (l : List Int) (d : Int) (hne : l ≠ []) : l.getLastD d ∈ l := by
  rw [List.getLastD_eq_getLast?, List.getLast?_eq_getLast _ hne, Option.getD_some]
  exact List.getLast_mem hne

/-- With positive values, the sorted copy starts with the outlet 0. -/
theorem sort_outlet (v : List Int) (hpos : ∀ x ∈ v, 0 < x) :
    (v ++ [0]).insertionSort (fun a b => a ≤ b) = 0 :: v.insertionSort (fun a b => a ≤ b) := by
  refine List.eq_of_perm_of_sorted ?_ (List.sorted_insertionSort _ _) ?_
  · refine (List.perm_insertionSort _ _).trans ?_
    refine (List.perm_append_comm).trans ?_
    exact List.Perm.cons 0 (List.perm_insertionSort _ _).symm
  · refine List.sorted_cons.mpr ⟨fun b hb => ?_, List.sorted_insertionSort _ _⟩
    exact (hpos b ((List.perm_insertionSort _ _).mem_iff.mp hb)).le

/-- The last element of the sorted copy plus 3 is the target. -/
theorem getLastD_sort (v : List Int) :
    ((v ++ [0]).insertionSort (fun a b => a ≤ b)).getLastD 0 + 3 = target v := by
  have hperm : ∀ y, y ∈ (v ++ [0]).insertionSort (fun a b => a ≤ b) ↔ y = 0 ∨ y ∈ v := by
    intro y
    rw [(List.perm_insertionSort _ _).mem_iff, List.mem_append, List.mem_singleton]
    tauto
  have hne : (v ++ [0]).insertionSort (fun a b => a ≤ b) ≠ [] :=
    List.ne_nil_of_mem ((hperm 0).mpr (Or.inl rfl))
  have hs := List.sorted_insertionSort (fun (a b : Int) => a ≤ b) (v ++ [0])
  obtain ⟨h1, h2⟩ := le_foldl_max v 0
  rw [target]
  congr 1
  refine le_antisymm ?_ ?_
  · rcases (hperm _).mp (getLastD_mem _ 0 hne) with h | h
    · rw [h]; exact h1
    · exact h2 _ h
  · refine le_getLastD _ 0 hs _ ((hperm _).mpr ?_)
    rcases foldl_max_mem v 0 with h | h
    · exact Or.inl h
    · exact Or.inr h

/-- The sorted values between the outlet and the target make a rising vector. -/
theorem sorted_chain (v : List Int) (hpos : ∀ x ∈ v, 0 < x) :
    ([0] ++ v.insertionSort (fun a b => a ≤ b) ++ [target v]).Sorted (fun x y => x ≤ y) := by
  have hs := List.sorted_insertionSort (fun (a b : Int) => a ≤ b) (v ++ [0])
  rw [sort_outlet v hpos] at hs
  obtain ⟨h1, h2⟩ := le_foldl_max v 0
  refine List.pairwise_append.mpr ⟨hs, List.pairwise_singleton _ _, fun a ha b hb => ?_⟩
  rw [List.mem_singleton.mp hb, target]
  rcases List.mem_cons.mp ha with rfl | ha
  · omega
  · have := h2 a ((List.perm_insertionSort _ _).mem_iff.mp ha)
    omega

/-- The specified number of arrangements, counted by `paths`. -/
theorem arrangements_eq (v : List Int) :
    arrangements v = paths 0 (v.insertionSort (fun a b => a ≤ b)) (target v) := by
  rw [arrangements, paths_eq]
  exact ((List.sublists_perm_sublists' _).filter _).length_eq

/-- The brute-force count: for positive values up to `2^31 - 4`, `count_valid` returns the
number of arrangements modulo `2^64`. -/
theorem count_valid_eq (v : List Int) (hpos : ∀ x ∈ v, 0 < x ∧ x ≤ 2147483644) :
    count_valid v = .ret (arrangements v % 2 ^ 64) := by
  have hpos' : ∀ x ∈ v, 0 < x := fun x hx => (hpos x hx).1
  have hT : target v ≤ 2147483647 := by
    rw [target]
    rcases foldl_max_mem v 0 with h | h
    · rw [h]; decide
    · have := (hpos _ h).2
      omega
  have hcall := count_valid_impl_spec (target v)
    ((v.insertionSort (fun a b => a ≤ b)).length + 3) [0]
    (v.insertionSort (fun a b => a ≤ b)) (by simp) (sorted_chain v hpos') (by omega)
  rw [count_valid, getLastD_sort, if_neg (by omega), sort_outlet v hpos', arrangements_eq,
    ← valid_count_eq_paths, ← hcall]
  rfl

/-- The pointers of a new node: the later values that are at most 3 above. -/
theorem node_list_next (a : Int) (rest : List Int) :
    ((node_list rest).filter fun e => decide (e.1 - a ≤ 3)).map Prod.fst
      = rest.filter fun y => decide (y - a ≤ 3) := by
  induction rest with
  | nil => rfl
  | cons b rest ih =>
    rw [node_list]
    by_cases h : b - a ≤ 3
    · rw [List.filter_cons_of_pos (by simpa using h), List.filter_cons_of_pos (by simpa using h),
        List.map_cons, ih]
    · rw [List.filter_cons_of_neg (by simpa using h), List.filter_cons_of_neg (by simpa using h),
        ih]

/-- A value that is not among the nodes is not found. -/
theorem find_node_list_none (l : List Int) (k : Int) (hk : k ∉ l) :
    find (node_list l) k = none := by
  induction l with
  | nil => rfl
  | cons a rest ih =>
    rw [List.mem_cons, not_or] at hk
    rw [node_list, find, if_neg (fun h => hk.1 h.symm)]
    exact ih hk.2

/-- The map that `get_nodes` builds from distinct values, last value first. -/
theorem foldl_add_node (l : List Int) (hl : l.Nodup) :
    l.reverse.foldl add_node [] = node_list l := by
  induction l with
  | nil => rfl
  | cons a rest ih =>
    rw [List.nodup_cons] at hl
    rw [List.reverse_cons, List.foldl_append, ih hl.2, List.foldl_cons, List.foldl_nil, add_node,
      emplace, find_node_list_none rest a hl.1, node_list_next, node_list]

/-- In a rising vector, the values above the first one are the rest. -/
theorem filter_lt_head (a : Int) (rest : List Int)
    (hs : (a :: rest).Sorted (fun x y => x < y)) :
    (a :: rest).filter (fun y => decide (a < y)) = rest := by
  rw [List.filter_cons_of_neg (by simp), List.filter_eq_self]
  intro y hy
  exact decide_eq_true ((List.sorted_cons.mp hs).1 y hy)

/-- In a rising vector, the values above a later one do not include the first. -/
theorem filter_lt_tail (a k : Int) (rest : List Int) (hak : a < k) :
    (a :: rest).filter (fun y => decide (k < y)) = rest.filter (fun y => decide (k < y)) := by
  rw [List.filter_cons_of_neg]
  rw [decide_eq_true_eq]
  omega

/-- The node of a value of a rising vector points to the values above it by at most 3. -/
theorem find_node_list (l : List Int) (hs : l.Sorted (fun x y => x < y)) :
    ∀ k ∈ l, find (node_list l) k = some (node_of l k) := by
  induction l with
  | nil => intro k hk; exact absurd hk (List.not_mem_nil k)
  | cons a rest ih =>
    intro k hk
    rw [node_list, find, node_of]
    by_cases hak : a = k
    · subst hak
      rw [if_pos rfl, filter_lt_head a rest hs]
    · have hk' : k ∈ rest := (List.mem_cons.mp hk).resolve_left (fun h => hak h.symm)
      have hlt : a < k := (List.sorted_cons.mp hs).1 k hk'
      rw [if_neg hak, filter_lt_tail a k rest hlt]
      exact ih (List.sorted_cons.mp hs).2 k hk'

/-- The chains from `x` to the target, split by their first step: `paths` is the sum of the
`ways` from the values that are at most 3 above `x`. -/
theorem paths_eq_sum (x z : Int) :
    ∀ mid : List Int, (x :: mid ++ [z]).Sorted (fun a b => a < b) →
      paths x mid z
        = (((mid ++ [z]).filter fun y => decide (y - x ≤ 3)).map (ways mid z)).sum := by
  intro mid
  induction mid with
  | nil =>
    intro _
    rw [paths, List.nil_append]
    by_cases h : z - x ≤ 3
    · rw [if_pos h, List.filter_cons_of_pos (by simpa using h)]
      simp [ways]
    · rw [if_neg h, List.filter_cons_of_neg (by simpa using h)]
      rfl
  | cons a mid ih =>
    intro hs
    have hs2 : (a :: (mid ++ [z])).Sorted (fun a b => a < b) := (List.sorted_cons.mp hs).2
    have hs3 : (x :: mid ++ [z]).Sorted (fun a b => a < b) :=
      List.Pairwise.sublist (List.Sublist.cons₂ x (List.sublist_cons_self a (mid ++ [z]))) hs
    have haz : a < z := (List.sorted_cons.mp hs2).1 z (by simp)
    have hcongr : ∀ y ∈ (mid ++ [z]).filter (fun y => decide (y - x ≤ 3)),
        ways (a :: mid) z y = ways mid z y := by
      intro y hy
      have hy' : y ∈ mid ++ [z] := (List.mem_filter.mp hy).1
      have hay : a < y := (List.sorted_cons.mp hs2).1 y hy'
      rw [ways, ways, filter_lt_tail a y mid hay]
    have hself : ways (a :: mid) z a = paths a mid z := by
      have hsm : (a :: mid).Sorted (fun a b => a < b) :=
        List.Pairwise.sublist (List.Sublist.cons₂ a (List.sublist_append_left mid [z])) hs2
      rw [ways, if_neg (by omega), filter_lt_head a mid hsm]
    rw [paths, ih hs3, List.cons_append]
    by_cases h : a - x ≤ 3
    · rw [if_pos h, List.filter_cons_of_pos (by simpa using h), List.map_cons, List.sum_cons,
        hself, List.map_congr_left hcongr]
      ring
    · rw [if_neg h, List.filter_cons_of_neg (by simpa using h), List.map_congr_left hcongr]
      ring

/-- What `find` gives after `emplace`. -/
theorem find_after_emplace (m : List (Int × Nat)) (key k : Int) (b : Nat) :
    find (emplace m key b) k
      = match find m k with
        | some r => some r
        | none => if key = k then some b else none := by
  rw [emplace]
  cases hkey : find m key with
  | some r0 =>
    simp only
    cases hk : find m k with
    | some r => rfl
    | none =>
      simp only
      rw [if_neg]
      intro h
      rw [h, hk] at hkey
      exact absurd hkey (by simp)
  | none =>
    simp only
    rw [find]
    by_cases h : key = k
    · subst h
      rw [if_pos rfl, hkey]
      simp
    · rw [if_neg h]
      cases hk : find m k with
      | some r => rfl
      | none => simp [h]

/-- A sound cache stays sound when the count of a value is put in. -/
theorem sound_emplace (c : List Int) (z : Int) (cache : List (Int × Nat)) (k : Int)
    (h : sound c z cache) : sound c z (emplace cache k (ways c z k % 2 ^ 64)) := by
  obtain ⟨h1, h2⟩ := h
  refine ⟨?_, fun k' r hr => ?_⟩
  · rw [find_after_emplace, h1]
  · rw [find_after_emplace] at hr
    cases hk : find cache k' with
    | some r' =>
      rw [hk] at hr
      simp only [Option.some.injEq] at hr
      rw [← hr]
      exact h2 k' r' hk
    | none =>
      rw [hk] at hr
      simp only at hr
      by_cases hkk : k = k'
      · rw [if_pos hkk, Option.some.injEq] at hr
        rw [← hr, hkk]
      · rw [if_neg hkk] at hr
        exact absurd hr (by simp)

/-- The loop of `count_paths_impl` over the pointers `next` adds the counts of the nodes they
point to, when the calls with less fuel count right. -/
theorem count_paths_loop (c : List Int) (z : Int) (fuel : Nat)
    (hs : (c ++ [z]).Sorted (fun a b => a < b))
    (ih : ∀ (k : Int) (cache : List (Int × Nat)), k ∈ c ++ [z] →
      ((c ++ [z]).filter fun y => decide (k < y)).length < fuel → sound c z cache →
      ∃ cache', count_paths_impl (node_list (c ++ [z])) fuel (node_of (c ++ [z]) k) cache
          = .ret (ways c z k % 2 ^ 64, cache') ∧ sound c z cache') :
    ∀ (next : List Int) (acc : Nat) (cache : List (Int × Nat)),
      (∀ y ∈ next, y ∈ c ++ [z] ∧
        ((c ++ [z]).filter fun y' => decide (y < y')).length < fuel) →
      acc < 2 ^ 64 → sound c z cache →
      ∃ cache', next.foldl (fun (acc : Run (Nat × List (Int × Nat))) p => acc.bind fun st =>
          match find (node_list (c ++ [z])) p with
          | none => .undefined
          | some node =>
            (count_paths_impl (node_list (c ++ [z])) fuel node st.2).bind fun r =>
              .ret ((st.1 + r.1) % 2 ^ 64, r.2)) (.ret (acc, cache))
          = .ret ((acc + (next.map (ways c z)).sum) % 2 ^ 64, cache') ∧ sound c z cache' := by
  intro next
  induction next with
  | nil =>
    intro acc cache _ hacc hsound
    refine ⟨cache, ?_, hsound⟩
    rw [List.foldl_nil, List.map_nil, List.sum_nil, Nat.add_zero, Nat.mod_eq_of_lt hacc]
  | cons y next ihn =>
    intro acc cache hnext hacc hsound
    obtain ⟨hy, hfuel⟩ := hnext y (List.mem_cons_self _ _)
    obtain ⟨cache1, hcall, hsound1⟩ := ih y cache hy hfuel hsound
    obtain ⟨cache2, hrest, hsound2⟩ := ihn ((acc + ways c z y % 2 ^ 64) % 2 ^ 64) cache1
      (fun y' hy' => hnext y' (List.mem_cons_of_mem _ hy')) (Nat.mod_lt _ (by decide)) hsound1
    refine ⟨cache2, ?_, hsound2⟩
    rw [List.foldl_cons, Run.day10_ret_bind, find_node_list _ hs y hy]
    simp only
    rw [hcall, Run.day10_ret_bind, hrest, List.map_cons, List.sum_cons]
    congr 2
    omega

/-- The values above a later value are fewer. -/
theorem filter_lt_length (l : List Int) (k y : Int) (hy : y ∈ l) (hky : k < y) :
    (l.filter fun y' => decide (y < y')).length < (l.filter fun y' => decide (k < y')).length := by
  have h : l.filter (fun y' => decide (y < y'))
      = (l.filter fun y' => decide (k < y')).filter fun y' => decide (y < y') := by
    rw [List.filter_filter]
    refine List.filter_congr (fun x _ => ?_)
    by_cases hx : y < x
    · have : k < x := by omega
      simp [hx, this]
    · simp [hx]
  rw [h]
  refine List.length_filter_lt_length_iff_exists.mpr ⟨y, ?_, by simp⟩
  exact List.mem_filter.mpr ⟨hy, decide_eq_true hky⟩

/-- The sum of the `ways` from the pointers of a node is the `ways` from the node. -/
theorem ways_eq_sum (c : List Int) (z k : Int) (hs : (c ++ [z]).Sorted (fun a b => a < b))
    (hk : k ∈ c) :
    (((node_of (c ++ [z]) k).next_).map (ways c z)).sum = ways c z k := by
  have hkz : k < z := (List.pairwise_append.mp hs).2.2 k hk z (List.mem_singleton_self z)
  have hfilter : (c ++ [z]).filter (fun y => decide (k < y))
      = c.filter (fun y => decide (k < y)) ++ [z] := by
    rw [List.filter_append, List.filter_cons_of_pos (by simpa using hkz), List.filter_nil]
  have hsorted : (k :: (c.filter fun y => decide (k < y)) ++ [z]).Sorted (fun a b => a < b) := by
    rw [List.cons_append, ← hfilter]
    refine List.sorted_cons.mpr ⟨fun b hb => ?_, List.Pairwise.sublist (List.filter_sublist _) hs⟩
    exact of_decide_eq_true (List.mem_filter.mp hb).2
  have hcongr : ∀ y ∈ ((c.filter fun y => decide (k < y)) ++ [z]).filter
      (fun y => decide (y - k ≤ 3)),
      ways (c.filter fun y => decide (k < y)) z y = ways c z y := by
    intro y hy
    have hy' := (List.mem_filter.mp hy).1
    have hky : k < y := by
      rcases List.mem_append.mp hy' with h | h
      · exact of_decide_eq_true (List.mem_filter.mp h).2
      · rw [List.mem_singleton.mp h]; exact hkz
    rw [ways, ways, List.filter_filter]
    congr 2
    refine List.filter_congr (fun x _ => ?_)
    by_cases hx : y < x
    · have : k < x := by omega
      simp [hx, this]
    · simp [hx]
  rw [node_of, hfilter]
  simp only
  rw [← List.map_congr_left hcongr, ← paths_eq_sum k z _ hsorted, ways, if_neg (by omega)]

/-- The call `count_paths_impl` on the node of a value, with a sound cache, returns the number
of chains from the value to the target modulo `2^64` and leaves a sound cache. -/
theorem count_paths_impl_spec (c : List Int) (z : Int)
    (hs : (c ++ [z]).Sorted (fun a b => a < b)) :
    ∀ (fuel : Nat) (k : Int) (cache : List (Int × Nat)), k ∈ c ++ [z] →
      ((c ++ [z]).filter fun y => decide (k < y)).length < fuel → sound c z cache →
      ∃ cache', count_paths_impl (node_list (c ++ [z])) fuel (node_of (c ++ [z]) k) cache
          = .ret (ways c z k % 2 ^ 64, cache') ∧ sound c z cache' := by
  intro fuel
  induction fuel with
  | zero => intro k cache _ h _; omega
  | succ fuel ih =>
    intro k cache hk hfuel hsound
    rw [count_paths_impl]
    have hval : (node_of (c ++ [z]) k).value_ = k := rfl
    rw [hval]
    cases hfind : find cache k with
    | some r =>
      simp only
      rw [hsound.2 k r hfind]
      exact ⟨cache, rfl, hsound⟩
    | none =>
      simp only
      have hkz : k ≠ z := by
        intro h
        rw [h, hsound.1] at hfind
        exact absurd hfind (by simp)
      have hkc : k ∈ c := by
        rcases List.mem_append.mp hk with h | h
        · exact h
        · exact absurd (List.mem_singleton.mp h) hkz
      obtain ⟨cache', hloop, hsound'⟩ := count_paths_loop c z fuel hs ih
        (node_of (c ++ [z]) k).next_ 0 cache (fun y hy => by
          have hy1 := (List.mem_filter.mp hy).1
          have hy2 := List.mem_filter.mp hy1
          have := filter_lt_length (c ++ [z]) k y hy2.1 (of_decide_eq_true hy2.2)
          exact ⟨hy2.1, by omega⟩) (by decide) hsound
      rw [hloop, Run.day10_ret_bind, Nat.zero_add, ways_eq_sum c z k hs hkc]
      exact ⟨_, rfl, sound_emplace c z cache' k hsound'⟩

/-- The memoised count: for distinct positive values up to `2^31 - 4`, `count_paths` returns
the number of arrangements modulo `2^64`. -/
theorem count_paths_eq (v : List Int) (hnd : v.Nodup)
    (hpos : ∀ x ∈ v, 0 < x ∧ x ≤ 2147483644) :
    count_paths v = .ret (arrangements v % 2 ^ 64) := by
  have hpos' : ∀ x ∈ v, 0 < x := fun x hx => (hpos x hx).1
  have hT : target v ≤ 2147483647 := by
    rw [target]
    rcases foldl_max_mem v 0 with h | h
    · rw [h]; decide
    · have := (hpos _ h).2
      omega
  have hT3 : 3 ≤ target v := by
    have := (le_foldl_max v 0).1
    rw [target]
    omega
  have hmem : ∀ y, y ∈ v.insertionSort (fun a b => a ≤ b) ↔ y ∈ v :=
    fun y => (List.perm_insertionSort _ _).mem_iff
  have hsle := sorted_chain v hpos'
  have hnodup : ([0] ++ v.insertionSort (fun a b => a ≤ b) ++ [target v]).Nodup := by
    rw [List.nodup_append, List.nodup_append]
    refine ⟨⟨List.nodup_singleton 0, (List.perm_insertionSort _ _).nodup_iff.mpr hnd, ?_⟩,
      List.nodup_singleton _, ?_⟩
    · intro a ha hb
      rw [List.mem_singleton.mp ha, hmem] at hb
      exact absurd (hpos' 0 hb) (lt_irrefl 0)
    · intro a ha hb
      rw [List.mem_singleton.mp hb] at ha
      have h2 := (le_foldl_max v 0).2
      rcases List.mem_append.mp ha with h | h
      · rw [List.mem_singleton] at h
        omega
      · have := h2 _ ((hmem _).mp h)
        rw [target] at this
        omega
  have hs : ((0 :: v.insertionSort (fun a b => a ≤ b)) ++ [target v]).Sorted
      (fun a b => a < b) := List.Sorted.lt_of_le hsle hnodup
  have hnodes : get_nodes v
      = .ret (node_list ((0 :: v.insertionSort (fun a b => a ≤ b)) ++ [target v]), target v) := by
    rw [get_nodes, getLastD_sort, if_neg (by omega), sort_outlet v hpos']
    simp only
    rw [foldl_add_node ((0 :: v.insertionSort (fun a b => a ≤ b)) ++ [target v]) hnodup]
  obtain ⟨cache', hcall, _⟩ := count_paths_impl_spec _ _ hs
    ((node_list ((0 :: v.insertionSort (fun a b => a ≤ b)) ++ [target v])).length + 1) 0
    (emplace [] (target v) 1) (by simp) (by
      have h1 : (node_list ((0 :: v.insertionSort (fun a b => a ≤ b)) ++ [target v])).length
          = ((0 :: v.insertionSort (fun a b => a ≤ b)) ++ [target v]).length := by
        generalize (0 :: v.insertionSort (fun a b => a ≤ b)) ++ [target v] = l
        induction l with
        | nil => rfl
        | cons a l ih => rw [node_list, List.length_cons, List.length_cons, ih]
      have h2 := List.length_filter_le (fun y => decide (0 < y))
        ((0 :: v.insertionSort (fun a b => a ≤ b)) ++ [target v])
      omega) (by
      refine ⟨by simp [emplace, find], fun k r hr => ?_⟩
      simp only [emplace, find] at hr
      by_cases hk : target v = k
      · rw [if_pos hk] at hr
        rw [← Option.some.inj hr, ways, if_pos hk.symm]
        rfl
      · rw [if_neg hk] at hr
        exact absurd hr (by simp))
  have hways : ways (0 :: v.insertionSort (fun a b => a ≤ b)) (target v) 0 = arrangements v := by
    have hsm : (0 :: v.insertionSort (fun a b => a ≤ b)).Sorted (fun a b => a < b) :=
      List.Pairwise.sublist (List.sublist_append_left _ _) hs
    rw [ways, if_neg (by omega), filter_lt_head 0 _ hsm, arrangements_eq]
  rw [count_paths, hnodes, Run.day10_ret_bind]
  simp only
  rw [find_node_list _ hs 0 (by simp)]
  simp only
  rw [hcall, Run.day10_ret_bind, hways]

set_option maxRecDepth 1000000 in
/-- C31, as the claim states it: the 192 values `5j+3`, `5j+4`, `5j+5` for `j` below 64 are
distinct and positive, and they make a chain of small steps themselves, so at least one subset
counts (there are `2^64`, the subsets that leave out any of the 64 values `5j+4`); the sums of
`count_paths` wrap and it returns 0. For the one value 2147483645 the sum `cpy.back()+3` leaves
the range of `int`. -/
theorem count_paths_wraps :
    (triples 64).Nodup ∧ (∀ x ∈ triples 64, 0 < x) ∧ count_paths (triples 64) = .ret 0 ∧
    0 < arrangements (triples 64) ∧
    count_paths [2147483645] = .undefined ∧ count_valid [2147483645] = .undefined := by
  refine ⟨by decide!, by decide!, by decide!, ?_, by decide, by decide⟩
  unfold arrangements
  exact List.length_pos_of_mem
    (List.mem_filter.mpr ⟨(List.mem_sublists).mpr (List.Sublist.refl _), by decide!⟩)

/-- C31. For every list `v` of pairwise distinct positive integers up to `2^31 - 4`, the
memoised `count_paths(v)` equals the brute-force `count_valid(v)` compiled under `SLOW`: both
return, modulo `2^64`, the number of subsets of `v` that, together with 0 and `max(v)+3`, form
an increasing chain whose consecutive differences are at most 3. -/
theorem count_paths_eq_count_valid (v : List Int) (hnd : v.Nodup)
    (hpos : ∀ x ∈ v, 0 < x ∧ x ≤ 2147483644) :
    count_paths v = count_valid v ∧ count_paths v = .ret (arrangements v % 2 ^ 64) ∧
    count_valid v = .ret (arrangements v % 2 ^ 64) :=
  ⟨(count_paths_eq v hnd hpos).trans (count_valid_eq v hpos).symm, count_paths_eq v hnd hpos,
    count_valid_eq v hpos⟩

set_option maxRecDepth 1000000 in
theorem count_paths_eq_count_valid_witness :
    (test.Nodup ∧ (∀ x ∈ test, 0 < x ∧ x ≤ 2147483644) ∧ count_paths test = .ret 8 ∧
      count_valid test = .ret 8 ∧ arrangements test = 8) ∧
    (count_paths test = count_valid test ∧ count_paths test = .ret (arrangements test % 2 ^ 64) ∧
      count_valid test = .ret (arrangements test % 2 ^ 64)) :=
  ⟨⟨by decide, by decide, by decide, by decide, by decide⟩,
    count_paths_eq_count_valid test (by decide) (by decide)⟩

end Day10
